import Mathlib

/-!
# Concurrent file system: the folder tree and its reader/writer lock

A shallow embedding of `src/Tree.c` and `src/rwlock.c`.

* C strings are `List Char` (the characters before the terminating NUL).
* A `Tree *` that may be `NULL` is an `Option Tree`.
* A folder node is a value `Tree.node addr hmap`: `addr` is the address of the
  `struct Tree` (pointer comparisons in the C code compare addresses) and `hmap`
  is the content of its child map, children owned by value.
* A run of an operation that stops in a failed `assert` is `none`; a run that
  returns is `some` of the returned value and of the tree it leaves behind.
* The lock calls made by the tree operations do not touch any child map; the
  state of an `rwlock_t` is modelled on its own, as a transition system.
* The lock calls of one operation are listed, in program order, by a second
  function per operation (`tree_list_events`, ...), and run on the locks of the
  nodes, one lock per node address.
* Several threads, each making calls of the operations one after the other,
  step through their lock calls on one tree (`world_step`); a
  `pthread_cond_signal` or `pthread_cond_broadcast` marks the threads it wakes.
-/

namespace CFS

/-! ## Folder nodes and the child map (`HashMap.h`) -/

/-- A folder: `struct Tree` of `src/Tree.c`, at address `addr`, with the entries
of its `hmap` in iteration order. -/
inductive Tree where
  | node (addr : Nat) (hmap : List (List Char × Tree)) : Tree

/-- Content of a child map: the (name, child) entries. -/
abbrev HashMap := List (List Char × Tree)

/-- Address of a node. -/
def Tree.addr : Tree → Nat
  | .node a _ => a

/-- Field `hmap` of a node. -/
def Tree.hmap : Tree → HashMap
  | .node _ m => m

/-- Modelled from the spec: `hmap_get` of the child map library (HashMap.c is
not part of the sources): `get(key) → node | null`. -/
def hmap_get : HashMap → List Char → Option Tree
  | [], _ => none
  | (k, v) :: rest, key => if k = key then some v else hmap_get rest key

/-- Modelled from the spec: `hmap_insert` of the child map library:
`insert(key, node) → success?`, which fails if the key exists. Returns the
success flag and the map afterwards. -/
def hmap_insert (m : HashMap) (key : List Char) (value : Tree) : Bool × HashMap :=
  match hmap_get m key with
  | some _ => (false, m)
  | none => (true, (key, value) :: m)

/-- The entries of a map without the first entry under `key`. -/
def hmap_erase : HashMap → List Char → HashMap
  | [], _ => []
  | (k, v) :: rest, key => if k = key then rest else (k, v) :: hmap_erase rest key

/-- Modelled from the spec: `hmap_remove` of the child map library:
`remove(key) → success?`, which fails if the key is absent. Returns the success
flag and the map afterwards. -/
def hmap_remove (m : HashMap) (key : List Char) : Bool × HashMap :=
  match hmap_get m key with
  | some _ => (true, hmap_erase m key)
  | none => (false, m)

/-- Modelled from the spec: `hmap_size` of the child map library:
`size() → integer`. -/
def hmap_size (m : HashMap) : Nat := m.length

/-- The names stored in a child map, in iteration order. -/
def hmap_keys (m : HashMap) : List (List Char) := m.map Prod.fst

/-- Modelled from the spec: `make_map_contents_string` (path_utils.c is not part
of the sources) renders a child map as a comma-separated string of names. -/
def make_map_contents_string (m : HashMap) : List Char :=
  [','].intercalate (hmap_keys m)

/-- The value stored under the first entry named `key` replaced by `value`:
the effect, on the parent's map, of changing the child node in place. -/
def hmap_replace : HashMap → List Char → Tree → HashMap
  | [], _, _ => []
  | (k, v) :: rest, key, value =>
    if k = key then (k, value) :: rest else (k, v) :: hmap_replace rest key value

/-- `tree_new`: a folder with an empty child map, at the address `addr` that
`malloc` returned. -/
def tree_new (addr : Nat) : Tree := .node addr []

/-! ## Paths (`path_utils.h`) -/

/-- Splits a text at its first slash: the characters before it, and the rest
from that slash on (`strchr`). -/
def split_at_slash : List Char → Option (List Char × List Char)
  | [] => none
  | ch :: rest =>
    if ch = '/' then some ([], ch :: rest)
    else match split_at_slash rest with
      | none => none
      | some (component, subpath) => some (ch :: component, subpath)

/-- Modelled from the spec: `split_path` (path_utils.c is not part of the
sources): given a non-empty path starting with `/`, yields the first component
and the remaining suffix (starting with `/`), or the null sentinel if the path
was the root path. -/
def split_path : List Char → Option (List Char × List Char)
  | [] => none
  | ch :: rest => if ch = '/' then split_at_slash rest else none

/-- Modelled from the spec: a valid component has lowercase letters only and a
length from 1 to `MAX_FOLDER_NAME_LENGTH`. -/
def is_valid_component (MAX_FOLDER_NAME_LENGTH : Nat) (c : List Char) : Bool :=
  decide (1 ≤ c.length) && decide (c.length ≤ MAX_FOLDER_NAME_LENGTH) &&
    c.all (fun ch => decide ('a' ≤ ch) && decide (ch ≤ 'z'))

/-- Canonical form `"/"` or `"/c1/c2/.../cn/"`, read component by component;
`fuel` bounds the number of components read. -/
def is_canonical_loop (MAX_FOLDER_NAME_LENGTH : Nat) : Nat → List Char → Bool
  | 0, _ => false
  | fuel + 1, s =>
    match split_path s with
    | none => decide (s = ['/'])
    | some (c, rest) =>
      is_valid_component MAX_FOLDER_NAME_LENGTH c &&
        is_canonical_loop MAX_FOLDER_NAME_LENGTH fuel rest

/-- Modelled from the spec: `is_path_valid(s)` (path_utils.c is not part of the
sources) is true iff `s` is canonical: `"/"` or `"/c1/c2/.../cn/"` with valid
components, of total length at most `MAX_PATH_LENGTH`. The two limits are
constants of path_utils.h and are parameters here. -/
def is_path_valid (MAX_FOLDER_NAME_LENGTH MAX_PATH_LENGTH : Nat) (s : List Char) : Bool :=
  decide (s.length ≤ MAX_PATH_LENGTH) &&
    is_canonical_loop MAX_FOLDER_NAME_LENGTH (s.length + 1) s

/-- Modelled from the spec: `make_path_to_parent` (path_utils.c is not part of
the sources) returns the parent path and the terminal component, or null when
the path is `"/"`. -/
def make_path_to_parent (path : List Char) : Option (List Char × List Char) :=
  if path.length ≤ 1 then none
  else
    let body := path.dropLast.reverse
    some ((body.dropWhile (fun ch => decide (ch ≠ '/'))).reverse,
          (body.takeWhile (fun ch => decide (ch ≠ '/'))).reverse)

/-- The canonical path text of a list of components. -/
def canonical_path : List (List Char) → List Char
  | [] => ['/']
  | c :: cs => '/' :: (c ++ canonical_path cs)

/-- The canonical path text without its final slash. -/
def path_body : List (List Char) → List Char
  | [] => []
  | c :: cs => '/' :: (c ++ path_body cs)

/-- The components of a path, read off with `split_path`; `fuel` bounds their
number. -/
def path_components_loop : Nat → List Char → List (List Char)
  | 0, _ => []
  | fuel + 1, s =>
    match split_path s with
    | none => []
    | some (c, rest) => c :: path_components_loop fuel rest

/-- The list of components of a path. -/
def path_components (s : List Char) : List (List Char) :=
  path_components_loop (s.length + 1) s

/-! ## Error codes -/

/-- `EINVAL` of `<errno.h>` (Linux value). -/
def EINVAL : Int := 22
/-- `ENOENT` of `<errno.h>` (Linux value). -/
def ENOENT : Int := 2
/-- `EEXIST` of `<errno.h>` (Linux value). -/
def EEXIST : Int := 17
/-- `ENOTEMPTY` of `<errno.h>` (Linux value). -/
def ENOTEMPTY : Int := 39
/-- `EBUSY` of `<errno.h>` (Linux value). -/
def EBUSY : Int := 16
/-- `EINVMV` of `src/Tree.h`. -/
def EINVMV : Int := -20

/-! ## Path descent (`src/Tree.c`) -/

/-- `enum TraverseMode`. -/
inductive TraverseMode where
  | WEAK
  | LOCK
  | UNLOCK
  deriving DecidableEq

/-- `path_rdunlock`: the node under `path`, or `NULL` (`some none`); the read
locks it releases do not change any child map. The outer `none` is a failed
`assert(path && *path)`, or `fuel` used up. Each call consumes at least one
character of the path, so `path.length + 1` is enough fuel. -/
def path_rdunlock : Nat → Option Tree → List Char → Option (Option Tree)
  | 0, _, _ => none
  | _ + 1, none, _ => some none
  | fuel + 1, some tree, path =>
    if path = [] then none
    else
      match split_path path with
      | some (component, subpath) =>
        let subtree := hmap_get tree.hmap component
        match path_rdunlock fuel subtree subpath with
        | none => none
        | some result => if subtree.isNone then some none else some result
      | none => some (some tree)

/-- The `while` loop of `get_subfolder` in mode `WEAK` or `LOCK` (the read
locks taken in mode `LOCK` do not change any child map). Each iteration
consumes at least one character of the path; `fuel` bounds the iterations. -/
def get_subfolder_loop : Nat → Tree → List Char → Option Tree
  | 0, _, _ => none
  | fuel + 1, subtree, subpath =>
    match split_path subpath with
    | none => some subtree
    | some (component, rest) =>
      match hmap_get subtree.hmap component with
      | none => none
      | some child => get_subfolder_loop fuel child rest

/-- `get_subfolder`: the folder under `path`, or `NULL` (`some none`). -/
def get_subfolder (tree : Tree) (path : List Char) (mode : TraverseMode) :
    Option (Option Tree) :=
  match mode with
  | .UNLOCK => path_rdunlock (path.length + 1) (some tree) path
  | _ => some (get_subfolder_loop (path.length + 1) tree path)

/-- The tree after the node that `get_subfolder` reaches under `path` had its
child map set to `h` through the pointer: the node keeps its address, and every
node above it now owns the changed child. -/
def store_hmap_loop : Nat → Tree → List Char → HashMap → Tree
  | 0, t, _, _ => t
  | fuel + 1, .node a m, subpath, h =>
    match split_path subpath with
    | none => .node a h
    | some (component, rest) =>
      match hmap_get m component with
      | none => .node a m
      | some child => .node a (hmap_replace m component (store_hmap_loop fuel child rest h))

/-- The tree after `node->hmap` became `h`, for the node `get_subfolder`
returns for `path`. -/
def store_hmap (tree : Tree) (path : List Char) (h : HashMap) : Tree :=
  store_hmap_loop (path.length + 1) tree path h

/-- Pointer comparison `p == q` of two `Tree *`. -/
def ptr_eq (p q : Option Tree) : Bool :=
  p.map Tree.addr == q.map Tree.addr

/-- The condition of `assert(get_subfolder(tree, path, UNLOCK) == expected)`. -/
def unlock_returns (tree : Tree) (path : List Char) (expected : Option Tree) : Bool :=
  match get_subfolder tree path .UNLOCK with
  | none => false
  | some r => ptr_eq r expected

/-! ## Least common ancestor (`src/Tree.c`) -/

/-- `starts_with`: `str` starts with `prefix` and is longer
(`strlen(str) > strlen(prefix) && strncmp(str, prefix, strlen(prefix)) == 0`). -/
def starts_with (str pre : List Char) : Bool :=
  decide (str.length > pre.length) && decide (str.take pre.length = pre)

/-- First loop of `get_lca`: the number of leading characters on which the two
texts agree. -/
def common_prefix_length : List Char → List Char → Nat
  | a :: as, b :: bs => if a = b then common_prefix_length as bs + 1 else 0
  | _, _ => 0

/-- Second loop of `get_lca`, over the characters before `prefix_end`: `c` is
the index of the character looked at and `last` the value of `last_slash`
(both as offsets from `source`). -/
def last_slash_loop : List Char → Nat → Nat → Nat
  | [], _, last => last
  | ch :: rest, c, last => last_slash_loop rest (c + 1) (if ch = '/' then c else last)

/-- The text `lca_path` that `get_lca` builds: `source` up to and including the
last slash of the longest common prefix. -/
def lca_path (source target : List Char) : List Char :=
  let prefix_end := common_prefix_length source target
  let last_slash := last_slash_loop (source.take prefix_end) 0 0
  source.take (last_slash + 1)

/-- `get_lca`. -/
def get_lca (tree : Tree) (source target : List Char) (mode : TraverseMode) :
    Option (Option Tree) :=
  get_subfolder tree (lca_path source target) mode

/-! ## The operations (`src/Tree.c`) -/

/-- `tree_list`: `some none` is the `NULL` result. -/
def tree_list (MAX_FOLDER_NAME_LENGTH MAX_PATH_LENGTH : Nat) (tree : Tree)
    (path : List Char) : Option (Option (List Char)) :=
  if !is_path_valid MAX_FOLDER_NAME_LENGTH MAX_PATH_LENGTH path then some none
  else
    match get_subfolder tree path .LOCK with
    | none => none
    | some none => if unlock_returns tree path none then some none else none
    | some (some subtree) =>
      let result := make_map_contents_string subtree.hmap
      if unlock_returns tree path (some subtree) then some (some result) else none

/-- `tree_create`; `new_addr` is the address `tree_new` gets from `malloc`.
Returns the code and the tree afterwards. -/
def tree_create (MAX_FOLDER_NAME_LENGTH MAX_PATH_LENGTH : Nat) (tree : Tree)
    (path : List Char) (new_addr : Nat) : Option (Int × Tree) :=
  if !is_path_valid MAX_FOLDER_NAME_LENGTH MAX_PATH_LENGTH path then some (EINVAL, tree)
  else if path = ['/'] then some (EEXIST, tree)
  else
    match make_path_to_parent path with
    | none => none
    | some (parent_path, component) =>
      match get_subfolder tree parent_path .LOCK with
      | none => none
      | some none =>
        if unlock_returns tree parent_path none then some (ENOENT, tree) else none
      | some (some subtree) =>
        let new_node := tree_new new_addr
        let inserted := hmap_insert subtree.hmap component new_node
        let tree1 := store_hmap tree parent_path inserted.2
        if unlock_returns tree1 parent_path (some subtree) then
          (if inserted.1 then some (0, tree1) else some (EEXIST, tree1))
        else none

/-- `tree_remove`. Returns the code and the tree afterwards. -/
def tree_remove (MAX_FOLDER_NAME_LENGTH MAX_PATH_LENGTH : Nat) (tree : Tree)
    (path : List Char) : Option (Int × Tree) :=
  if !is_path_valid MAX_FOLDER_NAME_LENGTH MAX_PATH_LENGTH path then some (EINVAL, tree)
  else if path = ['/'] then some (EBUSY, tree)
  else
    match make_path_to_parent path with
    | none => none
    | some (parent_path, component) =>
      match get_subfolder tree parent_path .LOCK with
      | none => none
      | some none =>
        if unlock_returns tree parent_path none then some (ENOENT, tree) else none
      | some (some parent) =>
        match hmap_get parent.hmap component with
        | none =>
          if unlock_returns tree parent_path (some parent) then some (ENOENT, tree) else none
        | some node =>
          if hmap_size node.hmap ≠ 0 then
            (if unlock_returns tree parent_path (some parent) then some (ENOTEMPTY, tree)
             else none)
          else
            let removed := hmap_remove parent.hmap component
            if !removed.1 then none
            else
              let tree1 := store_hmap tree parent_path removed.2
              if unlock_returns tree1 parent_path (some parent) then some (0, tree1)
              else none

/-- The part of `tree_move` that runs under the write lock of the LCA (from the
`WEAK` descents to the insertion). After the source entry is removed,
`target_parent->hmap` is read through the pointer again: it is the map of the
node that now lies under `target_parent_path` (with
`target_parent == source_parent` it is the map the removal left). -/
def tree_move_locked (tree : Tree) (source_parent_path source_component
    target_parent_path target_component : List Char) : Option (Int × Tree) :=
  match get_subfolder tree source_parent_path .WEAK with
  | none => none
  | some none => some (ENOENT, tree)
  | some (some source_parent) =>
    match get_subfolder tree target_parent_path .WEAK with
    | none => none
    | some none => some (ENOENT, tree)
    | some (some _) =>
      match hmap_get source_parent.hmap source_component with
      | none => some (ENOENT, tree)
      | some source_node =>
        let removed := hmap_remove source_parent.hmap source_component
        if !removed.1 then none
        else
          let tree1 := store_hmap tree source_parent_path removed.2
          match get_subfolder tree1 target_parent_path .WEAK with
          | some (some target_parent) =>
            let inserted := hmap_insert target_parent.hmap target_component source_node
            if inserted.1 then some (0, store_hmap tree1 target_parent_path inserted.2)
            else
              let reinserted := hmap_insert removed.2 source_component source_node
              if reinserted.1 then
                some (EEXIST, store_hmap tree1 source_parent_path reinserted.2)
              else none
          | _ => none

/-- `tree_move`. Returns the code and the tree afterwards. -/
def tree_move (MAX_FOLDER_NAME_LENGTH MAX_PATH_LENGTH : Nat) (tree : Tree)
    (source target : List Char) : Option (Int × Tree) :=
  if !is_path_valid MAX_FOLDER_NAME_LENGTH MAX_PATH_LENGTH source then some (EINVAL, tree)
  else if !is_path_valid MAX_FOLDER_NAME_LENGTH MAX_PATH_LENGTH target then some (EINVAL, tree)
  else if source = ['/'] then some (EBUSY, tree)
  else if target = ['/'] then some (EEXIST, tree)
  else
    match make_path_to_parent source, make_path_to_parent target with
    | some (source_parent_path, source_component),
      some (target_parent_path, target_component) =>
      if starts_with target source then some (EINVMV, tree)
      else if starts_with source target then
        match get_subfolder tree source .LOCK with
        | none => none
        | some node =>
          if unlock_returns tree source node then
            (if node.isSome then some (EEXIST, tree) else some (ENOENT, tree))
          else none
      else
        match get_lca tree source_parent_path target_parent_path .LOCK with
        | none => none
        | some none =>
          (match get_lca tree source_parent_path target_parent_path .UNLOCK with
           | some r => if ptr_eq r none then some (ENOENT, tree) else none
           | none => none)
        | some (some lca) =>
          match tree_move_locked tree source_parent_path source_component
              target_parent_path target_component with
          | none => none
          | some (result, tree1) =>
            match get_lca tree1 source_parent_path target_parent_path .UNLOCK with
            | some r => if ptr_eq r (some lca) then some (result, tree1) else none
            | none => none
    | _, _ => none

/-! ## Reading the results -/

/-- The names in a listing `"foo,bar,baz"`; the empty listing has none. -/
def listing_names (listing : List Char) : List (List Char) :=
  if listing = [] then [] else listing.splitOn ','

/-- The node under a list of components, from `t` down. -/
def find : Tree → List (List Char) → Option Tree
  | t, [] => some t
  | t, c :: cs =>
    match hmap_get t.hmap c with
    | none => none
    | some child => find child cs

/-- Address of the folder under a list of components, if there is one. -/
def addr_at (t : Tree) (q : List (List Char)) : Option Nat :=
  (find t q).map Tree.addr

/-- A folder exists under this list of components. -/
def folder_exists (t : Tree) (q : List (List Char)) : Bool :=
  (find t q).isSome

mutual
/-- Number of folders of a tree (the node itself and everything below). -/
def Tree.count : Tree → Nat
  | .node _ m => 1 + hmap_count m
/-- Number of folders held by a child map. -/
def hmap_count : HashMap → Nat
  | [] => 0
  | (_, v) :: rest => Tree.count v + hmap_count rest
end

/-- Two trees are identical as folder trees: under every list of components
either both have no folder, or both have the folder and it is the same node
(same address), and both hold the same number of nodes. The order of the
entries inside a child map is not compared. -/
def same_tree (t u : Tree) : Prop :=
  (∀ q : List (List Char), addr_at t q = addr_at u q) ∧ t.count = u.count

/-- `store_hmap` on a list of components. -/
def store_at : Tree → List (List Char) → HashMap → Tree
  | .node a _, [], h => .node a h
  | .node a m, c :: cs, h =>
    match hmap_get m c with
    | none => .node a m
    | some child => .node a (hmap_replace m c (store_at child cs h))

/-- `tree_move_locked` on lists of components. -/
def move_at (t : Tree) (pa : List (List Char)) (ca : List Char) (pb : List (List Char))
    (cb : List Char) : Option (Int × Tree) :=
  match find t pa with
  | none => some (ENOENT, t)
  | some source_parent =>
    match find t pb with
    | none => some (ENOENT, t)
    | some _ =>
      match hmap_get source_parent.hmap ca with
      | none => some (ENOENT, t)
      | some source_node =>
        let removed := hmap_remove source_parent.hmap ca
        if !removed.1 then none
        else
          let tree1 := store_at t pa removed.2
          match find tree1 pb with
          | some target_parent =>
            let inserted := hmap_insert target_parent.hmap cb source_node
            if inserted.1 then some (0, store_at tree1 pb inserted.2)
            else
              let reinserted := hmap_insert removed.2 ca source_node
              if reinserted.1 then some (EEXIST, store_at tree1 pa reinserted.2)
              else none
          | none => none

/-- A list of components is a proper prefix of another. -/
def strict_prefix_of (a b : List (List Char)) : Prop := a <+: b ∧ a ≠ b

/-- No slash in the text. -/
def slash_free (c : List Char) : Prop := '/' ∉ c

mutual
/-- Well-formed tree: in every child map the names are pairwise different
valid components, recursively. -/
def Tree.wf (MAX_FOLDER_NAME_LENGTH : Nat) : Tree → Bool
  | .node _ m => hmap_wf MAX_FOLDER_NAME_LENGTH m
/-- Well-formed child map. -/
def hmap_wf (MAX_FOLDER_NAME_LENGTH : Nat) : HashMap → Bool
  | [] => true
  | (k, v) :: rest =>
    is_valid_component MAX_FOLDER_NAME_LENGTH k && (hmap_get rest k).isNone &&
      Tree.wf MAX_FOLDER_NAME_LENGTH v && hmap_wf MAX_FOLDER_NAME_LENGTH rest
end

/-! ## The reader/writer lock (`src/rwlock.c`)

Every function of rwlock.c runs with the mutex held, except while it is blocked
in `pthread_cond_wait`. The code between taking the mutex (or returning from a
wait) and releasing it (or entering a wait) is one atomic step on the fields of
the lock. -/

/-- The counters of `struct rwlock_t` (the mutex and the two condition variables
carry no data). -/
structure rwlock_t where
  rcount : Int
  wcount : Int
  rwait : Int
  wwait : Int
  change : Int
  deriving DecidableEq

/-- `rwlock_new`: all counters 0, `change` 0. -/
def rwlock_new : rwlock_t :=
  { rcount := 0, wcount := 0, rwait := 0, wwait := 0, change := 0 }

/-- `rwlock_rdlock` from its start to its first `pthread_cond_wait` or to its
end; the flag tells that the caller now waits on `can_read`. -/
def rwlock_rdlock_enter (l : rwlock_t) : rwlock_t × Bool :=
  if l.wcount + l.wwait > 0 ∧ l.change = 0 then
    ({ l with rwait := l.rwait + 1 }, true)
  else
    ({ l with change := 0, rcount := l.rcount + 1 }, false)

/-- `rwlock_rdlock` from a return of `pthread_cond_wait` to the next wait or to
its end; the flag tells that the caller waits again. -/
def rwlock_rdlock_wake (l : rwlock_t) : rwlock_t × Bool :=
  let l1 := { l with rwait := l.rwait - 1 }
  if l1.wcount > 0 ∧ l1.change = 0 then
    ({ l1 with rwait := l1.rwait + 1 }, true)
  else
    ({ l1 with change := 0, rcount := l1.rcount + 1 }, false)

/-- `rwlock_rdunlock` (the signal it may send changes no field). -/
def rwlock_rdunlock (l : rwlock_t) : rwlock_t :=
  { l with rcount := l.rcount - 1 }

/-- `rwlock_wrlock` from its start to its first `pthread_cond_wait` or to its
end; the flag tells that the caller now waits on `can_write`. -/
def rwlock_wrlock_enter (l : rwlock_t) : rwlock_t × Bool :=
  if l.rcount + l.wcount > 0 ∨ l.change = 1 then
    ({ l with wwait := l.wwait + 1 }, true)
  else
    ({ l with wcount := l.wcount + 1 }, false)

/-- `rwlock_wrlock` from a return of `pthread_cond_wait` to the next wait or to
its end; the flag tells that the caller waits again. -/
def rwlock_wrlock_wake (l : rwlock_t) : rwlock_t × Bool :=
  let l1 := { l with wwait := l.wwait - 1 }
  if l1.rcount + l1.wcount > 0 ∨ l1.change = 1 then
    ({ l1 with wwait := l1.wwait + 1 }, true)
  else
    ({ l1 with wcount := l1.wcount + 1 }, false)

/-- `rwlock_wrunlock` (the broadcast or signal it sends changes no field). -/
def rwlock_wrunlock (l : rwlock_t) : rwlock_t :=
  let l1 := { l with wcount := l.wcount - 1 }
  if l1.rwait > 0 then { l1 with change := 1 } else l1

/-- A lock together with the calls in flight on it: how many calls of
`rwlock_rdlock` are blocked in their wait, how many have returned and are not
yet released by `rwlock_rdunlock`, and the same for writers. -/
structure LockState where
  lock : rwlock_t
  blocked_readers : Nat
  readers : Nat
  blocked_writers : Nat
  writers : Nat
  deriving DecidableEq

/-- A fresh lock, no call in flight. -/
def lock_init : LockState :=
  { lock := rwlock_new, blocked_readers := 0, readers := 0, blocked_writers := 0, writers := 0 }

/-- `INT_MAX` of the counters (32-bit `int`). -/
def INT_MAX : Nat := 2147483647

/-- Number of calls in flight. -/
def LockState.in_flight (s : LockState) : Nat :=
  s.blocked_readers + s.readers + s.blocked_writers + s.writers

/-- The atomic steps: a new call of `rwlock_rdlock` or `rwlock_wrlock`, a blocked
call returning from its wait (signalled or spuriously, in any order), a holder
releasing. -/
inductive LockStep where
  | rdlock_enter
  | rdlock_wake
  | rdunlock
  | wrlock_enter
  | wrlock_wake
  | wrunlock
  deriving DecidableEq

/-- One step; `none` when the step cannot be taken: a wake needs a blocked call
of that kind, an unlock needs a current holder of that kind, and a new call
needs fewer than `INT_MAX` calls in flight (no counter overflows). -/
def lock_step (s : LockState) : LockStep → Option LockState
  | .rdlock_enter =>
    if s.in_flight < INT_MAX then
      let r := rwlock_rdlock_enter s.lock
      if r.2 then some { s with lock := r.1, blocked_readers := s.blocked_readers + 1 }
      else some { s with lock := r.1, readers := s.readers + 1 }
    else none
  | .rdlock_wake =>
    if 0 < s.blocked_readers then
      let r := rwlock_rdlock_wake s.lock
      if r.2 then some { s with lock := r.1 }
      else some { s with lock := r.1, blocked_readers := s.blocked_readers - 1,
                         readers := s.readers + 1 }
    else none
  | .rdunlock =>
    if 0 < s.readers then
      some { s with lock := rwlock_rdunlock s.lock, readers := s.readers - 1 }
    else none
  | .wrlock_enter =>
    if s.in_flight < INT_MAX then
      let r := rwlock_wrlock_enter s.lock
      if r.2 then some { s with lock := r.1, blocked_writers := s.blocked_writers + 1 }
      else some { s with lock := r.1, writers := s.writers + 1 }
    else none
  | .wrlock_wake =>
    if 0 < s.blocked_writers then
      let r := rwlock_wrlock_wake s.lock
      if r.2 then some { s with lock := r.1 }
      else some { s with lock := r.1, blocked_writers := s.blocked_writers - 1,
                         writers := s.writers + 1 }
    else none
  | .wrunlock =>
    if 0 < s.writers then
      some { s with lock := rwlock_wrunlock s.lock, writers := s.writers - 1 }
    else none

/-- A sequence of steps. -/
def lock_run : LockState → List LockStep → Option LockState
  | s, [] => some s
  | s, step :: rest =>
    match lock_step s step with
    | none => none
    | some s' => lock_run s' rest

/-- What every reachable state satisfies: each counter counts the calls of its
kind, `change` is 0 or 1, at most one writer, no reader beside a writer, and no
writer while `change` is set. -/
def lock_inv (s : LockState) : Prop :=
  s.lock.rcount = s.readers ∧ s.lock.wcount = s.writers ∧
    s.lock.rwait = s.blocked_readers ∧ s.lock.wwait = s.blocked_writers ∧
    (s.lock.change = 0 ∨ s.lock.change = 1) ∧ s.writers ≤ 1 ∧
    (s.writers = 0 ∨ s.readers = 0) ∧ (s.lock.change = 0 ∨ s.writers = 0)

/-! ### One blocked call followed through a run of the lock -/

/-- Which kind of call is followed. -/
inductive Watched where
  | reader
  | writer
  deriving DecidableEq

/-- A lock with its calls in flight, one of which entered `rwlock_rdlock` (or
`rwlock_wrlock`) and had to wait: whether it is still blocked, and the releases
by writers and by readers counted since it blocked. -/
structure WatchState where
  state : LockState
  blocked : Bool
  writer_releases : Nat
  reader_releases : Nat
  deriving DecidableEq

/-- A step of the followed call (`wake`: it returns from its
`pthread_cond_wait`) or of any other call. -/
inductive WatchStep where
  | other (step : LockStep)
  | wake
  deriving DecidableEq

/-- The followed call enters on `s`; `none` unless it has to wait. -/
def watch_begin (kind : Watched) (s : LockState) : Option WatchState :=
  match kind with
  | .reader =>
    match lock_step s .rdlock_enter with
    | none => none
    | some s' =>
      if (rwlock_rdlock_enter s.lock).2 then
        some { state := s', blocked := true, writer_releases := 0, reader_releases := 0 }
      else none
  | .writer =>
    match lock_step s .wrlock_enter with
    | none => none
    | some s' =>
      if (rwlock_wrlock_enter s.lock).2 then
        some { state := s', blocked := true, writer_releases := 0, reader_releases := 0 }
      else none

/-- One step. The followed call wakes only while blocked, and runs the code
after its wait; a wake of another call of its kind needs such a call. The
releases are counted. -/
def watch_step (kind : Watched) (w : WatchState) : WatchStep → Option WatchState
  | .wake =>
    if w.blocked then
      match kind with
      | .reader =>
        match lock_step w.state .rdlock_wake with
        | none => none
        | some s' => some { w with state := s', blocked := (rwlock_rdlock_wake w.state.lock).2 }
      | .writer =>
        match lock_step w.state .wrlock_wake with
        | none => none
        | some s' => some { w with state := s', blocked := (rwlock_wrlock_wake w.state.lock).2 }
    else none
  | .other step =>
    if w.blocked = true ∧
        ((kind = .reader ∧ step = .rdlock_wake ∧ w.state.blocked_readers ≤ 1) ∨
          (kind = .writer ∧ step = .wrlock_wake ∧ w.state.blocked_writers ≤ 1)) then none
    else
      match lock_step w.state step with
      | none => none
      | some s' =>
        some { w with
          state := s'
          writer_releases := if step = .wrunlock then w.writer_releases + 1 else w.writer_releases
          reader_releases := if step = .rdunlock then w.reader_releases + 1 else w.reader_releases }

/-- A sequence of steps. -/
def watch_run (kind : Watched) : WatchState → List WatchStep → Option WatchState
  | w, [] => some w
  | w, step :: rest =>
    match watch_step kind w step with
    | none => none
    | some w' => watch_run kind w' rest

/-- The followed call returns from its wait after every release by a writer,
before the next one (`pending`: a writer has released since its last return). -/
def wakes_after_each_release : Bool → List WatchStep → Bool
  | pending, [] => !pending
  | _, .wake :: rest => wakes_after_each_release false rest
  | pending, .other .wrunlock :: rest => !pending && wakes_after_each_release true rest
  | pending, .other _ :: rest => wakes_after_each_release pending rest

/-- A writer releases, a new reader arrives and takes the handoff, leaves, a new
writer arrives and takes the free lock, then the followed reader returns from
its wait. -/
def reader_round : List WatchStep :=
  [.other .wrunlock, .other .rdlock_enter, .other .rdunlock, .other .wrlock_enter, .wake]

/-- A writer releases, a new writer arrives and takes the free lock, then the
followed writer returns from its wait. -/
def writer_round : List WatchStep :=
  [.other .wrunlock, .other .wrlock_enter, .wake]

/-- A new reader arrives and has to wait behind the blocked writer, returns from
its wait with no writer release to wake it, is admitted and leaves, then the
followed writer returns from its wait. -/
def spurious_round : List WatchStep :=
  [.other .rdlock_enter, .other .rdlock_wake, .other .rdunlock, .wake]

/-- The given round, `n` times. -/
def rounds (round : List WatchStep) : Nat → List WatchStep
  | 0 => []
  | n + 1 => round ++ rounds round n

/-- What holds while a followed reader is blocked and no new reader arrives: the
releases by writers so far, the readers still blocked and one more release
while `change` is 0 stay within the budget `B`. -/
def reader_inv (B : Int) (w : WatchState) : Prop :=
  lock_inv w.state ∧ 1 ≤ w.state.blocked_readers ∧
    ((w.state.lock.change = 0 ∧ (w.writer_releases : Int) + w.state.blocked_readers + 1 ≤ B) ∨
      (w.state.lock.change = 1 ∧ (w.writer_releases : Int) + w.state.blocked_readers ≤ B))

/-- What holds while a followed writer is blocked, is the only writer and no
blocked reader leaves its wait: no writer has released, and the releases by
readers so far, the readers holding the lock and one more reader while `change`
is 1 stay within the budget `B`. -/
def writer_inv (B : Int) (w : WatchState) : Prop :=
  lock_inv w.state ∧ w.state.blocked_writers = 1 ∧ w.state.writers = 0 ∧
    w.writer_releases = 0 ∧
    ((w.state.lock.change = 0 ∧ (w.reader_releases : Int) + w.state.readers ≤ B) ∨
      (w.state.lock.change = 1 ∧ (w.reader_releases : Int) + w.state.readers + 1 ≤ B))

/-! ## The calls on the node locks made by one operation

Each operation is followed once more, this time for the calls of
`rwlock_rdlock`, `rwlock_rdunlock`, `rwlock_wrlock` and `rwlock_wrunlock` it
makes, in program order. A node's lock is named by the address of the node. -/

/-- A call on the lock of the node at address `node`. -/
inductive LockEvent where
  | rdlock (node : Nat)
  | rdunlock (node : Nat)
  | wrlock (node : Nat)
  | wrunlock (node : Nat)
  deriving DecidableEq

/-- The calls of `path_rdunlock`: after the recursive call on the child,
`rwlock_rdunlock(tree->rwlock)`. -/
def path_rdunlock_events : Nat → Option Tree → List Char → List LockEvent
  | 0, _, _ => []
  | _ + 1, none, _ => []
  | fuel + 1, some tree, path =>
    if path = [] then []
    else
      match split_path path with
      | some (component, subpath) =>
        path_rdunlock_events fuel (hmap_get tree.hmap component) subpath ++
          [.rdunlock tree.addr]
      | none => []

/-- The calls of the `while` loop of `get_subfolder` in mode `LOCK`: in every
iteration `rwlock_rdlock(subtree->rwlock)`, before the child is looked up. -/
def get_subfolder_loop_events : Nat → Tree → List Char → List LockEvent
  | 0, _, _ => []
  | fuel + 1, subtree, subpath =>
    match split_path subpath with
    | none => []
    | some (component, rest) =>
      .rdlock subtree.addr ::
        match hmap_get subtree.hmap component with
        | none => []
        | some child => get_subfolder_loop_events fuel child rest

/-- The calls of `get_subfolder`; none in mode `WEAK`. -/
def get_subfolder_events (tree : Tree) (path : List Char) (mode : TraverseMode) :
    List LockEvent :=
  match mode with
  | .UNLOCK => path_rdunlock_events (path.length + 1) (some tree) path
  | .LOCK => get_subfolder_loop_events (path.length + 1) tree path
  | .WEAK => []

/-- The calls of `get_lca`. -/
def get_lca_events (tree : Tree) (source target : List Char) (mode : TraverseMode) :
    List LockEvent :=
  get_subfolder_events tree (lca_path source target) mode

/-- The calls of `tree_list`. -/
def tree_list_events (MAX_FOLDER_NAME_LENGTH MAX_PATH_LENGTH : Nat) (tree : Tree)
    (path : List Char) : List LockEvent :=
  if !is_path_valid MAX_FOLDER_NAME_LENGTH MAX_PATH_LENGTH path then []
  else
    get_subfolder_events tree path .LOCK ++
      match get_subfolder tree path .LOCK with
      | none => []
      | some none => get_subfolder_events tree path .UNLOCK
      | some (some subtree) =>
        .rdlock subtree.addr :: .rdunlock subtree.addr ::
          get_subfolder_events tree path .UNLOCK

/-- The calls of `tree_create`; the `UNLOCK` descent runs on the tree after the
insertion. -/
def tree_create_events (MAX_FOLDER_NAME_LENGTH MAX_PATH_LENGTH : Nat) (tree : Tree)
    (path : List Char) (new_addr : Nat) : List LockEvent :=
  if !is_path_valid MAX_FOLDER_NAME_LENGTH MAX_PATH_LENGTH path then []
  else if path = ['/'] then []
  else
    match make_path_to_parent path with
    | none => []
    | some (parent_path, component) =>
      get_subfolder_events tree parent_path .LOCK ++
        match get_subfolder tree parent_path .LOCK with
        | none => []
        | some none => get_subfolder_events tree parent_path .UNLOCK
        | some (some subtree) =>
          let inserted := hmap_insert subtree.hmap component (tree_new new_addr)
          let tree1 := store_hmap tree parent_path inserted.2
          .wrlock subtree.addr :: .wrunlock subtree.addr ::
            get_subfolder_events tree1 parent_path .UNLOCK

/-- The calls of `tree_remove`; the `UNLOCK` descent runs on the tree after the
removal. A failed `assert(hmap_remove(...))` ends the calls. -/
def tree_remove_events (MAX_FOLDER_NAME_LENGTH MAX_PATH_LENGTH : Nat) (tree : Tree)
    (path : List Char) : List LockEvent :=
  if !is_path_valid MAX_FOLDER_NAME_LENGTH MAX_PATH_LENGTH path then []
  else if path = ['/'] then []
  else
    match make_path_to_parent path with
    | none => []
    | some (parent_path, component) =>
      get_subfolder_events tree parent_path .LOCK ++
        match get_subfolder tree parent_path .LOCK with
        | none => []
        | some none => get_subfolder_events tree parent_path .UNLOCK
        | some (some parent) =>
          .wrlock parent.addr ::
            match hmap_get parent.hmap component with
            | none =>
              .wrunlock parent.addr :: get_subfolder_events tree parent_path .UNLOCK
            | some node =>
              if hmap_size node.hmap ≠ 0 then
                .wrunlock parent.addr :: get_subfolder_events tree parent_path .UNLOCK
              else
                let removed := hmap_remove parent.hmap component
                if !removed.1 then []
                else
                  let tree1 := store_hmap tree parent_path removed.2
                  .wrunlock parent.addr :: get_subfolder_events tree1 parent_path .UNLOCK

/-- The calls of `tree_move`; the part under the write lock of the LCA makes
none (its descents are `WEAK`), and the `UNLOCK` descent runs on the tree that
part leaves. A failed `assert` in that part ends the calls. -/
def tree_move_events (MAX_FOLDER_NAME_LENGTH MAX_PATH_LENGTH : Nat) (tree : Tree)
    (source target : List Char) : List LockEvent :=
  if !is_path_valid MAX_FOLDER_NAME_LENGTH MAX_PATH_LENGTH source then []
  else if !is_path_valid MAX_FOLDER_NAME_LENGTH MAX_PATH_LENGTH target then []
  else if source = ['/'] then []
  else if target = ['/'] then []
  else
    match make_path_to_parent source, make_path_to_parent target with
    | some (source_parent_path, source_component),
      some (target_parent_path, target_component) =>
      if starts_with target source then []
      else if starts_with source target then
        get_subfolder_events tree source .LOCK ++ get_subfolder_events tree source .UNLOCK
      else
        get_lca_events tree source_parent_path target_parent_path .LOCK ++
          match get_lca tree source_parent_path target_parent_path .LOCK with
          | none => []
          | some none => get_lca_events tree source_parent_path target_parent_path .UNLOCK
          | some (some lca) =>
            .wrlock lca.addr ::
              match tree_move_locked tree source_parent_path source_component
                  target_parent_path target_component with
              | none => []
              | some (_, tree1) =>
                .wrunlock lca.addr ::
                  get_lca_events tree1 source_parent_path target_parent_path .UNLOCK
    | _, _ => []

/-- The nodes that a `LOCK` descent along the components `cs` read-locks, in
order: the node reached before each component is looked up. -/
def lock_chain : Tree → List (List Char) → List Nat
  | _, [] => []
  | t, c :: cs =>
    t.addr ::
      match hmap_get t.hmap c with
      | none => []
      | some child => lock_chain child cs

/-- The nodes from the root down to the folder under the components `cs` (as far
as the folders exist). -/
def nodes_along : Tree → List (List Char) → List Nat
  | t, [] => [t.addr]
  | t, c :: cs =>
    t.addr ::
      match hmap_get t.hmap c with
      | none => []
      | some child => nodes_along child cs

mutual
/-- The addresses of all nodes of a tree. -/
def Tree.addrs : Tree → List Nat
  | .node a m => a :: hmap_addrs m
/-- The addresses of all nodes below the entries of a child map. -/
def hmap_addrs : HashMap → List Nat
  | [] => []
  | (_, v) :: rest => Tree.addrs v ++ hmap_addrs rest
end

/-- The state of the lock of every node, by address. -/
abbrev Locks := Nat → rwlock_t

/-- No lock is held or waited for. -/
def quiet_locks : Locks := fun _ => rwlock_new

/-- The locks after the lock at address `a` became `l`. -/
def set_lock (ls : Locks) (a : Nat) (l : rwlock_t) : Locks :=
  fun b => if b = a then l else ls b

/-- One call by the only thread there is; `none` when the call would wait (with
no other thread to wake it, for ever). -/
def lock_event_step (ls : Locks) : LockEvent → Option Locks
  | .rdlock a =>
    let r := rwlock_rdlock_enter (ls a)
    if r.2 then none else some (set_lock ls a r.1)
  | .rdunlock a => some (set_lock ls a (rwlock_rdunlock (ls a)))
  | .wrlock a =>
    let r := rwlock_wrlock_enter (ls a)
    if r.2 then none else some (set_lock ls a r.1)
  | .wrunlock a => some (set_lock ls a (rwlock_wrunlock (ls a)))

/-- A sequence of calls. -/
def run_events : Locks → List LockEvent → Option Locks
  | ls, [] => some ls
  | ls, e :: rest =>
    match lock_event_step ls e with
    | none => none
    | some ls' => run_events ls' rest

/-- The calls of a descent that read-locks the nodes `chain`, makes the calls
`mid` and releases the read locks in reverse order. -/
def bracket (chain : List Nat) (mid : List LockEvent) : List LockEvent :=
  chain.map LockEvent.rdlock ++ mid ++ chain.reverse.map LockEvent.rdunlock

/-- The form of the calls of one operation on the tree `t`: the read locks of a
`LOCK` descent along some components `l`, then nothing, or the lock of the
folder under `l` taken and released in read or in write mode, then the read
locks released in reverse order. -/
def locks_bracketed (t : Tree) (events : List LockEvent) : Prop :=
  ∃ l mid, events = bracket (lock_chain t l) mid ∧
    (mid = [] ∨ ∃ n, find t l = some n ∧
      (mid = [.rdlock n.addr, .rdunlock n.addr] ∨ mid = [.wrlock n.addr, .wrunlock n.addr]))
/-- The locks while the only thread holds read locks on the nodes of `chain`
(a node as often as it is listed) and nothing else. -/
def held_reads (chain : List Nat) : Locks :=
  fun a => { rwlock_new with rcount := chain.count a }

/-- How a lock is held. -/
inductive LockMode where
  | read
  | write
  deriving DecidableEq

/-- The locks held after one more call, first taken first: a lock call adds
its node at the end; an unlock call has to release the lock taken last, in the
mode it was taken (`none` otherwise). -/
def held_step (held : List (Nat × LockMode)) : LockEvent → Option (List (Nat × LockMode))
  | .rdlock a => some (held ++ [(a, .read)])
  | .wrlock a => some (held ++ [(a, .write)])
  | .rdunlock a => if held.getLast? = some (a, .read) then some held.dropLast else none
  | .wrunlock a => if held.getLast? = some (a, .write) then some held.dropLast else none

/-- The locks held after a sequence of calls. -/
def held_after : List (Nat × LockMode) → List LockEvent → Option (List (Nat × LockMode))
  | held, [] => some held
  | held, e :: rest =>
    match held_step held e with
    | none => none
    | some held' => held_after held' rest

/-- The lock discipline after the calls `pre`: every unlock so far released the
lock taken last, and the locks held are none, or those of the nodes from the
root down to an existing folder of `t`, in that order, all but the last in read
mode. -/
def disciplined (t : Tree) (pre : List LockEvent) : Prop :=
  ∃ held, held_after [] pre = some held ∧
    (held = [] ∨ ∃ q, folder_exists t q = true ∧ held.map Prod.fst = nodes_along t q) ∧
    ∀ e ∈ held.dropLast, e.2 = LockMode.read

/-! ## Sequences of operations on one tree -/

/-- A call of one of the four operations; `new_addr` is the address `tree_new`
gets from `malloc` inside `tree_create`. -/
inductive TreeOp where
  | list (path : List Char)
  | create (path : List Char) (new_addr : Nat)
  | remove (path : List Char)
  | move (source target : List Char)

/-- The tree after a sequence of calls, one after the other, whatever they
return; `none` when an `assert` fails in one of them. -/
def run_ops (MAX_FOLDER_NAME_LENGTH MAX_PATH_LENGTH : Nat) : Tree → List TreeOp → Option Tree
  | t, [] => some t
  | t, .list path :: rest =>
    match tree_list MAX_FOLDER_NAME_LENGTH MAX_PATH_LENGTH t path with
    | none => none
    | some _ => run_ops MAX_FOLDER_NAME_LENGTH MAX_PATH_LENGTH t rest
  | t, .create path new_addr :: rest =>
    match tree_create MAX_FOLDER_NAME_LENGTH MAX_PATH_LENGTH t path new_addr with
    | none => none
    | some (_, t') => run_ops MAX_FOLDER_NAME_LENGTH MAX_PATH_LENGTH t' rest
  | t, .remove path :: rest =>
    match tree_remove MAX_FOLDER_NAME_LENGTH MAX_PATH_LENGTH t path with
    | none => none
    | some (_, t') => run_ops MAX_FOLDER_NAME_LENGTH MAX_PATH_LENGTH t' rest
  | t, .move source target :: rest =>
    match tree_move MAX_FOLDER_NAME_LENGTH MAX_PATH_LENGTH t source target with
    | none => none
    | some (_, t') => run_ops MAX_FOLDER_NAME_LENGTH MAX_PATH_LENGTH t' rest

/-! ## Several threads on one tree

`threads` lists the calls of the four operations that the threads make, one
entry per call. A thread that makes several calls, one after the other, is a run
of consecutive entries (`chained`): an entry begins only after the entry before
it in its run has returned. Below, an entry is called a thread.

The steps of a thread are its lock calls: a call that returns at once, a call
that enters its wait, a return from that wait that ends the call or enters the
wait again, and an unlock. What a thread does between two lock calls (looking up
a child in a node it holds locked, changing the tree under its write lock,
descending again for the `UNLOCK` pass) is part of the step of the later call:
the next lock call of a thread is the one at its position in the calls of its
operation on the tree as it is now, the change of the tree is made at its
`rwlock_wrunlock`, and the calls of the `UNLOCK` pass are fixed at its first
unlock.

A thread in `pthread_cond_wait` may return from it at any time; that it will
return because of a `pthread_cond_signal` or `pthread_cond_broadcast` is
recorded per thread (`woken`). -/

/-- The calls that may have to wait. -/
def LockEvent.is_lock : LockEvent → Bool
  | .rdlock _ => true
  | .wrlock _ => true
  | _ => false

/-- The lock calls of an operation run on the tree `t`. -/
def op_events (MAX_FOLDER_NAME_LENGTH MAX_PATH_LENGTH : Nat) (t : Tree) :
    TreeOp → List LockEvent
  | .list path => tree_list_events MAX_FOLDER_NAME_LENGTH MAX_PATH_LENGTH t path
  | .create path new_addr =>
    tree_create_events MAX_FOLDER_NAME_LENGTH MAX_PATH_LENGTH t path new_addr
  | .remove path => tree_remove_events MAX_FOLDER_NAME_LENGTH MAX_PATH_LENGTH t path
  | .move source target =>
    tree_move_events MAX_FOLDER_NAME_LENGTH MAX_PATH_LENGTH t source target

/-- The tree an operation run on `t` leaves (`t` itself for `tree_list`, and
when an `assert` fails). -/
def op_commit (MAX_FOLDER_NAME_LENGTH MAX_PATH_LENGTH : Nat) (t : Tree) : TreeOp → Tree
  | .list _ => t
  | .create path new_addr =>
    match tree_create MAX_FOLDER_NAME_LENGTH MAX_PATH_LENGTH t path new_addr with
    | some (_, t') => t'
    | none => t
  | .remove path =>
    match tree_remove MAX_FOLDER_NAME_LENGTH MAX_PATH_LENGTH t path with
    | some (_, t') => t'
    | none => t
  | .move source target =>
    match tree_move MAX_FOLDER_NAME_LENGTH MAX_PATH_LENGTH t source target with
    | some (_, t') => t'
    | none => t

/-- A thread in one call of an operation: in the operation, with the lock calls
it has completed (`held`) and the lock call it waits in, if it does; or past its
first unlock, with the unlock calls still to make. `releasing []` is a thread
that has returned from the operation. -/
inductive ThreadState where
  | running (op : TreeOp) (held : List LockEvent) (waiting : Option LockEvent)
  | releasing (pending : List LockEvent)

/-- The thread has returned from its operation. -/
def ThreadState.returned : ThreadState → Bool
  | .releasing [] => true
  | _ => false

/-- The lock call a thread waits in. -/
def ThreadState.waits_in : ThreadState → Option LockEvent
  | .running _ _ waiting => waiting
  | .releasing _ => none

/-- The tree, the lock of every node, the threads, for every thread whether a
signal or broadcast has ended its wait (it will return from `pthread_cond_wait`
as soon as it gets the mutex), and for every entry of `threads` whether it is
the next call of the thread of the entry before it. -/
structure World where
  tree : Tree
  locks : Locks
  threads : List ThreadState
  woken : Nat → Bool
  chained : Nat → Bool

/-- The entry `i` may begin: it is the first call of its thread, or the entry
before it has returned. -/
def may_start (w : World) : Nat → Bool
  | 0 => true
  | j + 1 =>
    !w.chained (j + 1) ||
      match w.threads[j]? with
      | some th => th.returned
      | none => true

/-- The lock call thread `j` waits in. -/
def waiting_call (threads : List ThreadState) (j : Nat) : Option LockEvent :=
  match threads[j]? with
  | some th => th.waits_in
  | none => none

/-- Thread `j` is blocked on the condition variable that the callers of `e`
wait on. -/
def blocked_in (w : World) (e : LockEvent) (j : Nat) : Bool :=
  decide (waiting_call w.threads j = some e) && !w.woken j

/-- `pthread_cond_broadcast`: every thread blocked on the condition variable
will return from its wait. -/
def cond_broadcast (w : World) (e : LockEvent) : Nat → Bool :=
  fun j => decide (waiting_call w.threads j = some e) || w.woken j

/-- `pthread_cond_signal`: one of the threads blocked on the condition variable,
the thread `pick`, will return from its wait; nothing happens when no thread is
blocked on it. `none` when `pick` is not blocked on it though another thread
is. -/
def cond_signal (w : World) (e : LockEvent) (pick : Nat) : Option (Nat → Bool) :=
  if blocked_in w e pick then some (fun j => decide (j = pick) || w.woken j)
  else if (List.range w.threads.length).any (blocked_in w e) then none
  else some w.woken

/-- The wake-ups of `rwlock_rdunlock` on the lock at `a`: after the decrement,
`pthread_cond_signal(can_write)` if `rcount == 0 && wwait > 0`. -/
def rdunlock_wakeups (w : World) (a pick : Nat) : Option (Nat → Bool) :=
  let l := rwlock_rdunlock (w.locks a)
  if l.rcount = 0 ∧ l.wwait > 0 then cond_signal w (.wrlock a) pick else some w.woken

/-- The wake-ups of `rwlock_wrunlock` on the lock at `a`: after the decrement,
`pthread_cond_broadcast(can_read)` if `rwait > 0`, else
`pthread_cond_signal(can_write)` if `wwait > 0`. -/
def wrunlock_wakeups (w : World) (a pick : Nat) : Option (Nat → Bool) :=
  let l := { w.locks a with wcount := (w.locks a).wcount - 1 }
  if l.rwait > 0 then some (cond_broadcast w (.rdlock a))
  else if l.wwait > 0 then cond_signal w (.wrlock a) pick
  else some w.woken

/-- Thread `i` is in its lock call, awake: no wake-up is pending for it. -/
def awake (w : World) (i : Nat) : Nat → Bool :=
  fun j => !decide (j = i) && w.woken j

/-- A call of `rwlock_rdlock` or `rwlock_wrlock`, from its start or (`waited`)
from a return of its wait: the locks afterwards, and whether the caller now
waits. -/
def lock_call (ls : Locks) (e : LockEvent) (waited : Bool) : Option (Locks × Bool) :=
  match e with
  | .rdlock a =>
    let r := if waited then rwlock_rdlock_wake (ls a) else rwlock_rdlock_enter (ls a)
    some (set_lock ls a r.1, r.2)
  | .wrlock a =>
    let r := if waited then rwlock_wrlock_wake (ls a) else rwlock_wrlock_enter (ls a)
    some (set_lock ls a r.1, r.2)
  | _ => none

/-- The thread after a lock call `e`. -/
def after_lock_call (op : TreeOp) (held : List LockEvent) (e : LockEvent) (waits : Bool) :
    ThreadState :=
  if waits then .running op held (some e) else .running op (held ++ [e]) none

/-- The next step of thread `i` when it is in its operation and not in a wait:
its return with no lock call left, its first unlock, or its next lock call. -/
def running_step (MAX_FOLDER_NAME_LENGTH MAX_PATH_LENGTH : Nat) (w : World) (i pick : Nat)
    (op : TreeOp) (held : List LockEvent) : Option World :=
  match (op_events MAX_FOLDER_NAME_LENGTH MAX_PATH_LENGTH w.tree op).drop held.length with
  | [] => some { w with threads := w.threads.set i (.releasing []) }
  | .rdunlock a :: rest =>
    match rdunlock_wakeups w a pick with
    | none => none
    | some woken =>
      some { w with
        locks := set_lock w.locks a (rwlock_rdunlock (w.locks a))
        threads := w.threads.set i (.releasing rest)
        woken := woken }
  | .wrunlock a :: rest =>
    match wrunlock_wakeups w a pick with
    | none => none
    | some woken =>
      some { w with
        tree := op_commit MAX_FOLDER_NAME_LENGTH MAX_PATH_LENGTH w.tree op
        locks := set_lock w.locks a (rwlock_wrunlock (w.locks a))
        threads := w.threads.set i (.releasing rest)
        woken := woken }
  | e :: _ =>
    match lock_call w.locks e false with
    | none => none
    | some (ls, waits) =>
      some { w with
        locks := ls
        threads := w.threads.set i (after_lock_call op held e waits)
        woken := awake w i }

/-- One step of thread `i`, with the thread `pick` that a `pthread_cond_signal`
of this step wakes; `none` when there is no thread `i`, when it has returned,
when it may not begin yet, and when `pick` cannot be the thread that is
woken. -/
def world_step (MAX_FOLDER_NAME_LENGTH MAX_PATH_LENGTH : Nat) (w : World) (i pick : Nat) :
    Option World :=
  match w.threads[i]? with
  | none => none
  | some (.releasing []) => none
  | some (.releasing (.rdunlock a :: rest)) =>
    match rdunlock_wakeups w a pick with
    | none => none
    | some woken =>
      some { w with
        locks := set_lock w.locks a (rwlock_rdunlock (w.locks a))
        threads := w.threads.set i (.releasing rest)
        woken := woken }
  | some (.releasing (_ :: _)) => none
  | some (.running op held (some e)) =>
    match lock_call w.locks e true with
    | none => none
    | some (ls, waits) =>
      some { w with
        locks := ls
        threads := w.threads.set i (after_lock_call op held e waits)
        woken := awake w i }
  | some (.running op held none) =>
    if held.isEmpty && !may_start w i then none
    else running_step MAX_FOLDER_NAME_LENGTH MAX_PATH_LENGTH w i pick op held

/-- The steps of a schedule: the threads that step (each with the thread a
signal of its step wakes), in order. -/
def world_run (MAX_FOLDER_NAME_LENGTH MAX_PATH_LENGTH : Nat) :
    World → List (Nat × Nat) → Option World
  | w, [] => some w
  | w, s :: rest =>
    match world_step MAX_FOLDER_NAME_LENGTH MAX_PATH_LENGTH w s.1 s.2 with
    | none => none
    | some w' => world_run MAX_FOLDER_NAME_LENGTH MAX_PATH_LENGTH w' rest

/-- A step that is sure to come: of a thread that is not in a wait, or of a
thread whose wait a signal or broadcast has ended. A return from a wait that
nothing has ended (POSIX lets them happen) is no such step. -/
def sure_step (MAX_FOLDER_NAME_LENGTH MAX_PATH_LENGTH : Nat) (w : World) (i pick : Nat) :
    Option World :=
  if (waiting_call w.threads i).isSome && !w.woken i then none
  else world_step MAX_FOLDER_NAME_LENGTH MAX_PATH_LENGTH w i pick

/-- A schedule of steps that are sure to come. -/
def sure_run (MAX_FOLDER_NAME_LENGTH MAX_PATH_LENGTH : Nat) :
    World → List (Nat × Nat) → Option World
  | w, [] => some w
  | w, s :: rest =>
    match sure_step MAX_FOLDER_NAME_LENGTH MAX_PATH_LENGTH w s.1 s.2 with
    | none => none
    | some w' => sure_run MAX_FOLDER_NAME_LENGTH MAX_PATH_LENGTH w' rest

/-- The start: no lock held, no operation begun. -/
def world_init (t : Tree) (ops : List TreeOp) (chained : Nat → Bool) : World :=
  { tree := t, locks := quiet_locks, threads := ops.map (fun op => .running op [] none),
    woken := fun _ => false, chained := chained }

/-- Every thread has returned. -/
def all_returned (w : World) : Prop :=
  ∀ th ∈ w.threads, th = ThreadState.releasing []

/-- The addresses `tree_create` gets from `malloc` in a list of operations. -/
def new_addrs : List TreeOp → List Nat
  | [] => []
  | .create _ new_addr :: rest => new_addr :: new_addrs rest
  | _ :: rest => new_addrs rest

/-! ### What the proofs about several threads are stated with -/

/-- The lock call of a mode. -/
def mode_lock : LockMode → Nat → LockEvent
  | .read, a => .rdlock a
  | .write, a => .wrlock a

/-- The unlock call of a mode. -/
def mode_unlock : LockMode → Nat → LockEvent
  | .read, a => .rdunlock a
  | .write, a => .wrunlock a

/-- The path an operation descends along with read locks, as components, and
the mode in which it then locks the folder under that path (`none`: it locks
nothing more). An operation that returns before its descent has the empty path
and `none`. -/
def op_plan (MAX_FOLDER_NAME_LENGTH MAX_PATH_LENGTH : Nat) :
    TreeOp → List (List Char) × Option LockMode
  | .list path =>
    if is_path_valid MAX_FOLDER_NAME_LENGTH MAX_PATH_LENGTH path then
      (path_components path, some .read)
    else ([], none)
  | .create path _ =>
    if is_path_valid MAX_FOLDER_NAME_LENGTH MAX_PATH_LENGTH path = true ∧ path ≠ ['/'] then
      ((path_components path).dropLast, some .write)
    else ([], none)
  | .remove path =>
    if is_path_valid MAX_FOLDER_NAME_LENGTH MAX_PATH_LENGTH path = true ∧ path ≠ ['/'] then
      ((path_components path).dropLast, some .write)
    else ([], none)
  | .move source target =>
    if is_path_valid MAX_FOLDER_NAME_LENGTH MAX_PATH_LENGTH source = true ∧
        is_path_valid MAX_FOLDER_NAME_LENGTH MAX_PATH_LENGTH target = true ∧
        source ≠ ['/'] ∧ target ≠ ['/'] then
      if starts_with target source then ([], none)
      else if starts_with source target then (path_components source, none)
      else
        (path_components
          (lca_path (canonical_path (path_components source).dropLast)
            (canonical_path (path_components target).dropLast)), some .write)
    else ([], none)

/-- The calls on the folder under the path of a plan. -/
def plan_mid (t : Tree) (plan : List (List Char) × Option LockMode) : List LockEvent :=
  match plan.2, find t plan.1 with
  | some m, some n => [mode_lock m n.addr, mode_unlock m n.addr]
  | _, _ => []

/-- The lock calls of a plan on the tree `t`. -/
def plan_locks (t : Tree) (plan : List (List Char) × Option LockMode) : List LockEvent :=
  (lock_chain t plan.1).map LockEvent.rdlock ++ (plan_mid t plan).take 1

/-- The unlock calls of a plan on the tree `t`. -/
def plan_unlocks (t : Tree) (plan : List (List Char) × Option LockMode) : List LockEvent :=
  (plan_mid t plan).drop 1 ++ (lock_chain t plan.1).reverse.map LockEvent.rdunlock

/-- The lock call at position `i` of a plan, from the addresses of the tree. -/
def plan_lock_at (t : Tree) (plan : List (List Char) × Option LockMode) (i : Nat) :
    Option LockEvent :=
  if i < plan.1.length then (addr_at t (plan.1.take i)).map LockEvent.rdlock
  else if i = plan.1.length then
    match plan.2 with
    | none => none
    | some m => (addr_at t plan.1).map (mode_lock m)
  else none

/-- The read locks a thread holds on the lock at `b`. -/
def ThreadState.reads (b : Nat) : ThreadState → Nat
  | .running _ held _ => held.count (.rdlock b)
  | .releasing pending => pending.count (.rdunlock b)

/-- The write locks a thread holds on the lock at `b`. -/
def ThreadState.writes (b : Nat) : ThreadState → Nat
  | .running _ held _ => held.count (.wrlock b)
  | .releasing _ => 0

/-- Whether (1 or 0) a thread waits in `rwlock_rdlock` on the lock at `b`. -/
def ThreadState.rwaits (b : Nat) : ThreadState → Nat
  | .running _ _ (some e) => if e = .rdlock b then 1 else 0
  | _ => 0

/-- Whether (1 or 0) a thread waits in `rwlock_wrlock` on the lock at `b`. -/
def ThreadState.wwaits (b : Nat) : ThreadState → Nat
  | .running _ _ (some e) => if e = .wrlock b then 1 else 0
  | _ => 0

/-- The sum of a number over the threads. -/
def total (f : ThreadState → Nat) (threads : List ThreadState) : Nat :=
  (threads.map f).sum

/-- The fields of a lock with `r` read locks and `w` write locks held on it and
`br` readers and `bw` writers waiting for it: each counter counts its calls,
`change` is 0 or 1, at most one writer, no reader beside a writer, no writer
while `change` is set, and `change` is set only while a reader waits. -/
def lock_ok (l : rwlock_t) (r w br bw : Nat) : Prop :=
  l.rcount = r ∧ l.wcount = w ∧ l.rwait = br ∧ l.wwait = bw ∧
    (l.change = 0 ∨ l.change = 1) ∧ w ≤ 1 ∧ (w = 0 ∨ r = 0) ∧ (l.change = 0 ∨ w = 0) ∧
    (l.change = 0 ∨ 1 ≤ br)

/-- No two folders of the tree have the same address. -/
def distinct_addrs (t : Tree) : Prop :=
  ∀ p q a, addr_at t p = some a → addr_at t q = some a → p = q

/-- Thread `i` of the threads that run `ops` is in step with the tree `t`: a
thread in its operation has made (or waits in) the first lock calls of its
operation on `t`, and the address of the folder it will create is not in use; a
thread past its first unlock has only `rwlock_rdunlock` calls left. -/
def thread_ok (MAX_FOLDER_NAME_LENGTH MAX_PATH_LENGTH : Nat) (ops : List TreeOp) (t : Tree)
    (i : Nat) : ThreadState → Prop
  | .running op held waiting =>
    held ++ waiting.toList <+: plan_locks t (op_plan MAX_FOLDER_NAME_LENGTH MAX_PATH_LENGTH op) ∧
      ops[i]? = some op ∧ ∀ p a, op = .create p a → ∀ r, addr_at t r ≠ some a
  | .releasing pending => ∀ e ∈ pending, ∃ a, e = LockEvent.rdunlock a

/-- What holds in every state the threads that run `ops` reach. -/
def world_inv (MAX_FOLDER_NAME_LENGTH MAX_PATH_LENGTH : Nat) (ops : List TreeOp) (w : World) :
    Prop :=
  w.tree.wf MAX_FOLDER_NAME_LENGTH = true ∧ distinct_addrs w.tree ∧
    (∀ i th, w.threads[i]? = some th →
      thread_ok MAX_FOLDER_NAME_LENGTH MAX_PATH_LENGTH ops w.tree i th) ∧
    ∀ b, lock_ok (w.locks b) (total (ThreadState.reads b) w.threads)
      (total (ThreadState.writes b) w.threads) (total (ThreadState.rwaits b) w.threads)
      (total (ThreadState.wwaits b) w.threads)

/-- A bound on the steps a thread has left, not counting the returns from a wait
that end in the same wait. -/
def ThreadState.work (MAX_FOLDER_NAME_LENGTH MAX_PATH_LENGTH : Nat) : ThreadState → Nat
  | .running op held waiting =>
    3 * ((op_plan MAX_FOLDER_NAME_LENGTH MAX_PATH_LENGTH op).1.length + 1) + 3
      - 2 * held.length - waiting.toList.length
  | .releasing pending => pending.length

/-- How deep a thread that waits has come: the lock calls it has completed,
plus one; 0 for a thread that does not wait. -/
def ThreadState.depth : ThreadState → Nat
  | .running _ held (some _) => held.length + 1
  | _ => 0

/-- The wake-ups fit the lock at `a`: while `change` is set, every reader that
waits has been woken; when the lock is free and `change` is not set, one of the
writers that wait (if any does) has been woken; and a reader waits without
having been woken only while a writer holds the lock or waits for it. -/
def wake_ok (a : Nat) (l : rwlock_t) (call : Nat → Option LockEvent) (woken : Nat → Bool) :
    Prop :=
  (l.change = 1 → ∀ j, call j = some (.rdlock a) → woken j = true) ∧
  (l.rcount = 0 → l.wcount = 0 → l.change = 0 → ∀ j, call j = some (.wrlock a) →
    ∃ j', call j' = some (.wrlock a) ∧ woken j' = true) ∧
  (∀ j, call j = some (.rdlock a) → woken j = false → l.wcount > 0 ∨ l.wwait > 0)

/-- The wake-ups fit every lock. -/
def wake_inv (w : World) : Prop :=
  ∀ a, wake_ok a (w.locks a) (waiting_call w.threads) w.woken

/-- The threads for which a wake-up is pending. -/
def woken_count (w : World) : Nat :=
  (List.range w.threads.length).countP w.woken

/-- A bound on the steps that are sure to come. -/
def world_bound (MAX_FOLDER_NAME_LENGTH MAX_PATH_LENGTH : Nat) (w : World) : Nat :=
  total (ThreadState.work MAX_FOLDER_NAME_LENGTH MAX_PATH_LENGTH) w.threads
      * (w.threads.length + 1) + woken_count w

/-! ### Sample inputs -/

/-- The text of a string literal. -/
def str (s : String) : List Char := s.toList

/-- The sample tree after `/a/x/` was moved to `/b/x/`. -/
def sample_moved : Tree :=
  .node 0 [(str "a", .node 1 []), (str "b", .node 2 [(str "x", .node 3 [])])]

/-- The sample tree after `/b/` was moved onto itself. -/
def sample_self_moved : Tree :=
  .node 0 [(str "b", .node 2 []), (str "a", .node 1 [(str "x", .node 3 [])])]

/-- A run of the lock: a writer enters, a reader and a second writer block, the
writer leaves, the reader is admitted, the second writer wakes too early, the
reader leaves, the second writer is admitted. -/
def lock_sample_steps : List LockStep :=
  [.wrlock_enter, .rdlock_enter, .wrlock_enter, .wrunlock, .rdlock_wake, .wrlock_wake,
    .rdunlock, .wrlock_wake]

/-- The state after `lock_sample_steps`. -/
def lock_sample_final : LockState :=
  { lock := { rcount := 0, wcount := 1, rwait := 0, wwait := 0, change := 0 },
    blocked_readers := 0, readers := 0, blocked_writers := 0, writers := 1 }

/-- The sample tree after `tree_create("/b/c/")` put a node at address 7. -/
def sample_created : Tree :=
  .node 0 [(str "a", .node 1 [(str "x", .node 3 [])]),
    (str "b", .node 2 [(str "c", .node 7 [])])]

/-- The sample tree after `tree_remove("/a/x/")`. -/
def sample_removed : Tree :=
  .node 0 [(str "a", .node 1 []), (str "b", .node 2 [])]

/-- A tree with folders `/a/`, `/a/x/` and `/b/`. -/
def sample_tree : Tree :=
  .node 0 [(str "a", .node 1 [(str "x", .node 3 [])]), (str "b", .node 2 [])]

/-- A lock held by one writer. -/
def writer_holds : LockState :=
  { lock := { rcount := 0, wcount := 1, rwait := 0, wwait := 0, change := 0 },
    blocked_readers := 0, readers := 0, blocked_writers := 0, writers := 1 }

/-- A reader blocked behind the writer, after `n` rounds. -/
def reader_waits (n : Nat) : WatchState :=
  { state :=
      { lock := { rcount := 0, wcount := 1, rwait := 1, wwait := 0, change := 0 },
        blocked_readers := 1, readers := 0, blocked_writers := 0, writers := 1 },
    blocked := true, writer_releases := n, reader_releases := n }

/-- A writer blocked behind the writer, after `n` rounds. -/
def writer_waits (n : Nat) : WatchState :=
  { state :=
      { lock := { rcount := 0, wcount := 1, rwait := 0, wwait := 1, change := 0 },
        blocked_readers := 0, readers := 0, blocked_writers := 1, writers := 1 },
    blocked := true, writer_releases := n, reader_releases := 0 }

/-- Two readers hold the lock. -/
def readers_hold : LockState :=
  { lock := { rcount := 2, wcount := 0, rwait := 0, wwait := 0, change := 0 },
    blocked_readers := 0, readers := 2, blocked_writers := 0, writers := 0 }

/-- A writer blocked with no other writer in flight: `b` readers blocked, `r`
readers holding the lock, `n` releases by readers so far. -/
def writer_behind_readers (b r n : Nat) : WatchState :=
  { state :=
      { lock := { rcount := r, wcount := 0, rwait := b, wwait := 1, change := 0 },
        blocked_readers := b, readers := r, blocked_writers := 1, writers := 0 },
    blocked := true, writer_releases := 0, reader_releases := n }

/-- The lock after a writer that found a blocked reader (and a blocked writer)
has released it: `change` is set. -/
def handoff_state : LockState :=
  { lock := { rcount := 0, wcount := 0, rwait := 1, wwait := 1, change := 1 },
    blocked_readers := 1, readers := 0, blocked_writers := 1, writers := 0 }

/-- Four calls on the sample tree: a listing of `/a/x/`, a move of `/a/x/` to
`/b/y/`, the creation of `/a/n/`, and a listing of `/b/`. -/
def sample_ops : List TreeOp :=
  [.list (str "/a/x/"), .move (str "/a/x/") (str "/b/y/"), .create (str "/a/n/") 9,
    .list (str "/b/")]

/-- Three threads make the four calls: the last call is the next call of the
thread that creates `/a/n/`. -/
def sample_chained : Nat → Bool := fun i => decide (i = 3)

/-- An order of steps after which the first thread holds read locks down to
`/a/x/`, the second waits for the write lock of the root, and the third (back
from a wait behind the second that nothing had ended) holds a read lock on the
root and waits for the write lock of `/a/`, its next call not begun. -/
def sample_interleaving : List (Nat × Nat) :=
  [(0, 0), (1, 0), (0, 0), (0, 0), (2, 0), (2, 0), (2, 0)]

/-! # Proofs -/
/-! ## Path texts and lists of components -/

theorem canonical_path_cons_slash (cs : List (List Char)) :
    ∃ tl, canonical_path cs = '/' :: tl := by
  cases cs with
  | nil => exact ⟨[], rfl⟩
  | cons c cs => exact ⟨c ++ canonical_path cs, rfl⟩

theorem split_at_slash_append {c : List Char} (hc : slash_free c) (r : List Char) :
    split_at_slash (c ++ '/' :: r) = some (c, '/' :: r) := by
  induction c with
  | nil => simp [split_at_slash]
  | cons ch c ih =>
    have h1 : ch ≠ '/' := by
      intro h; apply hc; simp [h]
    have h2 : slash_free c := by
      intro h; apply hc; simp [h]
    simp [split_at_slash, h1, ih h2]

theorem split_at_slash_some {s c r : List Char} (h : split_at_slash s = some (c, r)) :
    s = c ++ r ∧ slash_free c ∧ ∃ tl, r = '/' :: tl := by
  induction s generalizing c with
  | nil => simp [split_at_slash] at h
  | cons ch s ih =>
    unfold split_at_slash at h
    by_cases hch : ch = '/'
    · simp only [hch, if_true, Option.some.injEq, Prod.mk.injEq] at h
      obtain ⟨rfl, rfl⟩ := h
      exact ⟨by simp [hch], by simp [slash_free], ⟨s, rfl⟩⟩
    · simp only [hch, if_false] at h
      cases hs : split_at_slash s with
      | none => simp [hs] at h
      | some p =>
        obtain ⟨c1, r1⟩ := p
        simp only [hs, Option.some.injEq, Prod.mk.injEq] at h
        obtain ⟨rfl, rfl⟩ := h
        obtain ⟨e1, e2, e3⟩ := ih hs
        refine ⟨by simp [← e1], ?_, e3⟩
        intro hmem
        rcases List.mem_cons.mp hmem with h1 | h1
        · exact hch h1.symm
        · exact e2 h1

theorem split_path_some {s c r : List Char} (h : split_path s = some (c, r)) :
    s = '/' :: (c ++ r) ∧ slash_free c ∧ ∃ tl, r = '/' :: tl := by
  cases s with
  | nil => simp [split_path] at h
  | cons ch s =>
    unfold split_path at h
    by_cases hch : ch = '/'
    · simp only [hch, if_true] at h
      obtain ⟨e1, e2, e3⟩ := split_at_slash_some h
      exact ⟨by rw [hch, e1], e2, e3⟩
    · simp [hch] at h

theorem split_path_root : split_path ['/'] = none := by
  simp [split_path, split_at_slash]

theorem split_path_canonical_cons {c : List Char} (hc : slash_free c) (cs : List (List Char)) :
    split_path (canonical_path (c :: cs)) = some (c, canonical_path cs) := by
  obtain ⟨tl, htl⟩ := canonical_path_cons_slash cs
  simp only [canonical_path, split_path, if_true]
  rw [htl]
  exact split_at_slash_append hc tl

theorem is_valid_component_slash_free {F : Nat} {c : List Char}
    (h : is_valid_component F c = true) : slash_free c := by
  intro hmem
  simp only [is_valid_component, Bool.and_eq_true, List.all_eq_true, decide_eq_true_eq] at h
  have := h.2 _ hmem
  revert this
  decide

theorem is_canonical_loop_sound {F : Nat} (fuel : Nat) (s : List Char)
    (h : is_canonical_loop F fuel s = true) :
    ∃ cs, s = canonical_path cs ∧ ∀ c ∈ cs, is_valid_component F c = true := by
  induction fuel generalizing s with
  | zero => simp [is_canonical_loop] at h
  | succ fuel ih =>
    unfold is_canonical_loop at h
    cases hs : split_path s with
    | none =>
      simp only [hs, decide_eq_true_eq] at h
      exact ⟨[], h, by simp⟩
    | some p =>
      obtain ⟨c, rest⟩ := p
      simp only [hs, Bool.and_eq_true] at h
      obtain ⟨cs, e1, e2⟩ := ih rest h.2
      obtain ⟨e3, -, -⟩ := split_path_some hs
      refine ⟨c :: cs, ?_, ?_⟩
      · rw [e3, e1]; rfl
      · intro x hx
        rcases List.mem_cons.mp hx with rfl | hx
        · exact h.1
        · exact e2 x hx

theorem is_path_valid_sound {F P : Nat} {s : List Char} (h : is_path_valid F P s = true) :
    ∃ cs, s = canonical_path cs ∧ ∀ c ∈ cs, is_valid_component F c = true := by
  simp only [is_path_valid, Bool.and_eq_true] at h
  exact is_canonical_loop_sound _ _ h.2


theorem canonical_path_eq_body (cs : List (List Char)) :
    canonical_path cs = path_body cs ++ ['/'] := by
  induction cs with
  | nil => rfl
  | cons c cs ih => simp [canonical_path, path_body, ih]

theorem path_body_append (s u : List (List Char)) :
    path_body (s ++ u) = path_body s ++ path_body u := by
  induction s with
  | nil => rfl
  | cons c s ih => simp [path_body, ih]

theorem canonical_path_append (s u : List (List Char)) :
    canonical_path (s ++ u) = path_body s ++ canonical_path u := by
  simp [canonical_path_eq_body, path_body_append]

theorem canonical_path_snoc (cs : List (List Char)) (c : List Char) :
    canonical_path (cs ++ [c]) = canonical_path cs ++ (c ++ ['/']) := by
  rw [canonical_path_append]
  simp [canonical_path_eq_body, canonical_path, path_body]

theorem length_lt_canonical_path (cs : List (List Char)) :
    cs.length < (canonical_path cs).length := by
  induction cs with
  | nil => simp [canonical_path]
  | cons c cs ih => simp only [canonical_path, List.length_cons, List.length_append]; omega

theorem canonical_path_ne_nil (cs : List (List Char)) : canonical_path cs ≠ [] := by
  obtain ⟨tl, h⟩ := canonical_path_cons_slash cs
  simp [h]

theorem canonical_path_eq_root {cs : List (List Char)} (h : canonical_path cs = ['/']) :
    cs = [] := by
  cases cs with
  | nil => rfl
  | cons c cs =>
    have := congrArg List.length h
    have h2 := length_lt_canonical_path cs
    simp only [canonical_path, List.length_cons, List.length_append, List.length_nil] at this
    omega

theorem path_components_loop_canonical (cs : List (List Char))
    (hcs : ∀ c ∈ cs, slash_free c) (fuel : Nat) (hfuel : cs.length < fuel) :
    path_components_loop fuel (canonical_path cs) = cs := by
  induction cs generalizing fuel with
  | nil =>
    cases fuel with
    | zero => omega
    | succ fuel => simp [path_components_loop, canonical_path, split_path_root]
  | cons c cs ih =>
    cases fuel with
    | zero => omega
    | succ fuel =>
      have hc : slash_free c := hcs c (by simp)
      have hrest : ∀ x ∈ cs, slash_free x := fun x hx => hcs x (by simp [hx])
      simp only [path_components_loop, split_path_canonical_cons hc]
      rw [ih hrest fuel (by simpa using hfuel)]

theorem path_components_canonical (cs : List (List Char)) (hcs : ∀ c ∈ cs, slash_free c) :
    path_components (canonical_path cs) = cs :=
  path_components_loop_canonical cs hcs _ (Nat.lt_succ_of_lt (length_lt_canonical_path cs))

theorem canonical_path_injective {a b : List (List Char)} (ha : ∀ c ∈ a, slash_free c)
    (hb : ∀ c ∈ b, slash_free c) (h : canonical_path a = canonical_path b) : a = b := by
  rw [← path_components_canonical a ha, ← path_components_canonical b hb, h]

theorem takeWhile_append_stop {α : Type} (p : α → Bool) (l : List α) (y : α) (r : List α)
    (hl : ∀ x ∈ l, p x = true) (hy : p y = false) :
    (l ++ y :: r).takeWhile p = l ∧ (l ++ y :: r).dropWhile p = y :: r := by
  induction l with
  | nil => simp [List.takeWhile, List.dropWhile, hy]
  | cons x l ih =>
    have hx : p x = true := hl x (by simp)
    have := ih (fun z hz => hl z (by simp [hz]))
    simp [List.takeWhile, List.dropWhile, hx, this]

theorem make_path_to_parent_snoc (cs : List (List Char)) {c : List Char} (hc : slash_free c) :
    make_path_to_parent (canonical_path (cs ++ [c])) = some (canonical_path cs, c) := by
  have hlen : ¬ (canonical_path (cs ++ [c])).length ≤ 1 := by
    rw [canonical_path_snoc]
    have := length_lt_canonical_path cs
    simp only [List.length_append, List.length_cons, List.length_nil]
    omega
  have hbody : (canonical_path (cs ++ [c])).dropLast.reverse
      = c.reverse ++ '/' :: (path_body cs).reverse := by
    rw [canonical_path_snoc, ← List.append_assoc, List.dropLast_concat, canonical_path_eq_body]
    simp
  have hstop := takeWhile_append_stop (fun ch => decide (ch ≠ '/')) c.reverse '/'
    (path_body cs).reverse
    (by
      intro x hx
      have : x ≠ '/' := by
        intro h
        apply hc
        rw [← h]
        exact List.mem_reverse.mp hx
      simpa using this)
    (by simp)
  simp only [make_path_to_parent, hlen, if_false, hbody, hstop.1, hstop.2]
  simp [canonical_path_eq_body]

theorem snoc_prefix_append {c : List Char} (hc : slash_free c) (p0 R : List Char)
    (h : p0 ++ ['/'] <+: c ++ R) : ∃ t0, p0 = c ++ t0 ∧ t0 ++ ['/'] <+: R := by
  induction c generalizing p0 with
  | nil => exact ⟨p0, rfl, by simpa using h⟩
  | cons ch c ih =>
    have h1 : ch ≠ '/' := by
      intro e; apply hc; simp [e]
    have h2 : slash_free c := by
      intro e; apply hc; simp [e]
    cases p0 with
    | nil =>
      simp only [List.nil_append, List.cons_append] at h
      have := (List.cons_prefix_cons.mp h).1
      exact absurd this.symm h1
    | cons x p0 =>
      simp only [List.cons_append] at h
      obtain ⟨e1, e2⟩ := List.cons_prefix_cons.mp h
      obtain ⟨t0, e3, e4⟩ := ih h2 p0 e2
      exact ⟨t0, by simp [e1, e3], e4⟩

theorem prefix_canonical_path (cs : List (List Char)) (hcs : ∀ c ∈ cs, slash_free c)
    (p0 : List Char) (h : p0 ++ ['/'] <+: canonical_path cs) :
    ∃ l, l <+: cs ∧ p0 ++ ['/'] = canonical_path l := by
  induction cs generalizing p0 with
  | nil =>
    have hl := h.length_le
    simp only [canonical_path, List.length_append, List.length_cons, List.length_nil] at hl
    have : p0 = [] := List.eq_nil_of_length_eq_zero (by omega)
    exact ⟨[], List.prefix_refl _, by simp [this, canonical_path]⟩
  | cons c cs ih =>
    have hc : slash_free c := hcs c (by simp)
    have hrest : ∀ x ∈ cs, slash_free x := fun x hx => hcs x (by simp [hx])
    cases p0 with
    | nil => exact ⟨[], List.nil_prefix, by simp [canonical_path]⟩
    | cons x p0 =>
      simp only [canonical_path, List.cons_append] at h
      obtain ⟨e1, e2⟩ := List.cons_prefix_cons.mp h
      obtain ⟨t0, e3, e4⟩ := snoc_prefix_append hc p0 _ e2
      obtain ⟨l, e5, e6⟩ := ih hrest t0 e4
      refine ⟨c :: l, List.cons_prefix_cons.mpr ⟨rfl, e5⟩, ?_⟩
      simp [canonical_path, e1, e3, ← e6]

theorem starts_with_canonical {s t : List (List Char)} (hs : ∀ c ∈ s, slash_free c)
    (ht : ∀ c ∈ t, slash_free c) :
    starts_with (canonical_path t) (canonical_path s) = true ↔ s <+: t ∧ s ≠ t := by
  constructor
  · intro h
    simp only [starts_with, Bool.and_eq_true, decide_eq_true_eq] at h
    obtain ⟨hlen, htake⟩ := h
    have hpre : canonical_path s <+: canonical_path t := by
      rw [← htake]; exact List.take_prefix _ _
    rw [canonical_path_eq_body s] at hpre
    obtain ⟨l, hl, e⟩ := prefix_canonical_path t ht _ hpre
    rw [← canonical_path_eq_body s] at e
    have hsl : s = l :=
      canonical_path_injective hs (fun c hc => ht c (hl.subset hc)) e
    subst hsl
    refine ⟨hl, ?_⟩
    intro e2
    rw [e2] at hlen
    exact lt_irrefl _ hlen
  · rintro ⟨⟨u, rfl⟩, hne⟩
    have hu : u ≠ [] := by
      intro e; apply hne; simp [e]
    obtain ⟨d, u, rfl⟩ := List.exists_cons_of_ne_nil hu
    have e : canonical_path (s ++ d :: u) = canonical_path s ++ (d ++ canonical_path u) := by
      rw [canonical_path_append, canonical_path_eq_body s]
      simp [canonical_path]
    have hne2 := canonical_path_ne_nil u
    simp only [starts_with, Bool.and_eq_true, decide_eq_true_eq, e, List.length_append,
      List.take_left']
    refine ⟨?_, by simp⟩
    have : 0 < (canonical_path u).length := List.length_pos.mpr hne2
    omega


theorem take_common_prefix_eq (s t : List Char) :
    s.take (common_prefix_length s t) = t.take (common_prefix_length s t) := by
  induction s generalizing t with
  | nil => simp [common_prefix_length]
  | cons a s ih =>
    cases t with
    | nil => simp [common_prefix_length]
    | cons b t =>
      by_cases h : a = b
      · simp [common_prefix_length, h, ih t]
      · simp [common_prefix_length, h]

theorem last_slash_loop_spec (l : List Char) (c last : Nat) :
    last_slash_loop l c last = last ∨
      (c ≤ last_slash_loop l c last ∧ l[last_slash_loop l c last - c]? = some '/') := by
  induction l generalizing c last with
  | nil => left; rfl
  | cons ch rest ih =>
    simp only [last_slash_loop]
    rcases ih (c + 1) (if ch = '/' then c else last) with h | ⟨h1, h2⟩
    · by_cases hch : ch = '/'
      · right
        simp only [hch, if_true] at h ⊢
        rw [h]
        simp
      · left
        simp only [hch, if_false] at h ⊢
        exact h
    · right
      refine ⟨by omega, ?_⟩
      have e : last_slash_loop rest (c + 1) (if ch = '/' then c else last) - c
          = (last_slash_loop rest (c + 1) (if ch = '/' then c else last) - (c + 1)) + 1 := by
        omega
      rw [e, List.getElem?_cons_succ]
      exact h2

theorem lca_path_canonical (a b : List (List Char)) (ha : ∀ c ∈ a, slash_free c)
    (hb : ∀ c ∈ b, slash_free c) :
    ∃ l, l <+: a ∧ l <+: b ∧ lca_path (canonical_path a) (canonical_path b) = canonical_path l := by
  obtain ⟨ta, hta⟩ := canonical_path_cons_slash a
  obtain ⟨tb, htb⟩ := canonical_path_cons_slash b
  have hk : 1 ≤ common_prefix_length (canonical_path a) (canonical_path b) := by
    rw [hta, htb]
    simp [common_prefix_length]
  generalize hkdef : common_prefix_length (canonical_path a) (canonical_path b) = k at hk
  have hcommon : (canonical_path a).take k = (canonical_path b).take k := by
    rw [← hkdef]; exact take_common_prefix_eq _ _
  generalize hjdef : last_slash_loop ((canonical_path a).take k) 0 0 = j
  have hj : ((canonical_path a).take k)[j]? = some '/' := by
    rcases last_slash_loop_spec ((canonical_path a).take k) 0 0 with h | ⟨-, h⟩
    · rw [hjdef] at h
      rw [h, hta]
      obtain ⟨k', rfl⟩ : ∃ k', k = k' + 1 := ⟨k - 1, by omega⟩
      simp
    · rw [hjdef] at h
      simpa using h
  have hjk : j < k := by
    by_contra hcon
    rw [List.getElem?_take_eq_none (by omega)] at hj
    exact absurd hj (by simp)
  have hja : (canonical_path a)[j]? = some '/' := by
    rw [List.getElem?_take_of_lt hjk] at hj
    exact hj
  have hlca : lca_path (canonical_path a) (canonical_path b) = (canonical_path a).take (j + 1) := by
    simp only [lca_path, hkdef, hjdef]
  have hform : (canonical_path a).take (j + 1) = (canonical_path a).take j ++ ['/'] := by
    rw [List.take_succ, hja]
    rfl
  have hpa : (canonical_path a).take j ++ ['/'] <+: canonical_path a := by
    rw [← hform]; exact List.take_prefix _ _
  have hpb : (canonical_path a).take j ++ ['/'] <+: canonical_path b := by
    rw [← hform]
    have e : (canonical_path a).take (j + 1) = (canonical_path b).take (j + 1) := by
      have e1 : (canonical_path a).take (j + 1) = ((canonical_path a).take k).take (j + 1) := by
        rw [List.take_take, Nat.min_eq_left (by omega)]
      have e2 : (canonical_path b).take (j + 1) = ((canonical_path b).take k).take (j + 1) := by
        rw [List.take_take, Nat.min_eq_left (by omega)]
      rw [e1, e2, hcommon]
    rw [e]
    exact List.take_prefix _ _
  obtain ⟨l1, hl1, e1⟩ := prefix_canonical_path a ha _ hpa
  obtain ⟨l2, hl2, e2⟩ := prefix_canonical_path b hb _ hpb
  have e12 : l1 = l2 :=
    canonical_path_injective (fun c hc => ha c (hl1.subset hc))
      (fun c hc => hb c (hl2.subset hc)) (e1.symm.trans e2)
  subst e12
  exact ⟨l1, hl1, hl2, by rw [hlca, hform, e1]⟩


/-! ## Child maps -/

theorem hmap_get_replace (m : HashMap) (c : List Char) (v : Tree) (k : List Char) :
    hmap_get (hmap_replace m c v) k
      = if k = c then (hmap_get m c).map (fun _ => v) else hmap_get m k := by
  induction m with
  | nil => simp [hmap_replace, hmap_get]
  | cons e rest ih =>
    obtain ⟨k0, v0⟩ := e
    by_cases h0 : k0 = c
    · by_cases hk : k = c
      · simp [hmap_replace, hmap_get, h0, hk]
      · have : ¬ c = k := fun e => hk e.symm
        simp [hmap_replace, hmap_get, h0, hk, this]
    · by_cases hk : k = c
      · subst hk
        simp [hmap_replace, hmap_get, h0, ih]
      · simp [hmap_replace, hmap_get, h0, hk, ih]

theorem hmap_replace_self (m : HashMap) (c : List Char) (v : Tree)
    (h : hmap_get m c = some v) : hmap_replace m c v = m := by
  induction m with
  | nil => rfl
  | cons e rest ih =>
    obtain ⟨k0, v0⟩ := e
    by_cases h0 : k0 = c
    · simp only [hmap_get, h0, if_true, Option.some.injEq] at h
      simp [hmap_replace, h0, h]
    · simp only [hmap_get, h0, if_false] at h
      simp [hmap_replace, h0, ih h]

theorem hmap_replace_replace (m : HashMap) (c : List Char) (v w : Tree) :
    hmap_replace (hmap_replace m c v) c w = hmap_replace m c w := by
  induction m with
  | nil => rfl
  | cons e rest ih =>
    obtain ⟨k0, v0⟩ := e
    by_cases h0 : k0 = c
    · simp [hmap_replace, h0]
    · simp [hmap_replace, h0, ih]

theorem hmap_get_erase_ne (m : HashMap) (c k : List Char) (h : k ≠ c) :
    hmap_get (hmap_erase m c) k = hmap_get m k := by
  induction m with
  | nil => rfl
  | cons e rest ih =>
    obtain ⟨k0, v0⟩ := e
    by_cases h0 : k0 = c
    · have : ¬ c = k := fun e => h e.symm
      simp [hmap_erase, hmap_get, h0, this]
    · by_cases hk : k0 = k
      · subst hk
        simp [hmap_erase, hmap_get, h0]
      · simp [hmap_erase, hmap_get, h0, hk, ih]

theorem hmap_get_erase_self {F : Nat} (m : HashMap) (c : List Char)
    (hwf : hmap_wf F m = true) : hmap_get (hmap_erase m c) c = none := by
  induction m with
  | nil => rfl
  | cons e rest ih =>
    obtain ⟨k0, v0⟩ := e
    simp only [hmap_wf, Bool.and_eq_true, Option.isNone_iff_eq_none] at hwf
    by_cases h0 : k0 = c
    · simp only [hmap_erase, h0, if_true]
      rw [← h0]
      exact hwf.1.1.2
    · simp [hmap_erase, hmap_get, h0, ih hwf.2]

/-! ## Folders under a list of components -/

theorem find_append (t : Tree) (p q : List (List Char)) :
    find t (p ++ q) = (find t p).bind (fun n => find n q) := by
  induction p generalizing t with
  | nil => simp [find]
  | cons c p ih =>
    simp only [List.cons_append, find]
    cases hmap_get t.hmap c with
    | none => simp
    | some child => simp [ih]

theorem find_snoc (t : Tree) (p : List (List Char)) (c : List Char) :
    find t (p ++ [c]) = (find t p).bind (fun n => hmap_get n.hmap c) := by
  rw [find_append]
  congr 1
  funext n
  simp only [find]
  cases hmap_get n.hmap c <;> rfl

@[simp] theorem hmap_node (a : Nat) (m : HashMap) : (Tree.node a m).hmap = m := rfl

@[simp] theorem addr_node (a : Nat) (m : HashMap) : (Tree.node a m).addr = a := rfl

theorem node_addr_hmap (n : Tree) : Tree.node n.addr n.hmap = n := by
  cases n; rfl

theorem store_at_addr (t : Tree) (p : List (List Char)) (h : HashMap) :
    (store_at t p h).addr = t.addr := by
  obtain ⟨a, m⟩ := t
  cases p with
  | nil => rfl
  | cons c p =>
    simp only [store_at]
    cases hmap_get m c <;> rfl

theorem find_store_at_append (t : Tree) (p : List (List Char)) (h : HashMap)
    (s : List (List Char)) (n : Tree) (hn : find t p = some n) :
    find (store_at t p h) (p ++ s) = find (.node n.addr h) s := by
  induction p generalizing t with
  | nil =>
    obtain ⟨a, m⟩ := t
    simp only [find, Option.some.injEq] at hn
    subst hn
    rfl
  | cons c p ih =>
    obtain ⟨a, m⟩ := t
    simp only [find, Tree.hmap] at hn
    cases hc : hmap_get m c with
    | none => simp [hc] at hn
    | some child =>
      simp only [hc] at hn
      simp only [store_at, hc, List.cons_append, find, Tree.hmap, hmap_get_replace, if_true,
        Option.map_some']
      exact ih child hn

theorem addr_at_store_at_aside (t : Tree) (p : List (List Char)) (h : HashMap)
    (q : List (List Char)) (hnp : ¬ p <+: q) :
    addr_at (store_at t p h) q = addr_at t q := by
  induction p generalizing t q with
  | nil => exact absurd List.nil_prefix hnp
  | cons c p ih =>
    obtain ⟨a, m⟩ := t
    cases hc : hmap_get m c with
    | none => simp [store_at, hc]
    | some child =>
      cases q with
      | nil => simp [store_at, hc, addr_at, find, Tree.addr]
      | cons d q =>
        by_cases hd : d = c
        · subst hd
          have hnp2 : ¬ p <+: q := fun e => hnp (List.cons_prefix_cons.mpr ⟨rfl, e⟩)
          have := ih child q hnp2
          simp only [addr_at] at this
          simp [store_at, hc, addr_at, find, Tree.hmap, hmap_get_replace, this]
        · simp [store_at, hc, addr_at, find, Tree.hmap, hmap_get_replace, hd]

theorem addr_at_store_at_above (t : Tree) (p : List (List Char)) (h : HashMap)
    (l : List (List Char)) (hl : l <+: p) (n : Tree) (hn : find t p = some n) :
    addr_at (store_at t p h) l = addr_at t l := by
  by_cases e : l = p
  · subst e
    have := find_store_at_append t l h [] n hn
    simp only [List.append_nil] at this
    simp [addr_at, this, hn, find, Tree.addr]
  · apply addr_at_store_at_aside
    intro hpl
    exact e (hl.eq_of_length_le hpl.length_le)

theorem store_at_store_at (t : Tree) (p : List (List Char)) (h h' : HashMap) :
    store_at (store_at t p h) p h' = store_at t p h' := by
  induction p generalizing t with
  | nil => obtain ⟨a, m⟩ := t; rfl
  | cons c p ih =>
    obtain ⟨a, m⟩ := t
    cases hc : hmap_get m c with
    | none => simp [store_at, hc]
    | some child =>
      simp [store_at, hc, hmap_get_replace, hmap_replace_replace, ih]

theorem store_at_self (t : Tree) (p : List (List Char)) (n : Tree) (hn : find t p = some n) :
    store_at t p n.hmap = t := by
  induction p generalizing t with
  | nil =>
    obtain ⟨a, m⟩ := t
    simp only [find, Option.some.injEq] at hn
    subst hn
    rfl
  | cons c p ih =>
    obtain ⟨a, m⟩ := t
    simp only [find, Tree.hmap] at hn
    cases hc : hmap_get m c with
    | none => simp [hc] at hn
    | some child =>
      simp only [hc] at hn
      simp [store_at, hc, ih child hn, hmap_replace_self m c child hc]

/-! ## Descent along a canonical path -/

theorem get_subfolder_loop_canonical (cs : List (List Char)) (hcs : ∀ c ∈ cs, slash_free c)
    (fuel : Nat) (hfuel : cs.length < fuel) (t : Tree) :
    get_subfolder_loop fuel t (canonical_path cs) = find t cs := by
  induction cs generalizing fuel t with
  | nil =>
    cases fuel with
    | zero => omega
    | succ fuel => simp [get_subfolder_loop, canonical_path, split_path_root, find]
  | cons c cs ih =>
    cases fuel with
    | zero => omega
    | succ fuel =>
      have hc : slash_free c := hcs c (by simp)
      have hrest : ∀ x ∈ cs, slash_free x := fun x hx => hcs x (by simp [hx])
      simp only [get_subfolder_loop, split_path_canonical_cons hc, find]
      cases hmap_get t.hmap c with
      | none => rfl
      | some child => exact ih hrest fuel (by simpa using hfuel) child

theorem path_rdunlock_canonical (cs : List (List Char)) (hcs : ∀ c ∈ cs, slash_free c)
    (fuel : Nat) (hfuel : cs.length < fuel) (t : Tree) :
    path_rdunlock fuel (some t) (canonical_path cs) = some (find t cs) := by
  induction cs generalizing fuel t with
  | nil =>
    cases fuel with
    | zero => omega
    | succ fuel => simp [path_rdunlock, canonical_path, split_path_root, find]
  | cons c cs ih =>
    cases fuel with
    | zero => omega
    | succ fuel =>
      have hc : slash_free c := hcs c (by simp)
      have hrest : ∀ x ∈ cs, slash_free x := fun x hx => hcs x (by simp [hx])
      simp only [path_rdunlock, canonical_path_ne_nil, if_false,
        split_path_canonical_cons hc, find]
      cases hmap_get t.hmap c with
      | none =>
        cases fuel with
        | zero => simp at hfuel
        | succ fuel => simp [path_rdunlock]
      | some child =>
        rw [ih hrest fuel (by simpa using hfuel) child]
        simp

theorem store_hmap_loop_canonical (cs : List (List Char)) (hcs : ∀ c ∈ cs, slash_free c)
    (fuel : Nat) (hfuel : cs.length < fuel) (t : Tree) (h : HashMap) :
    store_hmap_loop fuel t (canonical_path cs) h = store_at t cs h := by
  induction cs generalizing fuel t with
  | nil =>
    obtain ⟨a, m⟩ := t
    cases fuel with
    | zero => omega
    | succ fuel => simp [store_hmap_loop, canonical_path, split_path_root, store_at]
  | cons c cs ih =>
    obtain ⟨a, m⟩ := t
    cases fuel with
    | zero => omega
    | succ fuel =>
      have hc : slash_free c := hcs c (by simp)
      have hrest : ∀ x ∈ cs, slash_free x := fun x hx => hcs x (by simp [hx])
      simp only [store_hmap_loop, split_path_canonical_cons hc, store_at]
      cases hmap_get m c with
      | none => rfl
      | some child => simp only; rw [ih hrest fuel (by simpa using hfuel) child]

theorem get_subfolder_canonical (cs : List (List Char)) (hcs : ∀ c ∈ cs, slash_free c)
    (t : Tree) (mode : TraverseMode) :
    get_subfolder t (canonical_path cs) mode = some (find t cs) := by
  have hf : cs.length < (canonical_path cs).length + 1 :=
    Nat.lt_succ_of_lt (length_lt_canonical_path cs)
  cases mode with
  | UNLOCK => exact path_rdunlock_canonical cs hcs _ hf t
  | WEAK => simp only [get_subfolder, get_subfolder_loop_canonical cs hcs _ hf t]
  | LOCK => simp only [get_subfolder, get_subfolder_loop_canonical cs hcs _ hf t]

theorem store_hmap_canonical (cs : List (List Char)) (hcs : ∀ c ∈ cs, slash_free c)
    (t : Tree) (h : HashMap) : store_hmap t (canonical_path cs) h = store_at t cs h :=
  store_hmap_loop_canonical cs hcs _ (Nat.lt_succ_of_lt (length_lt_canonical_path cs)) t h

theorem unlock_returns_canonical (cs : List (List Char)) (hcs : ∀ c ∈ cs, slash_free c)
    (t : Tree) (e : Option Tree) :
    unlock_returns t (canonical_path cs) e = ptr_eq (find t cs) e := by
  simp only [unlock_returns, get_subfolder_canonical cs hcs t]


/-! ## Valid paths -/

theorem is_canonical_loop_complete {F : Nat} (cs : List (List Char))
    (hcs : ∀ c ∈ cs, is_valid_component F c = true) (fuel : Nat) (hfuel : cs.length < fuel) :
    is_canonical_loop F fuel (canonical_path cs) = true := by
  induction cs generalizing fuel with
  | nil =>
    cases fuel with
    | zero => omega
    | succ fuel => simp [is_canonical_loop, canonical_path, split_path_root]
  | cons c cs ih =>
    cases fuel with
    | zero => omega
    | succ fuel =>
      have hc := hcs c (by simp)
      have hrest : ∀ x ∈ cs, is_valid_component F x = true := fun x hx => hcs x (by simp [hx])
      simp only [is_canonical_loop, split_path_canonical_cons (is_valid_component_slash_free hc),
        hc, Bool.true_and]
      exact ih hrest fuel (by simpa using hfuel)

theorem is_path_valid_canonical {F P : Nat} (cs : List (List Char))
    (hv : ∀ c ∈ cs, is_valid_component F c = true) (hlen : (canonical_path cs).length ≤ P) :
    is_path_valid F P (canonical_path cs) = true := by
  simp only [is_path_valid, Bool.and_eq_true, decide_eq_true_eq]
  exact ⟨hlen, is_canonical_loop_complete cs hv _
    (Nat.lt_succ_of_lt (length_lt_canonical_path cs))⟩

theorem is_path_valid_length {F P : Nat} {s : List Char} (h : is_path_valid F P s = true) :
    s.length ≤ P := by
  simp only [is_path_valid, Bool.and_eq_true, decide_eq_true_eq] at h
  exact h.1

theorem is_path_valid_parent {F P : Nat} (cs : List (List Char)) (c : List Char)
    (h : is_path_valid F P (canonical_path (cs ++ [c])) = true)
    (hv : ∀ x ∈ cs, is_valid_component F x = true) :
    is_path_valid F P (canonical_path cs) = true := by
  apply is_path_valid_canonical cs hv
  have := is_path_valid_length h
  rw [canonical_path_snoc] at this
  simp only [List.length_append] at this
  omega

/-! ## Well-formed trees -/

theorem hmap_get_wf {F : Nat} (m : HashMap) (k : List Char) (v : Tree)
    (hwf : hmap_wf F m = true) (h : hmap_get m k = some v) :
    v.wf F = true ∧ is_valid_component F k = true := by
  induction m with
  | nil => simp [hmap_get] at h
  | cons e rest ih =>
    obtain ⟨k0, v0⟩ := e
    simp only [hmap_wf, Bool.and_eq_true] at hwf
    by_cases h0 : k0 = k
    · simp only [hmap_get, h0, if_true, Option.some.injEq] at h
      subst h
      subst h0
      exact ⟨hwf.1.2, hwf.1.1.1⟩
    · simp only [hmap_get, h0, if_false] at h
      exact ih hwf.2 h

theorem Tree.wf_node {F : Nat} (n : Tree) : n.wf F = hmap_wf F n.hmap := by
  cases n; simp [Tree.wf, Tree.hmap]

theorem find_wf {F : Nat} (t : Tree) (p : List (List Char)) (n : Tree)
    (hwf : t.wf F = true) (h : find t p = some n) : n.wf F = true := by
  induction p generalizing t with
  | nil =>
    simp only [find, Option.some.injEq] at h
    rw [← h]; exact hwf
  | cons c p ih =>
    simp only [find] at h
    cases hc : hmap_get t.hmap c with
    | none => simp [hc] at h
    | some child =>
      simp only [hc] at h
      rw [Tree.wf_node] at hwf
      exact ih child (hmap_get_wf _ _ _ hwf hc).1 h

theorem hmap_get_erase_none (m : HashMap) (c k : List Char) (h : hmap_get m k = none) :
    hmap_get (hmap_erase m c) k = none := by
  induction m with
  | nil => rfl
  | cons e rest ih =>
    obtain ⟨k0, v0⟩ := e
    by_cases hk : k0 = k
    · simp [hmap_get, hk] at h
    · simp only [hmap_get, hk, if_false] at h
      by_cases h0 : k0 = c
      · simp [hmap_erase, h0, h]
      · simp [hmap_erase, hmap_get, h0, hk, ih h]

theorem hmap_wf_erase {F : Nat} (m : HashMap) (c : List Char) (hwf : hmap_wf F m = true) :
    hmap_wf F (hmap_erase m c) = true := by
  induction m with
  | nil => rfl
  | cons e rest ih =>
    obtain ⟨k0, v0⟩ := e
    simp only [hmap_wf, Bool.and_eq_true, Option.isNone_iff_eq_none] at hwf
    by_cases h0 : k0 = c
    · simp [hmap_erase, h0, hwf.2]
    · simp only [hmap_erase, h0, if_false, hmap_wf, Bool.and_eq_true,
        Option.isNone_iff_eq_none]
      exact ⟨⟨⟨hwf.1.1.1, hmap_get_erase_none _ _ _ hwf.1.1.2⟩, hwf.1.2⟩, ih hwf.2⟩

theorem hmap_wf_replace {F : Nat} (m : HashMap) (c : List Char) (v : Tree)
    (hwf : hmap_wf F m = true) (hv : v.wf F = true) :
    hmap_wf F (hmap_replace m c v) = true := by
  induction m with
  | nil => rfl
  | cons e rest ih =>
    obtain ⟨k0, v0⟩ := e
    simp only [hmap_wf, Bool.and_eq_true, Option.isNone_iff_eq_none] at hwf
    by_cases h0 : k0 = c
    · simp only [hmap_replace, h0, if_true, hmap_wf, Bool.and_eq_true,
        Option.isNone_iff_eq_none]
      rw [← h0]
      exact ⟨⟨⟨hwf.1.1.1, hwf.1.1.2⟩, hv⟩, hwf.2⟩
    · simp only [hmap_replace, h0, if_false, hmap_wf, Bool.and_eq_true,
        Option.isNone_iff_eq_none]
      refine ⟨⟨⟨hwf.1.1.1, ?_⟩, hwf.1.2⟩, ih hwf.2⟩
      rw [hmap_get_replace]
      by_cases hk : k0 = c
      · exact absurd hk h0
      · simp [hk, hwf.1.1.2]

theorem hmap_wf_cons {F : Nat} (m : HashMap) (k : List Char) (v : Tree)
    (hk : is_valid_component F k = true) (hnone : hmap_get m k = none)
    (hv : v.wf F = true) (hwf : hmap_wf F m = true) : hmap_wf F ((k, v) :: m) = true := by
  simp [hmap_wf, hk, hnone, hv, hwf]

theorem store_at_wf {F : Nat} (t : Tree) (p : List (List Char)) (h : HashMap)
    (hwf : t.wf F = true) (hh : hmap_wf F h = true) : (store_at t p h).wf F = true := by
  induction p generalizing t with
  | nil => obtain ⟨a, m⟩ := t; simpa [store_at, Tree.wf] using hh
  | cons c p ih =>
    obtain ⟨a, m⟩ := t
    simp only [Tree.wf] at hwf
    cases hc : hmap_get m c with
    | none => simpa [store_at, hc, Tree.wf] using hwf
    | some child =>
      simp only [store_at, hc, Tree.wf]
      exact hmap_wf_replace m c _ hwf (ih child (hmap_get_wf _ _ _ hwf hc).1)

/-! ## Listings -/

theorem hmap_get_eq_none_iff (m : HashMap) (k : List Char) :
    hmap_get m k = none ↔ k ∉ hmap_keys m := by
  induction m with
  | nil => simp [hmap_get, hmap_keys]
  | cons e rest ih =>
    obtain ⟨k0, v0⟩ := e
    have e : hmap_keys ((k0, v0) :: rest) = k0 :: hmap_keys rest := rfl
    rw [e, List.mem_cons, not_or]
    by_cases hk : k0 = k
    · simp only [hmap_get, if_pos hk]
      constructor
      · intro h; cases h
      · intro h; exact absurd hk.symm h.1
    · simp only [hmap_get, if_neg hk]
      rw [ih]
      exact ⟨fun h => ⟨fun e => hk e.symm, h⟩, fun h => h.2⟩

theorem hmap_keys_valid {F : Nat} (m : HashMap) (hwf : hmap_wf F m = true) :
    ∀ k ∈ hmap_keys m, is_valid_component F k = true := by
  induction m with
  | nil => simp [hmap_keys]
  | cons e rest ih =>
    obtain ⟨k0, v0⟩ := e
    simp only [hmap_wf, Bool.and_eq_true] at hwf
    intro k hk
    simp only [hmap_keys, List.map_cons, List.mem_cons] at hk
    rcases hk with rfl | hk
    · exact hwf.1.1.1
    · exact ih hwf.2 k hk

theorem is_valid_component_comma_free {F : Nat} {c : List Char}
    (h : is_valid_component F c = true) : ',' ∉ c := by
  intro hmem
  simp only [is_valid_component, Bool.and_eq_true, List.all_eq_true, decide_eq_true_eq] at h
  have := h.2 _ hmem
  revert this
  decide

theorem is_valid_component_ne_nil {F : Nat} {c : List Char}
    (h : is_valid_component F c = true) : c ≠ [] := by
  intro e
  subst e
  simp [is_valid_component] at h

theorem listing_names_contents {F : Nat} (m : HashMap) (hwf : hmap_wf F m = true) :
    listing_names (make_map_contents_string m) = hmap_keys m := by
  have hv := hmap_keys_valid m hwf
  unfold listing_names make_map_contents_string
  cases hk : hmap_keys m with
  | nil => simp [List.intercalate]
  | cons k ks =>
    rw [hk] at hv
    have hne : [','].intercalate (k :: ks) ≠ [] := by
      have hk0 := is_valid_component_ne_nil (hv k (by simp))
      obtain ⟨x, xs, rfl⟩ := List.exists_cons_of_ne_nil hk0
      cases ks <;> simp [List.intercalate, List.intersperse]
    rw [if_neg hne]
    exact List.splitOn_intercalate _ ','
      (fun l hl => is_valid_component_comma_free (hv l hl)) (List.cons_ne_nil _ _)


/-! ## The operations on canonical paths -/

theorem ptr_eq_self (p : Option Tree) : ptr_eq p p = true := by
  simp [ptr_eq]

theorem find_none_below (t : Tree) (l p : List (List Char)) (hl : l <+: p)
    (h : find t l = none) : find t p = none := by
  obtain ⟨r, rfl⟩ := hl
  rw [find_append, h]
  rfl

theorem tree_list_canonical {F P : Nat} (t : Tree) (cs : List (List Char))
    (hv : is_path_valid F P (canonical_path cs) = true) (hcs : ∀ c ∈ cs, slash_free c) :
    tree_list F P t (canonical_path cs)
      = some ((find t cs).map (fun n => make_map_contents_string n.hmap)) := by
  simp only [tree_list, hv, Bool.not_true, get_subfolder_canonical cs hcs,
    unlock_returns_canonical cs hcs]
  cases find t cs with
  | none => simp [ptr_eq_self]
  | some n => simp [ptr_eq_self]

theorem snoc_ne_root (pp : List (List Char)) (c : List Char) :
    canonical_path (pp ++ [c]) ≠ ['/'] := by
  intro h
  have := canonical_path_eq_root h
  simp at this

theorem tree_create_canonical {F P : Nat} (t : Tree) (pp : List (List Char)) (c : List Char)
    (new_addr : Nat) (hv : is_path_valid F P (canonical_path (pp ++ [c])) = true)
    (hpp : ∀ x ∈ pp, slash_free x) (hc : slash_free c) :
    tree_create F P t (canonical_path (pp ++ [c])) new_addr
      = match find t pp with
        | none => some (ENOENT, t)
        | some sub =>
          if (hmap_get sub.hmap c).isNone then
            some (0, store_at t pp ((c, tree_new new_addr) :: sub.hmap))
          else some (EEXIST, t) := by
  simp only [tree_create, hv, Bool.not_true, snoc_ne_root, if_false,
    make_path_to_parent_snoc pp hc, get_subfolder_canonical pp hpp,
    unlock_returns_canonical pp hpp, store_hmap_canonical pp hpp]
  cases hf : find t pp with
  | none => simp [ptr_eq_self]
  | some sub =>
    simp only []
    have hptr : ∀ h, ptr_eq (find (store_at t pp h) pp) (some sub) = true := by
      intro h
      have := addr_at_store_at_above t pp h pp (List.prefix_refl _) sub hf
      simp only [addr_at, hf] at this
      simp [ptr_eq, this]
    simp only [hptr, if_true]
    cases hg : hmap_get sub.hmap c with
    | none => simp [hmap_insert, hg]
    | some v => simp [hmap_insert, hg, store_at_self t pp sub hf]

theorem tree_remove_canonical {F P : Nat} (t : Tree) (pp : List (List Char)) (c : List Char)
    (hv : is_path_valid F P (canonical_path (pp ++ [c])) = true)
    (hpp : ∀ x ∈ pp, slash_free x) (hc : slash_free c) :
    tree_remove F P t (canonical_path (pp ++ [c]))
      = match find t pp with
        | none => some (ENOENT, t)
        | some parent =>
          match hmap_get parent.hmap c with
          | none => some (ENOENT, t)
          | some node =>
            if hmap_size node.hmap ≠ 0 then some (ENOTEMPTY, t)
            else some (0, store_at t pp (hmap_erase parent.hmap c)) := by
  simp only [tree_remove, hv, Bool.not_true, snoc_ne_root, if_false,
    make_path_to_parent_snoc pp hc, get_subfolder_canonical pp hpp,
    unlock_returns_canonical pp hpp, store_hmap_canonical pp hpp]
  cases hf : find t pp with
  | none => simp [ptr_eq_self]
  | some parent =>
    simp only []
    have hptr : ∀ h, ptr_eq (find (store_at t pp h) pp) (some parent) = true := by
      intro h
      have := addr_at_store_at_above t pp h pp (List.prefix_refl _) parent hf
      simp only [addr_at, hf] at this
      simp [ptr_eq, this]
    cases hg : hmap_get parent.hmap c with
    | none => simp [ptr_eq_self]
    | some node =>
      simp only [hptr, ptr_eq_self, if_true, hmap_remove, hg]
      simp

theorem tree_move_locked_canonical (t : Tree) (pa : List (List Char)) (ca : List Char)
    (pb : List (List Char)) (cb : List Char) (hpa : ∀ x ∈ pa, slash_free x)
    (hpb : ∀ x ∈ pb, slash_free x) :
    tree_move_locked t (canonical_path pa) ca (canonical_path pb) cb
      = move_at t pa ca pb cb := by
  simp only [tree_move_locked, move_at, get_subfolder_canonical pa hpa,
    get_subfolder_canonical pb hpb, store_hmap_canonical pa hpa, store_hmap_canonical pb hpb]
  cases find t pa with
  | none => rfl
  | some sp =>
    simp only []
    cases find t pb with
    | none => rfl
    | some tp =>
      simp only []
      cases hmap_get sp.hmap ca with
      | none => rfl
      | some n =>
        simp only []
        split
        · rfl
        · cases find (store_at t pa (hmap_remove sp.hmap ca).2) pb with
          | none => rfl
          | some tp1 => rfl


/-! ## Fuel

The loops over a path stop after at most one round per character: any fuel above
the length of the path gives the same result. -/

theorem split_path_length {s c r : List Char} (h : split_path s = some (c, r)) :
    r.length < s.length := by
  obtain ⟨e, -, -⟩ := split_path_some h
  rw [e]
  simp only [List.length_cons, List.length_append]
  omega

theorem get_subfolder_loop_fuel (f1 f2 : Nat) (t : Tree) (s : List Char)
    (h1 : s.length < f1) (h2 : s.length < f2) :
    get_subfolder_loop f1 t s = get_subfolder_loop f2 t s := by
  induction f1 generalizing f2 t s with
  | zero => omega
  | succ n ih =>
    cases f2 with
    | zero => omega
    | succ m =>
      simp only [get_subfolder_loop]
      cases hs : split_path s with
      | none => rfl
      | some p =>
        obtain ⟨c, rest⟩ := p
        have hl := split_path_length hs
        simp only
        cases hmap_get t.hmap c with
        | none => rfl
        | some child => exact ih m child rest (by omega) (by omega)

theorem path_rdunlock_fuel (f1 f2 : Nat) (t : Option Tree) (s : List Char)
    (h1 : s.length < f1) (h2 : s.length < f2) :
    path_rdunlock f1 t s = path_rdunlock f2 t s := by
  induction f1 generalizing f2 t s with
  | zero => omega
  | succ n ih =>
    cases f2 with
    | zero => omega
    | succ m =>
      cases t with
      | none => simp [path_rdunlock]
      | some tree =>
        simp only [path_rdunlock]
        by_cases hnil : s = []
        · simp [hnil]
        · simp only [hnil, if_false]
          cases hs : split_path s with
          | none => rfl
          | some p =>
            obtain ⟨c, rest⟩ := p
            have hl := split_path_length hs
            simp only
            rw [ih m (hmap_get tree.hmap c) rest (by omega) (by omega)]

/-! ## The tree after removing and after inserting an entry -/

theorem snoc_prefix_iff (p : List (List Char)) (c d : List Char) (s : List (List Char)) :
    (p ++ [c]) <+: p ++ d :: s ↔ c = d := by
  rw [List.prefix_append_right_inj]
  constructor
  · intro h
    exact (List.cons_prefix_cons.mp h).1
  · rintro rfl
    exact List.cons_prefix_cons.mpr ⟨rfl, List.nil_prefix⟩

theorem not_snoc_prefix_self (p : List (List Char)) (c : List Char) : ¬ (p ++ [c]) <+: p := by
  intro h
  have := h.length_le
  simp at this

theorem initial_of_snoc {p : List (List Char)} {c : List Char} {q : List (List Char)}
    (h : (p ++ [c]) <+: q) : p <+: q :=
  (List.prefix_append p [c]).trans h

theorem addr_at_erase_inside (t : Tree) (pa : List (List Char)) (ca : List Char) (sp : Tree)
    (hsp : find t pa = some sp) (he : hmap_get (hmap_erase sp.hmap ca) ca = none)
    (s : List (List Char)) :
    addr_at (store_at t pa (hmap_erase sp.hmap ca)) (pa ++ [ca] ++ s) = none := by
  rw [List.append_assoc, addr_at, find_store_at_append t pa _ _ sp hsp]
  simp [find, he]

theorem addr_at_erase_outside (t : Tree) (pa : List (List Char)) (ca : List Char) (sp : Tree)
    (hsp : find t pa = some sp) (q : List (List Char)) (hq : ¬ (pa ++ [ca]) <+: q) :
    addr_at (store_at t pa (hmap_erase sp.hmap ca)) q = addr_at t q := by
  by_cases hp : pa <+: q
  · obtain ⟨s, rfl⟩ := hp
    rw [addr_at, find_store_at_append t pa _ _ sp hsp]
    cases s with
    | nil => simp [find, addr_at, hsp]
    | cons c s =>
      have hc : c ≠ ca := fun e => hq ((snoc_prefix_iff pa ca c s).mpr e.symm)
      simp only [addr_at, find_append, hsp, Option.some_bind, find, hmap_node,
        hmap_get_erase_ne _ _ _ hc]
  · exact addr_at_store_at_aside t pa _ q hp

theorem addr_at_insert_inside (t : Tree) (pb : List (List Char)) (cb : List Char) (n tp : Tree)
    (htp : find t pb = some tp) (s : List (List Char)) :
    addr_at (store_at t pb ((cb, n) :: tp.hmap)) (pb ++ [cb] ++ s) = addr_at n s := by
  rw [List.append_assoc, addr_at, find_store_at_append t pb _ _ tp htp]
  simp [find, hmap_get, addr_at]

theorem addr_at_insert_outside (t : Tree) (pb : List (List Char)) (cb : List Char) (n tp : Tree)
    (htp : find t pb = some tp) (q : List (List Char)) (hq : ¬ (pb ++ [cb]) <+: q) :
    addr_at (store_at t pb ((cb, n) :: tp.hmap)) q = addr_at t q := by
  by_cases hp : pb <+: q
  · obtain ⟨s, rfl⟩ := hp
    rw [addr_at, find_store_at_append t pb _ _ tp htp]
    cases s with
    | nil => simp [find, addr_at, htp]
    | cons c s =>
      have hc : ¬ cb = c := fun e => hq ((snoc_prefix_iff pb cb c s).mpr e)
      simp only [addr_at, find_append, htp, Option.some_bind, find, hmap_node, hmap_get,
        if_neg hc]
  · exact addr_at_store_at_aside t pb _ q hp

theorem addr_at_append (t : Tree) (p s : List (List Char)) (n : Tree) (h : find t p = some n) :
    addr_at t (p ++ s) = addr_at n s := by
  simp [addr_at, find_append, h]

theorem addr_at_none_below (t : Tree) (p q : List (List Char)) (hp : p <+: q)
    (h : addr_at t p = none) : addr_at t q = none := by
  simp only [addr_at, Option.map_eq_none'] at h ⊢
  exact find_none_below t p q hp h

theorem find_isSome_iff_addr_at (t : Tree) (q : List (List Char)) :
    find t q = none ↔ addr_at t q = none := by
  simp [addr_at]

/-! ## `tree_move` under the write lock -/

theorem move_at_cases (t : Tree) (pa : List (List Char)) (ca : List Char)
    (pb : List (List Char)) (cb : List Char) (r : Int) (t' : Tree)
    (h : move_at t pa ca pb cb = some (r, t')) :
    (r = ENOENT ∧ t' = t ∧ (find t (pa ++ [ca]) = none ∨ find t pb = none)) ∨
    ∃ sp n tp1, find t pa = some sp ∧ hmap_get sp.hmap ca = some n ∧
      find (store_at t pa (hmap_erase sp.hmap ca)) pb = some tp1 ∧
      ((hmap_get tp1.hmap cb = none ∧ r = 0 ∧
          t' = store_at (store_at t pa (hmap_erase sp.hmap ca)) pb ((cb, n) :: tp1.hmap)) ∨
       ((hmap_get tp1.hmap cb).isSome = true ∧
          hmap_get (hmap_erase sp.hmap ca) ca = none ∧ r = EEXIST ∧
          t' = store_at t pa ((ca, n) :: hmap_erase sp.hmap ca))) := by
  unfold move_at at h
  cases hsp : find t pa with
  | none =>
    simp only [hsp, Option.some.injEq, Prod.mk.injEq] at h
    left
    exact ⟨h.1.symm, h.2.symm, Or.inl (find_none_below t pa _ (List.prefix_append _ _) hsp)⟩
  | some sp =>
    simp only [hsp] at h
    cases htp : find t pb with
    | none =>
      simp only [htp, Option.some.injEq, Prod.mk.injEq] at h
      left
      exact ⟨h.1.symm, h.2.symm, Or.inr rfl⟩
    | some tp =>
      simp only [htp] at h
      cases hn : hmap_get sp.hmap ca with
      | none =>
        simp only [hn, Option.some.injEq, Prod.mk.injEq] at h
        left
        refine ⟨h.1.symm, h.2.symm, Or.inl ?_⟩
        rw [find_snoc, hsp]
        exact hn
      | some n =>
        right
        simp only [hn, hmap_remove] at h
        cases htp1 : find (store_at t pa (hmap_erase sp.hmap ca)) pb with
        | none => simp [htp1] at h
        | some tp1 =>
          simp only [htp1, hmap_insert] at h
          refine ⟨sp, n, tp1, rfl, hn, htp1, ?_⟩
          cases hcb : hmap_get tp1.hmap cb with
          | none =>
            simp [hcb] at h
            left
            exact ⟨rfl, h.1.symm, h.2.symm⟩
          | some v =>
            right
            cases hca : hmap_get (hmap_erase sp.hmap ca) ca with
            | none =>
              simp [hcb, hca, store_at_store_at] at h
              exact ⟨rfl, rfl, h.1.symm, h.2.symm⟩
            | some w => simp [hcb, hca] at h


theorem move_at_addr_above (t : Tree) (pa : List (List Char)) (ca : List Char)
    (pb : List (List Char)) (cb : List Char) (r : Int) (t' : Tree)
    (h : move_at t pa ca pb cb = some (r, t')) (l : List (List Char))
    (hla : l <+: pa) (hlb : l <+: pb) : addr_at t' l = addr_at t l := by
  rcases move_at_cases t pa ca pb cb r t' h with ⟨-, e, -⟩ | ⟨sp, n, tp1, hsp, -, htp1, hc⟩
  · rw [e]
  · rcases hc with ⟨-, -, e⟩ | ⟨-, -, -, e⟩
    · rw [e, addr_at_store_at_above _ pb _ l hlb tp1 htp1,
        addr_at_store_at_above _ pa _ l hla sp hsp]
    · rw [e, addr_at_store_at_above _ pa _ l hla sp hsp]

theorem snoc_slash_free {p : List (List Char)} {c : List Char} (hp : ∀ x ∈ p, slash_free x)
    (hc : slash_free c) : ∀ x ∈ p ++ [c], slash_free x := by
  intro x hx
  rcases List.mem_append.mp hx with h | h
  · exact hp x h
  · rw [List.mem_singleton.mp h]; exact hc

theorem tree_move_canonical_inside {F P : Nat} (t : Tree) (pa : List (List Char))
    (ca : List Char) (pb : List (List Char)) (cb : List Char)
    (hva : is_path_valid F P (canonical_path (pa ++ [ca])) = true)
    (hvb : is_path_valid F P (canonical_path (pb ++ [cb])) = true)
    (hpa : ∀ x ∈ pa, slash_free x) (hca : slash_free ca)
    (hpb : ∀ x ∈ pb, slash_free x) (hcb : slash_free cb)
    (h : strict_prefix_of (pa ++ [ca]) (pb ++ [cb])) :
    tree_move F P t (canonical_path (pa ++ [ca])) (canonical_path (pb ++ [cb]))
      = some (EINVMV, t) := by
  have hs : starts_with (canonical_path (pb ++ [cb])) (canonical_path (pa ++ [ca])) = true :=
    (starts_with_canonical (snoc_slash_free hpa hca) (snoc_slash_free hpb hcb)).mpr h
  simp only [tree_move, hva, hvb, Bool.not_true, snoc_ne_root, if_false,
    make_path_to_parent_snoc pa hca, make_path_to_parent_snoc pb hcb, hs, if_true]
  simp

theorem tree_move_canonical_above {F P : Nat} (t : Tree) (pa : List (List Char))
    (ca : List Char) (pb : List (List Char)) (cb : List Char)
    (hva : is_path_valid F P (canonical_path (pa ++ [ca])) = true)
    (hvb : is_path_valid F P (canonical_path (pb ++ [cb])) = true)
    (hpa : ∀ x ∈ pa, slash_free x) (hca : slash_free ca)
    (hpb : ∀ x ∈ pb, slash_free x) (hcb : slash_free cb)
    (h1 : ¬ strict_prefix_of (pa ++ [ca]) (pb ++ [cb]))
    (h2 : strict_prefix_of (pb ++ [cb]) (pa ++ [ca])) :
    tree_move F P t (canonical_path (pa ++ [ca])) (canonical_path (pb ++ [cb]))
      = some (if (find t (pa ++ [ca])).isSome then EEXIST else ENOENT, t) := by
  have hs1 : starts_with (canonical_path (pb ++ [cb])) (canonical_path (pa ++ [ca])) = false := by
    rw [Bool.eq_false_iff]
    intro e
    exact h1 ((starts_with_canonical (snoc_slash_free hpa hca) (snoc_slash_free hpb hcb)).mp e)
  have hs2 : starts_with (canonical_path (pa ++ [ca])) (canonical_path (pb ++ [cb])) = true :=
    (starts_with_canonical (snoc_slash_free hpb hcb) (snoc_slash_free hpa hca)).mpr h2
  simp only [tree_move, hva, hvb, Bool.not_true, snoc_ne_root, if_false,
    make_path_to_parent_snoc pa hca, make_path_to_parent_snoc pb hcb, hs1, hs2, if_true,
    get_subfolder_canonical _ (snoc_slash_free hpa hca),
    unlock_returns_canonical _ (snoc_slash_free hpa hca), ptr_eq_self]
  cases find t (pa ++ [ca]) <;> simp

theorem tree_move_canonical {F P : Nat} (t : Tree) (pa : List (List Char))
    (ca : List Char) (pb : List (List Char)) (cb : List Char)
    (hva : is_path_valid F P (canonical_path (pa ++ [ca])) = true)
    (hvb : is_path_valid F P (canonical_path (pb ++ [cb])) = true)
    (hpa : ∀ x ∈ pa, slash_free x) (hca : slash_free ca)
    (hpb : ∀ x ∈ pb, slash_free x) (hcb : slash_free cb)
    (h1 : ¬ strict_prefix_of (pa ++ [ca]) (pb ++ [cb]))
    (h2 : ¬ strict_prefix_of (pb ++ [cb]) (pa ++ [ca])) :
    tree_move F P t (canonical_path (pa ++ [ca])) (canonical_path (pb ++ [cb]))
      = move_at t pa ca pb cb := by
  have hs1 : starts_with (canonical_path (pb ++ [cb])) (canonical_path (pa ++ [ca])) = false := by
    rw [Bool.eq_false_iff]
    intro e
    exact h1 ((starts_with_canonical (snoc_slash_free hpa hca) (snoc_slash_free hpb hcb)).mp e)
  have hs2 : starts_with (canonical_path (pa ++ [ca])) (canonical_path (pb ++ [cb])) = false := by
    rw [Bool.eq_false_iff]
    intro e
    exact h2 ((starts_with_canonical (snoc_slash_free hpb hcb) (snoc_slash_free hpa hca)).mp e)
  obtain ⟨l, hla, hlb, hl⟩ := lca_path_canonical pa pb hpa hpb
  have hlsf : ∀ x ∈ l, slash_free x := fun x hx => hpa x (hla.subset hx)
  simp only [tree_move, hva, hvb, Bool.not_true, snoc_ne_root, if_false,
    make_path_to_parent_snoc pa hca, make_path_to_parent_snoc pb hcb, hs1, hs2,
    get_lca, hl, get_subfolder_canonical l hlsf, tree_move_locked_canonical t pa ca pb cb hpa hpb]
  simp only [Bool.false_eq_true, if_false]
  cases hfl : find t l with
  | none =>
    have : find t pa = none := find_none_below t l pa hla hfl
    simp [ptr_eq_self, move_at, this]
  | some lca =>
    simp only []
    cases hm : move_at t pa ca pb cb with
    | none => rfl
    | some res =>
      obtain ⟨r, t1⟩ := res
      have := move_at_addr_above t pa ca pb cb r t1 hm l hla hlb
      simp only [addr_at, hfl] at this
      simp [ptr_eq, this]

theorem valid_path_snoc {F P : Nat} {s : List Char} (hv : is_path_valid F P s = true)
    (hne : s ≠ ['/']) :
    ∃ pp c, s = canonical_path (pp ++ [c]) ∧ (∀ x ∈ pp, is_valid_component F x = true) ∧
      is_valid_component F c = true := by
  obtain ⟨cs, e, hcs⟩ := is_path_valid_sound hv
  rcases List.eq_nil_or_concat cs with h | ⟨pp, c, h⟩
  · subst h
    exact absurd e hne
  · rw [List.concat_eq_append] at h
    subst h
    exact ⟨pp, c, e, fun x hx => hcs x (by simp [hx]), hcs c (by simp)⟩

theorem tree_move_invalid_source {F P : Nat} (t : Tree) (a b : List Char)
    (h : ¬ is_path_valid F P a = true) : tree_move F P t a b = some (EINVAL, t) := by
  simp [tree_move, h]

theorem tree_move_invalid_target {F P : Nat} (t : Tree) (a b : List Char)
    (ha : is_path_valid F P a = true) (h : ¬ is_path_valid F P b = true) :
    tree_move F P t a b = some (EINVAL, t) := by
  simp [tree_move, h, ha]

theorem tree_move_root_source {F P : Nat} (t : Tree) (b : List Char)
    (ha : is_path_valid F P ['/'] = true) (hb : is_path_valid F P b = true) :
    tree_move F P t ['/'] b = some (EBUSY, t) := by
  simp [tree_move, ha, hb]

theorem tree_move_root_target {F P : Nat} (t : Tree) (a : List Char)
    (ha : is_path_valid F P a = true) (hb : is_path_valid F P ['/'] = true)
    (hra : a ≠ ['/']) : tree_move F P t a ['/'] = some (EEXIST, t) := by
  simp [tree_move, ha, hb, hra]

theorem move_at_code (t : Tree) (pa : List (List Char)) (ca : List Char)
    (pb : List (List Char)) (cb : List Char) (r : Int) (t' : Tree)
    (h : move_at t pa ca pb cb = some (r, t')) : r = ENOENT ∨ r = 0 ∨ r = EEXIST := by
  rcases move_at_cases t pa ca pb cb r t' h with ⟨e, -, -⟩ | ⟨sp, n, tp1, -, -, -, hc⟩
  · exact Or.inl e
  · rcases hc with ⟨-, e, -⟩ | ⟨-, -, e, -⟩
    · exact Or.inr (Or.inl e)
    · exact Or.inr (Or.inr e)

/-- Every returning run of `tree_move` either leaves the tree as it was, with a
code other than 0, or is a run of the locked part on two canonical non-root
paths neither of which is a proper prefix of the other. -/
theorem tree_move_inv {F P : Nat} (t : Tree) (a b : List Char) (r : Int) (t' : Tree)
    (h : tree_move F P t a b = some (r, t')) :
    (t' = t ∧ r ≠ 0 ∧ (r = EINVMV →
        is_path_valid F P a = true ∧ is_path_valid F P b = true ∧
          starts_with b a = true)) ∨
    ∃ pa ca pb cb, a = canonical_path (pa ++ [ca]) ∧ b = canonical_path (pb ++ [cb]) ∧
      (∀ x ∈ pa, is_valid_component F x = true) ∧ is_valid_component F ca = true ∧
      (∀ x ∈ pb, is_valid_component F x = true) ∧ is_valid_component F cb = true ∧
      ¬ strict_prefix_of (pa ++ [ca]) (pb ++ [cb]) ∧ ¬ strict_prefix_of (pb ++ [cb]) (pa ++ [ca]) ∧
      is_path_valid F P a = true ∧ is_path_valid F P b = true ∧
      move_at t pa ca pb cb = some (r, t') := by
  by_cases hva : is_path_valid F P a = true
  swap
  · rw [tree_move_invalid_source t a b hva] at h
    simp only [Option.some.injEq, Prod.mk.injEq] at h
    left
    exact ⟨h.2.symm, by rw [← h.1]; decide, by rw [← h.1]; intro e; exact absurd e (by decide)⟩
  by_cases hvb : is_path_valid F P b = true
  swap
  · rw [tree_move_invalid_target t a b hva hvb] at h
    simp only [Option.some.injEq, Prod.mk.injEq] at h
    left
    exact ⟨h.2.symm, by rw [← h.1]; decide, by rw [← h.1]; intro e; exact absurd e (by decide)⟩
  by_cases hra : a = ['/']
  · rw [hra] at h hva
    rw [tree_move_root_source t b hva hvb] at h
    simp only [Option.some.injEq, Prod.mk.injEq] at h
    left
    exact ⟨h.2.symm, by rw [← h.1]; decide, by rw [← h.1]; intro e; exact absurd e (by decide)⟩
  by_cases hrb : b = ['/']
  · rw [hrb] at h hvb
    rw [tree_move_root_target t a hva hvb hra] at h
    simp only [Option.some.injEq, Prod.mk.injEq] at h
    left
    exact ⟨h.2.symm, by rw [← h.1]; decide, by rw [← h.1]; intro e; exact absurd e (by decide)⟩
  obtain ⟨pa, ca, rfl, hpa, hca⟩ := valid_path_snoc hva hra
  obtain ⟨pb, cb, rfl, hpb, hcb⟩ := valid_path_snoc hvb hrb
  have hpa' : ∀ x ∈ pa, slash_free x := fun x hx => is_valid_component_slash_free (hpa x hx)
  have hpb' : ∀ x ∈ pb, slash_free x := fun x hx => is_valid_component_slash_free (hpb x hx)
  have hca' := is_valid_component_slash_free hca
  have hcb' := is_valid_component_slash_free hcb
  by_cases h1 : strict_prefix_of (pa ++ [ca]) (pb ++ [cb])
  · rw [tree_move_canonical_inside t pa ca pb cb hva hvb hpa' hca' hpb' hcb' h1] at h
    simp only [Option.some.injEq, Prod.mk.injEq] at h
    left
    refine ⟨h.2.symm, by rw [← h.1]; decide, fun _ => ⟨hva, hvb, ?_⟩⟩
    exact (starts_with_canonical (snoc_slash_free hpa' hca') (snoc_slash_free hpb' hcb')).mpr h1
  by_cases h2 : strict_prefix_of (pb ++ [cb]) (pa ++ [ca])
  · rw [tree_move_canonical_above t pa ca pb cb hva hvb hpa' hca' hpb' hcb' h1 h2] at h
    simp only [Option.some.injEq, Prod.mk.injEq] at h
    left
    refine ⟨h.2.symm, ?_, ?_⟩
    · rw [← h.1]; split <;> decide
    · rw [← h.1]; split <;> intro e <;> exact absurd e (by decide)
  · rw [tree_move_canonical t pa ca pb cb hva hvb hpa' hca' hpb' hcb' h1 h2] at h
    right
    exact ⟨pa, ca, pb, cb, rfl, rfl, hpa, hca, hpb, hcb, h1, h2, hva, hvb, h⟩


/-! ## Counting folders -/

theorem Tree.count_node (n : Tree) : n.count = 1 + hmap_count n.hmap := by
  cases n; simp [Tree.count]

theorem hmap_count_replace (m : HashMap) (c : List Char) (v w : Tree)
    (h : hmap_get m c = some v) :
    hmap_count (hmap_replace m c w) + v.count = hmap_count m + w.count := by
  induction m with
  | nil => simp [hmap_get] at h
  | cons e rest ih =>
    obtain ⟨k0, v0⟩ := e
    by_cases h0 : k0 = c
    · simp only [hmap_get, h0, if_true, Option.some.injEq] at h
      subst h
      simp only [hmap_replace, h0, if_true, hmap_count]
      omega
    · simp only [hmap_get, h0, if_false] at h
      have := ih h
      simp only [hmap_replace, h0, if_false, hmap_count]
      omega

theorem hmap_count_erase (m : HashMap) (c : List Char) (v : Tree)
    (h : hmap_get m c = some v) :
    hmap_count (hmap_erase m c) + v.count = hmap_count m := by
  induction m with
  | nil => simp [hmap_get] at h
  | cons e rest ih =>
    obtain ⟨k0, v0⟩ := e
    by_cases h0 : k0 = c
    · simp only [hmap_get, h0, if_true, Option.some.injEq] at h
      subst h
      simp only [hmap_erase, h0, if_true, hmap_count]
      omega
    · simp only [hmap_get, h0, if_false] at h
      have := ih h
      simp only [hmap_erase, h0, if_false, hmap_count]
      omega

theorem count_store_at (t : Tree) (p : List (List Char)) (h : HashMap) (n : Tree)
    (hn : find t p = some n) :
    (store_at t p h).count + hmap_count n.hmap = t.count + hmap_count h := by
  induction p generalizing t with
  | nil =>
    obtain ⟨a, m⟩ := t
    simp only [find, Option.some.injEq] at hn
    subst hn
    simp only [store_at, Tree.count, hmap_node]
    omega
  | cons c p ih =>
    obtain ⟨a, m⟩ := t
    simp only [find, hmap_node] at hn
    cases hc : hmap_get m c with
    | none => simp [hc] at hn
    | some child =>
      simp only [hc] at hn
      have h1 := ih child hn
      have h2 := hmap_count_replace m c child (store_at child p h) hc
      simp only [store_at, hc, Tree.count]
      omega

/-! ## A successful move -/

theorem find_snoc_of (t : Tree) (p : List (List Char)) (c : List Char) (sp n : Tree)
    (hsp : find t p = some sp) (hn : hmap_get sp.hmap c = some n) :
    find t (p ++ [c]) = some n := by
  rw [find_snoc, hsp]
  exact hn

theorem erase_self_none_of_wf {F : Nat} (t : Tree) (p : List (List Char)) (c : List Char)
    (sp : Tree) (hwf : t.wf F = true) (hsp : find t p = some sp) :
    hmap_get (hmap_erase sp.hmap c) c = none := by
  have := find_wf t p sp hwf hsp
  rw [Tree.wf_node] at this
  exact hmap_get_erase_self _ _ this

theorem move_at_success {F : Nat} (t : Tree) (pa : List (List Char)) (ca : List Char)
    (pb : List (List Char)) (cb : List Char) (t' : Tree) (hwf : t.wf F = true)
    (h : move_at t pa ca pb cb = some (0, t')) :
    (∀ s, addr_at t' (pb ++ [cb] ++ s) = addr_at t (pa ++ [ca] ++ s)) ∧
    (∀ q, ¬ (pb ++ [cb]) <+: q → ¬ (pa ++ [ca]) <+: q → addr_at t' q = addr_at t q) ∧
    (∀ q, ¬ (pb ++ [cb]) <+: q → (pa ++ [ca]) <+: q → addr_at t' q = none) ∧
    (¬ (pa ++ [ca]) <+: (pb ++ [cb]) → addr_at t (pb ++ [cb]) = none) ∧
    (folder_exists t (pa ++ [ca]) = true) ∧
    t'.count = t.count := by
  rcases move_at_cases t pa ca pb cb 0 t' h with ⟨e, -, -⟩ | ⟨sp, n, tp1, hsp, hn, htp1, hc⟩
  · exact absurd e (by decide)
  rcases hc with ⟨hcb, -, e⟩ | ⟨-, -, e, -⟩
  swap
  · exact absurd e (by decide)
  have he := erase_self_none_of_wf t pa ca sp hwf hsp
  have hfa : find t (pa ++ [ca]) = some n := find_snoc_of t pa ca sp n hsp hn
  subst e
  refine ⟨?_, ?_, ?_, ?_, ?_, ?_⟩
  · intro s
    rw [addr_at_insert_inside _ pb cb n tp1 htp1 s, addr_at_append t _ s n hfa]
  · intro q hb ha
    rw [addr_at_insert_outside _ pb cb n tp1 htp1 q hb, addr_at_erase_outside t pa ca sp hsp q ha]
  · rintro q hb ⟨s, rfl⟩
    rw [addr_at_insert_outside _ pb cb n tp1 htp1 _ hb]
    exact addr_at_erase_inside t pa ca sp hsp he s
  · intro hab
    rw [← addr_at_erase_outside t pa ca sp hsp _ hab]
    simp only [addr_at, find_snoc, htp1, Option.some_bind, hcb, Option.map_none']
  · simp [folder_exists, hfa]
  · have h1 := count_store_at t pa (hmap_erase sp.hmap ca) sp hsp
    have h2 := hmap_count_erase sp.hmap ca n hn
    have h3 := count_store_at _ pb ((cb, n) :: tp1.hmap) tp1 htp1
    simp only [hmap_count] at h3
    omega


theorem move_at_wf {F : Nat} (t : Tree) (pa : List (List Char)) (ca : List Char)
    (pb : List (List Char)) (cb : List Char) (r : Int) (t' : Tree) (hwf : t.wf F = true)
    (hca : is_valid_component F ca = true) (hcb : is_valid_component F cb = true)
    (h : move_at t pa ca pb cb = some (r, t')) : t'.wf F = true := by
  rcases move_at_cases t pa ca pb cb r t' h with ⟨-, e, -⟩ | ⟨sp, n, tp1, hsp, hn, htp1, hc⟩
  · rw [e]; exact hwf
  have hspwf := find_wf t pa sp hwf hsp
  rw [Tree.wf_node] at hspwf
  have hnwf := (hmap_get_wf _ _ _ hspwf hn).1
  have hewf := hmap_wf_erase sp.hmap ca hspwf
  have h0wf := store_at_wf t pa _ hwf hewf
  rcases hc with ⟨hcbn, -, e⟩ | ⟨-, he, -, e⟩
  · rw [e]
    have htpwf := find_wf _ pb tp1 h0wf htp1
    rw [Tree.wf_node] at htpwf
    exact store_at_wf _ pb _ h0wf (hmap_wf_cons _ _ _ hcb hcbn hnwf htpwf)
  · rw [e]
    exact store_at_wf t pa _ hwf (hmap_wf_cons _ _ _ hca he hnwf hewf)

theorem folder_exists_iff (t : Tree) (q : List (List Char)) :
    folder_exists t q = true ↔ addr_at t q ≠ none := by
  simp [folder_exists, addr_at, Option.isSome_iff_ne_none]

theorem not_prefix_of_not_strict {a b : List (List Char)} (hab : a ≠ b)
    (h : ¬ strict_prefix_of a b) : ¬ a <+: b :=
  fun e => h ⟨e, hab⟩

/-- C2. `tree_move` transfers the whole subtree intact: after
`tree_move(a, b)` returned 0 for paths `a ≠ b`, the folders that exist are
exactly the ones that existed outside `a` and the ones `b+s` for `a+s` that
existed; the folder under `b+s` is the node that was under `a+s`, nothing is
left under `a`, every folder outside `a` is kept as the same node, and the
number of folders is unchanged. -/
theorem tree_move_transfers_subtree (F P : Nat) (t : Tree) (a b : List Char) (t' : Tree)
    (hwf : t.wf F = true) (hab : a ≠ b) (h : tree_move F P t a b = some (0, t')) :
    (∀ q, folder_exists t' q = true ↔
        (folder_exists t q = true ∧ ¬ path_components a <+: q) ∨
        (∃ s, q = path_components b ++ s ∧ folder_exists t (path_components a ++ s) = true)) ∧
    (∀ s, addr_at t' (path_components b ++ s) = addr_at t (path_components a ++ s)) ∧
    (∀ s, folder_exists t' (path_components a ++ s) = false) ∧
    (∀ q, ¬ path_components a <+: q → folder_exists t q = true → addr_at t' q = addr_at t q) ∧
    t'.count = t.count := by
  rcases tree_move_inv t a b 0 t' h with ⟨-, e, -⟩ |
    ⟨pa, ca, pb, cb, rfl, rfl, hpa, hca, hpb, hcb, h1, h2, -, -, hm⟩
  · exact absurd rfl e
  have hsa : ∀ x ∈ pa ++ [ca], slash_free x :=
    snoc_slash_free (fun x hx => is_valid_component_slash_free (hpa x hx))
      (is_valid_component_slash_free hca)
  have hsb : ∀ x ∈ pb ++ [cb], slash_free x :=
    snoc_slash_free (fun x hx => is_valid_component_slash_free (hpb x hx))
      (is_valid_component_slash_free hcb)
  rw [path_components_canonical _ hsa, path_components_canonical _ hsb]
  have hne : pa ++ [ca] ≠ pb ++ [cb] := fun e => hab (by rw [e])
  have hnab : ¬ (pa ++ [ca]) <+: (pb ++ [cb]) := not_prefix_of_not_strict hne h1
  have hnba : ¬ (pb ++ [cb]) <+: (pa ++ [ca]) := not_prefix_of_not_strict (Ne.symm hne) h2
  obtain ⟨m1, m2, m3, m4, -, m6⟩ := move_at_success t pa ca pb cb t' hwf hm
  have hbnone := m4 hnab
  have hnb_of_a : ∀ q, (pa ++ [ca]) <+: q → ¬ (pb ++ [cb]) <+: q := by
    intro q ha hb
    rcases List.prefix_or_prefix_of_prefix ha hb with e | e
    · exact hnab e
    · exact hnba e
  refine ⟨?_, m1, ?_, ?_, m6⟩
  · intro q
    by_cases hb : (pb ++ [cb]) <+: q
    · obtain ⟨s, rfl⟩ := hb
      rw [folder_exists_iff, m1 s, ← folder_exists_iff]
      constructor
      · intro e
        exact Or.inr ⟨s, rfl, e⟩
      · rintro (⟨e, -⟩ | ⟨s', e1, e2⟩)
        · rw [folder_exists_iff] at e
          exact absurd (addr_at_none_below t _ _ (List.prefix_append _ _) hbnone) e
        · rw [List.append_cancel_left e1]
          exact e2
    · by_cases ha : (pa ++ [ca]) <+: q
      · rw [folder_exists_iff, m3 q hb ha]
        constructor
        · intro e; exact absurd rfl e
        · rintro (⟨-, e⟩ | ⟨s', e1, -⟩)
          · exact absurd ha e
          · exact absurd (e1 ▸ List.prefix_append _ _) hb
      · rw [folder_exists_iff, m2 q hb ha, ← folder_exists_iff]
        constructor
        · intro e; exact Or.inl ⟨e, ha⟩
        · rintro (⟨e, -⟩ | ⟨s', e1, -⟩)
          · exact e
          · exact absurd (e1 ▸ List.prefix_append _ _) hb
  · intro s
    have := m3 (pa ++ [ca] ++ s) (hnb_of_a _ (List.prefix_append _ _)) (List.prefix_append _ _)
    simp only [addr_at, Option.map_eq_none'] at this
    simp only [folder_exists, this, Option.isSome_none]
  · intro q ha hq
    by_cases hb : (pb ++ [cb]) <+: q
    · rw [folder_exists_iff] at hq
      exact absurd (addr_at_none_below t _ _ hb hbnone) hq
    · exact m2 q hb ha

theorem tree_move_transfers_subtree_witness :
    sample_tree.wf 255 = true ∧ str "/a/x/" ≠ str "/b/x/" ∧
      tree_move 255 4095 sample_tree (str "/a/x/") (str "/b/x/") = some (0, sample_moved) ∧
      (∀ s, folder_exists sample_moved (path_components (str "/a/x/") ++ s) = false) ∧
      sample_moved.count = sample_tree.count :=
  ⟨rfl, by decide, rfl,
    (tree_move_transfers_subtree 255 4095 sample_tree (str "/a/x/") (str "/b/x/") sample_moved
      rfl (by decide) rfl).2.2.1,
    (tree_move_transfers_subtree 255 4095 sample_tree (str "/a/x/") (str "/b/x/") sample_moved
      rfl (by decide) rfl).2.2.2.2⟩


/-! ## Listings of a well-formed tree -/

theorem tree_list_names {F P : Nat} (t : Tree) (cs : List (List Char)) (x : Tree)
    (hwf : t.wf F = true) (hv : is_path_valid F P (canonical_path cs) = true)
    (hcs : ∀ c ∈ cs, slash_free c) (hx : find t cs = some x) :
    tree_list F P t (canonical_path cs) = some (some (make_map_contents_string x.hmap)) ∧
      listing_names (make_map_contents_string x.hmap) = hmap_keys x.hmap := by
  refine ⟨by rw [tree_list_canonical t cs hv hcs, hx]; rfl, ?_⟩
  have := find_wf t cs x hwf hx
  rw [Tree.wf_node] at this
  exact listing_names_contents x.hmap this

theorem mem_keys_iff_find (t : Tree) (cs : List (List Char)) (x : Tree) (c : List Char)
    (hx : find t cs = some x) : c ∈ hmap_keys x.hmap ↔ find t (cs ++ [c]) ≠ none := by
  rw [find_snoc, hx, Option.some_bind, ne_eq, hmap_get_eq_none_iff, not_not]

theorem find_some_above (t : Tree) (p q : List (List Char)) (hp : p <+: q)
    (h : find t q ≠ none) : ∃ x, find t p = some x := by
  cases hf : find t p with
  | none => exact absurd (find_none_below t p q hp hf) h
  | some x => exact ⟨x, rfl⟩

/-- C1 (amended). After `tree_move(a, b)` returned 0 for paths `a ≠ b`, on a tree
whose child maps hold distinct valid names, `tree_list(parent(b))` contains the
terminal component of `b` and `tree_list(parent(a))` does not contain the
terminal component of `a`. -/
theorem tree_move_listings (F P : Nat) (t : Tree) (a b : List Char) (t' : Tree)
    (hwf : t.wf F = true) (hab : a ≠ b) (h : tree_move F P t a b = some (0, t')) :
    ∃ pa ca pb cb la lb, make_path_to_parent a = some (pa, ca) ∧
      make_path_to_parent b = some (pb, cb) ∧
      tree_list F P t' pb = some (some lb) ∧ cb ∈ listing_names lb ∧
      tree_list F P t' pa = some (some la) ∧ ca ∉ listing_names la := by
  rcases tree_move_inv t a b 0 t' h with ⟨-, e, -⟩ |
    ⟨pa, ca, pb, cb, rfl, rfl, hpa, hca, hpb, hcb, h1, h2, hva, hvb, hm⟩
  · exact absurd rfl e
  have hpa' : ∀ x ∈ pa, slash_free x := fun x hx => is_valid_component_slash_free (hpa x hx)
  have hpb' : ∀ x ∈ pb, slash_free x := fun x hx => is_valid_component_slash_free (hpb x hx)
  have hne : pa ++ [ca] ≠ pb ++ [cb] := fun e => hab (by rw [e])
  have hnab : ¬ (pa ++ [ca]) <+: (pb ++ [cb]) := not_prefix_of_not_strict hne h1
  have hnba : ¬ (pb ++ [cb]) <+: (pa ++ [ca]) := not_prefix_of_not_strict (Ne.symm hne) h2
  obtain ⟨m1, m2, m3, -, m5, -⟩ := move_at_success t pa ca pb cb t' hwf hm
  have hwf' := move_at_wf t pa ca pb cb 0 t' hwf hca hcb hm
  have hfa : find t (pa ++ [ca]) ≠ none := by
    rw [folder_exists, Option.isSome_iff_ne_none] at m5
    exact m5
  -- the target
  have hb' : find t' (pb ++ [cb]) ≠ none := by
    have := m1 []
    simp only [List.append_nil] at this
    rw [ne_eq, find_isSome_iff_addr_at, this, ← find_isSome_iff_addr_at]
    exact hfa
  obtain ⟨x, hx⟩ := find_some_above t' pb _ (List.prefix_append _ _) hb'
  obtain ⟨lx1, lx2⟩ := tree_list_names t' pb x hwf' (is_path_valid_parent pb cb hvb hpb) hpb' hx
  -- the source
  have hnbpa : ¬ (pb ++ [cb]) <+: pa := fun e => hnba (e.trans (List.prefix_append _ _))
  have hpa'' : find t' pa ≠ none := by
    rw [ne_eq, find_isSome_iff_addr_at, m2 pa hnbpa (not_snoc_prefix_self pa ca),
      ← find_isSome_iff_addr_at]
    intro e
    exact hfa (find_none_below t pa _ (List.prefix_append _ _) e)
  obtain ⟨y, hy⟩ := find_some_above t' pa pa (List.prefix_refl _) hpa''
  obtain ⟨ly1, ly2⟩ := tree_list_names t' pa y hwf' (is_path_valid_parent pa ca hva hpa) hpa' hy
  have ha' : find t' (pa ++ [ca]) = none := by
    rw [find_isSome_iff_addr_at]
    exact m3 _ hnba (List.prefix_refl _)
  refine ⟨canonical_path pa, ca, canonical_path pb, cb, _, _,
    make_path_to_parent_snoc pa (is_valid_component_slash_free hca),
    make_path_to_parent_snoc pb (is_valid_component_slash_free hcb), lx1, ?_, ly1, ?_⟩
  · rw [lx2, mem_keys_iff_find t' pb x cb hx]
    exact hb'
  · rw [ly2, mem_keys_iff_find t' pa y ca hy]
    exact fun e => e ha'

theorem tree_move_listings_witness :
    sample_tree.wf 255 = true ∧ str "/a/x/" ≠ str "/b/x/" ∧
      tree_move 255 4095 sample_tree (str "/a/x/") (str "/b/x/") = some (0, sample_moved) ∧
      ∃ pa ca pb cb la lb, make_path_to_parent (str "/a/x/") = some (pa, ca) ∧
        make_path_to_parent (str "/b/x/") = some (pb, cb) ∧
        tree_list 255 4095 sample_moved pb = some (some lb) ∧ cb ∈ listing_names lb ∧
        tree_list 255 4095 sample_moved pa = some (some la) ∧ ca ∉ listing_names la :=
  ⟨rfl, by decide, rfl,
    tree_move_listings 255 4095 sample_tree (str "/a/x/") (str "/b/x/") sample_moved
      rfl (by decide) rfl⟩

/-- C1, as stated, fails when a folder is moved onto itself: `tree_move("/b/",
"/b/")` returns 0 and `tree_list("/")` still contains `b` afterwards. -/
theorem tree_move_onto_self_still_listed :
    tree_move 255 4095 sample_tree (str "/b/") (str "/b/") = some (0, sample_self_moved) ∧
      make_path_to_parent (str "/b/") = some (str "/", str "b") ∧
      tree_list 255 4095 sample_self_moved (str "/") = some (some (str "b,a")) ∧
      str "b" ∈ listing_names (str "b,a") :=
  ⟨rfl, rfl, rfl, by decide⟩


/-! ## Return codes of `tree_move` -/

theorem find_store_at_self (t : Tree) (p : List (List Char)) (h : HashMap) (n : Tree)
    (hn : find t p = some n) : find (store_at t p h) p = some (.node n.addr h) := by
  have := find_store_at_append t p h [] n hn
  simpa [find] using this

theorem move_at_total {F : Nat} (t : Tree) (pa : List (List Char)) (ca : List Char)
    (pb : List (List Char)) (cb : List Char) (hwf : t.wf F = true)
    (hnab : ¬ (pa ++ [ca]) <+: (pb ++ [cb])) :
    ∃ r t', move_at t pa ca pb cb = some (r, t') ∧
      ((folder_exists t (pa ++ [ca]) = false ∨ folder_exists t pb = false) → r = ENOENT) ∧
      (folder_exists t (pa ++ [ca]) = true → folder_exists t pb = true →
        folder_exists t (pb ++ [cb]) = true → r = EEXIST) ∧
      (folder_exists t (pa ++ [ca]) = true → folder_exists t pb = true →
        folder_exists t (pb ++ [cb]) = false → r = 0) := by
  have hnapb : ¬ (pa ++ [ca]) <+: pb := fun e => hnab (e.trans (List.prefix_append _ _))
  cases hsp : find t pa with
  | none =>
    have hfa : folder_exists t (pa ++ [ca]) = false := by
      simp [folder_exists, find_none_below t pa _ (List.prefix_append _ _) hsp]
    refine ⟨ENOENT, t, by simp [move_at, hsp], fun _ => rfl, ?_, ?_⟩ <;>
      (intro e; rw [hfa] at e; cases e)
  | some sp =>
    cases htp : find t pb with
    | none =>
      have hfb : folder_exists t pb = false := by simp [folder_exists, htp]
      refine ⟨ENOENT, t, by simp [move_at, hsp, htp], fun _ => rfl, ?_, ?_⟩ <;>
        (intro _ e; rw [hfb] at e; cases e)
    | some tp =>
      cases hn : hmap_get sp.hmap ca with
      | none =>
        have hfa : folder_exists t (pa ++ [ca]) = false := by
          simp [folder_exists, find_snoc, hsp, hn]
        refine ⟨ENOENT, t, by simp [move_at, hsp, htp, hn], fun _ => rfl, ?_, ?_⟩ <;>
          (intro e; rw [hfa] at e; cases e)
      | some n =>
        have hfa : folder_exists t (pa ++ [ca]) = true := by
          simp [folder_exists, find_snoc, hsp, hn]
        have hfb : folder_exists t pb = true := by simp [folder_exists, htp]
        have he := erase_self_none_of_wf t pa ca sp hwf hsp
        have h0 : addr_at (store_at t pa (hmap_erase sp.hmap ca)) pb = addr_at t pb :=
          addr_at_erase_outside t pa ca sp hsp pb hnapb
        cases htp1 : find (store_at t pa (hmap_erase sp.hmap ca)) pb with
        | none => simp [addr_at, htp1, htp] at h0
        | some tp1 =>
          have hb0 : addr_at (store_at t pa (hmap_erase sp.hmap ca)) (pb ++ [cb])
              = addr_at t (pb ++ [cb]) := addr_at_erase_outside t pa ca sp hsp _ hnab
          cases hcb : hmap_get tp1.hmap cb with
          | none =>
            have hfbb : folder_exists t (pb ++ [cb]) = false := by
              have : addr_at t (pb ++ [cb]) = none := by
                rw [← hb0]
                simp [addr_at, find_snoc, htp1, hcb]
              simp only [addr_at, Option.map_eq_none'] at this
              simp [folder_exists, this]
            refine ⟨0, store_at (store_at t pa (hmap_erase sp.hmap ca)) pb ((cb, n) :: tp1.hmap),
              by simp [move_at, hsp, htp, hn, hmap_remove, htp1, hmap_insert, hcb],
              ?_, ?_, fun _ _ _ => rfl⟩
            · rintro (e | e)
              · rw [hfa] at e; cases e
              · rw [hfb] at e; cases e
            · intro _ _ e; rw [hfbb] at e; cases e
          | some v =>
            have hfbb : folder_exists t (pb ++ [cb]) = true := by
              have : addr_at t (pb ++ [cb]) = some v.addr := by
                rw [← hb0]
                simp [addr_at, find_snoc, htp1, hcb]
              simp only [addr_at, Option.map_eq_some'] at this
              obtain ⟨w, hw, -⟩ := this
              simp [folder_exists, hw]
            refine ⟨EEXIST,
              store_at (store_at t pa (hmap_erase sp.hmap ca)) pa
                ((ca, n) :: hmap_erase sp.hmap ca),
              by simp [move_at, hsp, htp, hn, hmap_remove, htp1, hmap_insert, hcb, he],
              ?_, fun _ _ _ => rfl, ?_⟩
            · rintro (e | e)
              · rw [hfa] at e; cases e
              · rw [hfb] at e; cases e
            · intro _ _ e; rw [hfbb] at e; cases e

/-- C3. Return code of `tree_move` outside the EINVMV case, for valid paths on a
tree whose child maps hold distinct valid names: source `"/"` gives EBUSY,
otherwise target `"/"` gives EEXIST; and for non-root paths `a ≠ b` where `a` is
not a proper prefix of `b`, the call returns, with ENOENT if the folder `a` or
the folder `parent(b)` does not exist, otherwise EEXIST if the folder `b` exists,
otherwise 0. -/
theorem tree_move_return_code (F P : Nat) (t : Tree) (a b : List Char)
    (hwf : t.wf F = true) (hva : is_path_valid F P a = true)
    (hvb : is_path_valid F P b = true) :
    (a = ['/'] → tree_move F P t a b = some (EBUSY, t)) ∧
    (a ≠ ['/'] → b = ['/'] → tree_move F P t a b = some (EEXIST, t)) ∧
    (a ≠ ['/'] → b ≠ ['/'] → a ≠ b →
      ¬ strict_prefix_of (path_components a) (path_components b) →
      ∃ r t', tree_move F P t a b = some (r, t') ∧
        ((folder_exists t (path_components a) = false ∨
            folder_exists t (path_components b).dropLast = false) → r = ENOENT) ∧
        (folder_exists t (path_components a) = true →
          folder_exists t (path_components b).dropLast = true →
          folder_exists t (path_components b) = true → r = EEXIST) ∧
        (folder_exists t (path_components a) = true →
          folder_exists t (path_components b).dropLast = true →
          folder_exists t (path_components b) = false → r = 0)) := by
  refine ⟨?_, ?_, ?_⟩
  · intro e
    subst e
    exact tree_move_root_source t b hva hvb
  · intro e1 e2
    subst e2
    exact tree_move_root_target t a hva hvb e1
  · intro hra hrb hab h1
    obtain ⟨pa, ca, rfl, hpa, hca⟩ := valid_path_snoc hva hra
    obtain ⟨pb, cb, rfl, hpb, hcb⟩ := valid_path_snoc hvb hrb
    have hpa' : ∀ x ∈ pa, slash_free x := fun x hx => is_valid_component_slash_free (hpa x hx)
    have hpb' : ∀ x ∈ pb, slash_free x := fun x hx => is_valid_component_slash_free (hpb x hx)
    have hca' := is_valid_component_slash_free hca
    have hcb' := is_valid_component_slash_free hcb
    rw [path_components_canonical _ (snoc_slash_free hpa' hca'),
      path_components_canonical _ (snoc_slash_free hpb' hcb')] at h1 ⊢
    rw [List.dropLast_concat]
    have hne : pa ++ [ca] ≠ pb ++ [cb] := fun e => hab (by rw [e])
    by_cases h2 : strict_prefix_of (pb ++ [cb]) (pa ++ [ca])
    · rw [tree_move_canonical_above t pa ca pb cb hva hvb hpa' hca' hpb' hcb' h1 h2]
      have hpre : ∀ q, q <+: pa ++ [ca] → folder_exists t (pa ++ [ca]) = true →
          folder_exists t q = true := by
        intro q hq e
        rw [folder_exists_iff] at e ⊢
        exact fun e2 => e (addr_at_none_below t q _ hq e2)
      refine ⟨_, t, rfl, ?_, ?_, ?_⟩
      · rintro (e | e)
        · simp only [folder_exists] at e
          simp [e]
        · cases hfa : folder_exists t (pa ++ [ca]) with
          | false =>
            simp only [folder_exists] at hfa
            simp [hfa]
          | true =>
            rw [hpre pb ((List.prefix_append _ _).trans h2.1) hfa] at e
            cases e
      · intro e _ _
        simp only [folder_exists] at e
        simp [e]
      · intro e _ e3
        rw [hpre _ h2.1 e] at e3
        cases e3
    · rw [tree_move_canonical t pa ca pb cb hva hvb hpa' hca' hpb' hcb' h1 h2]
      exact move_at_total t pa ca pb cb hwf (not_prefix_of_not_strict hne h1)

theorem tree_move_return_code_witness :
    sample_tree.wf 255 = true ∧ is_path_valid 255 4095 (str "/c/") = true ∧
      is_path_valid 255 4095 (str "/b/") = true ∧
      ∃ r t', tree_move 255 4095 sample_tree (str "/c/") (str "/b/") = some (r, t') ∧
        ((folder_exists sample_tree (path_components (str "/c/")) = false ∨
            folder_exists sample_tree (path_components (str "/b/")).dropLast = false) →
          r = ENOENT) ∧
        (folder_exists sample_tree (path_components (str "/c/")) = true →
          folder_exists sample_tree (path_components (str "/b/")).dropLast = true →
          folder_exists sample_tree (path_components (str "/b/")) = true → r = EEXIST) ∧
        (folder_exists sample_tree (path_components (str "/c/")) = true →
          folder_exists sample_tree (path_components (str "/b/")).dropLast = true →
          folder_exists sample_tree (path_components (str "/b/")) = false → r = 0) :=
  ⟨rfl, rfl, rfl,
    (tree_move_return_code 255 4095 sample_tree (str "/c/") (str "/b/") rfl rfl rfl).2.2
      (by decide) (by decide) (by decide)
      (by
        intro h
        have e : path_components (str "/c/") = [str "c"] := by rfl
        have e2 : path_components (str "/b/") = [str "b"] := by rfl
        rw [e, e2] at h
        exact absurd (List.cons_prefix_cons.mp h.1).1 (by decide))⟩


/-- C4. For valid paths `source ≠ "/"` and `target ≠ "/"`: if the components of
`source` are a proper prefix of the components of `target`, `tree_move` returns
EINVMV and the unchanged tree, whatever the tree holds; a run that returns
EINVMV only does so in that case and leaves the tree unchanged; and the test
`starts_with(target, source)` on the texts holds exactly in that case. -/
theorem tree_move_einvmv (F P : Nat) (t : Tree) (source target : List Char)
    (hvs : is_path_valid F P source = true) (hvt : is_path_valid F P target = true)
    (hs : source ≠ ['/']) (ht : target ≠ ['/']) :
    (strict_prefix_of (path_components source) (path_components target) →
      tree_move F P t source target = some (EINVMV, t)) ∧
    (∀ r t', tree_move F P t source target = some (r, t') → r = EINVMV →
      strict_prefix_of (path_components source) (path_components target) ∧ t' = t) ∧
    (starts_with target source = true ↔
      strict_prefix_of (path_components source) (path_components target)) := by
  obtain ⟨pa, ca, rfl, hpa, hca⟩ := valid_path_snoc hvs hs
  obtain ⟨pb, cb, rfl, hpb, hcb⟩ := valid_path_snoc hvt ht
  have hpa' : ∀ x ∈ pa, slash_free x := fun x hx => is_valid_component_slash_free (hpa x hx)
  have hpb' : ∀ x ∈ pb, slash_free x := fun x hx => is_valid_component_slash_free (hpb x hx)
  have hca' := is_valid_component_slash_free hca
  have hcb' := is_valid_component_slash_free hcb
  have hsw := starts_with_canonical (snoc_slash_free hpa' hca') (snoc_slash_free hpb' hcb')
  rw [path_components_canonical _ (snoc_slash_free hpa' hca'),
    path_components_canonical _ (snoc_slash_free hpb' hcb')]
  refine ⟨?_, ?_, hsw⟩
  · exact tree_move_canonical_inside t pa ca pb cb hvs hvt hpa' hca' hpb' hcb'
  · intro r t' h hr
    rcases tree_move_inv t _ _ r t' h with ⟨e, -, e2⟩ | ⟨_, _, _, _, -, -, -, -, -, -, -, -, -, -, hm⟩
    · exact ⟨hsw.mp (e2 hr).2.2, e⟩
    · rcases move_at_code _ _ _ _ _ r t' hm with e | e | e <;>
        (rw [hr] at e; exact absurd e (by decide))

theorem tree_move_einvmv_witness :
    is_path_valid 255 4095 (str "/a/") = true ∧ is_path_valid 255 4095 (str "/ab/") = true ∧
      str "/a/" ≠ ['/'] ∧ str "/ab/" ≠ ['/'] ∧
      (starts_with (str "/ab/") (str "/a/") = true ↔
        strict_prefix_of (path_components (str "/a/")) (path_components (str "/ab/"))) ∧
      starts_with (str "/ab/") (str "/a/") = false :=
  ⟨rfl, rfl, by decide, by decide,
    (tree_move_einvmv 255 4095 sample_tree (str "/a/") (str "/ab/") rfl rfl
      (by decide) (by decide)).2.2, rfl⟩

/-! ## Compensation -/

theorem same_tree_refl (t : Tree) : same_tree t t := ⟨fun _ => rfl, rfl⟩

theorem same_tree_reinsert (t : Tree) (pa : List (List Char)) (ca : List Char) (sp n : Tree)
    (hsp : find t pa = some sp) (hn : hmap_get sp.hmap ca = some n) :
    same_tree t (store_at t pa ((ca, n) :: hmap_erase sp.hmap ca)) := by
  refine ⟨?_, ?_⟩
  swap
  · have h1 := count_store_at t pa ((ca, n) :: hmap_erase sp.hmap ca) sp hsp
    have h2 := hmap_count_erase sp.hmap ca n hn
    simp only [hmap_count] at h1
    omega
  intro q
  have h0 := find_store_at_self t pa (hmap_erase sp.hmap ca) sp hsp
  have e : store_at t pa ((ca, n) :: hmap_erase sp.hmap ca)
      = store_at (store_at t pa (hmap_erase sp.hmap ca)) pa
          ((ca, n) :: (Tree.node sp.addr (hmap_erase sp.hmap ca)).hmap) := by
    rw [store_at_store_at]; rfl
  rw [e]
  by_cases hq : (pa ++ [ca]) <+: q
  · obtain ⟨s, rfl⟩ := hq
    rw [addr_at_insert_inside _ pa ca n _ h0 s,
      addr_at_append t _ s n (find_snoc_of t pa ca sp n hsp hn)]
  · rw [addr_at_insert_outside _ pa ca n _ h0 q hq, addr_at_erase_outside t pa ca sp hsp q hq]

/-- C5. A `tree_move` that returns EEXIST leaves the tree as it was: every
folder is where it was before the call, as the same node. -/
theorem tree_move_eexist_compensated (F P : Nat) (t : Tree) (a b : List Char) (t' : Tree)
    (h : tree_move F P t a b = some (EEXIST, t')) : same_tree t t' := by
  rcases tree_move_inv t a b EEXIST t' h with ⟨e, -, -⟩ |
    ⟨pa, ca, pb, cb, -, -, -, -, -, -, -, -, -, -, hm⟩
  · rw [e]; exact same_tree_refl t
  rcases move_at_cases t pa ca pb cb EEXIST t' hm with ⟨-, e, -⟩ | ⟨sp, n, tp1, hsp, hn, -, hc⟩
  · rw [e]; exact same_tree_refl t
  rcases hc with ⟨-, e, -⟩ | ⟨-, -, -, e⟩
  · exact absurd e (by decide)
  · rw [e]
    exact same_tree_reinsert t pa ca sp n hsp hn

theorem tree_move_eexist_compensated_witness :
    tree_move 255 4095 sample_tree (str "/b/") (str "/a/") = some (EEXIST, sample_self_moved) ∧
      same_tree sample_tree sample_self_moved :=
  ⟨rfl, tree_move_eexist_compensated 255 4095 sample_tree (str "/b/") (str "/a/")
    sample_self_moved rfl⟩


/-! ## The reader/writer lock -/

theorem lock_inv_init : lock_inv lock_init := by
  simp [lock_inv, lock_init, rwlock_new]

theorem lock_inv_step (s s' : LockState) (step : LockStep) (hinv : lock_inv s)
    (h : lock_step s step = some s') : lock_inv s' := by
  obtain ⟨⟨rc, wc, rw, ww, ch⟩, br, r, bw, w⟩ := s
  obtain ⟨h1, h2, h3, h4, h5, h6, h7, h8⟩ := hinv
  dsimp only at h1 h2 h3 h4 h5 h6 h7 h8
  cases step <;>
    simp only [lock_step, rwlock_rdlock_enter, rwlock_rdlock_wake, rwlock_rdunlock,
      rwlock_wrlock_enter, rwlock_wrlock_wake, rwlock_wrunlock] at h <;>
    split_ifs at h <;>
    first
    | (exfalso; simp_all; done)
    | (simp only [Option.some.injEq] at h
       subst h
       refine ⟨?_, ?_, ?_, ?_, ?_, ?_, ?_, ?_⟩ <;> dsimp only <;> omega)

theorem lock_inv_run (steps : List LockStep) (s s' : LockState) (hinv : lock_inv s)
    (h : lock_run s steps = some s') : lock_inv s' := by
  induction steps generalizing s with
  | nil =>
    simp only [lock_run, Option.some.injEq] at h
    rw [← h]; exact hinv
  | cons step rest ih =>
    simp only [lock_run] at h
    cases hs : lock_step s step with
    | none => simp [hs] at h
    | some s1 =>
      simp only [hs] at h
      exact ih s1 (lock_inv_step s s1 step hinv hs) h

/-- C6. RWLock mutual exclusion: in every state reachable from a fresh lock by
steps of rdlock, rdunlock, wrlock and wrunlock (unlocks by current holders,
waits waking in any order, also spuriously) at most one writer holds the lock,
no reader holds it together with a writer, and the four counters are
non-negative. -/
theorem rwlock_mutual_exclusion (steps : List LockStep) (s : LockState)
    (h : lock_run lock_init steps = some s) :
    s.lock.wcount ≤ 1 ∧ (s.lock.wcount > 0 → s.lock.rcount = 0) ∧
      0 ≤ s.lock.rcount ∧ 0 ≤ s.lock.wcount ∧ 0 ≤ s.lock.rwait ∧ 0 ≤ s.lock.wwait := by
  obtain ⟨h1, h2, h3, h4, -, h6, h7, -⟩ := lock_inv_run steps lock_init s lock_inv_init h
  refine ⟨by omega, ?_, by omega, by omega, by omega, by omega⟩
  intro hw
  omega

theorem rwlock_mutual_exclusion_witness :
    lock_run lock_init lock_sample_steps = some lock_sample_final ∧
      lock_sample_final.lock.wcount ≤ 1 ∧
      (lock_sample_final.lock.wcount > 0 → lock_sample_final.lock.rcount = 0) :=
  ⟨by decide,
    (rwlock_mutual_exclusion lock_sample_steps lock_sample_final (by decide)).1,
    (rwlock_mutual_exclusion lock_sample_steps lock_sample_final (by decide)).2.1⟩


/-! ## `tree_create` and `tree_remove` -/

theorem tree_create_invalid {F P : Nat} (t : Tree) (p : List Char) (new_addr : Nat)
    (h : ¬ is_path_valid F P p = true) : tree_create F P t p new_addr = some (EINVAL, t) := by
  simp [tree_create, h]

theorem tree_create_root {F P : Nat} (t : Tree) (new_addr : Nat)
    (h : is_path_valid F P ['/'] = true) :
    tree_create F P t ['/'] new_addr = some (EEXIST, t) := by
  simp [tree_create, h]

theorem tree_remove_invalid {F P : Nat} (t : Tree) (p : List Char)
    (h : ¬ is_path_valid F P p = true) : tree_remove F P t p = some (EINVAL, t) := by
  simp [tree_remove, h]

theorem tree_remove_root {F P : Nat} (t : Tree) (h : is_path_valid F P ['/'] = true) :
    tree_remove F P t ['/'] = some (EBUSY, t) := by
  simp [tree_remove, h]

/-- Every returning run of `tree_create` either leaves the tree as it was, with
a code other than 0, or puts a new empty folder into the child map of the
parent, which had no entry of that name, and returns 0. -/
theorem tree_create_inv {F P : Nat} (t : Tree) (p : List Char) (new_addr : Nat) (r : Int)
    (t' : Tree) (h : tree_create F P t p new_addr = some (r, t')) :
    (t' = t ∧ r ≠ 0) ∨
    ∃ pp c sub, p = canonical_path (pp ++ [c]) ∧
      (∀ x ∈ pp, is_valid_component F x = true) ∧ is_valid_component F c = true ∧
      is_path_valid F P p = true ∧ find t pp = some sub ∧ hmap_get sub.hmap c = none ∧
      r = 0 ∧ t' = store_at t pp ((c, tree_new new_addr) :: sub.hmap) := by
  by_cases hv : is_path_valid F P p = true
  swap
  · rw [tree_create_invalid t p new_addr hv] at h
    simp only [Option.some.injEq, Prod.mk.injEq] at h
    exact Or.inl ⟨h.2.symm, by rw [← h.1]; decide⟩
  by_cases hr : p = ['/']
  · rw [hr] at h hv
    rw [tree_create_root t new_addr hv] at h
    simp only [Option.some.injEq, Prod.mk.injEq] at h
    exact Or.inl ⟨h.2.symm, by rw [← h.1]; decide⟩
  obtain ⟨pp, c, rfl, hpp, hc⟩ := valid_path_snoc hv hr
  have hpp' : ∀ x ∈ pp, slash_free x := fun x hx => is_valid_component_slash_free (hpp x hx)
  rw [tree_create_canonical t pp c new_addr hv hpp' (is_valid_component_slash_free hc)] at h
  cases hf : find t pp with
  | none =>
    simp only [hf, Option.some.injEq, Prod.mk.injEq] at h
    exact Or.inl ⟨h.2.symm, by rw [← h.1]; decide⟩
  | some sub =>
    simp only [hf] at h
    cases hg : hmap_get sub.hmap c with
    | none =>
      simp only [hg, Option.isNone_none, if_true, Option.some.injEq, Prod.mk.injEq] at h
      exact Or.inr ⟨pp, c, sub, rfl, hpp, hc, hv, hf, hg, h.1.symm, h.2.symm⟩
    | some v =>
      simp only [hg, Option.isNone_some, Bool.false_eq_true, if_false, Option.some.injEq,
        Prod.mk.injEq] at h
      exact Or.inl ⟨h.2.symm, by rw [← h.1]; decide⟩

/-- Every returning run of `tree_remove` either leaves the tree as it was, with
a code other than 0, or takes the entry of an empty folder out of the child map
of the parent and returns 0. -/
theorem tree_remove_inv {F P : Nat} (t : Tree) (p : List Char) (r : Int) (t' : Tree)
    (h : tree_remove F P t p = some (r, t')) :
    (t' = t ∧ r ≠ 0) ∨
    ∃ pp c parent node, p = canonical_path (pp ++ [c]) ∧
      (∀ x ∈ pp, is_valid_component F x = true) ∧ is_valid_component F c = true ∧
      is_path_valid F P p = true ∧ find t pp = some parent ∧
      hmap_get parent.hmap c = some node ∧ node.hmap = [] ∧
      r = 0 ∧ t' = store_at t pp (hmap_erase parent.hmap c) := by
  by_cases hv : is_path_valid F P p = true
  swap
  · rw [tree_remove_invalid t p hv] at h
    simp only [Option.some.injEq, Prod.mk.injEq] at h
    exact Or.inl ⟨h.2.symm, by rw [← h.1]; decide⟩
  by_cases hr : p = ['/']
  · rw [hr] at h hv
    rw [tree_remove_root t hv] at h
    simp only [Option.some.injEq, Prod.mk.injEq] at h
    exact Or.inl ⟨h.2.symm, by rw [← h.1]; decide⟩
  obtain ⟨pp, c, rfl, hpp, hc⟩ := valid_path_snoc hv hr
  have hpp' : ∀ x ∈ pp, slash_free x := fun x hx => is_valid_component_slash_free (hpp x hx)
  rw [tree_remove_canonical t pp c hv hpp' (is_valid_component_slash_free hc)] at h
  cases hf : find t pp with
  | none =>
    simp only [hf, Option.some.injEq, Prod.mk.injEq] at h
    exact Or.inl ⟨h.2.symm, by rw [← h.1]; decide⟩
  | some parent =>
    simp only [hf] at h
    cases hg : hmap_get parent.hmap c with
    | none =>
      simp only [hg, Option.some.injEq, Prod.mk.injEq] at h
      exact Or.inl ⟨h.2.symm, by rw [← h.1]; decide⟩
    | some node =>
      simp only [hg] at h
      by_cases hsz : hmap_size node.hmap ≠ 0
      · simp only [hsz, if_true, Option.some.injEq, Prod.mk.injEq, ne_eq, not_false_eq_true] at h
        exact Or.inl ⟨h.2.symm, by rw [← h.1]; decide⟩
      · simp only [hsz, if_false, Option.some.injEq, Prod.mk.injEq] at h
        have hempty : node.hmap = [] := by
          simp only [hmap_size, ne_eq, not_not] at hsz
          exact List.eq_nil_of_length_eq_zero hsz
        exact Or.inr ⟨pp, c, parent, node, rfl, hpp, hc, hv, hf, hg, hempty, h.1.symm,
          h.2.symm⟩

/-- C7. After `tree_create(p)` returned 0, on a tree whose child maps hold
distinct valid names, `tree_list(parent(p))` is non-null and contains the
terminal component of `p`, and `tree_list(p)` is the empty listing. -/
theorem tree_create_listing (F P : Nat) (t : Tree) (p : List Char) (new_addr : Nat)
    (t' : Tree) (hwf : t.wf F = true) (h : tree_create F P t p new_addr = some (0, t')) :
    ∃ pp c l, make_path_to_parent p = some (pp, c) ∧
      tree_list F P t' pp = some (some l) ∧ c ∈ listing_names l ∧
      tree_list F P t' p = some (some []) := by
  rcases tree_create_inv t p new_addr 0 t' h with ⟨-, e⟩ |
    ⟨pp, c, sub, rfl, hpp, hc, hv, hf, hg, -, rfl⟩
  · exact absurd rfl e
  have hpp' : ∀ x ∈ pp, slash_free x := fun x hx => is_valid_component_slash_free (hpp x hx)
  have hc' := is_valid_component_slash_free hc
  have hsubwf := find_wf t pp sub hwf hf
  rw [Tree.wf_node] at hsubwf
  have hwf' : (store_at t pp ((c, tree_new new_addr) :: sub.hmap)).wf F = true :=
    store_at_wf t pp _ hwf (hmap_wf_cons _ _ _ hc hg (by simp [tree_new, Tree.wf, hmap_wf]) hsubwf)
  have hx := find_store_at_self t pp ((c, tree_new new_addr) :: sub.hmap) sub hf
  obtain ⟨l1, l2⟩ := tree_list_names _ pp _ hwf' (is_path_valid_parent pp c hv hpp) hpp' hx
  have hnew : find (store_at t pp ((c, tree_new new_addr) :: sub.hmap)) (pp ++ [c])
      = some (tree_new new_addr) :=
    find_snoc_of _ pp c _ _ hx (by simp [hmap_get])
  refine ⟨canonical_path pp, c, _, make_path_to_parent_snoc pp hc', l1, ?_, ?_⟩
  · rw [l2]
    exact List.mem_cons_self _ _
  · rw [tree_list_canonical _ _ hv (snoc_slash_free hpp' hc'), hnew]
    rfl

theorem tree_create_listing_witness :
    sample_tree.wf 255 = true ∧
      tree_create 255 4095 sample_tree (str "/b/c/") 7 = some (0, sample_created) ∧
      ∃ pp c l, make_path_to_parent (str "/b/c/") = some (pp, c) ∧
        tree_list 255 4095 sample_created pp = some (some l) ∧ c ∈ listing_names l ∧
        tree_list 255 4095 sample_created (str "/b/c/") = some (some []) :=
  ⟨rfl, rfl, tree_create_listing 255 4095 sample_tree (str "/b/c/") 7 sample_created rfl rfl⟩

theorem mem_keys_erase {F : Nat} (m : HashMap) (c n : List Char) (hwf : hmap_wf F m = true) :
    n ∈ hmap_keys (hmap_erase m c) ↔ n ≠ c ∧ n ∈ hmap_keys m := by
  rw [← not_iff_not, ← hmap_get_eq_none_iff]
  by_cases hn : n = c
  · subst hn
    simp [hmap_get_erase_self m n hwf]
  · rw [hmap_get_erase_ne m c n hn, hmap_get_eq_none_iff]
    simp [hn]

/-- C8. After `tree_remove(p)` returned 0, on a tree whose child maps hold
distinct valid names, the terminal component of `p` no longer appears in
`tree_list(parent(p))`, and every other name appears in that listing exactly if
it appeared before. -/
theorem tree_remove_listing (F P : Nat) (t : Tree) (p : List Char) (t' : Tree)
    (hwf : t.wf F = true) (h : tree_remove F P t p = some (0, t')) :
    ∃ pp c before after, make_path_to_parent p = some (pp, c) ∧
      tree_list F P t pp = some (some before) ∧ tree_list F P t' pp = some (some after) ∧
      c ∉ listing_names after ∧
      ∀ n, n ≠ c → (n ∈ listing_names after ↔ n ∈ listing_names before) := by
  rcases tree_remove_inv t p 0 t' h with ⟨-, e⟩ |
    ⟨pp, c, parent, node, rfl, hpp, hc, hv, hf, hg, -, -, rfl⟩
  · exact absurd rfl e
  have hpp' : ∀ x ∈ pp, slash_free x := fun x hx => is_valid_component_slash_free (hpp x hx)
  have hc' := is_valid_component_slash_free hc
  have hpwf := find_wf t pp parent hwf hf
  rw [Tree.wf_node] at hpwf
  have hwf' : (store_at t pp (hmap_erase parent.hmap c)).wf F = true :=
    store_at_wf t pp _ hwf (hmap_wf_erase _ _ hpwf)
  have hvp := is_path_valid_parent pp c hv hpp
  have hx := find_store_at_self t pp (hmap_erase parent.hmap c) parent hf
  obtain ⟨b1, b2⟩ := tree_list_names t pp parent hwf hvp hpp' hf
  obtain ⟨a1, a2⟩ := tree_list_names _ pp _ hwf' hvp hpp' hx
  refine ⟨canonical_path pp, c, _, _, make_path_to_parent_snoc pp hc', b1, a1, ?_, ?_⟩
  · rw [a2, hmap_node, mem_keys_erase _ c c hpwf]
    exact fun e => e.1 rfl
  · intro n hn
    rw [a2, b2, hmap_node, mem_keys_erase _ c n hpwf]
    exact ⟨fun e => e.2, fun e => ⟨hn, e⟩⟩

theorem tree_remove_listing_witness :
    sample_tree.wf 255 = true ∧
      tree_remove 255 4095 sample_tree (str "/a/x/") = some (0, sample_removed) ∧
      ∃ pp c before after, make_path_to_parent (str "/a/x/") = some (pp, c) ∧
        tree_list 255 4095 sample_tree pp = some (some before) ∧
        tree_list 255 4095 sample_removed pp = some (some after) ∧
        c ∉ listing_names after ∧
        ∀ n, n ≠ c → (n ∈ listing_names after ↔ n ∈ listing_names before) :=
  ⟨rfl, rfl, tree_remove_listing 255 4095 sample_tree (str "/a/x/") sample_removed rfl rfl⟩


/-! ## Round trips -/

theorem hmap_erase_head (k : List Char) (v : Tree) (m : HashMap) :
    hmap_erase ((k, v) :: m) k = m := by
  simp [hmap_erase]

theorem hmap_get_head (k : List Char) (v : Tree) (m : HashMap) :
    hmap_get ((k, v) :: m) k = some v := by
  simp [hmap_get]

/-- Moving back, on lists of components: after the locked part of a move from
`pa/ca` to `pb/cb` succeeded, the locked part of the move back succeeds and
leaves the source entry re-inserted in the tree before the first move. -/
theorem move_at_back {F : Nat} (t : Tree) (pa : List (List Char)) (ca : List Char)
    (pb : List (List Char)) (cb : List Char) (t1 : Tree) (hwf : t.wf F = true)
    (h2 : ¬ strict_prefix_of (pb ++ [cb]) (pa ++ [ca]))
    (h : move_at t pa ca pb cb = some (0, t1)) :
    ∃ t2, move_at t1 pb cb pa ca = some (0, t2) ∧ same_tree t t2 := by
  rcases move_at_cases t pa ca pb cb 0 t1 h with ⟨e, -, -⟩ | ⟨sp, n, tp1, hsp, hn, htp1, hc⟩
  · exact absurd e (by decide)
  rcases hc with ⟨hcb, -, e⟩ | ⟨-, -, e, -⟩
  swap
  · exact absurd e (by decide)
  have he := erase_self_none_of_wf t pa ca sp hwf hsp
  obtain ⟨-, m2, -, -, m5, -⟩ := move_at_success t pa ca pb cb t1 hwf h
  have hnbpa : ¬ (pb ++ [cb]) <+: pa := by
    intro e
    refine h2 ⟨e.trans (List.prefix_append _ _), ?_⟩
    intro e2
    rw [e2] at e
    exact not_snoc_prefix_self pa ca e
  have hpa1 : find t1 pa ≠ none := by
    rw [ne_eq, find_isSome_iff_addr_at, m2 pa hnbpa (not_snoc_prefix_self pa ca),
      ← find_isSome_iff_addr_at, hsp]
    exact fun e => by cases e
  obtain ⟨y, hy⟩ := find_some_above t1 pa pa (List.prefix_refl _) hpa1
  subst e
  have hx := find_store_at_self (store_at t pa (hmap_erase sp.hmap ca)) pb
    ((cb, n) :: tp1.hmap) tp1 htp1
  have hback : store_at (store_at (store_at t pa (hmap_erase sp.hmap ca)) pb
      ((cb, n) :: tp1.hmap)) pb tp1.hmap = store_at t pa (hmap_erase sp.hmap ca) := by
    rw [store_at_store_at, store_at_self _ pb tp1 htp1]
  have h0 := find_store_at_self t pa (hmap_erase sp.hmap ca) sp hsp
  refine ⟨store_at t pa ((ca, n) :: hmap_erase sp.hmap ca), ?_,
    same_tree_reinsert t pa ca sp n hsp hn⟩
  simp only [move_at, hx, hy, hmap_node, hmap_get_head, hmap_remove, hmap_erase_head,
    Bool.not_true, hback, h0, hmap_insert, he, store_at_store_at]
  simp

/-- C9. Move round trip: if `tree_move(a, b)` returns 0, on a tree whose child
maps hold distinct valid names, then the following `tree_move(b, a)` returns 0
too, and the tree it leaves is identical to the tree before the first move:
every folder is where it was, as the same node. -/
theorem tree_move_round_trip (F P : Nat) (t : Tree) (a b : List Char) (t1 : Tree)
    (hwf : t.wf F = true) (h : tree_move F P t a b = some (0, t1)) :
    ∃ t2, tree_move F P t1 b a = some (0, t2) ∧ same_tree t t2 := by
  rcases tree_move_inv t a b 0 t1 h with ⟨-, e, -⟩ |
    ⟨pa, ca, pb, cb, rfl, rfl, hpa, hca, hpb, hcb, h1, h2, hva, hvb, hm⟩
  · exact absurd rfl e
  have hpa' : ∀ x ∈ pa, slash_free x := fun x hx => is_valid_component_slash_free (hpa x hx)
  have hpb' : ∀ x ∈ pb, slash_free x := fun x hx => is_valid_component_slash_free (hpb x hx)
  rw [tree_move_canonical t1 pb cb pa ca hvb hva hpb' (is_valid_component_slash_free hcb) hpa'
    (is_valid_component_slash_free hca) h2 h1]
  exact move_at_back t pa ca pb cb t1 hwf h2 hm

theorem tree_move_round_trip_witness :
    sample_tree.wf 255 = true ∧
      tree_move 255 4095 sample_tree (str "/a/x/") (str "/b/x/") = some (0, sample_moved) ∧
      ∃ t2, tree_move 255 4095 sample_moved (str "/b/x/") (str "/a/x/") = some (0, t2) ∧
        same_tree sample_tree t2 :=
  ⟨rfl, rfl,
    tree_move_round_trip 255 4095 sample_tree (str "/a/x/") (str "/b/x/") sample_moved rfl rfl⟩

/-- C10. Create/remove round trip: if `tree_create(p)` returns 0, the
immediately following `tree_remove(p)` returns 0 and leaves exactly the tree
that was there before the create. -/
theorem tree_create_remove_round_trip (F P : Nat) (t : Tree) (p : List Char) (new_addr : Nat)
    (t1 : Tree) (h : tree_create F P t p new_addr = some (0, t1)) :
    tree_remove F P t1 p = some (0, t) := by
  rcases tree_create_inv t p new_addr 0 t1 h with ⟨-, e⟩ |
    ⟨pp, c, sub, rfl, hpp, hc, hv, hf, hg, -, rfl⟩
  · exact absurd rfl e
  have hpp' : ∀ x ∈ pp, slash_free x := fun x hx => is_valid_component_slash_free (hpp x hx)
  have hx := find_store_at_self t pp ((c, tree_new new_addr) :: sub.hmap) sub hf
  rw [tree_remove_canonical _ pp c hv hpp' (is_valid_component_slash_free hc)]
  simp only [hx, hmap_node, hmap_get_head, hmap_erase_head, store_at_store_at,
    store_at_self t pp sub hf]
  simp [tree_new, hmap_size]

theorem tree_create_remove_round_trip_witness :
    tree_create 255 4095 sample_tree (str "/b/c/") 7 = some (0, sample_created) ∧
      tree_remove 255 4095 sample_created (str "/b/c/") = some (0, sample_tree) :=
  ⟨rfl, tree_create_remove_round_trip 255 4095 sample_tree (str "/b/c/") 7 sample_created rfl⟩


/-! ## Identical trees give identical listings -/

theorem same_tree_symm {t u : Tree} (h : same_tree t u) : same_tree u t :=
  ⟨fun q => (h.1 q).symm, h.2.symm⟩

theorem same_tree_trans {t u v : Tree} (h1 : same_tree t u) (h2 : same_tree u v) :
    same_tree t v :=
  ⟨fun q => (h1.1 q).trans (h2.1 q), h1.2.trans h2.2⟩

theorem same_tree_find_none {t u : Tree} (h : same_tree t u) (q : List (List Char)) :
    find t q = none ↔ find u q = none := by
  rw [find_isSome_iff_addr_at, find_isSome_iff_addr_at, h.1 q]

/-- On two identical well-formed trees `tree_list` gives `NULL` for the same
paths and listings with the same names for the others. -/
theorem same_tree_list {F P : Nat} (t u : Tree) (h : same_tree t u) (hwt : t.wf F = true)
    (hwu : u.wf F = true) (p : List Char) :
    (tree_list F P t p = some none ∧ tree_list F P u p = some none) ∨
    ∃ l1 l2, tree_list F P t p = some (some l1) ∧ tree_list F P u p = some (some l2) ∧
      ∀ n, n ∈ listing_names l1 ↔ n ∈ listing_names l2 := by
  by_cases hv : is_path_valid F P p = true
  swap
  · left
    simp [tree_list, hv]
  obtain ⟨cs, rfl, hcs⟩ := is_path_valid_sound hv
  have hsf : ∀ c ∈ cs, slash_free c := fun c hc => is_valid_component_slash_free (hcs c hc)
  cases hx : find t cs with
  | none =>
    left
    have hy := (same_tree_find_none h cs).mp hx
    simp [tree_list_canonical _ cs hv hsf, hx, hy]
  | some x =>
    right
    cases hy : find u cs with
    | none => rw [(same_tree_find_none h cs).mpr hy] at hx; cases hx
    | some y =>
      obtain ⟨a1, a2⟩ := tree_list_names t cs x hwt hv hsf hx
      obtain ⟨b1, b2⟩ := tree_list_names u cs y hwu hv hsf hy
      refine ⟨_, _, a1, b1, ?_⟩
      intro n
      rw [a2, b2, mem_keys_iff_find t cs x n hx, mem_keys_iff_find u cs y n hy, ne_eq, ne_eq,
        same_tree_find_none h]

/-! ## Reachable trees are well-formed -/

theorem tree_new_wf (F : Nat) (addr : Nat) : (tree_new addr).wf F = true := by
  simp [tree_new, Tree.wf, hmap_wf]

theorem tree_create_wf {F P : Nat} (t : Tree) (p : List Char) (new_addr : Nat) (r : Int)
    (t' : Tree) (hwf : t.wf F = true) (h : tree_create F P t p new_addr = some (r, t')) :
    t'.wf F = true := by
  rcases tree_create_inv t p new_addr r t' h with ⟨e, -⟩ |
    ⟨pp, c, sub, -, -, hc, -, hf, hg, -, rfl⟩
  · rw [e]; exact hwf
  have hsubwf := find_wf t pp sub hwf hf
  rw [Tree.wf_node] at hsubwf
  exact store_at_wf t pp _ hwf (hmap_wf_cons _ _ _ hc hg (tree_new_wf F new_addr) hsubwf)

theorem tree_remove_wf {F P : Nat} (t : Tree) (p : List Char) (r : Int) (t' : Tree)
    (hwf : t.wf F = true) (h : tree_remove F P t p = some (r, t')) : t'.wf F = true := by
  rcases tree_remove_inv t p r t' h with ⟨e, -⟩ |
    ⟨pp, c, parent, node, -, -, -, -, hf, -, -, -, rfl⟩
  · rw [e]; exact hwf
  have hpwf := find_wf t pp parent hwf hf
  rw [Tree.wf_node] at hpwf
  exact store_at_wf t pp _ hwf (hmap_wf_erase _ _ hpwf)

theorem tree_move_wf {F P : Nat} (t : Tree) (a b : List Char) (r : Int) (t' : Tree)
    (hwf : t.wf F = true) (h : tree_move F P t a b = some (r, t')) : t'.wf F = true := by
  rcases tree_move_inv t a b r t' h with ⟨e, -, -⟩ |
    ⟨pa, ca, pb, cb, -, -, -, hca, -, hcb, -, -, -, -, hm⟩
  · rw [e]; exact hwf
  · exact move_at_wf t pa ca pb cb r t' hwf hca hcb hm

/-! ## Return codes of `tree_remove`, `tree_create` and results of `tree_list` -/

theorem path_components_snoc {F : Nat} (pp : List (List Char)) (c : List Char)
    (hpp : ∀ x ∈ pp, is_valid_component F x = true) (hc : is_valid_component F c = true) :
    path_components (canonical_path (pp ++ [c])) = pp ++ [c] :=
  path_components_canonical _
    (snoc_slash_free (fun x hx => is_valid_component_slash_free (hpp x hx))
      (is_valid_component_slash_free hc))

theorem hmap_keys_eq_nil (m : HashMap) : hmap_keys m = [] ↔ m = [] := by
  cases m <;> simp [hmap_keys]

theorem folder_exists_false_iff (t : Tree) (q : List (List Char)) :
    folder_exists t q = false ↔ find t q = none := by
  cases h : find t q <;> simp [folder_exists, h]

theorem folder_exists_true_iff (t : Tree) (q : List (List Char)) :
    folder_exists t q = true ↔ ∃ n, find t q = some n := by
  cases h : find t q <;> simp [folder_exists, h]

/-- C11. Return code of `tree_remove`: EINVAL for a path that is not valid,
EBUSY for `"/"`, ENOENT when no folder exists under the path, ENOTEMPTY when
the folder has a child, and otherwise 0 with the folder taken out of the tree
(nothing is left under the path, every folder elsewhere is kept as the same
node, one node less); 0 is returned in that case only. -/
theorem tree_remove_return_code (F P : Nat) (t : Tree) (p : List Char) :
    (is_path_valid F P p = false → tree_remove F P t p = some (EINVAL, t)) ∧
    (is_path_valid F P p = true → p = ['/'] → tree_remove F P t p = some (EBUSY, t)) ∧
    (is_path_valid F P p = true → p ≠ ['/'] →
      (folder_exists t (path_components p) = false →
        tree_remove F P t p = some (ENOENT, t)) ∧
      (∀ node, find t (path_components p) = some node → hmap_keys node.hmap ≠ [] →
        tree_remove F P t p = some (ENOTEMPTY, t)) ∧
      (∀ node, find t (path_components p) = some node → hmap_keys node.hmap = [] →
        ∃ t', tree_remove F P t p = some (0, t') ∧
          (∀ q, ¬ path_components p <+: q → addr_at t' q = addr_at t q) ∧
          (t.wf F = true → ∀ q, path_components p <+: q → folder_exists t' q = false) ∧
          t'.count + 1 = t.count)) ∧
    (∀ t', tree_remove F P t p = some (0, t') →
      is_path_valid F P p = true ∧ p ≠ ['/'] ∧
        ∃ node, find t (path_components p) = some node ∧ hmap_keys node.hmap = []) := by
  refine ⟨?_, ?_, ?_, ?_⟩
  · intro h
    exact tree_remove_invalid t p (by simp [h])
  · intro hv hr
    subst hr
    exact tree_remove_root t hv
  · intro hv hr
    obtain ⟨pp, c, rfl, hpp, hc⟩ := valid_path_snoc hv hr
    have hpp' : ∀ x ∈ pp, slash_free x := fun x hx => is_valid_component_slash_free (hpp x hx)
    have hc' := is_valid_component_slash_free hc
    rw [path_components_snoc pp c hpp hc, tree_remove_canonical t pp c hv hpp' hc']
    refine ⟨?_, ?_, ?_⟩
    · intro hne
      rw [folder_exists_false_iff, find_snoc] at hne
      cases hf : find t pp with
      | none => rfl
      | some parent =>
        rw [hf] at hne
        simp only [Option.some_bind] at hne
        simp only [hne]
    · intro node hnode hkeys
      rw [find_snoc] at hnode
      cases hf : find t pp with
      | none => rw [hf] at hnode; cases hnode
      | some parent =>
        rw [hf] at hnode
        simp only [Option.some_bind] at hnode
        have hsz : hmap_size node.hmap ≠ 0 := by
          intro e
          apply hkeys
          rw [hmap_keys_eq_nil]
          exact List.eq_nil_of_length_eq_zero e
        simp only [hnode, hsz, ne_eq, not_false_eq_true, if_true]
    · intro node hnode hkeys
      have hnode0 := hnode
      rw [find_snoc] at hnode
      cases hf : find t pp with
      | none => rw [hf] at hnode; cases hnode
      | some parent =>
        rw [hf] at hnode
        simp only [Option.some_bind] at hnode
        have hempty : node.hmap = [] := (hmap_keys_eq_nil _).mp hkeys
        have hsz : ¬ hmap_size node.hmap ≠ 0 := by simp [hmap_size, hempty]
        simp only [hnode, hsz, if_false]
        refine ⟨_, rfl, ?_, ?_, ?_⟩
        · intro q hq
          exact addr_at_erase_outside t pp c parent hf q hq
        · rintro hwf q ⟨s, rfl⟩
          rw [folder_exists_false_iff, find_isSome_iff_addr_at]
          exact addr_at_erase_inside t pp c parent hf
            (erase_self_none_of_wf t pp c parent hwf hf) s
        · have h1 := count_store_at t pp (hmap_erase parent.hmap c) parent hf
          have h2 := hmap_count_erase parent.hmap c node hnode
          have h3 := Tree.count_node node
          rw [hempty] at h3
          simp only [hmap_count] at h3
          omega
  · intro t' h
    rcases tree_remove_inv t p 0 t' h with ⟨-, e⟩ |
      ⟨pp, c, parent, node, rfl, hpp, hc, hv, hf, hg, hempty, -, -⟩
    · exact absurd rfl e
    refine ⟨hv, snoc_ne_root pp c, node, ?_, ?_⟩
    · rw [path_components_snoc pp c hpp hc]
      exact find_snoc_of t pp c parent node hf hg
    · rw [hempty]; rfl

theorem tree_remove_return_code_witness :
    tree_remove 255 4095 sample_tree (str "/a/") = some (ENOTEMPTY, sample_tree) ∧
      tree_remove 255 4095 sample_tree (str "/c/") = some (ENOENT, sample_tree) :=
  ⟨((tree_remove_return_code 255 4095 sample_tree (str "/a/")).2.2.1 rfl (by decide)).2.1
      (.node 1 [(str "x", .node 3 [])]) rfl (by decide),
    ((tree_remove_return_code 255 4095 sample_tree (str "/c/")).2.2.1 rfl (by decide)).1 rfl⟩

theorem addr_at_cons_outside (t : Tree) (pp : List (List Char)) (c : List Char) (n sub : Tree)
    (hf : find t pp = some sub) (q : List (List Char)) (hq : ¬ (pp ++ [c]) <+: q) :
    addr_at (store_at t pp ((c, n) :: sub.hmap)) q = addr_at t q :=
  addr_at_insert_outside t pp c n sub hf q hq

/-- C12. Return code of `tree_create`: EINVAL for a path that is not valid,
EEXIST for `"/"`, ENOENT when the parent folder does not exist, EEXIST when the
parent has a child of that name, and otherwise 0 with a new empty folder under
the path (every folder elsewhere is kept as the same node, one node more); 0 is
returned in that case only. -/
theorem tree_create_return_code (F P : Nat) (t : Tree) (p : List Char) (new_addr : Nat) :
    (is_path_valid F P p = false → tree_create F P t p new_addr = some (EINVAL, t)) ∧
    (is_path_valid F P p = true → p = ['/'] →
      tree_create F P t p new_addr = some (EEXIST, t)) ∧
    (is_path_valid F P p = true → p ≠ ['/'] →
      (folder_exists t (path_components p).dropLast = false →
        tree_create F P t p new_addr = some (ENOENT, t)) ∧
      (folder_exists t (path_components p).dropLast = true →
        folder_exists t (path_components p) = true →
        tree_create F P t p new_addr = some (EEXIST, t)) ∧
      (folder_exists t (path_components p).dropLast = true →
        folder_exists t (path_components p) = false →
        ∃ t', tree_create F P t p new_addr = some (0, t') ∧
          find t' (path_components p) = some (tree_new new_addr) ∧
          (∀ q, ¬ path_components p <+: q → addr_at t' q = addr_at t q) ∧
          t'.count = t.count + 1)) ∧
    (∀ t', tree_create F P t p new_addr = some (0, t') →
      is_path_valid F P p = true ∧ p ≠ ['/'] ∧
        folder_exists t (path_components p).dropLast = true ∧
        folder_exists t (path_components p) = false) := by
  refine ⟨?_, ?_, ?_, ?_⟩
  · intro h
    exact tree_create_invalid t p new_addr (by simp [h])
  · intro hv hr
    subst hr
    exact tree_create_root t new_addr hv
  · intro hv hr
    obtain ⟨pp, c, rfl, hpp, hc⟩ := valid_path_snoc hv hr
    have hpp' : ∀ x ∈ pp, slash_free x := fun x hx => is_valid_component_slash_free (hpp x hx)
    have hc' := is_valid_component_slash_free hc
    rw [path_components_snoc pp c hpp hc, tree_create_canonical t pp c new_addr hv hpp' hc',
      List.dropLast_concat]
    refine ⟨?_, ?_, ?_⟩
    · intro hne
      rw [folder_exists_false_iff] at hne
      simp only [hne]
    · intro hpar hex
      obtain ⟨sub, hf⟩ := (folder_exists_true_iff t pp).mp hpar
      obtain ⟨n, hn⟩ := (folder_exists_true_iff t _).mp hex
      rw [find_snoc, hf] at hn
      simp only [Option.some_bind] at hn
      simp only [hf, hn, Option.isNone_some, Bool.false_eq_true, if_false]
    · intro hpar hex
      obtain ⟨sub, hf⟩ := (folder_exists_true_iff t pp).mp hpar
      rw [folder_exists_false_iff, find_snoc, hf] at hex
      simp only [Option.some_bind] at hex
      simp only [hf, hex, Option.isNone_none, if_true]
      have hx := find_store_at_self t pp ((c, tree_new new_addr) :: sub.hmap) sub hf
      refine ⟨_, rfl, ?_, ?_, ?_⟩
      · exact find_snoc_of _ pp c _ _ hx (hmap_get_head c _ _)
      · intro q hq
        exact addr_at_cons_outside t pp c _ sub hf q hq
      · have h1 := count_store_at t pp ((c, tree_new new_addr) :: sub.hmap) sub hf
        have hn : (tree_new new_addr).count = 1 := by simp [tree_new, Tree.count, hmap_count]
        simp only [hmap_count, hn] at h1
        omega
  · intro t' h
    rcases tree_create_inv t p new_addr 0 t' h with ⟨-, e⟩ |
      ⟨pp, c, sub, rfl, hpp, hc, hv, hf, hg, -, -⟩
    · exact absurd rfl e
    rw [path_components_snoc pp c hpp hc, List.dropLast_concat]
    refine ⟨hv, snoc_ne_root pp c, (folder_exists_true_iff t pp).mpr ⟨sub, hf⟩, ?_⟩
    rw [folder_exists_false_iff, find_snoc, hf]
    exact hg

theorem tree_create_return_code_witness :
    tree_create 255 4095 sample_tree (str "/a/") 7 = some (EEXIST, sample_tree) ∧
      tree_create 255 4095 sample_tree (str "/c/d/") 7 = some (ENOENT, sample_tree) :=
  ⟨((tree_create_return_code 255 4095 sample_tree (str "/a/") 7).2.2.1 rfl (by decide)).2.1
      rfl rfl,
    ((tree_create_return_code 255 4095 sample_tree (str "/c/d/") 7).2.2.1 rfl (by decide)).1
      rfl⟩

theorem hmap_keys_nodup {F : Nat} (m : HashMap) (hwf : hmap_wf F m = true) :
    (hmap_keys m).Nodup := by
  induction m with
  | nil => exact List.nodup_nil
  | cons e rest ih =>
    obtain ⟨k, v⟩ := e
    simp only [hmap_wf, Bool.and_eq_true, Option.isNone_iff_eq_none] at hwf
    have e : hmap_keys ((k, v) :: rest) = k :: hmap_keys rest := rfl
    rw [e, List.nodup_cons]
    exact ⟨(hmap_get_eq_none_iff rest k).mp hwf.1.1.2, ih hwf.2⟩

theorem make_map_contents_string_nil : make_map_contents_string [] = [] := by
  simp [make_map_contents_string, hmap_keys, List.intercalate]

/-- C13. `tree_list` returns `NULL` exactly when the path is not valid or no
folder exists under it; otherwise it returns the rendering of the child map of
that folder, whose names are exactly the names of the direct children, each
once (the empty string for a folder without children, such as `"/"` in a tree
fresh from `tree_new`). -/
theorem tree_list_result (F P : Nat) (t : Tree) (p : List Char) (hwf : t.wf F = true) :
    (tree_list F P t p = some none ↔
      (is_path_valid F P p = false ∨ folder_exists t (path_components p) = false)) ∧
    (is_path_valid F P p = true → ∀ node, find t (path_components p) = some node →
      tree_list F P t p = some (some (make_map_contents_string node.hmap)) ∧
      listing_names (make_map_contents_string node.hmap) = hmap_keys node.hmap ∧
      (hmap_keys node.hmap).Nodup ∧
      (∀ c, c ∈ hmap_keys node.hmap ↔ folder_exists t (path_components p ++ [c]) = true) ∧
      (hmap_keys node.hmap = [] → make_map_contents_string node.hmap = [])) ∧
    (1 ≤ P → ∀ addr, tree_list F P (tree_new addr) ['/'] = some (some [])) := by
  have hsecond : is_path_valid F P p = true → ∀ node, find t (path_components p) = some node →
      tree_list F P t p = some (some (make_map_contents_string node.hmap)) ∧
      listing_names (make_map_contents_string node.hmap) = hmap_keys node.hmap ∧
      (hmap_keys node.hmap).Nodup ∧
      (∀ c, c ∈ hmap_keys node.hmap ↔ folder_exists t (path_components p ++ [c]) = true) ∧
      (hmap_keys node.hmap = [] → make_map_contents_string node.hmap = []) := by
    intro hv node hnode
    obtain ⟨cs, rfl, hcs⟩ := is_path_valid_sound hv
    have hsf : ∀ c ∈ cs, slash_free c := fun c hc => is_valid_component_slash_free (hcs c hc)
    rw [path_components_canonical cs hsf] at hnode ⊢
    obtain ⟨l1, l2⟩ := tree_list_names t cs node hwf hv hsf hnode
    have hnwf := find_wf t cs node hwf hnode
    rw [Tree.wf_node] at hnwf
    refine ⟨l1, l2, hmap_keys_nodup _ hnwf, ?_, ?_⟩
    · intro c
      rw [mem_keys_iff_find t cs node c hnode, folder_exists, Option.isSome_iff_ne_none]
    · intro e
      rw [(hmap_keys_eq_nil _).mp e]
      exact make_map_contents_string_nil
  refine ⟨?_, hsecond, ?_⟩
  · constructor
    · intro h
      by_cases hv : is_path_valid F P p = true
      · right
        cases hf : find t (path_components p) with
        | none => exact (folder_exists_false_iff t _).mpr hf
        | some node =>
          rw [(hsecond hv node hf).1] at h
          simp at h
      · left
        simpa using hv
    · rintro (h | h)
      · simp [tree_list, h]
      · by_cases hv : is_path_valid F P p = true
        · obtain ⟨cs, rfl, hcs⟩ := is_path_valid_sound hv
          have hsf : ∀ c ∈ cs, slash_free c :=
            fun c hc => is_valid_component_slash_free (hcs c hc)
          rw [path_components_canonical cs hsf, folder_exists_false_iff] at h
          rw [tree_list_canonical t cs hv hsf, h]
          rfl
        · simp [tree_list, hv]
  · intro hP addr
    have hv : is_path_valid F P (canonical_path []) = true :=
      is_path_valid_canonical [] (by simp) (by simpa [canonical_path] using hP)
    have := tree_list_canonical (tree_new addr) [] hv (by simp)
    simp only [canonical_path] at this
    rw [this]
    simp [find, tree_new, make_map_contents_string_nil]

theorem tree_list_result_witness :
    sample_tree.wf 255 = true ∧
      (tree_list 255 4095 sample_tree (str "/c/") = some none ↔
        (is_path_valid 255 4095 (str "/c/") = false ∨
          folder_exists sample_tree (path_components (str "/c/")) = false)) ∧
      tree_list 255 4095 (tree_new 0) ['/'] = some (some []) :=
  ⟨rfl, (tree_list_result 255 4095 sample_tree (str "/c/") rfl).1,
    (tree_list_result 255 4095 sample_tree (str "/c/") rfl).2.2 (by decide) 0⟩

/-! ## Passing over a blocked call of the lock -/

theorem watch_run_append (kind : Watched) (w : WatchState) (xs ys : List WatchStep) :
    watch_run kind w (xs ++ ys) = (watch_run kind w xs).bind (fun w' => watch_run kind w' ys) := by
  induction xs generalizing w with
  | nil => rfl
  | cons x xs ih =>
    simp only [List.cons_append, watch_run]
    cases watch_step kind w x with
    | none => rfl
    | some w' => exact ih w'

theorem reader_round_run (n : Nat) :
    watch_run .reader (reader_waits n) reader_round = some (reader_waits (n + 1)) := rfl

theorem writer_round_run (n : Nat) :
    watch_run .writer (writer_waits n) writer_round = some (writer_waits (n + 1)) := rfl

theorem reader_rounds_run (n : Nat) :
    watch_run .reader (reader_waits 0) (rounds reader_round n) = some (reader_waits n) := by
  suffices h : ∀ k, watch_run .reader (reader_waits k) (rounds reader_round n) =
      some (reader_waits (k + n)) by simpa using h 0
  induction n with
  | zero => intro k; rfl
  | succ n ih =>
    intro k
    rw [rounds, watch_run_append, reader_round_run, Option.some_bind, ih]
    congr 2
    omega

theorem writer_rounds_run (n : Nat) :
    watch_run .writer (writer_waits 0) (rounds writer_round n) = some (writer_waits n) := by
  suffices h : ∀ k, watch_run .writer (writer_waits k) (rounds writer_round n) =
      some (writer_waits (k + n)) by simpa using h 0
  induction n with
  | zero => intro k; rfl
  | succ n ih =>
    intro k
    rw [rounds, watch_run_append, writer_round_run, Option.some_bind, ih]
    congr 2
    omega

theorem reader_rounds_fair (n : Nat) :
    wakes_after_each_release false (rounds reader_round n) = true := by
  induction n with
  | zero => rfl
  | succ n ih => simpa [rounds, reader_round, wakes_after_each_release] using ih

theorem writer_rounds_fair (n : Nat) :
    wakes_after_each_release false (rounds writer_round n) = true := by
  induction n with
  | zero => rfl
  | succ n ih => simpa [rounds, writer_round, wakes_after_each_release] using ih

theorem spurious_round_run (n : Nat) :
    watch_run .writer (writer_behind_readers 0 2 n) spurious_round
      = some (writer_behind_readers 0 2 (n + 1)) := rfl

theorem spurious_rounds_run (n : Nat) :
    watch_run .writer (writer_behind_readers 0 2 0) (rounds spurious_round n)
      = some (writer_behind_readers 0 2 n) := by
  suffices h : ∀ k, watch_run .writer (writer_behind_readers 0 2 k) (rounds spurious_round n) =
      some (writer_behind_readers 0 2 (k + n)) by simpa using h 0
  induction n with
  | zero => intro k; rfl
  | succ n ih =>
    intro k
    rw [rounds, watch_run_append, spurious_round_run, Option.some_bind, ih]
    congr 2
    omega

theorem spurious_rounds_writers (n : Nat) :
    WatchStep.other LockStep.wrlock_enter ∉ rounds spurious_round n := by
  induction n with
  | zero => simp [rounds]
  | succ n ih =>
    simp only [rounds, List.mem_append, not_or]
    exact ⟨by decide, ih⟩

/-- C15. The lock starves a blocked call, against what the header comment of
rwlock.c says. A reader blocks behind a writer; in every round the
writer releases, a new reader takes the handoff and leaves, a new writer takes
the free lock, and only then the blocked reader returns from its wait: it has to
wait again, round after round, so no number of writer releases bounds its wait.
A blocked writer is passed over the same way by new writers; and with no new
writer at all, by new readers that leave their wait with no release to wake
them (which `pthread_cond_wait` allows) while no writer holds the lock. -/
theorem rwlock_blocked_call_passed_over :
    (lock_run lock_init [.wrlock_enter] = some writer_holds ∧
      watch_begin .reader writer_holds = some (reader_waits 0) ∧
      ¬ ∃ bound : Nat, ∀ steps w, watch_run .reader (reader_waits 0) steps = some w →
        wakes_after_each_release false steps = true → w.blocked = true →
        w.writer_releases ≤ bound) ∧
    (watch_begin .writer writer_holds = some (writer_waits 0) ∧
      ¬ ∃ bound : Nat, ∀ steps w, watch_run .writer (writer_waits 0) steps = some w →
        wakes_after_each_release false steps = true → w.blocked = true →
        w.writer_releases + w.reader_releases ≤ bound) ∧
    (watch_begin .writer readers_hold = some (writer_behind_readers 0 2 0) ∧
      ¬ ∃ bound : Nat, ∀ steps w,
        watch_run .writer (writer_behind_readers 0 2 0) steps = some w →
        WatchStep.other LockStep.wrlock_enter ∉ steps → w.blocked = true →
        w.writer_releases + w.reader_releases ≤ bound) := by
  refine ⟨⟨by decide, by decide, ?_⟩, ⟨by decide, ?_⟩, by decide, ?_⟩
  · rintro ⟨bound, h⟩
    have := h _ _ (reader_rounds_run (bound + 1)) (reader_rounds_fair _) rfl
    simp [reader_waits] at this
  · rintro ⟨bound, h⟩
    have := h _ _ (writer_rounds_run (bound + 1)) (writer_rounds_fair _) rfl
    simp [writer_waits] at this
  · rintro ⟨bound, h⟩
    have := h _ _ (spurious_rounds_run (bound + 1)) (spurious_rounds_writers _) rfl
    simp [writer_behind_readers] at this

theorem watch_step_blocked (kind : Watched) (w w' : WatchState) (st : WatchStep)
    (h : watch_step kind w st = some w') (hb : w'.blocked = true) : w.blocked = true := by
  cases st with
  | wake =>
    simp only [watch_step] at h
    split_ifs at h with hw
    exact hw
  | other step =>
    simp only [watch_step] at h
    cases hs : lock_step w.state step with
    | none => simp [hs] at h
    | some s1 =>
      simp only [hs] at h
      split_ifs at h <;>
        (simp only [Option.some.injEq] at h
         rw [← h] at hb
         exact hb)

theorem watch_run_blocked (kind : Watched) (steps : List WatchStep) (w w' : WatchState)
    (h : watch_run kind w steps = some w') (hb : w'.blocked = true) : w.blocked = true := by
  induction steps generalizing w with
  | nil =>
    simp only [watch_run, Option.some.injEq] at h
    rw [h]; exact hb
  | cons st rest ih =>
    simp only [watch_run] at h
    cases hs : watch_step kind w st with
    | none => simp [hs] at h
    | some w1 =>
      simp only [hs] at h
      exact watch_step_blocked kind w w1 st hs (ih w1 h)

theorem watch_run_inv (kind : Watched) (I : WatchState → Prop) (ok : WatchStep → Prop)
    (hstep : ∀ w w' st, I w → ok st → watch_step kind w st = some w' → w'.blocked = true → I w')
    (steps : List WatchStep) (w0 w : WatchState) (h0 : I w0) (hok : ∀ st ∈ steps, ok st)
    (h : watch_run kind w0 steps = some w) (hb : w.blocked = true) : I w := by
  induction steps generalizing w0 with
  | nil =>
    simp only [watch_run, Option.some.injEq] at h
    rw [← h]; exact h0
  | cons st rest ih =>
    simp only [watch_run] at h
    cases hs : watch_step kind w0 st with
    | none => simp [hs] at h
    | some w1 =>
      simp only [hs] at h
      have hb1 := watch_run_blocked kind rest w1 w h hb
      exact ih w1 (hstep w0 w1 st h0 (hok st (List.mem_cons_self _ _)) hs hb1)
        (fun s hsm => hok s (List.mem_cons_of_mem _ hsm)) h

theorem reader_inv_step (B : Int) (w w' : WatchState) (st : WatchStep) (hinv : reader_inv B w)
    (hne : st ≠ .other .rdlock_enter) (h : watch_step .reader w st = some w')
    (hb : w'.blocked = true) : reader_inv B w' := by
  obtain ⟨⟨⟨rc, wc, rw, ww, ch⟩, br, r, bw, wr⟩, blk, wrel, rrel⟩ := w
  obtain ⟨⟨h1, h2, h3, h4, h5, h6, h7, h8⟩, h9, h10⟩ := hinv
  dsimp only at h1 h2 h3 h4 h5 h6 h7 h8 h9 h10
  have hblk := watch_step_blocked .reader _ w' st h hb
  dsimp only at hblk
  subst hblk
  cases st with
  | wake =>
    simp only [watch_step, lock_step, rwlock_rdlock_wake] at h
    split_ifs at h <;>
    first
    | (exfalso; simp_all; done)
    | (simp only [Option.some.injEq] at h
       subst h
       first
       | (exfalso; assumption)
       | (exfalso; simp at hb; done)
       | (refine ⟨⟨?_, ?_, ?_, ?_, ?_, ?_, ?_, ?_⟩, ?_, ?_⟩ <;> dsimp only <;> omega))
  | other step =>
    cases step <;>
    first
    | (exfalso; exact hne rfl)
    | (simp only [watch_step, lock_step, rwlock_rdlock_enter, rwlock_rdlock_wake, rwlock_rdunlock,
        rwlock_wrlock_enter, rwlock_wrlock_wake, rwlock_wrunlock] at h
       split_ifs at h <;>
       first
       | (exfalso; simp_all; done)
       | (simp only [Option.some.injEq] at h
          subst h
          simp only [reduceCtorEq, and_false, false_and, or_false, false_or, not_and, not_le,
            true_and, not_true_eq_false, not_false_eq_true, if_true, if_false, reduceIte] at *
          refine ⟨⟨?_, ?_, ?_, ?_, ?_, ?_, ?_, ?_⟩, ?_, ?_⟩ <;> dsimp only <;> omega))

theorem writer_inv_step (B : Int) (w w' : WatchState) (st : WatchStep) (hinv : writer_inv B w)
    (hne : st ≠ .other .wrlock_enter ∧ st ≠ .other .rdlock_wake)
    (h : watch_step .writer w st = some w') (hb : w'.blocked = true) : writer_inv B w' := by
  obtain ⟨⟨⟨rc, wc, rw, ww, ch⟩, br, r, bw, wr⟩, blk, wrel, rrel⟩ := w
  obtain ⟨⟨h1, h2, h3, h4, h5, h6, h7, h8⟩, h9, h10, h11, h12⟩ := hinv
  dsimp only at h1 h2 h3 h4 h5 h6 h7 h8 h9 h10 h11 h12
  have hblk := watch_step_blocked .writer _ w' st h hb
  dsimp only at hblk
  subst hblk
  cases st with
  | wake =>
    simp only [watch_step, lock_step, rwlock_wrlock_wake] at h
    split_ifs at h <;>
    first
    | (exfalso; simp_all; done)
    | (simp only [Option.some.injEq] at h
       subst h
       first
       | (exfalso; assumption)
       | (exfalso; simp at hb; done)
       | (refine ⟨⟨?_, ?_, ?_, ?_, ?_, ?_, ?_, ?_⟩, ?_, ?_, ?_, ?_⟩ <;> dsimp only <;> omega))
  | other step =>
    cases step <;>
    first
    | (exfalso; exact hne.1 rfl)
    | (exfalso; exact hne.2 rfl)
    | (simp only [watch_step, lock_step, rwlock_rdlock_enter, rwlock_rdlock_wake, rwlock_rdunlock,
        rwlock_wrlock_enter, rwlock_wrlock_wake, rwlock_wrunlock] at h
       split_ifs at h <;>
       first
       | (exfalso; simp_all; done)
       | (exfalso; omega)
       | (simp only [Option.some.injEq] at h
          subst h
          simp only [reduceCtorEq, and_false, false_and, or_false, false_or, not_and, not_le,
            true_and, not_true_eq_false, not_false_eq_true, if_true, if_false, reduceIte] at *
          refine ⟨⟨?_, ?_, ?_, ?_, ?_, ?_, ?_, ?_⟩, ?_, ?_, ?_, ?_⟩ <;> dsimp only <;> omega))

theorem watch_begin_reader_inv (s0 : LockState) (w0 : WatchState) (hinv : lock_inv s0)
    (h : watch_begin .reader s0 = some w0) : reader_inv (s0.blocked_readers + 2) w0 := by
  simp only [watch_begin] at h
  cases hs : lock_step s0 .rdlock_enter with
  | none => simp [hs] at h
  | some s1 =>
    simp only [hs] at h
    split_ifs at h with hblk
    simp only [Option.some.injEq] at h
    subst h
    have hinv1 := lock_inv_step s0 s1 _ hinv hs
    obtain ⟨⟨rc, wc, rw, ww, ch⟩, br, r, bw, wr⟩ := s0
    simp only [lock_step, rwlock_rdlock_enter] at hs hblk
    split_ifs at hs hblk
    simp only [Option.some.injEq] at hs
    subst hs
    refine ⟨hinv1, ?_, ?_⟩ <;> dsimp only <;> omega

theorem watch_begin_writer_inv (s0 : LockState) (w0 : WatchState) (hinv : lock_inv s0)
    (hw : s0.writers = 0) (hbw : s0.blocked_writers = 0)
    (h : watch_begin .writer s0 = some w0) : writer_inv (s0.readers + s0.lock.change) w0 := by
  simp only [watch_begin] at h
  cases hs : lock_step s0 .wrlock_enter with
  | none => simp [hs] at h
  | some s1 =>
    simp only [hs] at h
    split_ifs at h with hblk
    simp only [Option.some.injEq] at h
    subst h
    have hinv1 := lock_inv_step s0 s1 _ hinv hs
    obtain ⟨⟨rc, wc, rw, ww, ch⟩, br, r, bw, wr⟩ := s0
    obtain ⟨h1, h2, h3, h4, h5, h6, h7, h8⟩ := hinv
    dsimp only at h1 h2 h3 h4 h5 h6 h7 h8 hw hbw
    simp only [lock_step, rwlock_wrlock_enter] at hs hblk
    split_ifs at hs hblk
    simp only [Option.some.injEq] at hs
    subst hs
    refine ⟨hinv1, ?_, ?_, ?_, ?_⟩ <;> dsimp only <;> omega

/-- What the counters of the lock do bound: against a stream of the other class
only, a blocked call is passed over a bounded number of times. A reader that had
to wait in
`rwlock_rdlock` sees, while it is blocked and no new reader arrives, at most as
many releases by writers as there are blocked readers (itself included),
whatever writers keep arriving; returning from its wait while no writer holds
the lock it is admitted. A writer that had to wait in `rwlock_wrlock` with no
other writer in flight sees, while it is blocked, no new writer arrives and the
blocked readers stay in their wait, at most as many releases by readers as
there were readers holding the lock (one more if `change` was set), whatever
readers keep arriving; returning from its wait while nobody holds the lock and
`change` is 0 it is admitted. -/
theorem rwlock_bounded_passing (s0 : LockState) (w0 : WatchState) (steps : List WatchStep)
    (w : WatchState) (hinv : lock_inv s0) :
    (watch_begin .reader s0 = some w0 → watch_run .reader w0 steps = some w →
      .other .rdlock_enter ∉ steps → w.blocked = true →
      w.writer_releases ≤ s0.blocked_readers + 1 ∧
        (w.state.lock.wcount = 0 →
          ∃ w', watch_step .reader w .wake = some w' ∧ w'.blocked = false)) ∧
    (watch_begin .writer s0 = some w0 → s0.writers = 0 → s0.blocked_writers = 0 →
      watch_run .writer w0 steps = some w →
      .other .wrlock_enter ∉ steps → .other .rdlock_wake ∉ steps → w.blocked = true →
      w.writer_releases = 0 ∧ (w.reader_releases : Int) ≤ s0.readers + s0.lock.change ∧
        (w.state.lock.rcount = 0 → w.state.lock.change = 0 →
          ∃ w', watch_step .writer w .wake = some w' ∧ w'.blocked = false)) := by
  constructor
  · intro hbegin hrun hno hb
    have h0 := watch_begin_reader_inv s0 w0 hinv hbegin
    have hI := watch_run_inv .reader (reader_inv (s0.blocked_readers + 2))
      (fun st => st ≠ .other .rdlock_enter)
      (fun w w' st hi hok hst hb' => reader_inv_step _ w w' st hi hok hst hb')
      steps w0 w h0 (fun st hst e => hno (e ▸ hst)) hrun hb
    obtain ⟨⟨⟨rc, wc, rw, ww, ch⟩, br, r, bw, wr⟩, blk, wrel, rrel⟩ := w
    obtain ⟨⟨h1, h2, h3, h4, h5, h6, h7, h8⟩, h9, h10⟩ := hI
    dsimp only at h1 h2 h3 h4 h5 h6 h7 h8 h9 h10 hb
    subst hb
    refine ⟨by dsimp only; omega, ?_⟩
    intro hwc
    dsimp only at hwc
    subst hwc
    have hbr : 0 < br := by omega
    simp [watch_step, lock_step, rwlock_rdlock_wake, hbr]
  · intro hbegin hw hbw hrun hno1 hno2 hb
    have h0 := watch_begin_writer_inv s0 w0 hinv hw hbw hbegin
    have hI := watch_run_inv .writer (writer_inv (s0.readers + s0.lock.change))
      (fun st => st ≠ .other .wrlock_enter ∧ st ≠ .other .rdlock_wake)
      (fun w w' st hi hok hst hb' => writer_inv_step _ w w' st hi hok hst hb')
      steps w0 w h0 (fun st hst => ⟨fun e => hno1 (e ▸ hst), fun e => hno2 (e ▸ hst)⟩) hrun hb
    obtain ⟨⟨⟨rc, wc, rw, ww, ch⟩, br, r, bw, wr⟩, blk, wrel, rrel⟩ := w
    obtain ⟨⟨h1, h2, h3, h4, h5, h6, h7, h8⟩, h9, h10, h11, h12⟩ := hI
    dsimp only at h1 h2 h3 h4 h5 h6 h7 h8 h9 h10 h11 h12 hb
    subst hb
    refine ⟨h11, by dsimp only; omega, ?_⟩
    intro hrc hch
    dsimp only at hrc hch
    subst hrc hch
    have hwc : wc = 0 := by omega
    subst hwc
    simp [watch_step, lock_step, rwlock_wrlock_wake, h9]

theorem rwlock_bounded_passing_witness :
    lock_inv writer_holds ∧
      (watch_run .reader (reader_waits 0) [.other .wrunlock, .other .wrlock_enter] =
          some
            { state :=
                { lock := { rcount := 0, wcount := 0, rwait := 1, wwait := 1, change := 1 },
                  blocked_readers := 1, readers := 0, blocked_writers := 1, writers := 0 },
              blocked := true, writer_releases := 1, reader_releases := 0 } ∧
        1 ≤ writer_holds.blocked_readers + 1) ∧
      lock_inv readers_hold ∧
      (watch_run .writer (writer_behind_readers 0 2 0)
          [.other .rdlock_enter, .other .rdunlock, .other .rdunlock] =
          some (writer_behind_readers 1 0 2) ∧
        ((2 : Nat) : Int) ≤ readers_hold.readers + readers_hold.lock.change) :=
  ⟨by simp [lock_inv, writer_holds], ⟨by decide,
    ((rwlock_bounded_passing writer_holds (reader_waits 0)
      [.other .wrunlock, .other .wrlock_enter]
      { state :=
          { lock := { rcount := 0, wcount := 0, rwait := 1, wwait := 1, change := 1 },
            blocked_readers := 1, readers := 0, blocked_writers := 1, writers := 0 },
        blocked := true, writer_releases := 1, reader_releases := 0 }
      (by simp [lock_inv, writer_holds])).1 (by decide) (by decide) (by decide) rfl).1⟩,
    by simp [lock_inv, readers_hold], by decide,
    ((rwlock_bounded_passing readers_hold (writer_behind_readers 0 2 0)
      [.other .rdlock_enter, .other .rdunlock, .other .rdunlock] (writer_behind_readers 1 0 2)
      (by simp [lock_inv, readers_hold])).2 (by decide) rfl rfl (by decide) (by decide)
      (by decide) rfl).2.1⟩

/-! ## The path built by `get_lca` -/

theorem common_prefix_length_max (q s t : List Char) (hs : q <+: s) (ht : q <+: t) :
    q.length ≤ common_prefix_length s t := by
  induction q generalizing s t with
  | nil => simp
  | cons x q ih =>
    obtain ⟨s1, rfl⟩ := hs
    obtain ⟨t1, rfl⟩ := ht
    simp only [List.cons_append, common_prefix_length, if_true, List.length_cons]
    exact Nat.succ_le_succ (ih _ _ (List.prefix_append _ _) (List.prefix_append _ _))

theorem last_slash_loop_max (l : List Char) (c last i : Nat) (h : l[i]? = some '/') :
    c + i ≤ last_slash_loop l c last := by
  induction l generalizing c last i with
  | nil => simp at h
  | cons ch rest ih =>
    simp only [last_slash_loop]
    cases i with
    | zero =>
      simp only [List.getElem?_cons_zero, Option.some.injEq] at h
      subst h
      simp only [if_true]
      rcases last_slash_loop_spec rest (c + 1) c with e | ⟨e, -⟩ <;> omega
    | succ i =>
      rw [List.getElem?_cons_succ] at h
      have := ih (c + 1) (if ch = '/' then c else last) i h
      omega

theorem lca_path_greatest (s t q0 : List Char) (hs : q0 ++ ['/'] <+: s)
    (ht : q0 ++ ['/'] <+: t) : q0 ++ ['/'] <+: lca_path s t := by
  have hk := common_prefix_length_max _ s t hs ht
  simp only [List.length_append, List.length_cons, List.length_nil] at hk
  obtain ⟨s1, rfl⟩ := hs
  have hget : ((q0 ++ ['/'] ++ s1).take (common_prefix_length (q0 ++ ['/'] ++ s1) t))[q0.length]?
      = some '/' := by
    rw [List.getElem?_take_of_lt (by omega), List.append_assoc,
      List.getElem?_append_right (le_refl _)]
    simp
  have hj := last_slash_loop_max _ 0 0 _ hget
  simp only [lca_path]
  rw [List.prefix_take_iff]
  refine ⟨List.prefix_append _ _, ?_⟩
  simp only [List.length_append, List.length_cons, List.length_nil]
  omega

theorem canonical_path_mono {l a : List (List Char)} (h : l <+: a) :
    canonical_path l <+: canonical_path a := by
  obtain ⟨u, rfl⟩ := h
  rw [canonical_path_append, canonical_path_eq_body l]
  obtain ⟨tl, htl⟩ := canonical_path_cons_slash u
  rw [htl]
  exact ⟨tl, by simp⟩

theorem prefix_of_canonical_path_prefix {l a : List (List Char)} (hl : ∀ c ∈ l, slash_free c)
    (ha : ∀ c ∈ a, slash_free c) (h : canonical_path l <+: canonical_path a) : l <+: a := by
  rw [canonical_path_eq_body l] at h
  obtain ⟨l2, hl2, e⟩ := prefix_canonical_path a ha _ h
  rw [← canonical_path_eq_body l] at e
  have := canonical_path_injective hl (fun c hc => ha c (hl2.subset hc)) e
  rw [this]
  exact hl2

/-- C16. For canonical paths `s` and `t` the path that `get_lca` descends (the
longest common prefix of the two texts, cut after its last slash) is a
canonical path and a prefix of both; every canonical path that is a prefix of
both is a prefix of it, so it is the longest one, and its components are the
longest common prefix of the two component lists: the deepest folder that is
an ancestor or self of both. It is `s` when `s` is a prefix of `t` (also when
`s = t`), and `"/"` when the first components differ. -/
theorem get_lca_path (F P : Nat) (s t : List Char) (hs : is_path_valid F P s = true)
    (ht : is_path_valid F P t = true) :
    (∀ tree mode, get_lca tree s t mode = get_subfolder tree (lca_path s t) mode) ∧
    is_path_valid F P (lca_path s t) = true ∧
    lca_path s t <+: s ∧ lca_path s t <+: t ∧
    (∀ q, is_path_valid F P q = true → q <+: s → q <+: t →
      q <+: lca_path s t ∧ q.length ≤ (lca_path s t).length) ∧
    (path_components (lca_path s t) <+: path_components s ∧
      path_components (lca_path s t) <+: path_components t ∧
      ∀ l, l <+: path_components s → l <+: path_components t →
        l <+: path_components (lca_path s t)) ∧
    (s <+: t → lca_path s t = s) ∧
    ((path_components s).head? ≠ (path_components t).head? → lca_path s t = ['/']) := by
  have hlen : s.length ≤ P := by
    simp only [is_path_valid, Bool.and_eq_true, decide_eq_true_eq] at hs
    exact hs.1
  have hs0 := hs
  obtain ⟨a, rfl, ha⟩ := is_path_valid_sound hs
  obtain ⟨b, rfl, hb⟩ := is_path_valid_sound ht
  have hsa : ∀ c ∈ a, slash_free c := fun c hc => is_valid_component_slash_free (ha c hc)
  have hsb : ∀ c ∈ b, slash_free c := fun c hc => is_valid_component_slash_free (hb c hc)
  obtain ⟨l, hla, hlb, hl⟩ := lca_path_canonical a b hsa hsb
  have hsl : ∀ c ∈ l, slash_free c := fun c hc => hsa c (hla.subset hc)
  have hgreat : ∀ q, is_path_valid F P q = true → q <+: canonical_path a →
      q <+: canonical_path b → q <+: lca_path (canonical_path a) (canonical_path b) := by
    intro q hq hqa hqb
    obtain ⟨cq, rfl, -⟩ := is_path_valid_sound hq
    rw [canonical_path_eq_body cq] at hqa hqb ⊢
    exact lca_path_greatest _ _ _ hqa hqb
  rw [path_components_canonical a hsa, path_components_canonical b hsb]
  refine ⟨fun _ _ => rfl, ?_, ?_, ?_, ?_, ?_, ?_, ?_⟩
  · rw [hl]
    exact is_path_valid_canonical l (fun c hc => ha c (hla.subset hc))
      (le_trans (canonical_path_mono hla).length_le hlen)
  · rw [hl]; exact canonical_path_mono hla
  · rw [hl]; exact canonical_path_mono hlb
  · intro q hq hqa hqb
    exact ⟨hgreat q hq hqa hqb, (hgreat q hq hqa hqb).length_le⟩
  · rw [hl, path_components_canonical l hsl]
    refine ⟨hla, hlb, ?_⟩
    intro l1 h1a h1b
    have hs1 : ∀ c ∈ l1, slash_free c := fun c hc => hsa c (h1a.subset hc)
    have h1 : canonical_path l1 <+: lca_path (canonical_path a) (canonical_path b) := by
      have e1 := canonical_path_mono h1a
      have e2 := canonical_path_mono h1b
      rw [canonical_path_eq_body l1] at e1 e2 ⊢
      exact lca_path_greatest _ _ _ e1 e2
    rw [hl] at h1
    exact prefix_of_canonical_path_prefix hs1 hsl h1
  · intro hpre
    have h1 := hgreat _ hs0 (List.prefix_refl _) hpre
    have h2 : lca_path (canonical_path a) (canonical_path b) <+: canonical_path a := by
      rw [hl]; exact canonical_path_mono hla
    exact h2.eq_of_length (Nat.le_antisymm h2.length_le h1.length_le)
  · intro hne
    rw [hl]
    cases l with
    | nil => rfl
    | cons c l1 =>
      exfalso
      apply hne
      obtain ⟨u, rfl⟩ := hla
      obtain ⟨v, hv⟩ := hlb
      rw [← hv]
      rfl

theorem get_lca_path_witness :
    is_path_valid 255 4095 (str "/ab/") = true ∧ is_path_valid 255 4095 (str "/ac/") = true ∧
      lca_path (str "/ab/") (str "/ac/") = ['/'] :=
  ⟨by decide, by decide,
    (get_lca_path 255 4095 (str "/ab/") (str "/ac/") (by decide) (by decide)).2.2.2.2.2.2.2
      (by decide)⟩

/-! ## Moving a folder onto itself -/

theorem move_at_self {F : Nat} (t : Tree) (pa : List (List Char)) (ca : List Char)
    (sp n : Tree) (hwf : t.wf F = true) (hsp : find t pa = some sp)
    (hn : hmap_get sp.hmap ca = some n) :
    move_at t pa ca pa ca = some (0, store_at t pa ((ca, n) :: hmap_erase sp.hmap ca)) := by
  have he := erase_self_none_of_wf t pa ca sp hwf hsp
  have h1 := find_store_at_self t pa (hmap_erase sp.hmap ca) sp hsp
  simp [move_at, hsp, hn, hmap_remove, h1, hmap_insert, he, store_at_store_at]

/-- C17. Move onto self: for a tree whose child maps hold distinct valid names
and a valid path `p` other than `"/"`, if a folder exists at `p` then
`tree_move(p, p)` returns 0, the same node (with its whole subtree) is at `p`
afterwards and the tree has the same folder under every path and the same
number of nodes as before; if no folder exists at `p` it returns ENOENT and the
tree is unchanged. -/
theorem tree_move_onto_self (F P : Nat) (t : Tree) (p : List Char) (hwf : t.wf F = true)
    (hp : is_path_valid F P p = true) (hroot : p ≠ ['/']) :
    (folder_exists t (path_components p) = true →
      ∃ t', tree_move F P t p p = some (0, t') ∧ same_tree t t' ∧
        find t' (path_components p) = find t (path_components p)) ∧
    (folder_exists t (path_components p) = false →
      tree_move F P t p p = some (ENOENT, t)) := by
  obtain ⟨pp, c, rfl, hpp, hc⟩ := valid_path_snoc hp hroot
  have hpp' : ∀ x ∈ pp, slash_free x := fun x hx => is_valid_component_slash_free (hpp x hx)
  have hc' := is_valid_component_slash_free hc
  have hns : ¬ strict_prefix_of (pp ++ [c]) (pp ++ [c]) := fun h => h.2 rfl
  rw [path_components_snoc pp c hpp hc,
    tree_move_canonical t pp c pp c hp hp hpp' hc' hpp' hc' hns hns]
  constructor
  · intro hex
    obtain ⟨n, hn⟩ := (folder_exists_true_iff t _).mp hex
    have hn0 := hn
    rw [find_snoc] at hn
    cases hf : find t pp with
    | none => rw [hf] at hn; cases hn
    | some sp =>
      rw [hf] at hn
      simp only [Option.some_bind] at hn
      refine ⟨_, move_at_self t pp c sp n hwf hf hn, same_tree_reinsert t pp c sp n hf hn, ?_⟩
      rw [hn0, find_store_at_append t pp _ [c] sp hf]
      simp [find, hmap_get]
  · intro hex
    rw [folder_exists_false_iff, find_snoc] at hex
    cases hf : find t pp with
    | none => simp [move_at, hf]
    | some sp =>
      rw [hf] at hex
      simp only [Option.some_bind] at hex
      simp [move_at, hf, hex]

theorem tree_move_onto_self_witness :
    sample_tree.wf 255 = true ∧ is_path_valid 255 4095 (str "/a/") = true ∧
      str "/a/" ≠ ['/'] ∧ folder_exists sample_tree (path_components (str "/a/")) = true ∧
      ∃ t', tree_move 255 4095 sample_tree (str "/a/") (str "/a/") = some (0, t') ∧
        same_tree sample_tree t' ∧
        find t' (path_components (str "/a/")) = find sample_tree (path_components (str "/a/")) :=
  ⟨rfl, by decide, by decide, rfl,
    (tree_move_onto_self 255 4095 sample_tree (str "/a/") rfl (by decide) (by decide)).1 rfl⟩

/-! ## The lock calls of one operation -/

theorem get_subfolder_loop_events_canonical (cs : List (List Char))
    (hcs : ∀ c ∈ cs, slash_free c) (fuel : Nat) (hfuel : cs.length < fuel) (t : Tree) :
    get_subfolder_loop_events fuel t (canonical_path cs)
      = (lock_chain t cs).map LockEvent.rdlock := by
  induction cs generalizing fuel t with
  | nil =>
    cases fuel with
    | zero => omega
    | succ fuel =>
      simp [get_subfolder_loop_events, canonical_path, split_path_root, lock_chain]
  | cons c cs ih =>
    cases fuel with
    | zero => omega
    | succ fuel =>
      have hc : slash_free c := hcs c (by simp)
      have hrest : ∀ x ∈ cs, slash_free x := fun x hx => hcs x (by simp [hx])
      simp only [get_subfolder_loop_events, split_path_canonical_cons hc, lock_chain,
        List.map_cons]
      cases hmap_get t.hmap c with
      | none => rfl
      | some child =>
        simp only
        rw [ih hrest fuel (by simpa using hfuel) child]

theorem path_rdunlock_events_canonical (cs : List (List Char))
    (hcs : ∀ c ∈ cs, slash_free c) (fuel : Nat) (hfuel : cs.length < fuel) (t : Tree) :
    path_rdunlock_events fuel (some t) (canonical_path cs)
      = (lock_chain t cs).reverse.map LockEvent.rdunlock := by
  induction cs generalizing fuel t with
  | nil =>
    cases fuel with
    | zero => omega
    | succ fuel =>
      simp [path_rdunlock_events, canonical_path, split_path_root, lock_chain]
  | cons c cs ih =>
    cases fuel with
    | zero => omega
    | succ fuel =>
      have hc : slash_free c := hcs c (by simp)
      have hrest : ∀ x ∈ cs, slash_free x := fun x hx => hcs x (by simp [hx])
      simp only [path_rdunlock_events, canonical_path_ne_nil, if_false,
        split_path_canonical_cons hc, lock_chain, List.reverse_cons, List.map_append,
        List.map_cons, List.map_nil]
      cases hmap_get t.hmap c with
      | none =>
        cases fuel with
        | zero => simp at hfuel
        | succ fuel => simp [path_rdunlock_events]
      | some child =>
        simp only
        rw [ih hrest fuel (by simpa using hfuel) child]

theorem get_subfolder_events_lock (cs : List (List Char)) (hcs : ∀ c ∈ cs, slash_free c)
    (t : Tree) :
    get_subfolder_events t (canonical_path cs) .LOCK = (lock_chain t cs).map LockEvent.rdlock :=
  get_subfolder_loop_events_canonical cs hcs _
    (Nat.lt_succ_of_lt (length_lt_canonical_path cs)) t

theorem get_subfolder_events_unlock (cs : List (List Char)) (hcs : ∀ c ∈ cs, slash_free c)
    (t : Tree) :
    get_subfolder_events t (canonical_path cs) .UNLOCK
      = (lock_chain t cs).reverse.map LockEvent.rdunlock :=
  path_rdunlock_events_canonical cs hcs _
    (Nat.lt_succ_of_lt (length_lt_canonical_path cs)) t

theorem lock_chain_store_at (t : Tree) (p : List (List Char)) (h : HashMap)
    (l : List (List Char)) (hl : l <+: p) : lock_chain (store_at t p h) l = lock_chain t l := by
  induction l generalizing t p with
  | nil => rfl
  | cons c l ih =>
    obtain ⟨u, rfl⟩ := hl
    obtain ⟨a, m⟩ := t
    simp only [List.cons_append, store_at, lock_chain, addr_node, hmap_node]
    cases hc : hmap_get m c with
    | none => simp [hc]
    | some child =>
      simp only [addr_node, hmap_node, hmap_get_replace, if_true, hc, Option.map_some']
      exact congrArg (a :: ·) (ih child (l ++ u) (List.prefix_append _ _))

theorem nodes_along_eq (t : Tree) (cs : List (List Char)) (n : Tree)
    (h : find t cs = some n) : nodes_along t cs = lock_chain t cs ++ [n.addr] := by
  induction cs generalizing t with
  | nil =>
    simp only [find, Option.some.injEq] at h
    subst h
    rfl
  | cons c cs ih =>
    simp only [find] at h
    cases hc : hmap_get t.hmap c with
    | none => simp [hc] at h
    | some child =>
      simp only [hc] at h
      simp only [nodes_along, lock_chain, hc, List.cons_append, ih child h]
theorem locks_bracketed_nil (t : Tree) : locks_bracketed t [] :=
  ⟨[], [], rfl, Or.inl rfl⟩

theorem tree_list_events_bracketed (F P : Nat) (t : Tree) (p : List Char) :
    locks_bracketed t (tree_list_events F P t p) := by
  by_cases hv : is_path_valid F P p = true
  swap
  · simp only [tree_list_events, hv, Bool.not_false, if_true]
    exact locks_bracketed_nil t
  obtain ⟨cs, rfl, hcs⟩ := is_path_valid_sound hv
  have hsf : ∀ c ∈ cs, slash_free c := fun c hc => is_valid_component_slash_free (hcs c hc)
  simp only [tree_list_events, hv, Bool.not_true, if_false, get_subfolder_canonical cs hsf,
    get_subfolder_events_lock cs hsf, get_subfolder_events_unlock cs hsf]
  cases hf : find t cs with
  | none => exact ⟨cs, [], by simp [bracket], Or.inl rfl⟩
  | some n =>
    exact ⟨cs, [.rdlock n.addr, .rdunlock n.addr], by simp [bracket], Or.inr ⟨n, hf, Or.inl rfl⟩⟩

theorem tree_create_events_bracketed (F P : Nat) (t : Tree) (p : List Char) (new_addr : Nat) :
    locks_bracketed t (tree_create_events F P t p new_addr) := by
  by_cases hv : is_path_valid F P p = true
  swap
  · simp only [tree_create_events, hv, Bool.not_false, if_true]
    exact locks_bracketed_nil t
  by_cases hr : p = ['/']
  · simp only [tree_create_events, hr, if_true, ite_self]
    exact locks_bracketed_nil t
  obtain ⟨pp, c, rfl, hpp, hc⟩ := valid_path_snoc hv hr
  have hpp' : ∀ x ∈ pp, slash_free x := fun x hx => is_valid_component_slash_free (hpp x hx)
  have hc' := is_valid_component_slash_free hc
  simp only [tree_create_events, hv, Bool.not_true, snoc_ne_root, if_false,
    make_path_to_parent_snoc pp hc', get_subfolder_canonical pp hpp',
    get_subfolder_events_lock pp hpp', get_subfolder_events_unlock pp hpp',
    store_hmap_canonical pp hpp', lock_chain_store_at _ _ _ _ (List.prefix_refl _)]
  cases hf : find t pp with
  | none => exact ⟨pp, [], by simp [bracket], Or.inl rfl⟩
  | some n =>
    exact ⟨pp, [.wrlock n.addr, .wrunlock n.addr], by simp [bracket], Or.inr ⟨n, hf, Or.inr rfl⟩⟩

theorem tree_remove_events_bracketed (F P : Nat) (t : Tree) (p : List Char) :
    locks_bracketed t (tree_remove_events F P t p) := by
  by_cases hv : is_path_valid F P p = true
  swap
  · simp only [tree_remove_events, hv, Bool.not_false, if_true]
    exact locks_bracketed_nil t
  by_cases hr : p = ['/']
  · simp only [tree_remove_events, hr, if_true, ite_self]
    exact locks_bracketed_nil t
  obtain ⟨pp, c, rfl, hpp, hc⟩ := valid_path_snoc hv hr
  have hpp' : ∀ x ∈ pp, slash_free x := fun x hx => is_valid_component_slash_free (hpp x hx)
  have hc' := is_valid_component_slash_free hc
  simp only [tree_remove_events, hv, Bool.not_true, snoc_ne_root, if_false,
    make_path_to_parent_snoc pp hc', get_subfolder_canonical pp hpp',
    get_subfolder_events_lock pp hpp', get_subfolder_events_unlock pp hpp',
    store_hmap_canonical pp hpp', lock_chain_store_at _ _ _ _ (List.prefix_refl _)]
  cases hf : find t pp with
  | none => exact ⟨pp, [], by simp [bracket], Or.inl rfl⟩
  | some n =>
    refine ⟨pp, [.wrlock n.addr, .wrunlock n.addr], ?_, Or.inr ⟨n, hf, Or.inr rfl⟩⟩
    cases hg : hmap_get n.hmap c with
    | none => simp [bracket, hg]
    | some node =>
      by_cases hsz : hmap_size node.hmap = 0
      · simp [bracket, hsz, hmap_remove, hg]
      · simp [bracket, hsz, hg]
theorem move_at_returns {F : Nat} (t : Tree) (pa : List (List Char)) (ca : List Char)
    (pb : List (List Char)) (cb : List Char) (hwf : t.wf F = true)
    (h : ¬ strict_prefix_of (pa ++ [ca]) (pb ++ [cb])) :
    ∃ r t1, move_at t pa ca pb cb = some (r, t1) := by
  by_cases hab : (pa ++ [ca]) <+: (pb ++ [cb])
  · have e : pa ++ [ca] = pb ++ [cb] := by
      by_contra hne
      exact h ⟨hab, hne⟩
    obtain ⟨e1, e2⟩ := List.append_inj' e rfl
    simp only [List.cons.injEq, and_true] at e2
    subst e1 e2
    cases hf : find t pa with
    | none => exact ⟨ENOENT, t, by simp [move_at, hf]⟩
    | some sp =>
      cases hn : hmap_get sp.hmap ca with
      | none => exact ⟨ENOENT, t, by simp [move_at, hf, hn]⟩
      | some n => exact ⟨0, _, move_at_self t pa ca sp n hwf hf hn⟩
  · obtain ⟨r, t1, hm, -⟩ := move_at_total t pa ca pb cb hwf hab
    exact ⟨r, t1, hm⟩

theorem move_at_lock_chain (t : Tree) (pa : List (List Char)) (ca : List Char)
    (pb : List (List Char)) (cb : List Char) (r : Int) (t1 : Tree)
    (h : move_at t pa ca pb cb = some (r, t1)) (l : List (List Char)) (hla : l <+: pa)
    (hlb : l <+: pb) : lock_chain t1 l = lock_chain t l := by
  rcases move_at_cases t pa ca pb cb r t1 h with ⟨-, e, -⟩ | ⟨sp, n, tp1, -, -, -, hc⟩
  · rw [e]
  · rcases hc with ⟨-, -, e⟩ | ⟨-, -, -, e⟩
    · rw [e, lock_chain_store_at _ _ _ _ hlb, lock_chain_store_at _ _ _ _ hla]
    · rw [e, lock_chain_store_at _ _ _ _ hla]

theorem tree_move_events_bracketed (F P : Nat) (t : Tree) (a b : List Char)
    (hwf : t.wf F = true) : locks_bracketed t (tree_move_events F P t a b) := by
  by_cases hva : is_path_valid F P a = true
  swap
  · simp only [tree_move_events, hva, Bool.not_false, if_true]
    exact locks_bracketed_nil t
  by_cases hvb : is_path_valid F P b = true
  swap
  · simp only [tree_move_events, hvb, Bool.not_false, if_true, ite_self]
    exact locks_bracketed_nil t
  by_cases hra : a = ['/']
  · simp only [tree_move_events, hra, if_true, ite_self]
    exact locks_bracketed_nil t
  by_cases hrb : b = ['/']
  · simp only [tree_move_events, hrb, if_true, ite_self]
    exact locks_bracketed_nil t
  obtain ⟨pa, ca, rfl, hpa0, hca0⟩ := valid_path_snoc hva hra
  obtain ⟨pb, cb, rfl, hpb0, hcb0⟩ := valid_path_snoc hvb hrb
  have hpa : ∀ x ∈ pa, slash_free x := fun x hx => is_valid_component_slash_free (hpa0 x hx)
  have hpb : ∀ x ∈ pb, slash_free x := fun x hx => is_valid_component_slash_free (hpb0 x hx)
  have hca := is_valid_component_slash_free hca0
  have hcb := is_valid_component_slash_free hcb0
  have hsa := snoc_slash_free hpa hca
  have hsb := snoc_slash_free hpb hcb
  by_cases hs1 : starts_with (canonical_path (pb ++ [cb])) (canonical_path (pa ++ [ca])) = true
  · simp only [tree_move_events, hva, hvb, Bool.not_true, snoc_ne_root, if_false,
      make_path_to_parent_snoc pa hca, make_path_to_parent_snoc pb hcb, hs1, if_true]
    exact locks_bracketed_nil t
  by_cases hs2 : starts_with (canonical_path (pa ++ [ca])) (canonical_path (pb ++ [cb])) = true
  · simp only [tree_move_events, hva, hvb, Bool.not_true, snoc_ne_root, if_false,
      make_path_to_parent_snoc pa hca, make_path_to_parent_snoc pb hcb, hs1, hs2, if_true,
      get_subfolder_events_lock _ hsa, get_subfolder_events_unlock _ hsa]
    exact ⟨pa ++ [ca], [], by simp [bracket], Or.inl rfl⟩
  have h1 : ¬ strict_prefix_of (pa ++ [ca]) (pb ++ [cb]) :=
    fun e => hs1 ((starts_with_canonical hsa hsb).mpr e)
  obtain ⟨l, hla, hlb, hl⟩ := lca_path_canonical pa pb hpa hpb
  have hlsf : ∀ x ∈ l, slash_free x := fun x hx => hpa x (hla.subset hx)
  obtain ⟨r, t1, hm⟩ := move_at_returns t pa ca pb cb hwf h1
  have hch := move_at_lock_chain t pa ca pb cb r t1 hm l hla hlb
  simp only [tree_move_events, hva, hvb, Bool.not_true, snoc_ne_root, if_false,
    make_path_to_parent_snoc pa hca, make_path_to_parent_snoc pb hcb, hs1, hs2,
    get_lca, get_lca_events, hl, get_subfolder_canonical l hlsf,
    tree_move_locked_canonical t pa ca pb cb hpa hpb, hm,
    get_subfolder_events_lock l hlsf, get_subfolder_events_unlock l hlsf, hch]
  cases hfl : find t l with
  | none => exact ⟨l, [], by simp [bracket], Or.inl rfl⟩
  | some lca =>
    exact ⟨l, [.wrlock lca.addr, .wrunlock lca.addr], by simp [bracket],
      Or.inr ⟨lca, hfl, Or.inr rfl⟩⟩
theorem run_events_append (ls : Locks) (xs ys : List LockEvent) :
    run_events ls (xs ++ ys) = (run_events ls xs).bind (fun ls' => run_events ls' ys) := by
  induction xs generalizing ls with
  | nil => rfl
  | cons x xs ih =>
    simp only [List.cons_append, run_events]
    cases lock_event_step ls x with
    | none => rfl
    | some ls' => exact ih ls'

theorem held_reads_nil : held_reads [] = quiet_locks := by
  funext a
  simp [held_reads, quiet_locks, rwlock_new]

theorem rdlock_step (c : List Nat) (a : Nat) :
    lock_event_step (held_reads c) (.rdlock a) = some (held_reads (a :: c)) := by
  simp only [lock_event_step, rwlock_rdlock_enter, held_reads, rwlock_new]
  simp only [add_zero, gt_iff_lt, lt_self_iff_false, false_and, if_false, Bool.false_eq_true,
    Option.some.injEq]
  funext b
  by_cases hb : b = a
  · subst hb
    simp [set_lock, held_reads, rwlock_new]
  · have : ¬ a = b := fun e => hb e.symm
    simp [set_lock, held_reads, rwlock_new, hb, List.count_cons, this]

theorem rdunlock_step (c : List Nat) (a : Nat) :
    lock_event_step (held_reads (a :: c)) (.rdunlock a) = some (held_reads c) := by
  simp only [lock_event_step, rwlock_rdunlock, held_reads, rwlock_new, Option.some.injEq]
  funext b
  by_cases hb : b = a
  · subst hb
    simp [set_lock, held_reads, rwlock_new]
  · have : ¬ a = b := fun e => hb e.symm
    simp [set_lock, held_reads, rwlock_new, hb, List.count_cons, this]

theorem run_rdlock_chain (chain c0 : List Nat) :
    run_events (held_reads c0) (chain.map LockEvent.rdlock)
      = some (held_reads (chain.reverse ++ c0)) := by
  induction chain generalizing c0 with
  | nil => rfl
  | cons a rest ih =>
    simp only [List.map_cons, run_events, rdlock_step, ih, List.reverse_cons,
      List.append_assoc, List.singleton_append]

theorem run_rdunlock_chain (chain c0 : List Nat) :
    run_events (held_reads (chain.reverse ++ c0)) (chain.reverse.map LockEvent.rdunlock)
      = some (held_reads c0) := by
  induction chain generalizing c0 with
  | nil => rfl
  | cons a rest ih =>
    simp only [List.reverse_cons, List.map_append, List.map_cons, List.map_nil,
      List.append_assoc, List.singleton_append, run_events_append, ih, Option.some_bind,
      run_events, rdunlock_step]

theorem run_read_pair (c : List Nat) (x : Nat) :
    run_events (held_reads c) [.rdlock x, .rdunlock x] = some (held_reads c) := by
  simp only [run_events, rdlock_step, rdunlock_step]

theorem run_write_pair (c : List Nat) (x : Nat) (hx : x ∉ c) :
    run_events (held_reads c) [.wrlock x, .wrunlock x] = some (held_reads c) := by
  have h0 : c.count x = 0 := List.count_eq_zero_of_not_mem hx
  have e1 : lock_event_step (held_reads c) (.wrlock x)
      = some (set_lock (held_reads c) x { rwlock_new with wcount := 1 }) := by
    simp [lock_event_step, rwlock_wrlock_enter, held_reads, rwlock_new, h0]
  have e2 : lock_event_step (set_lock (held_reads c) x { rwlock_new with wcount := 1 })
      (.wrunlock x) = some (held_reads c) := by
    simp only [lock_event_step, rwlock_wrunlock, set_lock, if_true, rwlock_new,
      Option.some.injEq]
    funext b
    by_cases hb : b = x
    · subst hb
      simp [set_lock, held_reads, rwlock_new, h0]
    · simp [set_lock, hb]
  simp only [run_events, e1, e2]
theorem Tree.addrs_node (t : Tree) : t.addrs = t.addr :: hmap_addrs t.hmap := by
  cases t; rfl

theorem hmap_get_addrs_sublist (m : HashMap) (c : List Char) (child : Tree)
    (h : hmap_get m c = some child) : List.Sublist child.addrs (hmap_addrs m) := by
  induction m with
  | nil => simp [hmap_get] at h
  | cons e rest ih =>
    obtain ⟨k, v⟩ := e
    by_cases hk : k = c
    · simp only [hmap_get, hk, if_true, Option.some.injEq] at h
      subst h
      exact List.sublist_append_left _ _
    · simp only [hmap_get, hk, if_false] at h
      exact (ih h).trans (List.sublist_append_right _ _)

theorem find_addr_mem (t : Tree) (cs : List (List Char)) (n : Tree)
    (h : find t cs = some n) : n.addr ∈ t.addrs := by
  induction cs generalizing t with
  | nil =>
    simp only [find, Option.some.injEq] at h
    subst h
    rw [Tree.addrs_node]
    exact List.mem_cons_self _ _
  | cons c cs ih =>
    simp only [find] at h
    cases hc : hmap_get t.hmap c with
    | none => simp [hc] at h
    | some child =>
      simp only [hc] at h
      rw [Tree.addrs_node]
      exact List.mem_cons_of_mem _ ((hmap_get_addrs_sublist _ _ _ hc).subset (ih child h))

theorem lock_chain_not_mem (t : Tree) (l : List (List Char)) (n : Tree)
    (hnd : t.addrs.Nodup) (h : find t l = some n) : n.addr ∉ lock_chain t l := by
  induction l generalizing t with
  | nil => simp [lock_chain]
  | cons c l ih =>
    simp only [find] at h
    cases hc : hmap_get t.hmap c with
    | none => simp [hc] at h
    | some child =>
      simp only [hc] at h
      rw [Tree.addrs_node, List.nodup_cons] at hnd
      have hsub := hmap_get_addrs_sublist _ _ _ hc
      simp only [lock_chain, hc, List.mem_cons, not_or]
      refine ⟨?_, ih child (hnd.2.sublist hsub) h⟩
      intro e
      exact hnd.1 (e ▸ hsub.subset (find_addr_mem child l n h))

theorem run_events_bracketed (t : Tree) (hnd : t.addrs.Nodup) (events : List LockEvent)
    (h : locks_bracketed t events) : run_events quiet_locks events = some quiet_locks := by
  obtain ⟨l, mid, rfl, hmid⟩ := h
  have hm : run_events (held_reads ((lock_chain t l).reverse ++ [])) mid
      = some (held_reads ((lock_chain t l).reverse ++ [])) := by
    rcases hmid with rfl | ⟨n, hn, rfl | rfl⟩
    · rfl
    · exact run_read_pair _ _
    · refine run_write_pair _ _ ?_
      simpa using lock_chain_not_mem t l n hnd hn
  rw [← held_reads_nil, bracket, run_events_append, run_events_append, run_rdlock_chain, 
    Option.some_bind, hm, Option.some_bind, run_rdunlock_chain]

theorem tree_list_returns (F P : Nat) (t : Tree) (p : List Char) :
    ∃ r, tree_list F P t p = some r := by
  by_cases hv : is_path_valid F P p = true
  · obtain ⟨cs, rfl, hcs⟩ := is_path_valid_sound hv
    exact ⟨_, tree_list_canonical t cs hv
      (fun c hc => is_valid_component_slash_free (hcs c hc))⟩
  · exact ⟨none, by simp [tree_list, hv]⟩

theorem tree_create_returns (F P : Nat) (t : Tree) (p : List Char) (new_addr : Nat) :
    ∃ r, tree_create F P t p new_addr = some r := by
  by_cases hv : is_path_valid F P p = true
  swap
  · exact ⟨(EINVAL, t), by simp [tree_create, hv]⟩
  by_cases hr : p = ['/']
  · subst hr
    exact ⟨(EEXIST, t), by simp [tree_create, hv]⟩
  obtain ⟨pp, c, rfl, hpp, hc⟩ := valid_path_snoc hv hr
  rw [tree_create_canonical t pp c new_addr hv
    (fun x hx => is_valid_component_slash_free (hpp x hx)) (is_valid_component_slash_free hc)]
  cases find t pp with
  | none => exact ⟨_, rfl⟩
  | some sub =>
    simp only
    split_ifs <;> exact ⟨_, rfl⟩

theorem tree_remove_returns (F P : Nat) (t : Tree) (p : List Char) :
    ∃ r, tree_remove F P t p = some r := by
  by_cases hv : is_path_valid F P p = true
  swap
  · exact ⟨(EINVAL, t), by simp [tree_remove, hv]⟩
  by_cases hr : p = ['/']
  · subst hr
    exact ⟨(EBUSY, t), by simp [tree_remove, hv]⟩
  obtain ⟨pp, c, rfl, hpp, hc⟩ := valid_path_snoc hv hr
  rw [tree_remove_canonical t pp c hv
    (fun x hx => is_valid_component_slash_free (hpp x hx)) (is_valid_component_slash_free hc)]
  cases find t pp with
  | none => exact ⟨_, rfl⟩
  | some parent =>
    simp only
    cases hmap_get parent.hmap c with
    | none => exact ⟨_, rfl⟩
    | some node =>
      simp only
      split_ifs <;> exact ⟨_, rfl⟩

theorem tree_move_returns (F P : Nat) (t : Tree) (a b : List Char) (hwf : t.wf F = true) :
    ∃ r, tree_move F P t a b = some r := by
  by_cases hva : is_path_valid F P a = true
  swap
  · exact ⟨_, tree_move_invalid_source t a b hva⟩
  by_cases hvb : is_path_valid F P b = true
  swap
  · exact ⟨_, tree_move_invalid_target t a b hva hvb⟩
  by_cases hra : a = ['/']
  · subst hra
    exact ⟨_, tree_move_root_source t b hva hvb⟩
  by_cases hrb : b = ['/']
  · subst hrb
    exact ⟨_, tree_move_root_target t a hva hvb hra⟩
  obtain ⟨pa, ca, rfl, hpa0, hca0⟩ := valid_path_snoc hva hra
  obtain ⟨pb, cb, rfl, hpb0, hcb0⟩ := valid_path_snoc hvb hrb
  have hpa : ∀ x ∈ pa, slash_free x := fun x hx => is_valid_component_slash_free (hpa0 x hx)
  have hpb : ∀ x ∈ pb, slash_free x := fun x hx => is_valid_component_slash_free (hpb0 x hx)
  have hca := is_valid_component_slash_free hca0
  have hcb := is_valid_component_slash_free hcb0
  by_cases h1 : strict_prefix_of (pa ++ [ca]) (pb ++ [cb])
  · exact ⟨_, tree_move_canonical_inside t pa ca pb cb hva hvb hpa hca hpb hcb h1⟩
  by_cases h2 : strict_prefix_of (pb ++ [cb]) (pa ++ [ca])
  · exact ⟨_, tree_move_canonical_above t pa ca pb cb hva hvb hpa hca hpb hcb h1 h2⟩
  rw [tree_move_canonical t pa ca pb cb hva hvb hpa hca hpb hcb h1 h2]
  obtain ⟨r, t1, hm⟩ := move_at_returns t pa ca pb cb hwf h1
  exact ⟨_, hm⟩
theorem lock_change_step (s s' : LockState) (step : LockStep) (hinv : lock_inv s)
    (hc : s.lock.change = 0 ∨ 1 ≤ s.blocked_readers) (h : lock_step s step = some s') :
    s'.lock.change = 0 ∨ 1 ≤ s'.blocked_readers := by
  obtain ⟨⟨rc, wc, rw, ww, ch⟩, br, r, bw, w⟩ := s
  obtain ⟨h1, h2, h3, h4, h5, h6, h7, h8⟩ := hinv
  dsimp only at h1 h2 h3 h4 h5 h6 h7 h8 hc
  cases step <;>
    simp only [lock_step, rwlock_rdlock_enter, rwlock_rdlock_wake, rwlock_rdunlock,
      rwlock_wrlock_enter, rwlock_wrlock_wake, rwlock_wrunlock] at h <;>
    split_ifs at h <;>
    first
    | (exfalso; simp_all; done)
    | (simp only [Option.some.injEq] at h
       subst h
       dsimp only
       omega)

theorem lock_change_run (steps : List LockStep) (s s' : LockState) (hinv : lock_inv s)
    (hc : s.lock.change = 0 ∨ 1 ≤ s.blocked_readers) (h : lock_run s steps = some s') :
    s'.lock.change = 0 ∨ 1 ≤ s'.blocked_readers := by
  induction steps generalizing s with
  | nil =>
    simp only [lock_run, Option.some.injEq] at h
    rw [← h]; exact hc
  | cons step rest ih =>
    simp only [lock_run] at h
    cases hs : lock_step s step with
    | none => simp [hs] at h
    | some s1 =>
      simp only [hs] at h
      exact ih s1 (lock_inv_step s s1 step hinv hs) (lock_change_step s s1 step hinv hc hs) h

theorem lock_quiet (steps : List LockStep) (s : LockState)
    (h : lock_run lock_init steps = some s) (hq : s.in_flight = 0) : s.lock = rwlock_new := by
  have hinv := lock_inv_run steps lock_init s lock_inv_init h
  have hc := lock_change_run steps lock_init s lock_inv_init (Or.inl rfl) h
  obtain ⟨⟨rc, wc, rw, ww, ch⟩, br, r, bw, w⟩ := s
  obtain ⟨h1, h2, h3, h4, h5, h6, h7, h8⟩ := hinv
  simp only [LockState.in_flight] at hq
  dsimp only at h1 h2 h3 h4 h5 h6 h7 h8 hc hq
  simp only [rwlock_new, rwlock_t.mk.injEq]
  refine ⟨?_, ?_, ?_, ?_, ?_⟩ <;> omega

/-- C18. No lock leak: on a tree whose child maps hold distinct valid names and
whose nodes have pairwise different addresses, with no lock held (every lock in
the state in which a lock is whenever no call is in flight on it: that of a
fresh lock), each of `tree_list`, `tree_create`, `tree_remove` and `tree_move`,
for every argument, returns, none of its lock calls has to wait, and after its
last call every lock is again in that state: every `rcount` and `wcount` is 0
and `change` is as before. Its calls are a `LOCK` descent, possibly the lock of
the folder it reached taken and released, and the releases of the descent in
reverse order. -/
theorem no_lock_leak (F P : Nat) (t : Tree) (hwf : t.wf F = true) (hnd : t.addrs.Nodup) :
    (∀ steps s, lock_run lock_init steps = some s → s.in_flight = 0 →
      s.lock = rwlock_new) ∧
    (∀ p, (∃ r, tree_list F P t p = some r) ∧
      locks_bracketed t (tree_list_events F P t p) ∧
      run_events quiet_locks (tree_list_events F P t p) = some quiet_locks) ∧
    (∀ p new_addr, (∃ r, tree_create F P t p new_addr = some r) ∧
      locks_bracketed t (tree_create_events F P t p new_addr) ∧
      run_events quiet_locks (tree_create_events F P t p new_addr) = some quiet_locks) ∧
    (∀ p, (∃ r, tree_remove F P t p = some r) ∧
      locks_bracketed t (tree_remove_events F P t p) ∧
      run_events quiet_locks (tree_remove_events F P t p) = some quiet_locks) ∧
    (∀ a b, (∃ r, tree_move F P t a b = some r) ∧
      locks_bracketed t (tree_move_events F P t a b) ∧
      run_events quiet_locks (tree_move_events F P t a b) = some quiet_locks) :=
  ⟨fun steps s h hq => lock_quiet steps s h hq,
    fun p => ⟨tree_list_returns F P t p, tree_list_events_bracketed F P t p,
      run_events_bracketed t hnd _ (tree_list_events_bracketed F P t p)⟩,
    fun p new_addr => ⟨tree_create_returns F P t p new_addr,
      tree_create_events_bracketed F P t p new_addr,
      run_events_bracketed t hnd _ (tree_create_events_bracketed F P t p new_addr)⟩,
    fun p => ⟨tree_remove_returns F P t p, tree_remove_events_bracketed F P t p,
      run_events_bracketed t hnd _ (tree_remove_events_bracketed F P t p)⟩,
    fun a b => ⟨tree_move_returns F P t a b hwf, tree_move_events_bracketed F P t a b hwf,
      run_events_bracketed t hnd _ (tree_move_events_bracketed F P t a b hwf)⟩⟩

theorem no_lock_leak_witness :
    sample_tree.wf 255 = true ∧ sample_tree.addrs.Nodup ∧
      tree_move_events 255 4095 sample_tree (str "/a/x/") (str "/a/y/")
        = [.rdlock 0, .wrlock 1, .wrunlock 1, .rdunlock 0] ∧
      run_events quiet_locks (tree_move_events 255 4095 sample_tree (str "/a/x/") (str "/a/y/"))
        = some quiet_locks :=
  ⟨rfl, by decide, by decide,
    ((no_lock_leak 255 4095 sample_tree rfl (by decide)).2.2.2.2 (str "/a/x/") (str "/a/y/")).2.2⟩

theorem find_cons_some (t : Tree) (c : List Char) (q : List (List Char)) (child : Tree)
    (hc : hmap_get t.hmap c = some child) : find t (c :: q) = find child q := by
  simp only [find, hc]

theorem find_cons_none (t : Tree) (c : List Char) (q : List (List Char))
    (hc : hmap_get t.hmap c = none) : find t (c :: q) = none := by
  simp only [find, hc]

theorem nodes_along_range (t : Tree) (q : List (List Char)) :
    nodes_along t q
      = (List.range (q.length + 1)).filterMap (fun i => addr_at t (q.take i)) := by
  induction q generalizing t with
  | nil => rfl
  | cons c q ih =>
    rw [List.length_cons, List.range_succ_eq_map, List.filterMap_cons]
    simp only [List.take_zero, addr_at, find, Option.map_some', List.filterMap_map]
    cases hc : hmap_get t.hmap c with
    | none =>
      simp only [nodes_along, hc, List.cons.injEq, true_and]
      symm
      rw [List.filterMap_eq_nil_iff]
      intro i _
      simp [find_cons_none t c _ hc]
    | some child =>
      simp only [nodes_along, hc, List.cons.injEq, true_and]
      rw [ih child]
      apply List.filterMap_congr
      intro i _
      simp [addr_at, find_cons_some t c _ child hc]

theorem lock_chain_length (t : Tree) (cs : List (List Char)) (n : Tree)
    (h : find t cs = some n) : (lock_chain t cs).length = cs.length := by
  induction cs generalizing t with
  | nil => rfl
  | cons c cs ih =>
    simp only [find] at h
    cases hc : hmap_get t.hmap c with
    | none => simp [hc] at h
    | some child =>
      simp only [hc] at h
      simp [lock_chain, hc, ih child h]

theorem lock_chain_aborted (t : Tree) (cs : List (List Char)) (h : find t cs = none) :
    ∃ k, k < cs.length ∧ folder_exists t (cs.take k) = true ∧
      folder_exists t (cs.take (k + 1)) = false ∧
      lock_chain t cs = nodes_along t (cs.take k) := by
  induction cs generalizing t with
  | nil => simp [find] at h
  | cons c cs ih =>
    cases hc : hmap_get t.hmap c with
    | none =>
      refine ⟨0, by simp, by simp [folder_exists, find], ?_, by simp [lock_chain, nodes_along, hc]⟩
      simp [folder_exists, find_cons_none t c _ hc]
    | some child =>
      rw [find_cons_some t c cs child hc] at h
      obtain ⟨k, hk, h1, h2, h3⟩ := ih child h
      refine ⟨k + 1, by simpa using hk, ?_, ?_, ?_⟩
      · simpa [folder_exists, find_cons_some t c _ child hc] using h1
      · simpa [folder_exists, find_cons_some t c _ child hc] using h2
      · simp [lock_chain, nodes_along, hc, h3]

/-- C19. LIFO release: for a canonical path, the nodes read-unlocked by
`get_subfolder(tree, path, UNLOCK)` are, in order, the reverse of the nodes
read-locked by `get_subfolder(tree, path, LOCK)` on the same tree. When the
folder under the path exists these are the nodes from the root down to its
parent (with the folder itself they make up the nodes from the root down to
it; the folder is not among them when addresses are pairwise different); when
the descent aborts they are the nodes from the root down to the last existing
folder. `nodes_along` lists the nodes under the initial parts of a path. -/
theorem get_subfolder_lifo (F P : Nat) (t : Tree) (p : List Char)
    (hp : is_path_valid F P p = true) :
    get_subfolder_events t p .LOCK
        = (lock_chain t (path_components p)).map LockEvent.rdlock ∧
    get_subfolder_events t p .UNLOCK
        = (lock_chain t (path_components p)).reverse.map LockEvent.rdunlock ∧
    (∀ n, find t (path_components p) = some n →
      get_subfolder t p .LOCK = some (some n) ∧
      lock_chain t (path_components p) ++ [n.addr] = nodes_along t (path_components p) ∧
      (lock_chain t (path_components p)).length = (path_components p).length ∧
      (t.addrs.Nodup → n.addr ∉ lock_chain t (path_components p))) ∧
    (find t (path_components p) = none →
      get_subfolder t p .LOCK = some none ∧
      ∃ k, k < (path_components p).length ∧
        folder_exists t ((path_components p).take k) = true ∧
        folder_exists t ((path_components p).take (k + 1)) = false ∧
        lock_chain t (path_components p) = nodes_along t ((path_components p).take k)) ∧
    (∀ q, nodes_along t q
      = (List.range (q.length + 1)).filterMap (fun i => addr_at t (q.take i))) := by
  obtain ⟨cs, rfl, hcs⟩ := is_path_valid_sound hp
  have hsf : ∀ c ∈ cs, slash_free c := fun c hc => is_valid_component_slash_free (hcs c hc)
  rw [path_components_canonical cs hsf]
  refine ⟨get_subfolder_events_lock cs hsf t, get_subfolder_events_unlock cs hsf t, ?_, ?_,
    nodes_along_range t⟩
  · intro n hn
    refine ⟨by rw [get_subfolder_canonical cs hsf, hn], (nodes_along_eq t cs n hn).symm,
      lock_chain_length t cs n hn, fun hnd => lock_chain_not_mem t cs n hnd hn⟩
  · intro hn
    exact ⟨by rw [get_subfolder_canonical cs hsf, hn], lock_chain_aborted t cs hn⟩

theorem get_subfolder_lifo_witness :
    is_path_valid 255 4095 (str "/a/y/z/") = true ∧
      get_subfolder_events sample_tree (str "/a/y/z/") .LOCK = [.rdlock 0, .rdlock 1] ∧
      get_subfolder_events sample_tree (str "/a/y/z/") .UNLOCK = [.rdunlock 1, .rdunlock 0] ∧
      get_subfolder_events sample_tree (str "/a/y/z/") .UNLOCK
        = (lock_chain sample_tree (path_components (str "/a/y/z/"))).reverse.map
            LockEvent.rdunlock :=
  ⟨by decide, by decide, by decide,
    (get_subfolder_lifo 255 4095 sample_tree (str "/a/y/z/") (by decide)).2.1⟩

/-! ## The lock discipline of one operation -/

theorem held_after_append (h : List (Nat × LockMode)) (xs ys : List LockEvent) :
    held_after h (xs ++ ys) = (held_after h xs).bind (fun h' => held_after h' ys) := by
  induction xs generalizing h with
  | nil => rfl
  | cons x xs ih =>
    simp only [List.cons_append, held_after]
    cases held_step h x with
    | none => rfl
    | some h' => exact ih h'

theorem held_after_rdlocks (h : List (Nat × LockMode)) (c : List Nat) :
    held_after h (c.map LockEvent.rdlock)
      = some (h ++ c.map (fun a => (a, LockMode.read))) := by
  induction c generalizing h with
  | nil => simp [held_after]
  | cons a c ih =>
    simp only [List.map_cons, held_after, held_step, ih, List.append_assoc,
      List.singleton_append]

theorem held_after_rdunlocks (h : List (Nat × LockMode)) (c : List Nat) :
    held_after (h ++ c.map (fun a => (a, LockMode.read))) (c.reverse.map LockEvent.rdunlock)
      = some h := by
  induction c generalizing h with
  | nil => simp [held_after]
  | cons a c ih =>
    have e : h ++ (a :: c).map (fun a => (a, LockMode.read))
        = (h ++ [(a, LockMode.read)]) ++ c.map (fun a => (a, LockMode.read)) := by simp
    rw [e, List.reverse_cons, List.map_append, held_after_append, ih]
    simp [held_after, held_step]

theorem prefix_append_cases {α : Type} (pre xs ys : List α) (h : pre <+: xs ++ ys) :
    pre <+: xs ∨ ∃ r, r <+: ys ∧ pre = xs ++ r := by
  rcases List.prefix_or_prefix_of_prefix h (List.prefix_append xs ys) with h1 | ⟨r, rfl⟩
  · exact Or.inl h1
  · exact Or.inr ⟨r, (List.prefix_append_right_inj xs).mp h, rfl⟩

theorem prefix_map_cases {α β : Type} (f : α → β) (c : List α) (r : List β)
    (h : r <+: c.map f) : ∃ c1 c2, c = c1 ++ c2 ∧ r = c1.map f := by
  obtain ⟨s, hs⟩ := h
  obtain ⟨c1, c2, e, e1, -⟩ := List.map_eq_append_iff.mp hs.symm
  exact ⟨c1, c2, e, e1.symm⟩

theorem lock_chain_initial_nodes (t : Tree) (l : List (List Char)) (c1 : List Nat)
    (h : c1 <+: lock_chain t l) :
    c1 = [] ∨ ∃ q, folder_exists t q = true ∧ c1 = nodes_along t q := by
  induction l generalizing t c1 with
  | nil =>
    left
    simpa [lock_chain] using h
  | cons c l ih =>
    simp only [lock_chain] at h
    rcases List.prefix_cons_iff.mp h with e | ⟨c1', rfl, h'⟩
    · exact Or.inl e
    · right
      cases hc : hmap_get t.hmap c with
      | none =>
        rw [hc] at h'
        simp only [List.prefix_nil] at h'
        subst h'
        exact ⟨[], rfl, rfl⟩
      | some child =>
        rw [hc] at h'
        rcases ih child c1' h' with e | ⟨q, hq, e⟩
        · subst e
          exact ⟨[], rfl, rfl⟩
        · refine ⟨c :: q, ?_, ?_⟩
          · simpa [folder_exists, find_cons_some t c q child hc] using hq
          · simp [nodes_along, hc, e]

theorem disciplined_reads (t : Tree) (l : List (List Char)) (c1 : List Nat)
    (pre : List LockEvent) (h : c1 <+: lock_chain t l)
    (hpre : held_after [] pre = some (c1.map (fun a => (a, LockMode.read)))) :
    disciplined t pre := by
  refine ⟨_, hpre, ?_, ?_⟩
  · rcases lock_chain_initial_nodes t l c1 h with e | ⟨q, hq, e⟩
    · left; simp [e]
    · right
      refine ⟨q, hq, ?_⟩
      rw [← e]
      simp [Function.comp_def]
  · intro e he
    have := List.mem_of_mem_dropLast he
    simp only [List.mem_map] at this
    obtain ⟨a, -, rfl⟩ := this
    rfl
theorem held_after_pair (h : List (Nat × LockMode)) (x : Nat) :
    held_after h [.rdlock x, .rdunlock x] = some h ∧
      held_after h [.wrlock x, .wrunlock x] = some h := by
  simp [held_after, held_step]

theorem prefix_pair_cases {α : Type} (r : List α) (x y : α) (h : r <+: [x, y]) :
    r = [] ∨ r = [x] ∨ r = [x, y] := by
  rcases List.prefix_cons_iff.mp h with e | ⟨r1, rfl, h1⟩
  · exact Or.inl e
  · rcases List.prefix_cons_iff.mp h1 with e | ⟨r2, rfl, h2⟩
    · exact Or.inr (Or.inl (by rw [e]))
    · simp only [List.prefix_nil] at h2
      exact Or.inr (Or.inr (by rw [h2]))

theorem disciplined_top (t : Tree) (l : List (List Char)) (n : Tree) (m : LockMode)
    (pre : List LockEvent) (hn : find t l = some n)
    (hpre : held_after [] pre
      = some ((lock_chain t l).map (fun a => (a, LockMode.read)) ++ [(n.addr, m)])) :
    disciplined t pre := by
  refine ⟨_, hpre, Or.inr ⟨l, by simp [folder_exists, hn], ?_⟩, ?_⟩
  · rw [nodes_along_eq t l n hn]
    simp [Function.comp_def]
  · intro e he
    rw [List.dropLast_concat] at he
    simp only [List.mem_map] at he
    obtain ⟨a, -, rfl⟩ := he
    rfl

theorem bracket_disciplined (t : Tree) (events : List LockEvent)
    (h : locks_bracketed t events) (pre : List LockEvent) (hpre : pre <+: events) :
    disciplined t pre := by
  obtain ⟨l, mid, rfl, hmid⟩ := h
  have hmidrun : ∀ h0, held_after h0 mid = some h0 := by
    intro h0
    rcases hmid with rfl | ⟨n, -, rfl | rfl⟩
    · rfl
    · exact (held_after_pair h0 _).1
    · exact (held_after_pair h0 _).2
  simp only [bracket] at hpre
  rcases prefix_append_cases _ _ _ hpre with h1 | ⟨r, hr, rfl⟩
  · rcases prefix_append_cases _ _ _ h1 with h2 | ⟨r, hr, rfl⟩
    · obtain ⟨c1, c2, e, rfl⟩ := prefix_map_cases _ _ _ h2
      exact disciplined_reads t l c1 _ (e ▸ List.prefix_append c1 c2)
        (by rw [held_after_rdlocks]; simp)
    · have hall : held_after [] (List.map LockEvent.rdlock (lock_chain t l) ++ mid)
          = some ((lock_chain t l).map (fun a => (a, LockMode.read))) := by
        rw [held_after_append, held_after_rdlocks]
        simp [hmidrun]
      rcases hmid with rfl | ⟨n, hn, rfl | rfl⟩
      · simp only [List.prefix_nil] at hr
        subst hr
        exact disciplined_reads t l _ _ (List.prefix_refl _)
          (by rw [held_after_append, held_after_rdlocks]; simp [held_after])
      · rcases prefix_pair_cases r _ _ hr with rfl | rfl | rfl
        · exact disciplined_reads t l _ _ (List.prefix_refl _)
            (by rw [held_after_append, held_after_rdlocks]; simp [held_after])
        · exact disciplined_top t l n .read _ hn
            (by rw [held_after_append, held_after_rdlocks]; simp [held_after, held_step])
        · exact disciplined_reads t l _ _ (List.prefix_refl _) hall
      · rcases prefix_pair_cases r _ _ hr with rfl | rfl | rfl
        · exact disciplined_reads t l _ _ (List.prefix_refl _)
            (by rw [held_after_append, held_after_rdlocks]; simp [held_after])
        · exact disciplined_top t l n .write _ hn
            (by rw [held_after_append, held_after_rdlocks]; simp [held_after, held_step])
        · exact disciplined_reads t l _ _ (List.prefix_refl _) hall
  · obtain ⟨c2, c1, e, rfl⟩ := prefix_map_cases _ _ _ hr
    have e' : lock_chain t l = c1.reverse ++ c2.reverse := by
      rw [← List.reverse_append, ← e, List.reverse_reverse]
    refine disciplined_reads t l c1.reverse _ (e' ▸ List.prefix_append _ _) ?_
    rw [held_after_append, held_after_append, held_after_rdlocks]
    simp only [Option.some_bind, List.nil_append, hmidrun]
    rw [e', List.map_append]
    have := held_after_rdunlocks (c1.reverse.map (fun a => (a, LockMode.read))) c2.reverse
    rw [List.reverse_reverse] at this
    exact this
/-- C20. Lock discipline: on a tree whose child maps hold distinct valid names,
after every initial part of the lock calls of one run of `tree_list`,
`tree_create`, `tree_remove` or `tree_move` every unlock so far has released
the lock taken last (the deepest one held), and the locks held are none, or
exactly those of the nodes from the root down to one existing folder, taken in
that order (each lock call adds the node one level deeper), all but the
deepest in read mode. -/
theorem lock_discipline (F P : Nat) (t : Tree) (hwf : t.wf F = true) :
    (∀ p pre, pre <+: tree_list_events F P t p → disciplined t pre) ∧
    (∀ p new_addr pre, pre <+: tree_create_events F P t p new_addr → disciplined t pre) ∧
    (∀ p pre, pre <+: tree_remove_events F P t p → disciplined t pre) ∧
    (∀ a b pre, pre <+: tree_move_events F P t a b → disciplined t pre) :=
  ⟨fun p pre h => bracket_disciplined t _ (tree_list_events_bracketed F P t p) pre h,
    fun p new_addr pre h =>
      bracket_disciplined t _ (tree_create_events_bracketed F P t p new_addr) pre h,
    fun p pre h => bracket_disciplined t _ (tree_remove_events_bracketed F P t p) pre h,
    fun a b pre h => bracket_disciplined t _ (tree_move_events_bracketed F P t a b hwf) pre h⟩

theorem lock_discipline_witness :
    sample_tree.wf 255 = true ∧
      [LockEvent.rdlock 0, LockEvent.wrlock 1]
        <+: tree_move_events 255 4095 sample_tree (str "/a/x/") (str "/a/y/") ∧
      held_after [] [LockEvent.rdlock 0, LockEvent.wrlock 1]
        = some [(0, LockMode.read), (1, LockMode.write)] ∧
      nodes_along sample_tree [str "a"] = [0, 1] ∧
      disciplined sample_tree [LockEvent.rdlock 0, LockEvent.wrlock 1] :=
  ⟨rfl, by decide, by decide, by decide,
    (lock_discipline 255 4095 sample_tree rfl).2.2.2 (str "/a/x/") (str "/a/y/") _ (by decide)⟩

/-! ## The handoff from a writer to the waiting readers -/

theorem change_set_step (s s' : LockState) (step : LockStep) (hinv : lock_inv s)
    (h : lock_step s step = some s') (h0 : s.lock.change = 0) (h1 : s'.lock.change = 1) :
    step = .wrunlock ∧ 0 < s.lock.rwait := by
  obtain ⟨⟨rc, wc, rw, ww, ch⟩, br, r, bw, w⟩ := s
  dsimp only at h0
  subst h0
  cases step <;>
    simp only [lock_step, rwlock_rdlock_enter, rwlock_rdlock_wake, rwlock_rdunlock,
      rwlock_wrlock_enter, rwlock_wrlock_wake, rwlock_wrunlock] at h <;>
    split_ifs at h <;>
    first
    | (exfalso; simp_all; done)
    | (simp only [Option.some.injEq] at h
       subst h
       first
       | (exfalso; dsimp only at h1; omega)
       | (refine ⟨rfl, ?_⟩; dsimp only; omega))

theorem wrunlock_sets_change (s s' : LockState) (h : lock_step s .wrunlock = some s') :
    (0 < s.lock.rwait → s'.lock.change = 1) ∧
      (¬ 0 < s.lock.rwait → s'.lock.change = s.lock.change) := by
  obtain ⟨⟨rc, wc, rw, ww, ch⟩, br, r, bw, w⟩ := s
  simp only [lock_step, rwlock_wrunlock] at h
  split_ifs at h <;>
    (simp only [Option.some.injEq] at h
     subst h
     constructor <;> intro hr <;> (dsimp only at hr ⊢; try omega))

theorem change_cleared_step (s s' : LockState) (step : LockStep)
    (h : lock_step s step = some s') (h1 : s.lock.change = 1) (h0 : s'.lock.change = 0) :
    (step = .rdlock_enter ∨ step = .rdlock_wake) ∧ s'.lock.rcount = s.lock.rcount + 1 ∧
      s'.readers = s.readers + 1 := by
  obtain ⟨⟨rc, wc, rw, ww, ch⟩, br, r, bw, w⟩ := s
  dsimp only at h1
  subst h1
  cases step <;>
    simp only [lock_step, rwlock_rdlock_enter, rwlock_rdlock_wake, rwlock_rdunlock,
      rwlock_wrlock_enter, rwlock_wrlock_wake, rwlock_wrunlock] at h <;>
    split_ifs at h <;>
    first
    | (exfalso; simp_all; done)
    | (simp only [Option.some.injEq] at h
       subst h
       first
       | (exfalso; dsimp only at h0; omega)
       | (refine ⟨Or.inl rfl, ?_, ?_⟩ <;> dsimp only)
       | (refine ⟨Or.inr rfl, ?_, ?_⟩ <;> dsimp only))

theorem reader_admitted_clears (s s' : LockState) (step : LockStep)
    (h : lock_step s step = some s') (hs : step = .rdlock_enter ∨ step = .rdlock_wake)
    (hr : s'.readers = s.readers + 1) : s'.lock.change = 0 := by
  obtain ⟨⟨rc, wc, rw, ww, ch⟩, br, r, bw, w⟩ := s
  rcases hs with rfl | rfl <;>
    simp only [lock_step, rwlock_rdlock_enter, rwlock_rdlock_wake] at h <;>
    split_ifs at h <;>
    first
    | (exfalso; simp_all; done)
    | (simp only [Option.some.injEq] at h
       subst h
       first
       | rfl
       | (exfalso; dsimp only at hr; omega))
theorem handoff_run (more : List LockStep) (s s' : LockState) (hinv : lock_inv s)
    (hc : s.lock.change = 1) (h : lock_run s more = some s') (hw : 0 < s'.lock.wcount) :
    ∃ pre step post sm sm', more = pre ++ step :: post ∧ lock_run s pre = some sm ∧
      lock_step sm step = some sm' ∧ (step = .rdlock_enter ∨ step = .rdlock_wake) ∧
      sm'.lock.rcount = sm.lock.rcount + 1 ∧
      ∀ pre1 s1, pre1 <+: pre → lock_run s pre1 = some s1 →
        s1.lock.change = 1 ∧ s1.lock.wcount = 0 := by
  induction more generalizing s with
  | nil =>
    simp only [lock_run, Option.some.injEq] at h
    subst h
    obtain ⟨-, h2, -, -, -, -, -, h8⟩ := hinv
    omega
  | cons st rest ih =>
    simp only [lock_run] at h
    cases hs : lock_step s st with
    | none => simp [hs] at h
    | some s1 =>
      simp only [hs] at h
      have hinv1 := lock_inv_step s s1 st hinv hs
      have hw0 : s.lock.wcount = 0 := by
        obtain ⟨-, h2, -, -, -, -, -, h8⟩ := hinv
        omega
      rcases hinv1.2.2.2.2.1 with h0 | h1
      · obtain ⟨hst, hr, -⟩ := change_cleared_step s s1 st hs hc h0
        refine ⟨[], st, rest, s, s1, rfl, rfl, hs, hst, hr, ?_⟩
        intro pre1 s1' hp hrun
        simp only [List.prefix_nil] at hp
        subst hp
        simp only [lock_run, Option.some.injEq] at hrun
        subst hrun
        exact ⟨hc, hw0⟩
      · obtain ⟨pre, step, post, sm, sm', e, hrun, hstep, hst, hr, hall⟩ := ih s1 hinv1 h1 h
        refine ⟨st :: pre, step, post, sm, sm', by rw [e]; rfl, by simp [lock_run, hs, hrun],
          hstep, hst, hr, ?_⟩
        intro pre1 s1' hp hrun1
        rcases List.prefix_cons_iff.mp hp with e1 | ⟨t, rfl, ht⟩
        · subst e1
          simp only [lock_run, Option.some.injEq] at hrun1
          subst hrun1
          exact ⟨hc, hw0⟩
        · simp only [lock_run, hs] at hrun1
          exact hall t s1' ht hrun1

/-- C21. Writer-to-readers handoff: in every state reachable from a fresh lock
`change` is 0 or 1, and while it is 1 no writer holds the lock. A step sets
`change` only if it is a `rwlock_wrunlock` that finds `rwait > 0` (and every such
step sets it); a step clears it only if it is a reader completing
`rwlock_rdlock` (and every reader completing it leaves `change` 0). Hence, from
a state with `change` set, any run that ends with a writer holding the lock
contains, before any writer has acquired it, a reader acquiring the lock. -/
theorem rwlock_handoff (steps : List LockStep) (s : LockState)
    (h : lock_run lock_init steps = some s) :
    (s.lock.change = 0 ∨ s.lock.change = 1) ∧
    (s.lock.change = 1 → s.lock.wcount = 0) ∧
    (∀ step s', lock_step s step = some s' →
      (s.lock.change = 0 → s'.lock.change = 1 → step = .wrunlock ∧ 0 < s.lock.rwait) ∧
      (step = .wrunlock → 0 < s.lock.rwait → s'.lock.change = 1) ∧
      (s.lock.change = 1 → s'.lock.change = 0 →
        (step = .rdlock_enter ∨ step = .rdlock_wake) ∧ s'.lock.rcount = s.lock.rcount + 1) ∧
      ((step = .rdlock_enter ∨ step = .rdlock_wake) → s'.readers = s.readers + 1 →
        s'.lock.change = 0)) ∧
    (s.lock.change = 1 → ∀ more s', lock_run s more = some s' → 0 < s'.lock.wcount →
      ∃ pre step post sm sm', more = pre ++ step :: post ∧ lock_run s pre = some sm ∧
        lock_step sm step = some sm' ∧ (step = .rdlock_enter ∨ step = .rdlock_wake) ∧
        sm'.lock.rcount = sm.lock.rcount + 1 ∧
        ∀ pre1 s1, pre1 <+: pre → lock_run s pre1 = some s1 →
          s1.lock.change = 1 ∧ s1.lock.wcount = 0) := by
  have hinv := lock_inv_run steps lock_init s lock_inv_init h
  refine ⟨hinv.2.2.2.2.1, ?_, ?_, ?_⟩
  · intro hc
    obtain ⟨-, h2, -, -, -, -, -, h8⟩ := hinv
    omega
  · intro step s' hs
    refine ⟨fun h0 h1 => change_set_step s s' step hinv hs h0 h1, ?_,
      fun h1 h0 => ⟨(change_cleared_step s s' step hs h1 h0).1,
        (change_cleared_step s s' step hs h1 h0).2.1⟩,
      fun hst hr => reader_admitted_clears s s' step hs hst hr⟩
    intro e hr
    subst e
    exact (wrunlock_sets_change s s' hs).1 hr
  · intro hc more s' hrun hw
    exact handoff_run more s s' hinv hc hrun hw

theorem rwlock_handoff_witness :
    lock_run lock_init [.wrlock_enter, .rdlock_enter, .wrlock_enter, .wrunlock]
        = some handoff_state ∧
      handoff_state.lock.change = 1 ∧
      lock_run handoff_state [.rdlock_wake, .wrlock_wake, .rdunlock, .wrlock_wake]
        = some lock_sample_final ∧
      ∃ pre step post sm sm',
        [LockStep.rdlock_wake, .wrlock_wake, .rdunlock, .wrlock_wake] = pre ++ step :: post ∧
        lock_run handoff_state pre = some sm ∧ lock_step sm step = some sm' ∧
        (step = .rdlock_enter ∨ step = .rdlock_wake) ∧
        sm'.lock.rcount = sm.lock.rcount + 1 ∧
        ∀ pre1 s1, pre1 <+: pre → lock_run handoff_state pre1 = some s1 →
          s1.lock.change = 1 ∧ s1.lock.wcount = 0 :=
  ⟨by decide, by decide, by decide,
    (rwlock_handoff [.wrlock_enter, .rdlock_enter, .wrlock_enter, .wrunlock] handoff_state
      (by decide)).2.2.2 (by decide) _ lock_sample_final (by decide) (by decide)⟩

/-! ## The asserts of the operations -/

theorem unlock_after_store (cs : List (List Char)) (hcs : ∀ c ∈ cs, slash_free c) (t : Tree)
    (node : Tree) (h : HashMap) (hn : find t cs = some node) :
    unlock_returns (store_hmap t (canonical_path cs) h) (canonical_path cs) (some node)
      = true := by
  rw [store_hmap_canonical cs hcs, unlock_returns_canonical cs hcs,
    find_store_at_self t cs h node hn]
  simp [ptr_eq]

theorem hmap_remove_found (m : HashMap) (c : List Char) (n : Tree)
    (h : hmap_get m c = some n) :
    (hmap_remove m c).1 = true ∧ (hmap_remove m c).2 = hmap_erase m c := by
  simp [hmap_remove, h]

theorem reinsert_succeeds {F : Nat} (t : Tree) (pp : List (List Char)) (c : List Char)
    (sp n : Tree) (hwf : t.wf F = true) (hsp : find t pp = some sp)
    (hn : hmap_get sp.hmap c = some n) :
    (hmap_insert (hmap_remove sp.hmap c).2 c n).1 = true := by
  rw [(hmap_remove_found sp.hmap c n hn).2]
  simp [hmap_insert, erase_self_none_of_wf t pp c sp hwf hsp]

theorem unlock_after_move {F P : Nat} (t : Tree) (a b spp sc tpp tc : List Char)
    (lca : Tree) (r : Int) (t1 : Tree) (hva : is_path_valid F P a = true)
    (hvb : is_path_valid F P b = true) (hpa : make_path_to_parent a = some (spp, sc))
    (hpb : make_path_to_parent b = some (tpp, tc))
    (hl : get_lca t spp tpp .LOCK = some (some lca))
    (hm : tree_move_locked t spp sc tpp tc = some (r, t1)) :
    ∃ u, get_lca t1 spp tpp .UNLOCK = some u ∧ ptr_eq u (some lca) = true := by
  have hra : a ≠ ['/'] := by
    intro e
    subst e
    simp [make_path_to_parent] at hpa
  have hrb : b ≠ ['/'] := by
    intro e
    subst e
    simp [make_path_to_parent] at hpb
  obtain ⟨pa, ca, rfl, hpa0, hca0⟩ := valid_path_snoc hva hra
  obtain ⟨pb, cb, rfl, hpb0, hcb0⟩ := valid_path_snoc hvb hrb
  have hsa : ∀ x ∈ pa, slash_free x := fun x hx => is_valid_component_slash_free (hpa0 x hx)
  have hsb : ∀ x ∈ pb, slash_free x := fun x hx => is_valid_component_slash_free (hpb0 x hx)
  rw [make_path_to_parent_snoc pa (is_valid_component_slash_free hca0)] at hpa
  rw [make_path_to_parent_snoc pb (is_valid_component_slash_free hcb0)] at hpb
  simp only [Option.some.injEq, Prod.mk.injEq] at hpa hpb
  obtain ⟨rfl, rfl⟩ := hpa
  obtain ⟨rfl, rfl⟩ := hpb
  obtain ⟨l, hla, hlb, hlca⟩ := lca_path_canonical pa pb hsa hsb
  have hlsf : ∀ x ∈ l, slash_free x := fun x hx => hsa x (hla.subset hx)
  rw [tree_move_locked_canonical t pa ca pb cb hsa hsb] at hm
  simp only [get_lca, hlca, get_subfolder_canonical l hlsf, Option.some.injEq] at hl ⊢
  refine ⟨_, rfl, ?_⟩
  have := move_at_addr_above t pa ca pb cb r t1 hm l hla hlb
  simp only [addr_at, hl] at this
  simp [ptr_eq, this]
theorem tree_create_addr {F P : Nat} (t : Tree) (p : List Char) (new_addr : Nat) (r : Int)
    (t' : Tree) (h : tree_create F P t p new_addr = some (r, t')) : t'.addr = t.addr := by
  rcases tree_create_inv t p new_addr r t' h with ⟨e, -⟩ | ⟨pp, c, sub, -, -, -, -, -, -, -, e⟩
  · rw [e]
  · rw [e, store_at_addr]

theorem tree_remove_addr {F P : Nat} (t : Tree) (p : List Char) (r : Int) (t' : Tree)
    (h : tree_remove F P t p = some (r, t')) : t'.addr = t.addr := by
  rcases tree_remove_inv t p r t' h with ⟨e, -⟩ | ⟨pp, c, parent, node, -, -, -, -, -, -, -, -, e⟩
  · rw [e]
  · rw [e, store_at_addr]

theorem tree_move_addr {F P : Nat} (t : Tree) (a b : List Char) (r : Int) (t' : Tree)
    (h : tree_move F P t a b = some (r, t')) : t'.addr = t.addr := by
  rcases tree_move_inv t a b r t' h with ⟨e, -, -⟩ |
    ⟨pa, ca, pb, cb, -, -, -, -, -, -, -, -, -, -, hm⟩
  · rw [e]
  rcases move_at_cases t pa ca pb cb r t' hm with ⟨-, e, -⟩ | ⟨sp, n, tp1, -, -, -, hc⟩
  · rw [e]
  · rcases hc with ⟨-, -, e⟩ | ⟨-, -, -, e⟩
    · rw [e, store_at_addr, store_at_addr]
    · rw [e, store_at_addr]

theorem run_ops_inv {F P : Nat} (ops : List TreeOp) (t0 t : Tree) (hwf : t0.wf F = true)
    (h : run_ops F P t0 ops = some t) : t.wf F = true ∧ t.addr = t0.addr := by
  induction ops generalizing t0 with
  | nil =>
    simp only [run_ops, Option.some.injEq] at h
    rw [← h]
    exact ⟨hwf, rfl⟩
  | cons op rest ih =>
    cases op with
    | list p =>
      simp only [run_ops] at h
      cases hl : tree_list F P t0 p with
      | none => simp [hl] at h
      | some r =>
        simp only [hl] at h
        exact ih t0 hwf h
    | create p a =>
      simp only [run_ops] at h
      cases hc : tree_create F P t0 p a with
      | none => simp [hc] at h
      | some res =>
        obtain ⟨r, t1⟩ := res
        simp only [hc] at h
        obtain ⟨h1, h2⟩ := ih t1 (tree_create_wf t0 p a r t1 hwf hc) h
        exact ⟨h1, h2.trans (tree_create_addr t0 p a r t1 hc)⟩
    | remove p =>
      simp only [run_ops] at h
      cases hc : tree_remove F P t0 p with
      | none => simp [hc] at h
      | some res =>
        obtain ⟨r, t1⟩ := res
        simp only [hc] at h
        obtain ⟨h1, h2⟩ := ih t1 (tree_remove_wf t0 p r t1 hwf hc) h
        exact ⟨h1, h2.trans (tree_remove_addr t0 p r t1 hc)⟩
    | move a b =>
      simp only [run_ops] at h
      cases hc : tree_move F P t0 a b with
      | none => simp [hc] at h
      | some res =>
        obtain ⟨r, t1⟩ := res
        simp only [hc] at h
        obtain ⟨h1, h2⟩ := ih t1 (tree_move_wf t0 a b r t1 hwf hc) h
        exact ⟨h1, h2.trans (tree_move_addr t0 a b r t1 hc)⟩

theorem run_ops_returns {F P : Nat} (ops : List TreeOp) (t0 : Tree) (hwf : t0.wf F = true) :
    ∃ t, run_ops F P t0 ops = some t := by
  induction ops generalizing t0 with
  | nil => exact ⟨t0, rfl⟩
  | cons op rest ih =>
    cases op with
    | list p =>
      obtain ⟨r, hr⟩ := tree_list_returns F P t0 p
      simp only [run_ops, hr]
      exact ih t0 hwf
    | create p a =>
      obtain ⟨⟨r, t1⟩, hr⟩ := tree_create_returns F P t0 p a
      simp only [run_ops, hr]
      exact ih t1 (tree_create_wf t0 p a r t1 hwf hr)
    | remove p =>
      obtain ⟨⟨r, t1⟩, hr⟩ := tree_remove_returns F P t0 p
      simp only [run_ops, hr]
      exact ih t1 (tree_remove_wf t0 p r t1 hwf hr)
    | move a b =>
      obtain ⟨⟨r, t1⟩, hr⟩ := tree_move_returns F P t0 a b hwf
      simp only [run_ops, hr]
      exact ih t1 (tree_move_wf t0 a b r t1 hwf hr)
/-- C22. No `assert` fails in sequential execution. For every tree and valid
path the `UNLOCK` descent (`path_rdunlock`) returns, and returns what the `LOCK`
descent of that path returned: the same node or the same null; so do the two
descents of `get_lca`. After the child map of the node under the path was
changed in between, the `UNLOCK` descent still returns that node, and after the
part of `tree_move` under the write lock the `UNLOCK` descent of `get_lca`
returns the LCA node again. `hmap_remove` of a component that was just looked
up succeeds, and on a tree whose child maps hold distinct names the
compensating re-insert of the removed component succeeds. So `tree_list`,
`tree_create` and `tree_remove` return for every tree and argument, `tree_move`
for every tree whose child maps hold distinct valid names, and every sequence
of operations on a tree from `tree_new` runs through. -/
theorem asserts_hold (F P : Nat) (t : Tree) :
    (∀ p, is_path_valid F P p = true →
      get_subfolder t p .LOCK = some (find t (path_components p)) ∧
      get_subfolder t p .UNLOCK = some (find t (path_components p))) ∧
    (∀ s u, is_path_valid F P s = true → is_path_valid F P u = true →
      ∃ r, get_lca t s u .LOCK = some r ∧ get_lca t s u .UNLOCK = some r) ∧
    (∀ p node h, is_path_valid F P p = true → get_subfolder t p .LOCK = some (some node) →
      unlock_returns (store_hmap t p h) p (some node) = true) ∧
    (∀ a b spp sc tpp tc lca r t1, is_path_valid F P a = true → is_path_valid F P b = true →
      make_path_to_parent a = some (spp, sc) → make_path_to_parent b = some (tpp, tc) →
      get_lca t spp tpp .LOCK = some (some lca) →
      tree_move_locked t spp sc tpp tc = some (r, t1) →
      ∃ u, get_lca t1 spp tpp .UNLOCK = some u ∧ ptr_eq u (some lca) = true) ∧
    (∀ m c n, hmap_get m c = some n → (hmap_remove m c).1 = true) ∧
    (t.wf F = true → ∀ pp c sp n, find t pp = some sp → hmap_get sp.hmap c = some n →
      (hmap_insert (hmap_remove sp.hmap c).2 c n).1 = true) ∧
    (∀ p, ∃ r, tree_list F P t p = some r) ∧
    (∀ p new_addr, ∃ r, tree_create F P t p new_addr = some r) ∧
    (∀ p, ∃ r, tree_remove F P t p = some r) ∧
    (t.wf F = true → ∀ a b, ∃ r, tree_move F P t a b = some r) ∧
    (∀ root ops, ∃ t', run_ops F P (tree_new root) ops = some t') := by
  refine ⟨?_, ?_, ?_, ?_, fun m c n h => (hmap_remove_found m c n h).1,
    fun hwf pp c sp n hsp hn => reinsert_succeeds t pp c sp n hwf hsp hn,
    tree_list_returns F P t, tree_create_returns F P t, tree_remove_returns F P t,
    fun hwf a b => tree_move_returns F P t a b hwf,
    fun root ops => run_ops_returns ops (tree_new root) (tree_new_wf F root)⟩
  · intro p hp
    obtain ⟨cs, rfl, hcs⟩ := is_path_valid_sound hp
    have hsf : ∀ c ∈ cs, slash_free c := fun c hc => is_valid_component_slash_free (hcs c hc)
    rw [path_components_canonical cs hsf]
    exact ⟨get_subfolder_canonical cs hsf t .LOCK, get_subfolder_canonical cs hsf t .UNLOCK⟩
  · intro s u hs hu
    obtain ⟨a, rfl, ha⟩ := is_path_valid_sound hs
    obtain ⟨b, rfl, hb⟩ := is_path_valid_sound hu
    have hsa : ∀ c ∈ a, slash_free c := fun c hc => is_valid_component_slash_free (ha c hc)
    have hsb : ∀ c ∈ b, slash_free c := fun c hc => is_valid_component_slash_free (hb c hc)
    obtain ⟨l, hla, -, hl⟩ := lca_path_canonical a b hsa hsb
    have hlsf : ∀ x ∈ l, slash_free x := fun x hx => hsa x (hla.subset hx)
    exact ⟨find t l, by simp only [get_lca, hl, get_subfolder_canonical l hlsf],
      by simp only [get_lca, hl, get_subfolder_canonical l hlsf]⟩
  · intro p node h hp hl
    obtain ⟨cs, rfl, hcs⟩ := is_path_valid_sound hp
    have hsf : ∀ c ∈ cs, slash_free c := fun c hc => is_valid_component_slash_free (hcs c hc)
    rw [get_subfolder_canonical cs hsf, Option.some.injEq] at hl
    exact unlock_after_store cs hsf t node h hl
  · intro a b spp sc tpp tc lca r t1 hva hvb hpa hpb hl hm
    exact unlock_after_move t a b spp sc tpp tc lca r t1 hva hvb hpa hpb hl hm

theorem asserts_hold_witness :
    sample_tree.wf 255 = true ∧
      tree_move 255 4095 sample_tree (str "/a/x/") (str "/b/x/") = some (0, sample_moved) ∧
      (∃ r, tree_move 255 4095 sample_tree (str "/b/") (str "/a/") = some r) ∧
      ∃ t', run_ops 255 4095 (tree_new 0)
        [.create (str "/a/") 1, .create (str "/a/") 2, .move (str "/a/") (str "/b/"),
          .remove (str "/a/"), .list (str "/b/")] = some t' :=
  ⟨rfl, rfl,
    (asserts_hold 255 4095 sample_tree).2.2.2.2.2.2.2.2.2.1 rfl (str "/b/") (str "/a/"),
    (asserts_hold 255 4095 sample_tree).2.2.2.2.2.2.2.2.2.2 0 _⟩

/-- C23. Failure atomicity: whenever `tree_create` or `tree_remove` returns a
code other than 0 the tree afterwards is the tree before, as a value; whenever
`tree_move` returns a code other than 0 the tree afterwards has the same folder
(the same node) under every path and the same number of nodes as before, and is
the tree before as a value unless the code is EEXIST (where the source entry
was removed and put back). A tree reached from `tree_new` by any sequence of
operations still has the node that `tree_new` returned as its root: the listing
of `"/"` is not null, and `tree_remove("/")` returns EBUSY and leaves it. -/
theorem failure_atomicity (F P : Nat) (t : Tree) :
    (∀ p new_addr r t', tree_create F P t p new_addr = some (r, t') → r ≠ 0 → t' = t) ∧
    (∀ p r t', tree_remove F P t p = some (r, t') → r ≠ 0 → t' = t) ∧
    (∀ a b r t', tree_move F P t a b = some (r, t') → r ≠ 0 →
      same_tree t t' ∧ t'.addr = t.addr ∧ (r ≠ EEXIST → t' = t)) ∧
    (∀ root ops, run_ops F P (tree_new root) ops = some t →
      t.addr = root ∧ folder_exists t (path_components ['/']) = true ∧
      (1 ≤ P → (∃ listing, tree_list F P t ['/'] = some (some listing)) ∧
        tree_remove F P t ['/'] = some (EBUSY, t))) := by
  refine ⟨?_, ?_, ?_, ?_⟩
  · intro p a r t' h hr
    rcases tree_create_inv t p a r t' h with ⟨e, -⟩ | ⟨pp, c, sub, -, -, -, -, -, -, e, -⟩
    · exact e
    · exact absurd e hr
  · intro p r t' h hr
    rcases tree_remove_inv t p r t' h with ⟨e, -⟩ |
      ⟨pp, c, parent, node, -, -, -, -, -, -, -, e, -⟩
    · exact e
    · exact absurd e hr
  · intro a b r t' h hr
    refine ⟨?_, tree_move_addr t a b r t' h, ?_⟩
    · rcases tree_move_inv t a b r t' h with ⟨e, -, -⟩ |
        ⟨pa, ca, pb, cb, -, -, -, -, -, -, -, -, -, -, hm⟩
      · rw [e]; exact same_tree_refl t
      rcases move_at_cases t pa ca pb cb r t' hm with ⟨-, e, -⟩ | ⟨sp, n, tp1, hsp, hn, -, hc⟩
      · rw [e]; exact same_tree_refl t
      rcases hc with ⟨-, e, -⟩ | ⟨-, -, -, e⟩
      · exact absurd e hr
      · rw [e]
        exact same_tree_reinsert t pa ca sp n hsp hn
    · intro hne
      rcases tree_move_inv t a b r t' h with ⟨e, -, -⟩ |
        ⟨pa, ca, pb, cb, -, -, -, -, -, -, -, -, -, -, hm⟩
      · exact e
      rcases move_at_cases t pa ca pb cb r t' hm with ⟨-, e, -⟩ | ⟨sp, n, tp1, -, -, -, hc⟩
      · exact e
      rcases hc with ⟨-, e, -⟩ | ⟨-, -, e, -⟩
      · exact absurd e hr
      · exact absurd e hne
  · intro root ops h
    obtain ⟨-, haddr⟩ := run_ops_inv ops (tree_new root) t (tree_new_wf F root) h
    refine ⟨haddr, rfl, ?_⟩
    intro hP
    have hv : is_path_valid F P (canonical_path []) = true :=
      is_path_valid_canonical [] (by simp) (by simpa [canonical_path] using hP)
    have hl := tree_list_canonical t [] hv (by simp)
    simp only [canonical_path, find, Option.map_some'] at hl hv
    exact ⟨⟨_, hl⟩, tree_remove_root t hv⟩

theorem failure_atomicity_witness :
    tree_move 255 4095 sample_tree (str "/b/") (str "/a/") = some (EEXIST, sample_self_moved) ∧
      same_tree sample_tree sample_self_moved ∧ sample_self_moved.addr = sample_tree.addr :=
  ⟨rfl,
    ((failure_atomicity 255 4095 sample_tree).2.2.1 (str "/b/") (str "/a/") EEXIST
      sample_self_moved rfl (by decide)).1,
    ((failure_atomicity 255 4095 sample_tree).2.2.1 (str "/b/") (str "/a/") EEXIST
      sample_self_moved rfl (by decide)).2.1⟩

/-! ## Several threads on one tree

The threads keep four things in step (`world_inv`, `wake_inv`): the tree stays
well formed with pairwise different addresses; every thread in its operation has
made the first lock calls of its operation on the tree as it is now; the
counters of every lock count the calls of the threads on it; and the wake-ups
fit the locks. A thread that changes the tree holds the write lock of a node, so
no other thread holds or waits for a lock below that node. When every thread
that could step waits, a thread that has come deepest waits for a lock that
nobody holds, and a wake-up for that lock is pending. -/

/-! ### The lock calls of an operation, by position -/

theorem plan_events_split (t : Tree) (plan : List (List Char) × Option LockMode) :
    bracket (lock_chain t plan.1) (plan_mid t plan) = plan_locks t plan ++ plan_unlocks t plan := by
  simp only [bracket, plan_locks, plan_unlocks, List.append_assoc]
  congr 1
  rw [← List.append_assoc, List.take_append_drop]

theorem op_events_plan {F P : Nat} (t : Tree) (op : TreeOp) (hwf : t.wf F = true) :
    op_events F P t op
      = bracket (lock_chain t (op_plan F P op).1) (plan_mid t (op_plan F P op)) := by
  cases op with
  | list p =>
    by_cases hv : is_path_valid F P p = true
    swap
    · simp [op_events, op_plan, tree_list_events, hv, bracket, plan_mid, lock_chain]
    obtain ⟨cs, rfl, hcs⟩ := is_path_valid_sound hv
    have hsf : ∀ c ∈ cs, slash_free c := fun c hc => is_valid_component_slash_free (hcs c hc)
    simp only [op_events, op_plan, tree_list_events, hv, Bool.not_true, if_false, if_true,
      get_subfolder_canonical cs hsf, get_subfolder_events_lock cs hsf,
      get_subfolder_events_unlock cs hsf, path_components_canonical cs hsf, plan_mid]
    cases hf : find t cs <;> simp [bracket, mode_lock, mode_unlock]
  | create p new_addr =>
    by_cases hv : is_path_valid F P p = true
    swap
    · simp [op_events, op_plan, tree_create_events, hv, bracket, plan_mid, lock_chain]
    by_cases hr : p = ['/']
    · simp [op_events, op_plan, tree_create_events, hr, bracket, plan_mid, lock_chain]
    obtain ⟨pp, c, rfl, hpp, hc⟩ := valid_path_snoc hv hr
    have hpp' : ∀ x ∈ pp, slash_free x := fun x hx => is_valid_component_slash_free (hpp x hx)
    have hc' := is_valid_component_slash_free hc
    simp only [op_events, op_plan, tree_create_events, hv, Bool.not_true, snoc_ne_root, if_false,
      make_path_to_parent_snoc pp hc', get_subfolder_canonical pp hpp',
      get_subfolder_events_lock pp hpp', get_subfolder_events_unlock pp hpp',
      store_hmap_canonical pp hpp', lock_chain_store_at _ _ _ _ (List.prefix_refl _),
      path_components_canonical _ (snoc_slash_free hpp' hc'), List.dropLast_concat,
      ne_eq, not_false_eq_true, and_self, if_true, plan_mid]
    cases hf : find t pp <;> simp [bracket, mode_lock, mode_unlock]
  | remove p =>
    by_cases hv : is_path_valid F P p = true
    swap
    · simp [op_events, op_plan, tree_remove_events, hv, bracket, plan_mid, lock_chain]
    by_cases hr : p = ['/']
    · simp [op_events, op_plan, tree_remove_events, hr, bracket, plan_mid, lock_chain]
    obtain ⟨pp, c, rfl, hpp, hc⟩ := valid_path_snoc hv hr
    have hpp' : ∀ x ∈ pp, slash_free x := fun x hx => is_valid_component_slash_free (hpp x hx)
    have hc' := is_valid_component_slash_free hc
    simp only [op_events, op_plan, tree_remove_events, hv, Bool.not_true, snoc_ne_root, if_false,
      make_path_to_parent_snoc pp hc', get_subfolder_canonical pp hpp',
      get_subfolder_events_lock pp hpp', get_subfolder_events_unlock pp hpp',
      store_hmap_canonical pp hpp', lock_chain_store_at _ _ _ _ (List.prefix_refl _),
      path_components_canonical _ (snoc_slash_free hpp' hc'), List.dropLast_concat,
      ne_eq, not_false_eq_true, and_self, if_true, plan_mid]
    cases hf : find t pp with
    | none => simp [bracket]
    | some n =>
      cases hg : hmap_get n.hmap c with
      | none => simp [bracket, hg, mode_lock, mode_unlock]
      | some node =>
        by_cases hsz : hmap_size node.hmap = 0
        · simp [bracket, hsz, hmap_remove, hg, mode_lock, mode_unlock]
        · simp [bracket, hsz, hg, mode_lock, mode_unlock]
  | move a b =>
    by_cases hva : is_path_valid F P a = true
    swap
    · simp [op_events, op_plan, tree_move_events, hva, bracket, plan_mid, lock_chain]
    by_cases hvb : is_path_valid F P b = true
    swap
    · simp [op_events, op_plan, tree_move_events, hvb, bracket, plan_mid, lock_chain]
    by_cases hra : a = ['/']
    · simp [op_events, op_plan, tree_move_events, hra, bracket, plan_mid, lock_chain]
    by_cases hrb : b = ['/']
    · simp [op_events, op_plan, tree_move_events, hrb, bracket, plan_mid, lock_chain]
    obtain ⟨pa, ca, rfl, hpa0, hca0⟩ := valid_path_snoc hva hra
    obtain ⟨pb, cb, rfl, hpb0, hcb0⟩ := valid_path_snoc hvb hrb
    have hpa : ∀ x ∈ pa, slash_free x := fun x hx => is_valid_component_slash_free (hpa0 x hx)
    have hpb : ∀ x ∈ pb, slash_free x := fun x hx => is_valid_component_slash_free (hpb0 x hx)
    have hca := is_valid_component_slash_free hca0
    have hcb := is_valid_component_slash_free hcb0
    have hsa := snoc_slash_free hpa hca
    have hsb := snoc_slash_free hpb hcb
    by_cases hs1 : starts_with (canonical_path (pb ++ [cb])) (canonical_path (pa ++ [ca])) = true
    · simp [op_events, op_plan, tree_move_events, hva, hvb, snoc_ne_root,
        make_path_to_parent_snoc pa hca, make_path_to_parent_snoc pb hcb, hs1, bracket,
        plan_mid, lock_chain]
    by_cases hs2 : starts_with (canonical_path (pa ++ [ca])) (canonical_path (pb ++ [cb])) = true
    · simp [op_events, op_plan, tree_move_events, hva, hvb, snoc_ne_root,
        make_path_to_parent_snoc pa hca, make_path_to_parent_snoc pb hcb, hs1, hs2, bracket,
        plan_mid, get_subfolder_events_lock _ hsa, get_subfolder_events_unlock _ hsa,
        path_components_canonical _ hsa]
    have h1 : ¬ strict_prefix_of (pa ++ [ca]) (pb ++ [cb]) :=
      fun e => hs1 ((starts_with_canonical hsa hsb).mpr e)
    obtain ⟨l, hla, hlb, hl⟩ := lca_path_canonical pa pb hpa hpb
    have hlsf : ∀ x ∈ l, slash_free x := fun x hx => hpa x (hla.subset hx)
    obtain ⟨r, t1, hm⟩ := move_at_returns t pa ca pb cb hwf h1
    have hch := move_at_lock_chain t pa ca pb cb r t1 hm l hla hlb
    simp only [op_events, op_plan, tree_move_events, hva, hvb, Bool.not_true, snoc_ne_root,
      if_false, make_path_to_parent_snoc pa hca, make_path_to_parent_snoc pb hcb, hs1, hs2,
      get_lca, get_lca_events, hl, get_subfolder_canonical l hlsf,
      tree_move_locked_canonical t pa ca pb cb hpa hpb, hm,
      get_subfolder_events_lock l hlsf, get_subfolder_events_unlock l hlsf, hch,
      path_components_canonical _ hsa, path_components_canonical _ hsb, List.dropLast_concat,
      path_components_canonical _ hlsf, ne_eq, not_false_eq_true, and_self, if_true, plan_mid]
    cases hfl : find t l <;> simp [bracket, mode_lock, mode_unlock, hfl]

theorem lock_chain_getElem (l : List (List Char)) (t : Tree) (i : Nat) :
    (lock_chain t l)[i]? = if i < l.length then addr_at t (l.take i) else none := by
  induction l generalizing t i with
  | nil => simp [lock_chain]
  | cons c cs ih =>
    cases i with
    | zero => simp [lock_chain, addr_at, find]
    | succ j =>
      simp only [lock_chain, List.getElem?_cons_succ, List.length_cons, List.take_succ_cons,
        Nat.add_lt_add_iff_right, addr_at, find]
      cases hg : hmap_get t.hmap c with
      | none => simp
      | some child => simpa [addr_at] using ih child j

theorem lock_chain_length_le (l : List (List Char)) (t : Tree) :
    (lock_chain t l).length ≤ l.length := by
  induction l generalizing t with
  | nil => simp [lock_chain]
  | cons c cs ih =>
    simp only [lock_chain, List.length_cons]
    cases hg : hmap_get t.hmap c with
    | none => simp
    | some child => simpa using ih child

theorem plan_locks_getElem (t : Tree) (plan : List (List Char) × Option LockMode) (i : Nat) :
    (plan_locks t plan)[i]? = plan_lock_at t plan i := by
  obtain ⟨l, m⟩ := plan
  simp only [plan_locks, plan_lock_at, plan_mid]
  cases hf : find t l with
  | none =>
    have e : (match m, (none : Option Tree) with
        | some m, some n => [mode_lock m n.addr, mode_unlock m n.addr]
        | _, _ => ([] : List LockEvent)) = [] := by cases m <;> rfl
    rw [e]
    simp only [List.take_nil, List.append_nil, List.getElem?_map, lock_chain_getElem]
    by_cases h1 : i < l.length
    · simp [h1]
    · by_cases h2 : i = l.length
      · cases m <;> simp [h2, addr_at, hf]
      · simp [h1, h2]
  | some n =>
    have hlen := lock_chain_length t l n hf
    by_cases h1 : i < l.length
    · rw [List.getElem?_append_left (by simpa [hlen] using h1)]
      simp [h1, lock_chain_getElem]
    · rw [List.getElem?_append_right (by simp [hlen]; omega)]
      simp only [List.length_map, hlen, h1, if_false]
      by_cases h2 : i = l.length
      · subst h2
        cases m <;> simp [addr_at, hf]
      · have : i - l.length ≠ 0 := by omega
        cases m with
        | none => simp [h2]
        | some m =>
          simp only [h2, if_false]
          obtain ⟨k, hk⟩ := Nat.exists_eq_succ_of_ne_zero this
          rw [hk]
          simp

theorem plan_locks_length_le (t : Tree) (plan : List (List Char) × Option LockMode) :
    (plan_locks t plan).length ≤ plan.1.length + 1 := by
  have h1 := lock_chain_length_le plan.1 t
  have h2 : ((plan_mid t plan).take 1).length ≤ 1 := by
    rw [List.length_take]; exact Nat.min_le_left _ _
  simp only [plan_locks, List.length_append, List.length_map]
  omega

theorem plan_unlocks_length_le (t : Tree) (plan : List (List Char) × Option LockMode) :
    (plan_unlocks t plan).length ≤ plan.1.length + 1 := by
  have h1 := lock_chain_length_le plan.1 t
  have h2 : ((plan_mid t plan).drop 1).length ≤ 1 := by
    simp only [plan_mid]
    split <;> simp
  simp only [plan_unlocks, List.length_append, List.length_map, List.length_reverse]
  omega

theorem count_map_rdlock (chain : List Nat) (b : Nat) :
    (chain.map LockEvent.rdlock).count (.rdlock b) = chain.count b ∧
    (chain.map LockEvent.rdlock).count (.wrlock b) = 0 ∧
    (chain.map LockEvent.rdunlock).count (.rdunlock b) = chain.count b ∧
    (chain.map LockEvent.rdunlock).count (.wrunlock b) = 0 := by
  induction chain with
  | nil => simp
  | cons x xs ih =>
    obtain ⟨h1, h2, h3, h4⟩ := ih
    simp only [List.map_cons, List.count_cons, h1, h2, h3, h4, beq_iff_eq,
      LockEvent.rdlock.injEq, LockEvent.rdunlock.injEq, reduceCtorEq, if_false, and_self,
      and_true, true_and]

theorem plan_shape (t : Tree) (plan : List (List Char) × Option LockMode) :
    (plan_locks t plan = (lock_chain t plan.1).map LockEvent.rdlock ∧
      plan_unlocks t plan = (lock_chain t plan.1).reverse.map LockEvent.rdunlock) ∨
    ∃ m a, plan.2 = some m ∧ addr_at t plan.1 = some a ∧
      plan_locks t plan = (lock_chain t plan.1).map LockEvent.rdlock ++ [mode_lock m a] ∧
      plan_unlocks t plan
        = mode_unlock m a :: (lock_chain t plan.1).reverse.map LockEvent.rdunlock := by
  obtain ⟨l, m⟩ := plan
  simp only [plan_locks, plan_unlocks, plan_mid]
  cases m with
  | none => exact Or.inl (by simp)
  | some m =>
    cases hf : find t l with
    | none => exact Or.inl (by simp)
    | some n => exact Or.inr ⟨m, n.addr, rfl, by simp [addr_at, hf], by simp, by simp⟩

theorem plan_locks_is_lock (t : Tree) (plan : List (List Char) × Option LockMode)
    (e : LockEvent) (he : e ∈ plan_locks t plan) : e.is_lock = true := by
  rcases plan_shape t plan with ⟨h1, -⟩ | ⟨m, a, -, -, h1, -⟩
  · rw [h1] at he
    obtain ⟨x, -, rfl⟩ := List.mem_map.mp he
    rfl
  · rw [h1] at he
    rcases List.mem_append.mp he with h | h
    · obtain ⟨x, -, rfl⟩ := List.mem_map.mp h
      rfl
    · rw [List.mem_singleton.mp h]
      cases m <;> rfl

theorem plan_unlocks_not_lock (t : Tree) (plan : List (List Char) × Option LockMode)
    (e : LockEvent) (he : e ∈ plan_unlocks t plan) : e.is_lock = false := by
  rcases plan_shape t plan with ⟨-, h1⟩ | ⟨m, a, -, -, -, h1⟩
  · rw [h1] at he
    obtain ⟨x, -, rfl⟩ := List.mem_map.mp he
    rfl
  · rw [h1] at he
    rcases List.mem_cons.mp he with h | h
    · rw [h]
      cases m <;> rfl
    · obtain ⟨x, -, rfl⟩ := List.mem_map.mp h
      rfl

theorem plan_unlocks_nil (t : Tree) (plan : List (List Char) × Option LockMode)
    (h : plan_unlocks t plan = []) : plan_locks t plan = [] := by
  rcases plan_shape t plan with ⟨h1, h2⟩ | ⟨m, a, -, -, -, h2⟩
  · rw [h2] at h
    rw [h1]
    simpa using h
  · rw [h2] at h
    simp at h

theorem plan_unlocks_rdunlock (t : Tree) (plan : List (List Char) × Option LockMode) (a : Nat)
    (rest : List LockEvent) (h : plan_unlocks t plan = .rdunlock a :: rest) :
    (∀ x ∈ rest, ∃ b, x = LockEvent.rdunlock b) ∧
    ∀ b, (plan_locks t plan).count (.rdlock b) = (LockEvent.rdunlock a :: rest).count (.rdunlock b) ∧
      (plan_locks t plan).count (.wrlock b) = 0 := by
  have hall : ∀ chain : List Nat, ∀ x ∈ chain.reverse.map LockEvent.rdunlock,
      ∃ b, x = LockEvent.rdunlock b := by
    intro chain x hx
    obtain ⟨y, -, rfl⟩ := List.mem_map.mp hx
    exact ⟨y, rfl⟩
  rcases plan_shape t plan with ⟨h1, h2⟩ | ⟨m, a', -, -, h1, h2⟩
  · refine ⟨fun x hx => hall (lock_chain t plan.1) x ?_, fun b => ?_⟩
    · rw [← h2, h]
      exact List.mem_cons_of_mem _ hx
    · rw [← h, h1, h2]
      simp [(count_map_rdlock _ b).1, (count_map_rdlock _ b).2.1,
        (count_map_rdlock _ b).2.2.1, List.count_reverse]
  · rw [h2] at h
    cases m with
    | write => simp [mode_unlock] at h
    | read =>
      simp only [mode_unlock, List.cons.injEq, LockEvent.rdunlock.injEq] at h
      obtain ⟨rfl, rfl⟩ := h
      refine ⟨hall _, fun b => ?_⟩
      rw [h1]
      simp [(count_map_rdlock _ b).1, (count_map_rdlock _ b).2.1,
        (count_map_rdlock _ b).2.2.1, List.count_reverse, mode_lock, List.count_cons,
        List.count_append, Nat.add_comm]

theorem plan_unlocks_wrunlock (t : Tree) (plan : List (List Char) × Option LockMode) (a : Nat)
    (rest : List LockEvent) (h : plan_unlocks t plan = .wrunlock a :: rest) :
    (∀ x ∈ rest, ∃ b, x = LockEvent.rdunlock b) ∧ addr_at t plan.1 = some a ∧
    ∀ b, (plan_locks t plan).count (.rdlock b) = rest.count (.rdunlock b) ∧
      (plan_locks t plan).count (.wrlock b) = if b = a then 1 else 0 := by
  rcases plan_shape t plan with ⟨-, h2⟩ | ⟨m, a', -, ha, h1, h2⟩
  · rw [h2] at h
    have : LockEvent.wrunlock a ∈ (lock_chain t plan.1).reverse.map LockEvent.rdunlock := by
      rw [h]; exact List.mem_cons_self _ _
    obtain ⟨y, -, hy⟩ := List.mem_map.mp this
    simp at hy
  · rw [h2] at h
    cases m with
    | read => simp [mode_unlock] at h
    | write =>
      simp only [mode_unlock, List.cons.injEq, LockEvent.wrunlock.injEq] at h
      obtain ⟨rfl, rfl⟩ := h
      refine ⟨fun x hx => ?_, ha, fun b => ?_⟩
      · obtain ⟨y, -, rfl⟩ := List.mem_map.mp hx
        exact ⟨y, rfl⟩
      · rw [h1]
        by_cases hb : b = a'
        · subst hb
          simp [(count_map_rdlock _ b).1, (count_map_rdlock _ b).2.1,
            (count_map_rdlock _ b).2.2.1, List.count_reverse, mode_lock, List.count_cons,
            List.count_append]
        · have hb' : ¬ a' = b := fun e => hb e.symm
          simp [(count_map_rdlock _ b).1, (count_map_rdlock _ b).2.1,
            (count_map_rdlock _ b).2.2.1, List.count_reverse, mode_lock, List.count_cons,
            List.count_append, hb, hb']

theorem next_event_cases (t : Tree) (plan : List (List Char) × Option LockMode)
    (held : List LockEvent) (hp : held <+: plan_locks t plan) :
    ((plan_locks t plan ++ plan_unlocks t plan).drop held.length = [] ∧ held = [] ∧
      plan_unlocks t plan = []) ∨
    (∃ e rest, (plan_locks t plan ++ plan_unlocks t plan).drop held.length = e :: rest ∧
      e.is_lock = true ∧ held ++ [e] <+: plan_locks t plan) ∨
    (∃ e rest, (plan_locks t plan ++ plan_unlocks t plan).drop held.length = e :: rest ∧
      e.is_lock = false ∧ held = plan_locks t plan ∧ plan_unlocks t plan = e :: rest) := by
  obtain ⟨u, hu⟩ := hp
  rw [← hu, List.append_assoc, List.drop_left]
  cases u with
  | cons e u =>
    refine Or.inr (Or.inl ⟨e, u ++ plan_unlocks t plan, rfl, ?_, ⟨u, by simp⟩⟩)
    exact plan_locks_is_lock t plan e (by rw [← hu]; simp)
  | nil =>
    simp only [List.append_nil] at hu ⊢
    cases hU : plan_unlocks t plan with
    | nil =>
      refine Or.inl ⟨rfl, ?_, rfl⟩
      rw [hu]; exact plan_unlocks_nil t plan hU
    | cons e rest =>
      refine Or.inr (Or.inr ⟨e, rest, rfl, ?_, trivial, rfl⟩)
      exact plan_unlocks_not_lock t plan e (by rw [hU]; exact List.mem_cons_self _ _)

/-! ### Counting the calls of the threads on a lock -/

theorem total_set_exists (f : ThreadState → Nat) (threads : List ThreadState) (i : Nat)
    (th : ThreadState) (h : threads[i]? = some th) :
    ∃ r, total f threads = r + f th ∧ ∀ th', total f (threads.set i th') = r + f th' := by
  induction threads generalizing i with
  | nil => simp at h
  | cons x xs ih =>
    cases i with
    | zero =>
      simp only [List.getElem?_cons_zero, Option.some.injEq] at h
      subst h
      exact ⟨total f xs, by simp [total, Nat.add_comm],
        fun th' => by simp [total, Nat.add_comm]⟩
    | succ j =>
      simp only [List.getElem?_cons_succ] at h
      obtain ⟨r, h1, h2⟩ := ih j h
      refine ⟨f x + r, ?_, fun th' => ?_⟩
      · simp only [total, List.map_cons, List.sum_cons] at h1 ⊢
        omega
      · have := h2 th'
        simp only [total, List.set_cons_succ, List.map_cons, List.sum_cons] at this ⊢
        omega

theorem le_total (f : ThreadState → Nat) (threads : List ThreadState) (i : Nat)
    (th : ThreadState) (h : threads[i]? = some th) : f th ≤ total f threads := by
  obtain ⟨r, h1, -⟩ := total_set_exists f threads i th h
  omega

theorem total_pos_exists (f : ThreadState → Nat) (threads : List ThreadState)
    (h : 0 < total f threads) :
    ∃ (i : Nat) (th : ThreadState), threads[i]? = some th ∧ 0 < f th := by
  induction threads with
  | nil => simp [total] at h
  | cons x xs ih =>
    by_cases hx : 0 < f x
    · exact ⟨0, x, by simp, hx⟩
    · have : 0 < total f xs := by
        simp only [total, List.map_cons, List.sum_cons] at h ⊢
        omega
      obtain ⟨i, th, h1, h2⟩ := ih this
      exact ⟨i + 1, th, by simpa using h1, h2⟩

theorem total_eq_zero (f : ThreadState → Nat) (threads : List ThreadState)
    (h : ∀ th ∈ threads, f th = 0) : total f threads = 0 := by
  induction threads with
  | nil => rfl
  | cons x xs ih =>
    simp only [total, List.map_cons, List.sum_cons]
    have h1 := h x (List.mem_cons_self _ _)
    have h2 := ih (fun th hth => h th (List.mem_cons_of_mem _ hth))
    simp only [total] at h2
    omega

theorem locks_update (threads : List ThreadState) (locks : Locks) (i : Nat)
    (th th' : ThreadState) (a : Nat) (l' : rwlock_t) (hget : threads[i]? = some th)
    (hold : ∀ b, lock_ok (locks b) (total (ThreadState.reads b) threads)
      (total (ThreadState.writes b) threads) (total (ThreadState.rwaits b) threads)
      (total (ThreadState.wwaits b) threads))
    (hsame : ∀ b, b ≠ a → th'.reads b = th.reads b ∧ th'.writes b = th.writes b ∧
      th'.rwaits b = th.rwaits b ∧ th'.wwaits b = th.wwaits b)
    (hnew : ∀ r w br bw, lock_ok (locks a) (r + th.reads a) (w + th.writes a)
        (br + th.rwaits a) (bw + th.wwaits a) →
      lock_ok l' (r + th'.reads a) (w + th'.writes a) (br + th'.rwaits a) (bw + th'.wwaits a))
    (b : Nat) :
    lock_ok (set_lock locks a l' b) (total (ThreadState.reads b) (threads.set i th'))
      (total (ThreadState.writes b) (threads.set i th'))
      (total (ThreadState.rwaits b) (threads.set i th'))
      (total (ThreadState.wwaits b) (threads.set i th')) := by
  obtain ⟨r, hr1, hr2⟩ := total_set_exists (ThreadState.reads b) threads i th hget
  obtain ⟨w, hw1, hw2⟩ := total_set_exists (ThreadState.writes b) threads i th hget
  obtain ⟨br, hbr1, hbr2⟩ := total_set_exists (ThreadState.rwaits b) threads i th hget
  obtain ⟨bw, hbw1, hbw2⟩ := total_set_exists (ThreadState.wwaits b) threads i th hget
  have h := hold b
  rw [hr1, hw1, hbr1, hbw1] at h
  rw [hr2, hw2, hbr2, hbw2]
  by_cases hb : b = a
  · subst hb
    simp only [set_lock, if_true]
    exact hnew r w br bw h
  · obtain ⟨e1, e2, e3, e4⟩ := hsame b hb
    simp only [set_lock, hb, if_false]
    rw [e1, e2, e3, e4]
    exact h

theorem threads_update (threads : List ThreadState) (i : Nat) (th' : ThreadState)
    (Q : Nat → ThreadState → Prop)
    (hold : ∀ (j : Nat) (th : ThreadState), j ≠ i → threads[j]? = some th → Q j th)
    (hnew : Q i th') (j : Nat) (th : ThreadState) (h : (threads.set i th')[j]? = some th) :
    Q j th := by
  rw [List.getElem?_set] at h
  by_cases hij : i = j
  · subst hij
    simp only [if_true] at h
    split at h
    · simp only [Option.some.injEq] at h
      rw [← h]; exact hnew
    · simp at h
  · simp only [hij, if_false] at h
    exact hold j th (fun e => hij e.symm) h

theorem lock_ok_rdlock_enter (l : rwlock_t) (r w br bw : Nat) (h : lock_ok l r w br bw) :
    if (rwlock_rdlock_enter l).2 then lock_ok (rwlock_rdlock_enter l).1 r w (br + 1) bw
    else lock_ok (rwlock_rdlock_enter l).1 (r + 1) w br bw := by
  obtain ⟨rc, wc, rw, ww, ch⟩ := l
  obtain ⟨h1, h2, h3, h4, h5, h6, h7, h8, h9⟩ := h
  dsimp only at h1 h2 h3 h4 h5 h6 h7 h8 h9
  simp only [rwlock_rdlock_enter]
  by_cases hc : wc + ww > 0 ∧ ch = 0
  · rw [if_pos hc]
    simp only [if_true, lock_ok]
    refine ⟨?_, ?_, ?_, ?_, ?_, ?_, ?_, ?_, ?_⟩ <;> omega
  · rw [if_neg hc]
    simp only [if_false, lock_ok, Bool.false_eq_true]
    exact ⟨by omega, by omega, by omega, by omega, Or.inl trivial, by omega, by omega,
      Or.inl trivial, Or.inl trivial⟩

theorem lock_ok_rdlock_wake (l : rwlock_t) (r w br bw : Nat) (h : lock_ok l r w (br + 1) bw) :
    if (rwlock_rdlock_wake l).2 then lock_ok (rwlock_rdlock_wake l).1 r w (br + 1) bw
    else lock_ok (rwlock_rdlock_wake l).1 (r + 1) w br bw := by
  obtain ⟨rc, wc, rw, ww, ch⟩ := l
  obtain ⟨h1, h2, h3, h4, h5, h6, h7, h8, h9⟩ := h
  dsimp only at h1 h2 h3 h4 h5 h6 h7 h8 h9
  simp only [rwlock_rdlock_wake]
  by_cases hc : wc > 0 ∧ ch = 0
  · rw [if_pos hc]
    simp only [if_true, lock_ok]
    refine ⟨?_, ?_, ?_, ?_, ?_, ?_, ?_, ?_, ?_⟩ <;> omega
  · rw [if_neg hc]
    simp only [if_false, lock_ok, Bool.false_eq_true]
    exact ⟨by omega, by omega, by omega, by omega, Or.inl trivial, by omega, by omega,
      Or.inl trivial, Or.inl trivial⟩

theorem lock_ok_wrlock_enter (l : rwlock_t) (r w br bw : Nat) (h : lock_ok l r w br bw) :
    if (rwlock_wrlock_enter l).2 then lock_ok (rwlock_wrlock_enter l).1 r w br (bw + 1)
    else lock_ok (rwlock_wrlock_enter l).1 r (w + 1) br bw := by
  obtain ⟨rc, wc, rw, ww, ch⟩ := l
  obtain ⟨h1, h2, h3, h4, h5, h6, h7, h8, h9⟩ := h
  dsimp only at h1 h2 h3 h4 h5 h6 h7 h8 h9
  simp only [rwlock_wrlock_enter]
  by_cases hc : rc + wc > 0 ∨ ch = 1
  · rw [if_pos hc]
    simp only [if_true, lock_ok]
    refine ⟨?_, ?_, ?_, ?_, ?_, ?_, ?_, ?_, ?_⟩ <;> omega
  · rw [if_neg hc]
    simp only [if_false, lock_ok, Bool.false_eq_true]
    refine ⟨?_, ?_, ?_, ?_, ?_, ?_, ?_, ?_, ?_⟩ <;> omega

theorem lock_ok_wrlock_wake (l : rwlock_t) (r w br bw : Nat) (h : lock_ok l r w br (bw + 1)) :
    if (rwlock_wrlock_wake l).2 then lock_ok (rwlock_wrlock_wake l).1 r w br (bw + 1)
    else lock_ok (rwlock_wrlock_wake l).1 r (w + 1) br bw := by
  obtain ⟨rc, wc, rw, ww, ch⟩ := l
  obtain ⟨h1, h2, h3, h4, h5, h6, h7, h8, h9⟩ := h
  dsimp only at h1 h2 h3 h4 h5 h6 h7 h8 h9
  simp only [rwlock_wrlock_wake]
  by_cases hc : rc + wc > 0 ∨ ch = 1
  · rw [if_pos hc]
    simp only [if_true, lock_ok]
    refine ⟨?_, ?_, ?_, ?_, ?_, ?_, ?_, ?_, ?_⟩ <;> omega
  · rw [if_neg hc]
    simp only [if_false, lock_ok, Bool.false_eq_true]
    refine ⟨?_, ?_, ?_, ?_, ?_, ?_, ?_, ?_, ?_⟩ <;> omega

theorem lock_ok_rdunlock (l : rwlock_t) (r w br bw : Nat) (h : lock_ok l (r + 1) w br bw) :
    lock_ok (rwlock_rdunlock l) r w br bw := by
  obtain ⟨rc, wc, rw, ww, ch⟩ := l
  obtain ⟨h1, h2, h3, h4, h5, h6, h7, h8, h9⟩ := h
  dsimp only at h1 h2 h3 h4 h5 h6 h7 h8 h9
  simp only [rwlock_rdunlock, lock_ok]
  refine ⟨?_, ?_, ?_, ?_, ?_, ?_, ?_, ?_, ?_⟩ <;> omega

theorem lock_ok_wrunlock (l : rwlock_t) (r w br bw : Nat) (h : lock_ok l r (w + 1) br bw) :
    lock_ok (rwlock_wrunlock l) r w br bw := by
  obtain ⟨rc, wc, rw, ww, ch⟩ := l
  obtain ⟨h1, h2, h3, h4, h5, h6, h7, h8, h9⟩ := h
  dsimp only at h1 h2 h3 h4 h5 h6 h7 h8 h9
  simp only [rwlock_wrunlock]
  by_cases hc : rw > 0
  · rw [if_pos hc]
    simp only [lock_ok]
    exact ⟨by omega, by omega, by omega, by omega, Or.inr trivial, by omega, by omega,
      by omega, by omega⟩
  · rw [if_neg hc]
    simp only [lock_ok]
    refine ⟨?_, ?_, ?_, ?_, ?_, ?_, ?_, ?_, ?_⟩ <;> omega

/-! ### What a change of the tree leaves in place -/

theorem strict_prefix_of_snoc (l pp : List (List Char)) (c : List Char) (r : List (List Char))
    (hl : l <+: pp) (h : (pp ++ [c]) <+: r) : strict_prefix_of l r := by
  obtain ⟨u, rfl⟩ := hl
  obtain ⟨v, rfl⟩ := h
  refine ⟨⟨u ++ [c] ++ v, by simp⟩, fun e => ?_⟩
  have := congrArg List.length e
  simp at this

theorem addr_at_tree_new (a : Nat) (s : List (List Char)) (b : Nat)
    (h : addr_at (tree_new a) s = some b) : s = [] ∧ b = a := by
  cases s with
  | nil =>
    simp only [addr_at, find, tree_new, Option.map_some', Option.some.injEq, Tree.addr] at h
    exact ⟨rfl, h.symm⟩
  | cons c s => simp [addr_at, find, tree_new, Tree.hmap, hmap_get] at h

theorem insert_spec (t : Tree) (pp : List (List Char)) (c : List Char) (sub : Tree) (a : Nat)
    (hf : find t pp = some sub) (hd : distinct_addrs t) (ha : ∀ r, addr_at t r ≠ some a) :
    distinct_addrs (store_at t pp ((c, tree_new a) :: sub.hmap)) ∧
    (∀ r, ¬ strict_prefix_of pp r →
      addr_at (store_at t pp ((c, tree_new a) :: sub.hmap)) r = addr_at t r) ∧
    (∀ r b, addr_at (store_at t pp ((c, tree_new a) :: sub.hmap)) r = some b →
      (∃ r', addr_at t r' = some b) ∨ b = a) := by
  have hin := addr_at_insert_inside t pp c (tree_new a) sub hf
  have hout := addr_at_insert_outside t pp c (tree_new a) sub hf
  have key : ∀ r b, addr_at (store_at t pp ((c, tree_new a) :: sub.hmap)) r = some b →
      (r = pp ++ [c] ∧ b = a) ∨ (¬ (pp ++ [c]) <+: r ∧ addr_at t r = some b) := by
    intro r b h
    by_cases hr : (pp ++ [c]) <+: r
    · obtain ⟨s, rfl⟩ := hr
      rw [hin s] at h
      obtain ⟨rfl, rfl⟩ := addr_at_tree_new a s b h
      exact Or.inl ⟨by simp, rfl⟩
    · rw [hout r hr] at h
      exact Or.inr ⟨hr, h⟩
  refine ⟨fun p q b hp hq => ?_, fun r hr => ?_, fun r b h => ?_⟩
  · rcases key p b hp with ⟨e1, e2⟩ | ⟨-, h1⟩ <;> rcases key q b hq with ⟨e3, e4⟩ | ⟨-, h2⟩
    · rw [e1, e3]
    · exact absurd (e2 ▸ h2) (ha q)
    · exact absurd (e4 ▸ h1) (ha p)
    · exact hd p q b h1 h2
  · exact hout r (fun h => hr (strict_prefix_of_snoc pp pp c r (List.prefix_refl _) h))
  · rcases key r b h with ⟨-, e⟩ | ⟨-, h1⟩
    · exact Or.inr e
    · exact Or.inl ⟨r, h1⟩

theorem erase_spec {F : Nat} (t : Tree) (pp : List (List Char)) (c : List Char) (parent : Tree)
    (hwf : t.wf F = true) (hf : find t pp = some parent) (hd : distinct_addrs t) :
    distinct_addrs (store_at t pp (hmap_erase parent.hmap c)) ∧
    (∀ r, ¬ strict_prefix_of pp r →
      addr_at (store_at t pp (hmap_erase parent.hmap c)) r = addr_at t r) ∧
    (∀ r b, addr_at (store_at t pp (hmap_erase parent.hmap c)) r = some b →
      ∃ r', addr_at t r' = some b) := by
  have hpw : hmap_wf F parent.hmap = true := by
    have := find_wf t pp parent hwf hf
    cases parent with
    | node a m => simpa [Tree.wf] using this
  have hin := addr_at_erase_inside t pp c parent hf (hmap_get_erase_self parent.hmap c hpw)
  have hout := addr_at_erase_outside t pp c parent hf
  have key : ∀ r b, addr_at (store_at t pp (hmap_erase parent.hmap c)) r = some b →
      addr_at t r = some b := by
    intro r b h
    by_cases hr : (pp ++ [c]) <+: r
    · obtain ⟨s, rfl⟩ := hr
      rw [hin s] at h
      exact absurd h (by simp)
    · rwa [hout r hr] at h
  refine ⟨fun p q b hp hq => hd p q b (key p b hp) (key q b hq), fun r hr => ?_,
    fun r b h => ⟨r, key r b h⟩⟩
  exact hout r (fun h => hr (strict_prefix_of_snoc pp pp c r (List.prefix_refl _) h))

theorem move_spec {F : Nat} (t : Tree) (pa : List (List Char)) (ca : List Char)
    (pb : List (List Char)) (cb : List Char) (r0 : Int) (t' : Tree) (l : List (List Char))
    (hwf : t.wf F = true) (hd : distinct_addrs t) (hla : l <+: pa) (hlb : l <+: pb)
    (hm : move_at t pa ca pb cb = some (r0, t')) :
    distinct_addrs t' ∧ (∀ r, ¬ strict_prefix_of l r → addr_at t' r = addr_at t r) ∧
    (∀ r b, addr_at t' r = some b → ∃ r', addr_at t r' = some b) := by
  have hsame : (∀ q, addr_at t' q = addr_at t q) →
      distinct_addrs t' ∧ (∀ r, ¬ strict_prefix_of l r → addr_at t' r = addr_at t r) ∧
      (∀ r b, addr_at t' r = some b → ∃ r', addr_at t r' = some b) := by
    intro e
    refine ⟨fun p q b hp hq => hd p q b ?_ ?_, fun r _ => e r, fun r b h => ⟨r, ?_⟩⟩
    · rwa [e p] at hp
    · rwa [e q] at hq
    · rwa [e r] at h
  rcases move_at_cases t pa ca pb cb r0 t' hm with ⟨-, e, -⟩ | ⟨sp, n, tp1, hsp, hn, -, hc⟩
  · exact hsame (fun q => by rw [e])
  rcases hc with ⟨-, e0, -⟩ | ⟨-, -, -, e⟩
  swap
  · exact hsame (fun q => by rw [e]; exact ((same_tree_reinsert t pa ca sp n hsp hn).1 q).symm)
  subst e0
  obtain ⟨h1, h2, h3, -, -, -⟩ := move_at_success t pa ca pb cb t' hwf hm
  have key : ∀ q b, addr_at t' q = some b →
      (∃ s, q = pb ++ [cb] ++ s ∧ addr_at t (pa ++ [ca] ++ s) = some b) ∨
      (¬ (pb ++ [cb]) <+: q ∧ ¬ (pa ++ [ca]) <+: q ∧ addr_at t q = some b) := by
    intro q b h
    by_cases hB : (pb ++ [cb]) <+: q
    · obtain ⟨s, rfl⟩ := hB
      exact Or.inl ⟨s, rfl, by rwa [h1 s] at h⟩
    · by_cases hA : (pa ++ [ca]) <+: q
      · rw [h3 q hB hA] at h
        exact absurd h (by simp)
      · exact Or.inr ⟨hB, hA, by rwa [h2 q hB hA] at h⟩
  refine ⟨fun p q b hp hq => ?_, fun r hr => ?_, fun r b h => ?_⟩
  · rcases key p b hp with ⟨s1, e1, g1⟩ | ⟨-, hA1, g1⟩ <;>
      rcases key q b hq with ⟨s2, e2, g2⟩ | ⟨-, hA2, g2⟩
    · have := hd _ _ b g1 g2
      rw [e1, e2, List.append_cancel_left this]
    · exact absurd ⟨s1, hd _ _ b g1 g2⟩ hA2
    · exact absurd ⟨s2, hd _ _ b g2 g1⟩ hA1
    · exact hd p q b g1 g2
  · exact h2 r (fun h => hr (strict_prefix_of_snoc l pb cb r hlb h))
      (fun h => hr (strict_prefix_of_snoc l pa ca r hla h))
  · rcases key r b h with ⟨s, -, g⟩ | ⟨-, -, g⟩
    · exact ⟨_, g⟩
    · exact ⟨_, g⟩

theorem commit_spec {F P : Nat} (t : Tree) (op : TreeOp) (hwf : t.wf F = true)
    (hd : distinct_addrs t) (hnew : ∀ p a, op = .create p a → ∀ r, addr_at t r ≠ some a) :
    (op_commit F P t op).wf F = true ∧ distinct_addrs (op_commit F P t op) ∧
    (∀ r, ¬ strict_prefix_of (op_plan F P op).1 r →
      addr_at (op_commit F P t op) r = addr_at t r) ∧
    (∀ r b, addr_at (op_commit F P t op) r = some b →
      (∃ r', addr_at t r' = some b) ∨ ∃ p, op = .create p b) := by
  have hsame : ∀ t', t' = t → t'.wf F = true ∧ distinct_addrs t' ∧
      (∀ r, ¬ strict_prefix_of (op_plan F P op).1 r → addr_at t' r = addr_at t r) ∧
      (∀ r b, addr_at t' r = some b → (∃ r', addr_at t r' = some b) ∨ ∃ p, op = .create p b) := by
    intro t' e
    subst e
    exact ⟨hwf, hd, fun _ _ => rfl, fun r b h => Or.inl ⟨r, h⟩⟩
  cases op with
  | list p => exact hsame _ rfl
  | create p a =>
    simp only [op_commit]
    cases h : tree_create F P t p a with
    | none => exact hsame _ rfl
    | some res =>
      obtain ⟨r0, t'⟩ := res
      dsimp only
      rcases tree_create_inv t p a r0 t' h with ⟨e, -⟩ | ⟨pp, c, sub, rfl, hpp, hc, hv, hf, -, -, e⟩
      · exact hsame _ e
      have hpp' : ∀ x ∈ pp, slash_free x := fun x hx => is_valid_component_slash_free (hpp x hx)
      have hc' := is_valid_component_slash_free hc
      have hplan : (op_plan F P (.create (canonical_path (pp ++ [c])) a)).1 = pp := by
        simp [op_plan, hv, snoc_ne_root, path_components_canonical _ (snoc_slash_free hpp' hc')]
      obtain ⟨g1, g2, g3⟩ := insert_spec t pp c sub a hf hd (hnew _ a rfl)
      rw [hplan, e]
      refine ⟨?_, g1, g2, fun r b hb => ?_⟩
      · rw [← e]; exact tree_create_wf t _ a r0 t' hwf h
      · rcases g3 r b hb with h1 | h1
        · exact Or.inl h1
        · exact Or.inr ⟨_, by rw [h1]⟩
  | remove p =>
    simp only [op_commit]
    cases h : tree_remove F P t p with
    | none => exact hsame _ rfl
    | some res =>
      obtain ⟨r0, t'⟩ := res
      dsimp only
      rcases tree_remove_inv t p r0 t' h with
        ⟨e, -⟩ | ⟨pp, c, parent, node, rfl, hpp, hc, hv, hf, -, -, -, e⟩
      · exact hsame _ e
      have hpp' : ∀ x ∈ pp, slash_free x := fun x hx => is_valid_component_slash_free (hpp x hx)
      have hc' := is_valid_component_slash_free hc
      have hplan : (op_plan F P (.remove (canonical_path (pp ++ [c])))).1 = pp := by
        simp [op_plan, hv, snoc_ne_root, path_components_canonical _ (snoc_slash_free hpp' hc')]
      obtain ⟨g1, g2, g3⟩ := erase_spec t pp c parent hwf hf hd
      rw [hplan, e]
      refine ⟨?_, g1, g2, fun r b hb => Or.inl (g3 r b hb)⟩
      rw [← e]; exact tree_remove_wf t _ r0 t' hwf h
  | move a b =>
    simp only [op_commit]
    cases h : tree_move F P t a b with
    | none => exact hsame _ rfl
    | some res =>
      obtain ⟨r0, t'⟩ := res
      dsimp only
      rcases tree_move_inv t a b r0 t' h with
        ⟨e, -⟩ | ⟨pa, ca, pb, cb, rfl, rfl, hpa0, hca0, hpb0, hcb0, hn1, hn2, hva, hvb, hm⟩
      · exact hsame _ e
      have hpa : ∀ x ∈ pa, slash_free x := fun x hx => is_valid_component_slash_free (hpa0 x hx)
      have hpb : ∀ x ∈ pb, slash_free x := fun x hx => is_valid_component_slash_free (hpb0 x hx)
      have hca := is_valid_component_slash_free hca0
      have hcb := is_valid_component_slash_free hcb0
      have hsa := snoc_slash_free hpa hca
      have hsb := snoc_slash_free hpb hcb
      have hs1 : starts_with (canonical_path (pb ++ [cb])) (canonical_path (pa ++ [ca])) = false :=
        Bool.eq_false_iff.mpr (fun e => hn1 ((starts_with_canonical hsa hsb).mp e))
      have hs2 : starts_with (canonical_path (pa ++ [ca])) (canonical_path (pb ++ [cb])) = false :=
        Bool.eq_false_iff.mpr (fun e => hn2 ((starts_with_canonical hsb hsa).mp e))
      obtain ⟨l, hla, hlb, hl⟩ := lca_path_canonical pa pb hpa hpb
      have hlsf : ∀ x ∈ l, slash_free x := fun x hx => hpa x (hla.subset hx)
      have hplan : (op_plan F P
          (.move (canonical_path (pa ++ [ca])) (canonical_path (pb ++ [cb])))).1 = l := by
        simp [op_plan, hva, hvb, snoc_ne_root, hs1, hs2, path_components_canonical _ hsa,
          path_components_canonical _ hsb, hl, path_components_canonical _ hlsf]
      obtain ⟨g1, g2, g3⟩ := move_spec t pa ca pb cb r0 t' l hwf hd hla hlb hm
      rw [hplan]
      exact ⟨tree_move_wf t _ _ r0 t' hwf h, g1, g2, fun r b hb => Or.inl (g3 r b hb)⟩

/-! ### Every step keeps the threads, the tree and the locks in step -/

theorem world_step_cases {F P : Nat} (w w' : World) (i pick : Nat)
    (h : world_step F P w i pick = some w') :
    (∃ a rest woken, w.threads[i]? = some (.releasing (.rdunlock a :: rest)) ∧
      rdunlock_wakeups w a pick = some woken ∧
      w' = { w with
        locks := set_lock w.locks a (rwlock_rdunlock (w.locks a))
        threads := w.threads.set i (.releasing rest)
        woken := woken }) ∨
    (∃ op held e ls waits, w.threads[i]? = some (.running op held (some e)) ∧
      lock_call w.locks e true = some (ls, waits) ∧
      w' = { w with
        locks := ls
        threads := w.threads.set i (after_lock_call op held e waits)
        woken := awake w i }) ∨
    (∃ op held, w.threads[i]? = some (.running op held none) ∧
      (op_events F P w.tree op).drop held.length = [] ∧
      w' = { w with threads := w.threads.set i (.releasing []) }) ∨
    (∃ op held a rest woken, w.threads[i]? = some (.running op held none) ∧
      (op_events F P w.tree op).drop held.length = .rdunlock a :: rest ∧
      rdunlock_wakeups w a pick = some woken ∧
      w' = { w with
        locks := set_lock w.locks a (rwlock_rdunlock (w.locks a))
        threads := w.threads.set i (.releasing rest)
        woken := woken }) ∨
    (∃ op held a rest woken, w.threads[i]? = some (.running op held none) ∧
      (op_events F P w.tree op).drop held.length = .wrunlock a :: rest ∧
      wrunlock_wakeups w a pick = some woken ∧
      w' = { w with
        tree := op_commit F P w.tree op
        locks := set_lock w.locks a (rwlock_wrunlock (w.locks a))
        threads := w.threads.set i (.releasing rest)
        woken := woken }) ∨
    (∃ op held e rest ls waits, w.threads[i]? = some (.running op held none) ∧
      (op_events F P w.tree op).drop held.length = e :: rest ∧
      lock_call w.locks e false = some (ls, waits) ∧
      w' = { w with
        locks := ls
        threads := w.threads.set i (after_lock_call op held e waits)
        woken := awake w i }) := by
  unfold world_step at h
  split at h
  · simp at h
  · simp at h
  · rename_i a rest hg
    split at h
    · simp at h
    · rename_i woken hw
      simp only [Option.some.injEq] at h
      exact Or.inl ⟨a, rest, woken, hg, hw, h.symm⟩
  · simp at h
  · rename_i op held e hg
    split at h
    · simp at h
    · rename_i ls waits hc
      simp only [Option.some.injEq] at h
      exact Or.inr (Or.inl ⟨op, held, e, ls, waits, hg, hc, h.symm⟩)
  · rename_i op held hg
    split at h
    · simp at h
    unfold running_step at h
    split at h
    · rename_i hD
      simp only [Option.some.injEq] at h
      exact Or.inr (Or.inr (Or.inl ⟨op, held, hg, hD, h.symm⟩))
    · rename_i a rest hD
      split at h
      · simp at h
      · rename_i woken hw
        simp only [Option.some.injEq] at h
        exact Or.inr (Or.inr (Or.inr (Or.inl ⟨op, held, a, rest, woken, hg, hD, hw, h.symm⟩)))
    · rename_i a rest hD
      split at h
      · simp at h
      · rename_i woken hw
        simp only [Option.some.injEq] at h
        exact Or.inr (Or.inr (Or.inr (Or.inr (Or.inl
          ⟨op, held, a, rest, woken, hg, hD, hw, h.symm⟩))))
    · rename_i e rest _ _ hD
      split at h
      · simp at h
      · rename_i ls waits hc
        simp only [Option.some.injEq] at h
        exact Or.inr (Or.inr (Or.inr (Or.inr (Or.inr
          ⟨op, held, e, rest, ls, waits, hg, hD, hc, h.symm⟩))))

theorem inv_update {F P : Nat} (ops : List TreeOp) (w w' : World) (i : Nat)
    (th th' : ThreadState) (a : Nat) (l' : rwlock_t) (hinv : world_inv F P ops w)
    (hget : w.threads[i]? = some th) (htree : w'.tree = w.tree)
    (hthreads : w'.threads = w.threads.set i th')
    (hlocks : ∀ b, w'.locks b = set_lock w.locks a l' b)
    (hok : thread_ok F P ops w.tree i th')
    (hsame : ∀ b, b ≠ a → th'.reads b = th.reads b ∧ th'.writes b = th.writes b ∧
      th'.rwaits b = th.rwaits b ∧ th'.wwaits b = th.wwaits b)
    (hnew : ∀ r w0 br bw, lock_ok (w.locks a) (r + th.reads a) (w0 + th.writes a)
        (br + th.rwaits a) (bw + th.wwaits a) →
      lock_ok l' (r + th'.reads a) (w0 + th'.writes a) (br + th'.rwaits a)
        (bw + th'.wwaits a)) :
    world_inv F P ops w' := by
  obtain ⟨h1, h2, h3, h4⟩ := hinv
  refine ⟨by rw [htree]; exact h1, by rw [htree]; exact h2, ?_, fun b => ?_⟩
  · rw [htree, hthreads]
    exact threads_update w.threads i th' (thread_ok F P ops w.tree) (fun j th _ => h3 j th) hok
  · rw [hlocks b, hthreads]
    exact locks_update w.threads w.locks i th th' a l' hget h4 hsame hnew b

theorem inv_release {F P : Nat} (ops : List TreeOp) (w : World) (i a : Nat)
    (rest : List LockEvent) (woken : Nat → Bool) (hinv : world_inv F P ops w)
    (hget : w.threads[i]? = some (.releasing (.rdunlock a :: rest))) :
    world_inv F P ops { w with
      locks := set_lock w.locks a (rwlock_rdunlock (w.locks a))
      threads := w.threads.set i (.releasing rest)
      woken := woken } := by
  refine inv_update ops w _ i _ (.releasing rest) a (rwlock_rdunlock (w.locks a)) hinv hget rfl
    rfl (fun _ => rfl) ?_ ?_ ?_
  · have := hinv.2.2.1 i _ hget
    simp only [thread_ok] at this ⊢
    exact fun e he => this e (List.mem_cons_of_mem _ he)
  · intro b hb
    have hb' : ¬ a = b := fun e => hb e.symm
    simp [ThreadState.reads, ThreadState.writes, ThreadState.rwaits, ThreadState.wwaits,
      List.count_cons, hb']
  · intro r w0 br bw h
    simp only [ThreadState.reads, ThreadState.writes, ThreadState.rwaits, ThreadState.wwaits,
      List.count_cons_self] at h ⊢
    exact lock_ok_rdunlock _ _ _ _ _ (by rw [← Nat.add_assoc] at h; exact h)

theorem inv_lock_call {F P : Nat} (ops : List TreeOp) (w : World) (i : Nat) (op : TreeOp)
    (held : List LockEvent) (e : LockEvent) (waited : Bool) (ls : Locks) (waits : Bool)
    (woken : Nat → Bool) (hinv : world_inv F P ops w)
    (hget : w.threads[i]? = some (.running op held (if waited then some e else none)))
    (hpre : held ++ [e] <+: plan_locks w.tree (op_plan F P op))
    (hcall : lock_call w.locks e waited = some (ls, waits)) :
    world_inv F P ops { w with
      locks := ls, threads := w.threads.set i (after_lock_call op held e waits)
      woken := woken } := by
  have hth := hinv.2.2.1 i _ hget
  have hok : thread_ok F P ops w.tree i (after_lock_call op held e waits) := by
    simp only [thread_ok] at hth
    cases waits
    · simpa [after_lock_call, thread_ok] using ⟨hpre, hth.2⟩
    · simpa [after_lock_call, thread_ok] using ⟨hpre, hth.2⟩
  cases e with
  | rdunlock a => simp [lock_call] at hcall
  | wrunlock a => simp [lock_call] at hcall
  | rdlock a =>
    simp only [lock_call, Option.some.injEq, Prod.mk.injEq] at hcall
    obtain ⟨hls, hw⟩ := hcall
    refine inv_update ops w _ i _ (after_lock_call op held (.rdlock a) waits) a _ hinv hget rfl
      rfl (fun b => by rw [← hls]) hok ?_ ?_
    · intro b hb
      have hb' : ¬ a = b := fun e => hb e.symm
      cases waited <;> cases waits <;>
        simp [ThreadState.reads, ThreadState.writes, ThreadState.rwaits, ThreadState.wwaits,
          after_lock_call, List.count_append, List.count_cons, hb']
    · intro r w0 br bw h
      cases waited
      · have h' := lock_ok_rdlock_enter (w.locks a) _ _ _ _ h
        simp only [Bool.false_eq_true, if_false] at hw
        rw [hw] at h'
        cases waits
        · simpa [ThreadState.reads, ThreadState.writes, ThreadState.rwaits,
            ThreadState.wwaits, after_lock_call, List.count_append, Nat.add_assoc] using h'
        · simpa [ThreadState.reads, ThreadState.writes, ThreadState.rwaits,
            ThreadState.wwaits, after_lock_call, List.count_append, Nat.add_assoc] using h'
      · simp only [if_true, ThreadState.reads, ThreadState.writes, ThreadState.rwaits,
          ThreadState.wwaits] at h hw
        have h' := lock_ok_rdlock_wake (w.locks a) _ _ _ _ h
        rw [hw] at h'
        cases waits
        · simpa [ThreadState.reads, ThreadState.writes, ThreadState.rwaits,
            ThreadState.wwaits, after_lock_call, List.count_append, Nat.add_assoc] using h'
        · simpa [ThreadState.reads, ThreadState.writes, ThreadState.rwaits,
            ThreadState.wwaits, after_lock_call, List.count_append, Nat.add_assoc] using h'
  | wrlock a =>
    simp only [lock_call, Option.some.injEq, Prod.mk.injEq] at hcall
    obtain ⟨hls, hw⟩ := hcall
    refine inv_update ops w _ i _ (after_lock_call op held (.wrlock a) waits) a _ hinv hget rfl
      rfl (fun b => by rw [← hls]) hok ?_ ?_
    · intro b hb
      have hb' : ¬ a = b := fun e => hb e.symm
      cases waited <;> cases waits <;>
        simp [ThreadState.reads, ThreadState.writes, ThreadState.rwaits, ThreadState.wwaits,
          after_lock_call, List.count_append, List.count_cons, hb']
    · intro r w0 br bw h
      cases waited
      · have h' := lock_ok_wrlock_enter (w.locks a) _ _ _ _ h
        simp only [Bool.false_eq_true, if_false] at hw
        rw [hw] at h'
        cases waits
        · simpa [ThreadState.reads, ThreadState.writes, ThreadState.rwaits,
            ThreadState.wwaits, after_lock_call, List.count_append, Nat.add_assoc] using h'
        · simpa [ThreadState.reads, ThreadState.writes, ThreadState.rwaits,
            ThreadState.wwaits, after_lock_call, List.count_append, Nat.add_assoc] using h'
      · simp only [if_true, ThreadState.reads, ThreadState.writes, ThreadState.rwaits,
          ThreadState.wwaits] at h hw
        have h' := lock_ok_wrlock_wake (w.locks a) _ _ _ _ h
        rw [hw] at h'
        cases waits
        · simpa [ThreadState.reads, ThreadState.writes, ThreadState.rwaits,
            ThreadState.wwaits, after_lock_call, List.count_append, Nat.add_assoc] using h'
        · simpa [ThreadState.reads, ThreadState.writes, ThreadState.rwaits,
            ThreadState.wwaits, after_lock_call, List.count_append, Nat.add_assoc] using h'

theorem events_split {F P : Nat} (t : Tree) (op : TreeOp) (hwf : t.wf F = true) :
    op_events F P t op
      = plan_locks t (op_plan F P op) ++ plan_unlocks t (op_plan F P op) := by
  rw [op_events_plan t op hwf, plan_events_split]

theorem inv_done {F P : Nat} (ops : List TreeOp) (w : World) (i : Nat) (op : TreeOp)
    (held : List LockEvent) (hinv : world_inv F P ops w)
    (hget : w.threads[i]? = some (.running op held none))
    (hD : (op_events F P w.tree op).drop held.length = []) :
    world_inv F P ops { w with threads := w.threads.set i (.releasing []) } := by
  have hth := hinv.2.2.1 i _ hget
  simp only [thread_ok, Option.toList, List.append_nil] at hth
  rw [events_split w.tree op hinv.1] at hD
  have hheld : held = [] := by
    rcases next_event_cases w.tree (op_plan F P op) held hth.1 with
      ⟨-, h, -⟩ | ⟨e, rest, h, -⟩ | ⟨e, rest, h, -⟩
    · exact h
    · rw [hD] at h; simp at h
    · rw [hD] at h; simp at h
  subst hheld
  refine inv_update ops w _ i _ (.releasing []) 0 (w.locks 0) hinv hget rfl rfl ?_ ?_ ?_ ?_
  · intro b
    simp only [set_lock]
    split
    · rename_i hb; rw [hb]
    · rfl
  · simp [thread_ok]
  · intro b _
    simp [ThreadState.reads, ThreadState.writes, ThreadState.rwaits, ThreadState.wwaits]
  · intro r w0 br bw h
    simpa [ThreadState.reads, ThreadState.writes, ThreadState.rwaits, ThreadState.wwaits]
      using h

theorem inv_first_unlock {F P : Nat} (ops : List TreeOp) (w : World) (i : Nat) (op : TreeOp)
    (held : List LockEvent) (a : Nat) (rest : List LockEvent) (woken : Nat → Bool)
    (hinv : world_inv F P ops w) (hget : w.threads[i]? = some (.running op held none))
    (hD : (op_events F P w.tree op).drop held.length = .rdunlock a :: rest) :
    world_inv F P ops { w with
      locks := set_lock w.locks a (rwlock_rdunlock (w.locks a))
      threads := w.threads.set i (.releasing rest)
      woken := woken } := by
  have hth := hinv.2.2.1 i _ hget
  simp only [thread_ok, Option.toList, List.append_nil] at hth
  rw [events_split w.tree op hinv.1] at hD
  obtain ⟨hheld, hU⟩ : held = plan_locks w.tree (op_plan F P op) ∧
      plan_unlocks w.tree (op_plan F P op) = .rdunlock a :: rest := by
    rcases next_event_cases w.tree (op_plan F P op) held hth.1 with
      ⟨h, -, -⟩ | ⟨e, rest', h, he, -⟩ | ⟨e, rest', h, -, h1, h2⟩
    · rw [hD] at h; simp at h
    · rw [hD] at h
      simp only [List.cons.injEq] at h
      rw [← h.1] at he
      simp [LockEvent.is_lock] at he
    · rw [hD] at h
      simp only [List.cons.injEq] at h
      rw [← h.1, ← h.2] at h2
      exact ⟨h1, h2⟩
  obtain ⟨hall, hcount⟩ := plan_unlocks_rdunlock _ _ a rest hU
  rw [← hheld] at hcount
  refine inv_update ops w _ i _ (.releasing rest) a (rwlock_rdunlock (w.locks a)) hinv hget rfl
    rfl (fun _ => rfl) ?_ ?_ ?_
  · simpa [thread_ok] using hall
  · intro b hb
    have hb' : ¬ a = b := fun e => hb e.symm
    obtain ⟨c1, c2⟩ := hcount b
    simp [ThreadState.reads, ThreadState.writes, ThreadState.rwaits, ThreadState.wwaits,
      c1, c2, List.count_cons, hb']
  · intro r w0 br bw h
    obtain ⟨c1, c2⟩ := hcount a
    simp only [ThreadState.reads, ThreadState.writes, ThreadState.rwaits, ThreadState.wwaits,
      c1, c2, List.count_cons_self] at h ⊢
    exact lock_ok_rdunlock _ _ _ _ _ (by rw [← Nat.add_assoc] at h; exact h)

theorem mem_new_addrs (ops : List TreeOp) (i : Nat) (p : List Char) (a : Nat)
    (h : ops[i]? = some (.create p a)) : a ∈ new_addrs ops := by
  induction ops generalizing i with
  | nil => simp at h
  | cons op ops ih =>
    cases i with
    | zero =>
      simp only [List.getElem?_cons_zero, Option.some.injEq] at h
      subst h
      simp [new_addrs]
    | succ j =>
      simp only [List.getElem?_cons_succ] at h
      have := ih j h
      cases op <;> simp [new_addrs, this]

theorem new_addrs_index (ops : List TreeOp) (hN : (new_addrs ops).Nodup) (i j : Nat)
    (p q : List Char) (a : Nat) (hi : ops[i]? = some (.create p a))
    (hj : ops[j]? = some (.create q a)) : i = j := by
  induction ops generalizing i j with
  | nil => simp at hi
  | cons op ops ih =>
    have htail : (new_addrs ops).Nodup := by
      cases op with
      | create p' a' =>
        simp only [new_addrs, List.nodup_cons] at hN
        exact hN.2
      | list _ => exact hN
      | remove _ => exact hN
      | move _ _ => exact hN
    cases i with
    | zero =>
      cases j with
      | zero => rfl
      | succ j' =>
        simp only [List.getElem?_cons_zero, Option.some.injEq] at hi
        simp only [List.getElem?_cons_succ] at hj
        subst hi
        simp only [new_addrs, List.nodup_cons] at hN
        exact absurd (mem_new_addrs ops j' q a hj) hN.1
    | succ i' =>
      cases j with
      | zero =>
        simp only [List.getElem?_cons_zero, Option.some.injEq] at hj
        simp only [List.getElem?_cons_succ] at hi
        subst hj
        simp only [new_addrs, List.nodup_cons] at hN
        exact absurd (mem_new_addrs ops i' p a hi) hN.1
      | succ j' =>
        simp only [List.getElem?_cons_succ] at hi hj
        rw [ih htail i' j' hi hj]

theorem plan_lock_at_stable (t t' : Tree) (plan : List (List Char) × Option LockMode) (k : Nat)
    (h : addr_at t' (plan.1.take k) = addr_at t (plan.1.take k)) :
    plan_lock_at t' plan k = plan_lock_at t plan k := by
  simp only [plan_lock_at]
  by_cases h1 : k < plan.1.length
  · simp only [h1, if_true, h]
  · simp only [h1, if_false]
    by_cases h2 : k = plan.1.length
    · subst h2
      rw [List.take_length] at h
      simp only [if_true, h]
    · simp only [h2, if_false]

theorem plan_locks_stable (t t' : Tree) (plan : List (List Char) × Option LockMode)
    (hw : List LockEvent) (hp : hw <+: plan_locks t plan)
    (hsame : ∀ k, k < hw.length → plan_lock_at t' plan k = plan_lock_at t plan k) :
    hw <+: plan_locks t' plan := by
  rw [List.prefix_iff_eq_take]
  apply List.ext_getElem?
  intro k
  by_cases hk : k < hw.length
  · rw [List.getElem?_take_of_lt hk, plan_locks_getElem, hsame k hk, ← plan_locks_getElem]
    obtain ⟨u, hu⟩ := hp
    rw [← hu, List.getElem?_append_left hk]
  · rw [List.getElem?_eq_none (by omega), List.getElem?_eq_none]
    rw [List.length_take]
    omega

theorem protected_positions (t : Tree) (plan : List (List Char) × Option LockMode)
    (held : List LockEvent) (waiting : Option LockEvent) (lM : List (List Char)) (y : Nat)
    (hp : held ++ waiting.toList <+: plan_locks t plan) (hy : addr_at t lM = some y)
    (hr : held.count (.rdlock y) = 0) (k : Nat) (hk : k < (held ++ waiting.toList).length) :
    ¬ strict_prefix_of lM (plan.1.take k) := by
  rintro ⟨hpre, hne⟩
  have hlen : lM.length < (plan.1.take k).length := by
    have h1 := hpre.length_le
    rcases Nat.lt_or_ge lM.length (plan.1.take k).length with h | h
    · exact h
    · exact absurd (hpre.eq_of_length (by omega)) hne
  rw [List.length_take] at hlen
  have hlM : lM = plan.1.take lM.length := by
    have := List.prefix_iff_eq_take.mp hpre
    rw [List.take_take] at this
    rwa [Nat.min_eq_left (by omega)] at this
  have hwl : waiting.toList.length ≤ 1 := by cases waiting <;> simp [Option.toList]
  rw [List.length_append] at hk
  have hn : lM.length < held.length := by omega
  have hget : held[lM.length]? = some (LockEvent.rdlock y) := by
    obtain ⟨u, hu⟩ := hp
    have h1 : (plan_locks t plan)[lM.length]? = held[lM.length]? := by
      rw [← hu, List.append_assoc, List.getElem?_append_left hn]
    rw [← h1, plan_locks_getElem]
    simp only [plan_lock_at]
    rw [if_pos (by omega), ← hlM, hy]
    rfl
  have hmem : LockEvent.rdlock y ∈ held := by
    obtain ⟨hlt, hv⟩ := List.getElem?_eq_some_iff.mp hget
    rw [← hv]
    exact List.getElem_mem _
  exact absurd hr (Nat.pos_iff_ne_zero.mp (List.count_pos_iff.mpr hmem))

theorem inv_commit {F P : Nat} (ops : List TreeOp) (hN : (new_addrs ops).Nodup) (w : World)
    (i : Nat) (op : TreeOp) (held : List LockEvent) (a : Nat) (rest : List LockEvent)
    (woken : Nat → Bool) (hinv : world_inv F P ops w)
    (hget : w.threads[i]? = some (.running op held none))
    (hD : (op_events F P w.tree op).drop held.length = .wrunlock a :: rest) :
    world_inv F P ops { w with
      tree := op_commit F P w.tree op
      locks := set_lock w.locks a (rwlock_wrunlock (w.locks a))
      threads := w.threads.set i (.releasing rest)
      woken := woken } := by
  have hth := hinv.2.2.1 i _ hget
  simp only [thread_ok, Option.toList, List.append_nil] at hth
  obtain ⟨hpre, hop, hfresh⟩ := hth
  rw [events_split w.tree op hinv.1] at hD
  obtain ⟨hheld, hU⟩ : held = plan_locks w.tree (op_plan F P op) ∧
      plan_unlocks w.tree (op_plan F P op) = .wrunlock a :: rest := by
    rcases next_event_cases w.tree (op_plan F P op) held hpre with
      ⟨h, -, -⟩ | ⟨e, rest', h, he, -⟩ | ⟨e, rest', h, -, h1, h2⟩
    · rw [hD] at h; simp at h
    · rw [hD] at h
      simp only [List.cons.injEq] at h
      rw [← h.1] at he
      simp [LockEvent.is_lock] at he
    · rw [hD] at h
      simp only [List.cons.injEq] at h
      rw [← h.1, ← h.2] at h2
      exact ⟨h1, h2⟩
  obtain ⟨hall, hy, hcount⟩ := plan_unlocks_wrunlock _ _ a rest hU
  rw [← hheld] at hcount
  obtain ⟨g1, g2, g3, g4⟩ := commit_spec (P := P) w.tree op hinv.1 hinv.2.1 hfresh
  have hW : 1 ≤ total (ThreadState.writes a) w.threads := by
    have := le_total (ThreadState.writes a) w.threads i _ hget
    simp only [ThreadState.writes, (hcount a).2, if_true] at this
    exact this
  have hR : total (ThreadState.reads a) w.threads = 0 := by
    obtain ⟨-, -, -, -, -, -, h7, -, -⟩ := hinv.2.2.2 a
    omega
  refine ⟨g1, g2, ?_, ?_⟩
  · refine threads_update w.threads i (.releasing rest)
      (thread_ok F P ops (op_commit F P w.tree op)) ?_ (by simpa [thread_ok] using hall)
    intro j th hji hj
    have hold := hinv.2.2.1 j th hj
    cases th with
    | releasing pending => exact hold
    | running opj heldj waitingj =>
      simp only [thread_ok] at hold ⊢
      obtain ⟨hpj, hopj, hfj⟩ := hold
      have hrj : heldj.count (.rdlock a) = 0 := by
        have := le_total (ThreadState.reads a) w.threads j _ hj
        simp only [ThreadState.reads] at this
        omega
      refine ⟨plan_locks_stable _ _ _ _ hpj (fun k hk => ?_), hopj, fun p a' hpa r hr => ?_⟩
      · exact plan_lock_at_stable _ _ _ k
          (g3 _ (protected_positions w.tree _ heldj waitingj _ a hpj hy hrj k hk))
      · rcases g4 r a' hr with ⟨r', h1⟩ | ⟨p', h1⟩
        · exact hfj p a' hpa r' h1
        · rw [hpa] at hopj
          rw [h1] at hop
          exact hji (new_addrs_index ops hN j i p p' a' hopj hop)
  · intro b
    refine locks_update w.threads w.locks i _ (.releasing rest) a _ hget hinv.2.2.2 ?_ ?_ b
    · intro b hb
      obtain ⟨c1, c2⟩ := hcount b
      simp [ThreadState.reads, ThreadState.writes, ThreadState.rwaits, ThreadState.wwaits,
        c1, c2, hb]
    · intro r w0 br bw h
      obtain ⟨c1, c2⟩ := hcount a
      simp only [ThreadState.reads, ThreadState.writes, ThreadState.rwaits,
        ThreadState.wwaits, c1, c2, if_true] at h ⊢
      exact lock_ok_wrunlock _ _ _ _ _ (by simpa using h)

theorem hmap_children_disjoint (m : HashMap) (c d : List Char) (x y : Tree) (hcd : c ≠ d)
    (hnd : (hmap_addrs m).Nodup) (hx : hmap_get m c = some x) (hy : hmap_get m d = some y)
    (a : Nat) (hax : a ∈ x.addrs) : a ∉ y.addrs := by
  induction m with
  | nil => simp [hmap_get] at hx
  | cons e rest ih =>
    obtain ⟨k, v⟩ := e
    simp only [hmap_addrs] at hnd
    have hdis := List.disjoint_of_nodup_append hnd
    by_cases hkc : k = c
    · by_cases hkd : k = d
      · exact absurd (hkc.symm.trans hkd) hcd
      · simp only [hmap_get, hkc, if_true, Option.some.injEq] at hx
        simp only [hmap_get, hkd, if_false] at hy
        subst hx
        exact fun hay => hdis hax ((hmap_get_addrs_sublist _ _ _ hy).subset hay)
    · simp only [hmap_get, hkc, if_false] at hx
      by_cases hkd : k = d
      · simp only [hmap_get, hkd, if_true, Option.some.injEq] at hy
        subst hy
        exact fun hay => hdis hay ((hmap_get_addrs_sublist _ _ _ hx).subset hax)
      · simp only [hmap_get, hkd, if_false] at hy
        exact ih (List.Nodup.of_append_right hnd) hx hy

theorem addr_at_mem (t : Tree) (p : List (List Char)) (a : Nat) (h : addr_at t p = some a) :
    a ∈ t.addrs := by
  simp only [addr_at, Option.map_eq_some'] at h
  obtain ⟨n, hn, rfl⟩ := h
  exact find_addr_mem t p n hn

theorem addr_at_cons (t : Tree) (c : List Char) (p : List (List Char)) (a : Nat)
    (h : addr_at t (c :: p) = some a) :
    ∃ child, hmap_get t.hmap c = some child ∧ addr_at child p = some a := by
  simp only [addr_at, find] at h
  cases hc : hmap_get t.hmap c with
  | none => simp [hc] at h
  | some child =>
    simp only [hc] at h
    exact ⟨child, rfl, h⟩

theorem distinct_of_nodup (t : Tree) (hnd : t.addrs.Nodup) : distinct_addrs t := by
  intro p
  induction p generalizing t with
  | nil =>
    intro q a hp hq
    cases q with
    | nil => rfl
    | cons d q =>
      simp only [addr_at, find, Option.map_some', Option.some.injEq] at hp
      obtain ⟨y, hy, hya⟩ := addr_at_cons t d q a hq
      rw [Tree.addrs_node, List.nodup_cons] at hnd
      exact absurd ((hmap_get_addrs_sublist _ _ _ hy).subset (addr_at_mem y q a hya))
        (hp ▸ hnd.1)
  | cons c p ih =>
    intro q a hp hq
    obtain ⟨x, hx, hxa⟩ := addr_at_cons t c p a hp
    rw [Tree.addrs_node, List.nodup_cons] at hnd
    cases q with
    | nil =>
      simp only [addr_at, find, Option.map_some', Option.some.injEq] at hq
      exact absurd ((hmap_get_addrs_sublist _ _ _ hx).subset (addr_at_mem x p a hxa))
        (hq ▸ hnd.1)
    | cons d q =>
      obtain ⟨y, hy, hya⟩ := addr_at_cons t d q a hq
      by_cases hcd : c = d
      · subst hcd
        rw [hx] at hy
        simp only [Option.some.injEq] at hy
        subst hy
        rw [ih x (hnd.2.sublist (hmap_get_addrs_sublist _ _ _ hx)) q a hxa hya]
      · exact absurd (addr_at_mem y q a hya)
          (hmap_children_disjoint _ c d x y hcd hnd.2 hx hy a (addr_at_mem x p a hxa))

theorem world_inv_init {F P : Nat} (t0 : Tree) (ops : List TreeOp) (hwf : t0.wf F = true)
    (chained : Nat → Bool) (hnd : (new_addrs ops ++ t0.addrs).Nodup) :
    world_inv F P ops (world_init t0 ops chained) := by
  refine ⟨hwf, distinct_of_nodup t0 (List.Nodup.of_append_right hnd), ?_, fun b => ?_⟩
  · intro i th hi
    simp only [world_init, List.getElem?_map, Option.map_eq_some'] at hi
    obtain ⟨op, hop, rfl⟩ := hi
    simp only [thread_ok, Option.toList, List.append_nil, List.nil_prefix, true_and]
    refine ⟨hop, fun p a hpa r hr => ?_⟩
    rw [hpa] at hop
    exact List.disjoint_of_nodup_append hnd (mem_new_addrs ops i p a hop) (addr_at_mem _ r a hr)
  · have hz : ∀ f : ThreadState → Nat, (∀ op, f (.running op [] none) = 0) →
        total f (world_init t0 ops chained).threads = 0 := by
      intro f hf
      apply total_eq_zero
      intro th hth
      simp only [world_init, List.mem_map] at hth
      obtain ⟨op, -, rfl⟩ := hth
      exact hf op
    rw [hz _ (fun _ => rfl), hz _ (fun _ => rfl), hz _ (fun _ => rfl), hz _ (fun _ => rfl)]
    simp [world_init, quiet_locks, rwlock_new, lock_ok]

theorem world_inv_step {F P : Nat} (ops : List TreeOp) (hN : (new_addrs ops).Nodup)
    (w w' : World) (i pick : Nat) (hinv : world_inv F P ops w)
    (h : world_step F P w i pick = some w') : world_inv F P ops w' := by
  rcases world_step_cases w w' i pick h with
    ⟨a, rest, wk, hg, -, rfl⟩ | ⟨op, held, e, ls, waits, hg, hc, rfl⟩ | ⟨op, held, hg, hD, rfl⟩ |
    ⟨op, held, a, rest, wk, hg, hD, -, rfl⟩ | ⟨op, held, a, rest, wk, hg, hD, -, rfl⟩ |
    ⟨op, held, e, rest, ls, waits, hg, hD, hc, rfl⟩
  · exact inv_release ops w i a rest wk hinv hg
  · have hth := hinv.2.2.1 i _ hg
    simp only [thread_ok, Option.toList] at hth
    exact inv_lock_call ops w i op held e true ls waits _ hinv hg hth.1 hc
  · exact inv_done ops w i op held hinv hg hD
  · exact inv_first_unlock ops w i op held a rest wk hinv hg hD
  · exact inv_commit ops hN w i op held a rest wk hinv hg hD
  · have hth := hinv.2.2.1 i _ hg
    simp only [thread_ok, Option.toList, List.append_nil] at hth
    rw [events_split w.tree op hinv.1] at hD
    have hpre : held ++ [e] <+: plan_locks w.tree (op_plan F P op) := by
      rcases next_event_cases w.tree (op_plan F P op) held hth.1 with
        ⟨h1, -, -⟩ | ⟨e', rest', h1, -, h2⟩ | ⟨e', rest', h1, he, -, -⟩
      · rw [hD] at h1; simp at h1
      · rw [hD] at h1
        simp only [List.cons.injEq] at h1
        rw [h1.1]; exact h2
      · rw [hD] at h1
        simp only [List.cons.injEq] at h1
        rw [← h1.1] at he
        cases e <;> simp [LockEvent.is_lock, lock_call] at he hc
    exact inv_lock_call ops w i op held e false ls waits _ hinv hg hpre hc

theorem world_inv_run {F P : Nat} (ops : List TreeOp) (hN : (new_addrs ops).Nodup)
    (sched : List (Nat × Nat)) (w w' : World) (hinv : world_inv F P ops w)
    (h : world_run F P w sched = some w') : world_inv F P ops w' := by
  induction sched generalizing w with
  | nil =>
    simp only [world_run, Option.some.injEq] at h
    rw [← h]; exact hinv
  | cons s rest ih =>
    simp only [world_run] at h
    cases hs : world_step F P w s.1 s.2 with
    | none => simp [hs] at h
    | some w1 =>
      simp only [hs] at h
      exact ih w1 (world_inv_step ops hN w w1 s.1 s.2 hinv hs) h

/-! ### Every step keeps the wake-ups in step with the locks -/

theorem waiting_call_set (threads : List ThreadState) (i : Nat) (th th' : ThreadState)
    (hget : threads[i]? = some th) (j : Nat) :
    waiting_call (threads.set i th') j
      = if j = i then th'.waits_in else waiting_call threads j := by
  have hi : i < threads.length := (List.getElem?_eq_some_iff.mp hget).1
  simp only [waiting_call, List.getElem?_set]
  by_cases hji : j = i
  · subst hji
    simp [hi]
  · have hij : ¬ i = j := fun e => hji e.symm
    simp [hji, hij]

theorem waiting_call_get (threads : List ThreadState) (i : Nat) (th : ThreadState)
    (hget : threads[i]? = some th) : waiting_call threads i = th.waits_in := by
  simp [waiting_call, hget]

theorem waiting_call_some (threads : List ThreadState) (j : Nat) (e : LockEvent)
    (h : waiting_call threads j = some e) :
    ∃ op held, threads[j]? = some (.running op held (some e)) := by
  simp only [waiting_call] at h
  cases hth : threads[j]? with
  | none => simp [hth] at h
  | some th =>
    simp only [hth] at h
    cases th with
    | releasing pending => simp [ThreadState.waits_in] at h
    | running op held waiting =>
      simp only [ThreadState.waits_in] at h
      exact ⟨op, held, by rw [h]⟩

theorem waiting_reader_counted (threads : List ThreadState) (j a : Nat)
    (h : waiting_call threads j = some (.rdlock a)) :
    1 ≤ total (ThreadState.rwaits a) threads := by
  obtain ⟨op, held, hth⟩ := waiting_call_some threads j _ h
  have := le_total (ThreadState.rwaits a) threads j _ hth
  simpa [ThreadState.rwaits] using this

theorem waiting_writer_counted (threads : List ThreadState) (j a : Nat)
    (h : waiting_call threads j = some (.wrlock a)) :
    1 ≤ total (ThreadState.wwaits a) threads := by
  obtain ⟨op, held, hth⟩ := waiting_call_some threads j _ h
  have := le_total (ThreadState.wwaits a) threads j _ hth
  simpa [ThreadState.wwaits] using this

theorem counted_waiting_reader (threads : List ThreadState) (a : Nat)
    (h : 1 ≤ total (ThreadState.rwaits a) threads) :
    ∃ j, waiting_call threads j = some (.rdlock a) := by
  obtain ⟨j, th, hj, hpos⟩ := total_pos_exists _ _ h
  refine ⟨j, ?_⟩
  rw [waiting_call_get threads j th hj]
  cases th with
  | releasing pending => simp [ThreadState.rwaits] at hpos
  | running op held waiting =>
    cases waiting with
    | none => simp [ThreadState.rwaits] at hpos
    | some e =>
      simp only [ThreadState.rwaits] at hpos
      split at hpos
      · rename_i he
        simp [ThreadState.waits_in, he]
      · omega

theorem cond_signal_spec (w : World) (e : LockEvent) (pick : Nat) (wk : Nat → Bool)
    (h : cond_signal w e pick = some wk) :
    (∀ j, w.woken j = true → wk j = true) ∧
    (∀ j, wk j = true → w.woken j = true ∨ waiting_call w.threads j = some e) ∧
    (∀ j, waiting_call w.threads j = some e →
      ∃ j', waiting_call w.threads j' = some e ∧ wk j' = true) := by
  simp only [cond_signal] at h
  split at h
  · rename_i hb
    simp only [Option.some.injEq] at h
    subst h
    simp only [blocked_in, Bool.and_eq_true, decide_eq_true_eq] at hb
    refine ⟨fun j hj => by simp [hj], fun j hj => ?_, fun j _ => ⟨pick, hb.1, by simp⟩⟩
    simp only [Bool.or_eq_true, decide_eq_true_eq] at hj
    rcases hj with rfl | hj
    · exact Or.inr hb.1
    · exact Or.inl hj
  · split at h
    · simp at h
    · rename_i hany
      simp only [Option.some.injEq] at h
      subst h
      refine ⟨fun j hj => hj, fun j hj => Or.inl hj, fun j hj => ⟨j, hj, ?_⟩⟩
      obtain ⟨op, held, hth⟩ := waiting_call_some w.threads j e hj
      have hlt : j < w.threads.length := (List.getElem?_eq_some_iff.mp hth).1
      simp only [List.any_eq_true, List.mem_range, not_exists, not_and] at hany
      have := hany j hlt
      simp only [blocked_in, hj, decide_True, Bool.true_and, Bool.not_eq_true',
        Bool.not_eq_false] at this
      exact this

theorem cond_signal_total (w : World) (e : LockEvent) :
    ∃ pick wk, cond_signal w e pick = some wk := by
  by_cases hany : (List.range w.threads.length).any (blocked_in w e) = true
  · obtain ⟨j, -, hj⟩ := List.any_eq_true.mp hany
    exact ⟨j, _, by simp only [cond_signal, hj, if_true]; rfl⟩
  · by_cases hb : blocked_in w e 0 = true
    · exact ⟨0, _, by simp only [cond_signal, hb, if_true]; rfl⟩
    · exact ⟨0, _, by simp only [cond_signal, hb, hany, if_false, Bool.false_eq_true]; rfl⟩

theorem wake_ok_same (b : Nat) (l : rwlock_t) (call call' : Nat → Option LockEvent)
    (wk wk' : Nat → Bool) (h : wake_ok b l call wk)
    (hc : ∀ j, (call' j = some (.rdlock b) ∨ call' j = some (.wrlock b) ∨
        call j = some (.rdlock b) ∨ call j = some (.wrlock b)) →
      call' j = call j ∧ wk' j = wk j) :
    wake_ok b l call' wk' := by
  obtain ⟨h1, h2, h3⟩ := h
  refine ⟨fun hch j hj => ?_, fun hr hw hch j hj => ?_, fun j hj hwk => ?_⟩
  · obtain ⟨e1, e2⟩ := hc j (Or.inl hj)
    rw [e2]; exact h1 hch j (e1 ▸ hj)
  · obtain ⟨e1, -⟩ := hc j (Or.inr (Or.inl hj))
    obtain ⟨j', hj', hwk'⟩ := h2 hr hw hch j (e1 ▸ hj)
    obtain ⟨e3, e4⟩ := hc j' (Or.inr (Or.inr (Or.inr hj')))
    exact ⟨j', by rw [e3]; exact hj', by rw [e4]; exact hwk'⟩
  · obtain ⟨e1, e2⟩ := hc j (Or.inl hj)
    exact h3 j (e1 ▸ hj) (e2 ▸ hwk)

theorem not_on_other_lock (a b : Nat) (hb : b ≠ a) (e : LockEvent)
    (he : e = .rdlock a ∨ e = .wrlock a) : e ≠ .rdlock b ∧ e ≠ .wrlock b := by
  have hab : ¬ a = b := fun h => hb h.symm
  rcases he with rfl | rfl <;> simp [hab]

theorem wake_inv_same_calls (w w' : World) (hwake : wake_inv w)
    (hlocks : ∀ b, w'.locks b = w.locks b)
    (hcall : ∀ j, waiting_call w'.threads j = waiting_call w.threads j)
    (hwoken : ∀ j, w'.woken j = w.woken j) : wake_inv w' := by
  intro b
  rw [hlocks b]
  exact wake_ok_same b _ _ _ _ _ (hwake b) (fun j _ => ⟨hcall j, hwoken j⟩)

theorem wake_rdunlock {F P : Nat} (ops : List TreeOp) (w : World) (i : Nat)
    (th th' : ThreadState) (a pick : Nat) (wk : Nat → Bool) (hinv : world_inv F P ops w)
    (hwake : wake_inv w) (hget : w.threads[i]? = some th) (hth : th.waits_in = none)
    (hth' : th'.waits_in = none) (hwk : rdunlock_wakeups w a pick = some wk) :
    wake_inv { w with
      locks := set_lock w.locks a (rwlock_rdunlock (w.locks a))
      threads := w.threads.set i th'
      woken := wk } := by
  have hcall : ∀ j, waiting_call (w.threads.set i th') j = waiting_call w.threads j := by
    intro j
    rw [waiting_call_set w.threads i th th' hget]
    split
    · rename_i hji
      rw [hji, waiting_call_get w.threads i th hget, hth, hth']
    · rfl
  have hmono : ∀ j, w.woken j = true → wk j = true := by
    intro j hj
    simp only [rdunlock_wakeups] at hwk
    split at hwk
    · exact (cond_signal_spec w _ pick wk hwk).1 j hj
    · simp only [Option.some.injEq] at hwk
      rw [← hwk]; exact hj
  have hback : ∀ j, wk j = true →
      w.woken j = true ∨ waiting_call w.threads j = some (.wrlock a) := by
    intro j hj
    simp only [rdunlock_wakeups] at hwk
    split at hwk
    · exact (cond_signal_spec w _ pick wk hwk).2.1 j hj
    · simp only [Option.some.injEq] at hwk
      rw [← hwk] at hj; exact Or.inl hj
  intro b
  show wake_ok b (set_lock w.locks a (rwlock_rdunlock (w.locks a)) b)
    (waiting_call (w.threads.set i th')) wk
  by_cases hb : b = a
  · subst hb
    simp only [set_lock, if_true]
    obtain ⟨h1, h2, h3⟩ := hwake b
    obtain ⟨-, -, -, l4, -, -, -, -, -⟩ := hinv.2.2.2 b
    refine ⟨fun hch j hj => ?_, fun hr hw hch j hj => ?_, fun j hj hwkj => ?_⟩
    · rw [hcall] at hj
      exact hmono j (h1 hch j hj)
    · rw [hcall] at hj
      have hww : (w.locks b).wwait > 0 := by
        have := waiting_writer_counted w.threads j b hj
        rw [l4]; exact_mod_cast this
      simp only [rdunlock_wakeups] at hwk
      rw [if_pos ⟨hr, hww⟩] at hwk
      obtain ⟨j', hj', hwk'⟩ := (cond_signal_spec w _ pick wk hwk).2.2 j hj
      exact ⟨j', by rw [hcall]; exact hj', hwk'⟩
    · rw [hcall] at hj
      have : w.woken j = false := by
        cases hw : w.woken j with
        | false => rfl
        | true => rw [hmono j hw] at hwkj; exact absurd hwkj (by simp)
      exact h3 j hj this
  · simp only [set_lock, hb, if_false]
    refine wake_ok_same b _ _ _ _ _ (hwake b) (fun j hj => ⟨hcall j, ?_⟩)
    rw [hcall] at hj
    have hjb : waiting_call w.threads j ≠ some (.wrlock a) := by
      have hab : ¬ b = a := hb
      rcases hj with h | h | h | h <;> rw [h] <;> simp [hab]
    cases hw : w.woken j with
    | true => exact hmono j hw
    | false =>
      cases hwj : wk j with
      | false => rfl
      | true =>
        rcases hback j hwj with h | h
        · rw [hw] at h; exact absurd h (by simp)
        · exact absurd h hjb

theorem wake_wrunlock {F P : Nat} (ops : List TreeOp) (w : World) (i : Nat)
    (th th' : ThreadState) (a pick : Nat) (wk : Nat → Bool) (t' : Tree)
    (hinv : world_inv F P ops w) (hwake : wake_inv w) (hget : w.threads[i]? = some th)
    (hth : th.waits_in = none) (hth' : th'.waits_in = none) (hheld : 1 ≤ th.writes a)
    (hwk : wrunlock_wakeups w a pick = some wk) :
    wake_inv { w with
      tree := t'
      locks := set_lock w.locks a (rwlock_wrunlock (w.locks a))
      threads := w.threads.set i th'
      woken := wk } := by
  have hcall : ∀ j, waiting_call (w.threads.set i th') j = waiting_call w.threads j := by
    intro j
    rw [waiting_call_set w.threads i th th' hget]
    split
    · rename_i hji
      rw [hji, waiting_call_get w.threads i th hget, hth, hth']
    · rfl
  obtain ⟨-, l2, l3, l4, l5, l6, -, l8, -⟩ := hinv.2.2.2 a
  have hW := le_total (ThreadState.writes a) w.threads i th hget
  have hwc : (w.locks a).wcount = 1 := by
    rw [l2]
    have : total (ThreadState.writes a) w.threads = 1 := by omega
    rw [this]; rfl
  have hch : (w.locks a).change = 0 := by
    rcases l8 with h | h
    · exact h
    · omega
  have hmono : ∀ j, w.woken j = true → wk j = true := by
    intro j hj
    simp only [wrunlock_wakeups] at hwk
    split at hwk
    · simp only [Option.some.injEq] at hwk
      rw [← hwk]
      simp [cond_broadcast, hj]
    · split at hwk
      · exact (cond_signal_spec w _ pick wk hwk).1 j hj
      · simp only [Option.some.injEq] at hwk
        rw [← hwk]; exact hj
  have hback : ∀ j, wk j = true → w.woken j = true ∨
      waiting_call w.threads j = some (.wrlock a) ∨
      waiting_call w.threads j = some (.rdlock a) := by
    intro j hj
    simp only [wrunlock_wakeups] at hwk
    split at hwk
    · simp only [Option.some.injEq] at hwk
      rw [← hwk] at hj
      simp only [cond_broadcast, Bool.or_eq_true, decide_eq_true_eq] at hj
      rcases hj with h | h
      · exact Or.inr (Or.inr h)
      · exact Or.inl h
    · split at hwk
      · rcases (cond_signal_spec w _ pick wk hwk).2.1 j hj with h | h
        · exact Or.inl h
        · exact Or.inr (Or.inl h)
      · simp only [Option.some.injEq] at hwk
        rw [← hwk] at hj; exact Or.inl hj
  intro b
  show wake_ok b (set_lock w.locks a (rwlock_wrunlock (w.locks a)) b)
    (waiting_call (w.threads.set i th')) wk
  by_cases hb : b = a
  · subst hb
    simp only [set_lock, if_true]
    by_cases hrw : (w.locks b).rwait > 0
    · have hl : rwlock_wrunlock (w.locks b)
          = { w.locks b with wcount := (w.locks b).wcount - 1, change := 1 } := by
        simp only [rwlock_wrunlock, hrw, if_true]
      have hall : ∀ j, waiting_call w.threads j = some (.rdlock b) → wk j = true := by
        intro j hj
        simp only [wrunlock_wakeups, hrw, if_true, Option.some.injEq] at hwk
        rw [← hwk]
        simp [cond_broadcast, hj]
      rw [hl]
      refine ⟨fun _ j hj => ?_, fun _ _ hc j _ => ?_, fun j hj hwkj => ?_⟩
      · rw [hcall] at hj
        exact hall j hj
      · simp at hc
      · rw [hcall] at hj
        rw [hall j hj] at hwkj
        exact absurd hwkj (by simp)
    · have hl : rwlock_wrunlock (w.locks b)
          = { w.locks b with wcount := (w.locks b).wcount - 1 } := by
        simp only [rwlock_wrunlock, hrw, if_false]
      have hnr : ∀ j, waiting_call w.threads j ≠ some (.rdlock b) := by
        intro j hj
        have := waiting_reader_counted w.threads j b hj
        rw [l3] at hrw
        apply hrw
        exact_mod_cast this
      rw [hl]
      refine ⟨fun hc j _ => ?_, fun _ _ _ j hj => ?_, fun j hj _ => ?_⟩
      · dsimp only at hc
        rw [hch] at hc
        exact absurd hc (by simp)
      · rw [hcall] at hj
        have hww : (w.locks b).wwait > 0 := by
          have := waiting_writer_counted w.threads j b hj
          rw [l4]; exact_mod_cast this
        simp only [wrunlock_wakeups, hrw, if_false, hww, if_true] at hwk
        obtain ⟨j', hj', hwk'⟩ := (cond_signal_spec w _ pick wk hwk).2.2 j hj
        exact ⟨j', by rw [hcall]; exact hj', hwk'⟩
      · rw [hcall] at hj
        exact absurd hj (hnr j)
  · simp only [set_lock, hb, if_false]
    refine wake_ok_same b _ _ _ _ _ (hwake b) (fun j hj => ⟨hcall j, ?_⟩)
    rw [hcall] at hj
    have hjb : waiting_call w.threads j ≠ some (.wrlock a) ∧
        waiting_call w.threads j ≠ some (.rdlock a) := by
      have hab : ¬ b = a := hb
      rcases hj with h | h | h | h <;> rw [h] <;> simp [hab]
    cases hw : w.woken j with
    | true => exact hmono j hw
    | false =>
      cases hwj : wk j with
      | false => rfl
      | true =>
        rcases hback j hwj with h | h | h
        · rw [hw] at h; exact absurd h (by simp)
        · exact absurd h hjb.1
        · exact absurd h hjb.2

theorem wake_lock_call_other (w : World) (i : Nat) (th th' : ThreadState) (a b : Nat)
    (e : LockEvent) (hwake : wake_inv w) (hget : w.threads[i]? = some th)
    (he : e = .rdlock a ∨ e = .wrlock a) (hb : b ≠ a)
    (hth : th.waits_in = none ∨ th.waits_in = some e)
    (hth' : th'.waits_in = none ∨ th'.waits_in = some e) :
    wake_ok b (w.locks b) (waiting_call (w.threads.set i th')) (awake w i) := by
  obtain ⟨hn1, hn2⟩ := not_on_other_lock a b hb e he
  have hi : ∀ c : Option LockEvent, (c = none ∨ c = some e) →
      ¬ (c = some (.rdlock b) ∨ c = some (.wrlock b)) := by
    intro c hc h
    rcases hc with rfl | rfl
    · simp at h
    · simp only [Option.some.injEq] at h
      exact h.elim hn1 hn2
  refine wake_ok_same b _ _ _ _ _ (hwake b) (fun j hj => ?_)
  rw [waiting_call_set w.threads i th th' hget] at hj ⊢
  by_cases hji : j = i
  · subst hji
    simp only [if_true, waiting_call_get w.threads j th hget] at hj
    rcases hj with h | h | h | h
    · exact absurd (Or.inl h) (hi _ hth')
    · exact absurd (Or.inr h) (hi _ hth')
    · exact absurd (Or.inl h) (hi _ hth)
    · exact absurd (Or.inr h) (hi _ hth)
  · simp [hji, awake]

theorem wake_lock_call {F P : Nat} (ops : List TreeOp) (w : World) (i : Nat) (op : TreeOp)
    (held : List LockEvent) (e : LockEvent) (waited : Bool) (ls : Locks) (waits : Bool)
    (hinv : world_inv F P ops w) (hwake : wake_inv w)
    (hget : w.threads[i]? = some (.running op held (if waited then some e else none)))
    (hcall : lock_call w.locks e waited = some (ls, waits)) :
    wake_inv { w with
      locks := ls
      threads := w.threads.set i (after_lock_call op held e waits)
      woken := awake w i } := by
  have hth : (ThreadState.running op held (if waited then some e else none)).waits_in = none ∨
      (ThreadState.running op held (if waited then some e else none)).waits_in = some e := by
    cases waited <;> simp [ThreadState.waits_in]
  have hth' : (after_lock_call op held e waits).waits_in = none ∨
      (after_lock_call op held e waits).waits_in = some e := by
    cases waits <;> simp [after_lock_call, ThreadState.waits_in]
  have hc' : ∀ j, waiting_call (w.threads.set i (after_lock_call op held e waits)) j
      = if j = i then (if waits then some e else none) else waiting_call w.threads j := by
    intro j
    rw [waiting_call_set w.threads i _ _ hget]
    cases waits <;> simp [after_lock_call, ThreadState.waits_in]
  have hci : waiting_call w.threads i = if waited then some e else none := by
    rw [waiting_call_get w.threads i _ hget]; rfl
  have hwi : ∀ j, awake w i j = if j = i then false else w.woken j := by
    intro j
    by_cases hji : j = i <;> simp [awake, hji]
  intro b
  show wake_ok b (ls b) (waiting_call (w.threads.set i (after_lock_call op held e waits)))
    (awake w i)
  obtain ⟨l1, l2, l3, l4, -, -, -, -, -⟩ := hinv.2.2.2 b
  have n1 : 0 ≤ (w.locks b).rcount := by rw [l1]; exact Int.natCast_nonneg _
  have n2 : 0 ≤ (w.locks b).wcount := by rw [l2]; exact Int.natCast_nonneg _
  have n4 : 0 ≤ (w.locks b).wwait := by rw [l4]; exact Int.natCast_nonneg _
  obtain ⟨h1, h2, h3⟩ := hwake b
  cases e with
  | rdunlock a => simp [lock_call] at hcall
  | wrunlock a => simp [lock_call] at hcall
  | rdlock a =>
    simp only [lock_call, Option.some.injEq, Prod.mk.injEq] at hcall
    obtain ⟨hls, hw⟩ := hcall
    by_cases hb : b = a
    swap
    · rw [← hls]
      simp only [set_lock, hb, if_false]
      exact wake_lock_call_other w i _ _ a b _ hwake hget (Or.inl rfl) hb hth hth'
    subst hb
    rw [← hls]
    simp only [set_lock, if_true]
    have hJ2 : ∀ (l' : rwlock_t), (l'.rcount = 0 → l'.wcount = 0 → l'.change = 0 → False) →
        (l'.rcount = 0 → l'.wcount = 0 → l'.change = 0 → ∀ j,
          waiting_call (w.threads.set i (after_lock_call op held (.rdlock b) waits)) j
            = some (.wrlock b) →
          ∃ j', waiting_call (w.threads.set i (after_lock_call op held (.rdlock b) waits)) j'
            = some (.wrlock b) ∧ awake w i j' = true) :=
      fun l' hf a1 a2 a3 _ _ => (hf a1 a2 a3).elim
    have hJ3 : ∀ (l' : rwlock_t), (l'.wcount = (w.locks b).wcount) →
        (l'.wwait = (w.locks b).wwait) → ∀ j, j ≠ i →
        waiting_call (w.threads.set i (after_lock_call op held (.rdlock b) waits)) j
          = some (.rdlock b) → awake w i j = false → l'.wcount > 0 ∨ l'.wwait > 0 := by
      intro l' e1 e2 j hji hj hwk
      rw [hc' j, if_neg hji] at hj
      rw [hwi j, if_neg hji] at hwk
      rw [e1, e2]
      exact h3 j hj hwk
    cases waited
    · simp only [Bool.false_eq_true, if_false] at hw hci ⊢
      simp only [rwlock_rdlock_enter] at hw ⊢
      by_cases hc : (w.locks b).wcount + (w.locks b).wwait > 0 ∧ (w.locks b).change = 0
      · rw [if_pos hc] at hw ⊢
        refine ⟨fun hch => ?_, fun hr hwc hch j hj => ?_, fun j _ _ => ?_⟩
        · dsimp only at hch
          rw [hc.2] at hch
          exact absurd hch (by simp)
        · rw [hc' j] at hj
          have hji : j ≠ i := by
            intro e
            rw [if_pos e, ← hw] at hj
            simp at hj
          rw [if_neg hji] at hj
          obtain ⟨j', hj', hwk'⟩ := h2 hr hwc hch j hj
          have hj'i : j' ≠ i := by
            intro e
            rw [e, hci] at hj'
            simp at hj'
          exact ⟨j', by rw [hc' j', if_neg hj'i]; exact hj',
            by rw [hwi j', if_neg hj'i]; exact hwk'⟩
        · dsimp only
          omega
      · rw [if_neg hc] at hw ⊢
        refine ⟨fun hch => ?_, hJ2 _ (fun hr _ _ => ?_), fun j hj hwk => ?_⟩
        · simp at hch
        · dsimp only at hr
          omega
        · have hji : j ≠ i := by
            intro e
            rw [hc' j, if_pos e, ← hw] at hj
            simp at hj
          exact hJ3 _ rfl rfl j hji hj hwk
    · simp only [if_true] at hw hci ⊢
      simp only [rwlock_rdlock_wake] at hw ⊢
      by_cases hc : (w.locks b).wcount > 0 ∧ (w.locks b).change = 0
      · rw [if_pos hc] at hw ⊢
        refine ⟨fun hch => ?_, hJ2 _ (fun _ hwc _ => ?_), fun j _ _ => ?_⟩
        · dsimp only at hch
          rw [hc.2] at hch
          exact absurd hch (by simp)
        · dsimp only at hwc
          omega
        · dsimp only
          exact Or.inl hc.1
      · rw [if_neg hc] at hw ⊢
        refine ⟨fun hch => ?_, hJ2 _ (fun hr _ _ => ?_), fun j hj hwk => ?_⟩
        · simp at hch
        · dsimp only at hr
          omega
        · have hji : j ≠ i := by
            intro e
            rw [hc' j, if_pos e, ← hw] at hj
            simp at hj
          exact hJ3 _ rfl rfl j hji hj hwk
  | wrlock a =>
    simp only [lock_call, Option.some.injEq, Prod.mk.injEq] at hcall
    obtain ⟨hls, hw⟩ := hcall
    by_cases hb : b = a
    swap
    · rw [← hls]
      simp only [set_lock, hb, if_false]
      exact wake_lock_call_other w i _ _ a b _ hwake hget (Or.inr rfl) hb hth hth'
    subst hb
    rw [← hls]
    simp only [set_lock, if_true]
    have hJ1 : ∀ (l' : rwlock_t), l'.change = (w.locks b).change → l'.change = 1 → ∀ j,
        waiting_call (w.threads.set i (after_lock_call op held (.wrlock b) waits)) j
          = some (.rdlock b) → awake w i j = true := by
      intro l' e1 hch j hj
      have hji : j ≠ i := by
        intro e
        rw [hc' j, if_pos e] at hj
        cases waits <;> simp at hj
      rw [hc' j, if_neg hji] at hj
      rw [hwi j, if_neg hji]
      exact h1 (e1 ▸ hch) j hj
    have hJ2 : ∀ (l' : rwlock_t), (l'.rcount = 0 → l'.wcount = 0 → l'.change = 0 → False) →
        (l'.rcount = 0 → l'.wcount = 0 → l'.change = 0 → ∀ j,
          waiting_call (w.threads.set i (after_lock_call op held (.wrlock b) waits)) j
            = some (.wrlock b) →
          ∃ j', waiting_call (w.threads.set i (after_lock_call op held (.wrlock b) waits)) j'
            = some (.wrlock b) ∧ awake w i j' = true) :=
      fun l' hf a1 a2 a3 _ _ => (hf a1 a2 a3).elim
    cases waited
    · simp only [Bool.false_eq_true, if_false] at hw hci ⊢
      simp only [rwlock_wrlock_enter] at hw ⊢
      by_cases hc : (w.locks b).rcount + (w.locks b).wcount > 0 ∨ (w.locks b).change = 1
      · rw [if_pos hc] at hw ⊢
        refine ⟨hJ1 _ rfl, hJ2 _ (fun hr hwc hch => ?_), fun j _ _ => ?_⟩
        · dsimp only at hr hwc hch
          rcases hc with h | h
          · omega
          · rw [hch] at h; simp at h
        · dsimp only
          omega
      · rw [if_neg hc] at hw ⊢
        refine ⟨hJ1 _ rfl, hJ2 _ (fun _ hwc _ => ?_), fun j _ _ => ?_⟩
        · dsimp only at hwc
          omega
        · dsimp only
          omega
    · simp only [if_true] at hw hci ⊢
      simp only [rwlock_wrlock_wake] at hw ⊢
      by_cases hc : (w.locks b).rcount + (w.locks b).wcount > 0 ∨ (w.locks b).change = 1
      · rw [if_pos hc] at hw ⊢
        refine ⟨hJ1 _ rfl, hJ2 _ (fun hr hwc hch => ?_), fun j hj hwk => ?_⟩
        · dsimp only at hr hwc hch
          rcases hc with h | h
          · omega
          · rw [hch] at h; simp at h
        · have hji : j ≠ i := by
            intro e
            rw [hc' j, if_pos e, ← hw] at hj
            simp at hj
          rw [hc' j, if_neg hji] at hj
          rw [hwi j, if_neg hji] at hwk
          dsimp only
          rcases h3 j hj hwk with h | h
          · exact Or.inl h
          · exact Or.inr (by omega)
      · rw [if_neg hc] at hw ⊢
        refine ⟨hJ1 _ rfl, hJ2 _ (fun _ hwc _ => ?_), fun j _ _ => ?_⟩
        · dsimp only at hwc
          omega
        · dsimp only
          omega

theorem writer_holds_at_wrunlock {F P : Nat} (ops : List TreeOp) (w : World) (i : Nat)
    (op : TreeOp) (held : List LockEvent) (a : Nat) (rest : List LockEvent)
    (hinv : world_inv F P ops w) (hget : w.threads[i]? = some (.running op held none))
    (hD : (op_events F P w.tree op).drop held.length = .wrunlock a :: rest) :
    held.count (.wrlock a) = 1 := by
  have hth := hinv.2.2.1 i _ hget
  simp only [thread_ok, Option.toList, List.append_nil] at hth
  rw [events_split w.tree op hinv.1] at hD
  rcases next_event_cases w.tree (op_plan F P op) held hth.1 with
    ⟨h, -, -⟩ | ⟨e, rest', h, he, -⟩ | ⟨e, rest', h, -, h1, h2⟩
  · rw [hD] at h; simp at h
  · rw [hD] at h
    simp only [List.cons.injEq] at h
    rw [← h.1] at he
    simp [LockEvent.is_lock] at he
  · rw [hD] at h
    simp only [List.cons.injEq] at h
    rw [← h.1, ← h.2] at h2
    have := ((plan_unlocks_wrunlock _ _ a rest h2).2.2 a).2
    rw [h1]
    simpa using this

theorem wake_inv_init (t0 : Tree) (ops : List TreeOp) (chained : Nat → Bool) :
    wake_inv (world_init t0 ops chained) := by
  have hnone : ∀ j, waiting_call (world_init t0 ops chained).threads j = none := by
    intro j
    simp only [waiting_call, world_init, List.getElem?_map]
    cases ops[j]? <;> simp [ThreadState.waits_in]
  intro a
  refine ⟨fun _ j hj => ?_, fun _ _ _ j hj => ?_, fun j hj _ => ?_⟩ <;>
    (rw [hnone j] at hj; simp at hj)

theorem wake_inv_step {F P : Nat} (ops : List TreeOp) (w w' : World) (i pick : Nat)
    (hinv : world_inv F P ops w) (hwake : wake_inv w)
    (h : world_step F P w i pick = some w') : wake_inv w' := by
  rcases world_step_cases w w' i pick h with
    ⟨a, rest, wk, hg, hwk, rfl⟩ | ⟨op, held, e, ls, waits, hg, hc, rfl⟩ |
    ⟨op, held, hg, hD, rfl⟩ | ⟨op, held, a, rest, wk, hg, hD, hwk, rfl⟩ |
    ⟨op, held, a, rest, wk, hg, hD, hwk, rfl⟩ | ⟨op, held, e, rest, ls, waits, hg, hD, hc, rfl⟩
  · exact wake_rdunlock ops w i _ _ a pick wk hinv hwake hg rfl rfl hwk
  · exact wake_lock_call ops w i op held e true ls waits hinv hwake hg hc
  · refine wake_inv_same_calls w _ hwake (fun _ => rfl) (fun j => ?_) (fun _ => rfl)
    show waiting_call (w.threads.set i (.releasing [])) j = waiting_call w.threads j
    rw [waiting_call_set w.threads i _ _ hg]
    split
    · rename_i hji
      rw [hji, waiting_call_get w.threads i _ hg]
      rfl
    · rfl
  · exact wake_rdunlock ops w i _ _ a pick wk hinv hwake hg rfl rfl hwk
  · refine wake_wrunlock ops w i _ _ a pick wk _ hinv hwake hg rfl rfl ?_ hwk
    simp only [ThreadState.writes, writer_holds_at_wrunlock ops w i op held a rest hinv hg hD,
      le_refl]
  · exact wake_lock_call ops w i op held e false ls waits hinv hwake hg hc

theorem wake_inv_run {F P : Nat} (ops : List TreeOp) (hN : (new_addrs ops).Nodup)
    (sched : List (Nat × Nat)) (w w' : World) (hinv : world_inv F P ops w)
    (hwake : wake_inv w) (h : world_run F P w sched = some w') : wake_inv w' := by
  induction sched generalizing w with
  | nil =>
    simp only [world_run, Option.some.injEq] at h
    rw [← h]; exact hwake
  | cons s rest ih =>
    simp only [world_run] at h
    cases hs : world_step F P w s.1 s.2 with
    | none => simp [hs] at h
    | some w1 =>
      simp only [hs] at h
      exact ih w1 (world_inv_step ops hN w w1 s.1 s.2 hinv hs)
        (wake_inv_step ops w w1 s.1 s.2 hinv hwake hs) h

/-! ### A step that is sure to come, and the end of such steps -/

theorem work_lt (f : ThreadState → Nat) (threads : List ThreadState) (i : Nat)
    (th th' : ThreadState) (hget : threads[i]? = some th) (h : f th' < f th) :
    total f (threads.set i th') < total f threads := by
  obtain ⟨r, h1, h2⟩ := total_set_exists f threads i th hget
  rw [h1, h2 th']
  omega

theorem exists_max (f : ThreadState → Nat) (threads : List ThreadState) (hne : threads ≠ []) :
    ∃ (i : Nat) (th : ThreadState), threads[i]? = some th ∧
      ∀ (j : Nat) (th' : ThreadState), threads[j]? = some th' → f th' ≤ f th := by
  induction threads with
  | nil => exact absurd rfl hne
  | cons x xs ih =>
    by_cases hxs : xs = []
    · subst hxs
      refine ⟨0, x, by simp, fun j th' hj => ?_⟩
      cases j with
      | zero =>
        simp only [List.getElem?_cons_zero, Option.some.injEq] at hj
        rw [hj]
      | succ j => simp at hj
    · obtain ⟨i, th, hi, hmax⟩ := ih hxs
      by_cases hx : f th ≤ f x
      · refine ⟨0, x, by simp, fun j th' hj => ?_⟩
        cases j with
        | zero =>
          simp only [List.getElem?_cons_zero, Option.some.injEq] at hj
          rw [hj]
        | succ j =>
          simp only [List.getElem?_cons_succ] at hj
          exact (hmax j th' hj).trans hx
      · refine ⟨i + 1, th, by simpa using hi, fun j th' hj => ?_⟩
        cases j with
        | zero =>
          simp only [List.getElem?_cons_zero, Option.some.injEq] at hj
          rw [← hj]; omega
        | succ j =>
          simp only [List.getElem?_cons_succ] at hj
          exact hmax j th' hj

theorem plan_lock_at_some (t : Tree) (plan : List (List Char) × Option LockMode) (k : Nat)
    (e : LockEvent) (h : plan_lock_at t plan k = some e) :
    k ≤ plan.1.length ∧ ∃ y, addr_at t (plan.1.take k) = some y ∧
      (e = .rdlock y ∨ e = .wrlock y) := by
  simp only [plan_lock_at] at h
  by_cases h1 : k < plan.1.length
  · simp only [h1, if_true, Option.map_eq_some'] at h
    obtain ⟨y, hy, rfl⟩ := h
    exact ⟨by omega, y, hy, Or.inl rfl⟩
  · simp only [h1, if_false] at h
    by_cases h2 : k = plan.1.length
    · subst h2
      simp only [if_true] at h
      cases hm : plan.2 with
      | none => simp [hm] at h
      | some m =>
        simp only [hm, Option.map_eq_some'] at h
        obtain ⟨y, hy, rfl⟩ := h
        refine ⟨le_refl _, y, by rw [List.take_length]; exact hy, ?_⟩
        cases m
        · exact Or.inl rfl
        · exact Or.inr rfl
    · simp [h2] at h

theorem prefix_getElem (hw L : List LockEvent) (hp : hw <+: L) (n : Nat) (hn : n < hw.length) :
    L[n]? = hw[n]? := by
  obtain ⟨u, hu⟩ := hp
  rw [← hu, List.getElem?_append_left hn]

theorem held_position (t : Tree) (plan : List (List Char) × Option LockMode)
    (hw : List LockEvent) (hp : hw <+: plan_locks t plan) (n : Nat) (e : LockEvent)
    (he : hw[n]? = some e) :
    n ≤ plan.1.length ∧ ∃ y, addr_at t (plan.1.take n) = some y ∧
      (e = .rdlock y ∨ e = .wrlock y) := by
  have hn : n < hw.length := (List.getElem?_eq_some_iff.mp he).1
  have := prefix_getElem hw _ hp n hn
  rw [plan_locks_getElem, he] at this
  exact plan_lock_at_some t plan n e this

theorem rdunlock_wakeups_total (w : World) (a : Nat) :
    ∃ pick wk, rdunlock_wakeups w a pick = some wk := by
  simp only [rdunlock_wakeups]
  split
  · exact cond_signal_total w _
  · exact ⟨0, _, rfl⟩

theorem wrunlock_wakeups_total (w : World) (a : Nat) :
    ∃ pick wk, wrunlock_wakeups w a pick = some wk := by
  simp only [wrunlock_wakeups]
  split
  · exact ⟨0, _, rfl⟩
  · split
    · exact cond_signal_total w _
    · exact ⟨0, _, rfl⟩

theorem sure_step_is_step {F P : Nat} (w w' : World) (i pick : Nat)
    (h : sure_step F P w i pick = some w') : world_step F P w i pick = some w' := by
  simp only [sure_step] at h
  split at h
  · simp at h
  · exact h

theorem sure_run_is_run {F P : Nat} (sched : List (Nat × Nat)) (w w' : World)
    (h : sure_run F P w sched = some w') : world_run F P w sched = some w' := by
  induction sched generalizing w with
  | nil => exact h
  | cons s rest ih =>
    simp only [sure_run] at h
    cases hs : sure_step F P w s.1 s.2 with
    | none => simp [hs] at h
    | some w1 =>
      simp only [hs] at h
      simp only [world_run, sure_step_is_step w w1 s.1 s.2 hs]
      exact ih w1 h

theorem sure_step_not_waiting {F P : Nat} (w : World) (i pick : Nat) (th : ThreadState)
    (hget : w.threads[i]? = some th) (hth : th.waits_in = none) :
    sure_step F P w i pick = world_step F P w i pick := by
  simp [sure_step, waiting_call_get w.threads i th hget, hth]

theorem sure_step_woken {F P : Nat} (w : World) (i pick : Nat) (h : w.woken i = true) :
    sure_step F P w i pick = world_step F P w i pick := by
  simp [sure_step, h]

theorem step_release {F P : Nat} (ops : List TreeOp) (w : World) (i : Nat) (e : LockEvent)
    (rest : List LockEvent) (hinv : world_inv F P ops w)
    (hget : w.threads[i]? = some (.releasing (e :: rest))) :
    ∃ pick w', sure_step F P w i pick = some w' ∧
      total (ThreadState.work F P) w'.threads < total (ThreadState.work F P) w.threads := by
  have hth := hinv.2.2.1 i _ hget
  simp only [thread_ok] at hth
  obtain ⟨a, rfl⟩ := hth e (List.mem_cons_self _ _)
  obtain ⟨pick, wk, hwk⟩ := rdunlock_wakeups_total w a
  have hstep : world_step F P w i pick = some { w with
      locks := set_lock w.locks a (rwlock_rdunlock (w.locks a))
      threads := w.threads.set i (.releasing rest)
      woken := wk } := by
    simp only [world_step, hget, hwk]
  exact ⟨pick, _, (sure_step_not_waiting w i pick _ hget rfl).trans hstep,
    work_lt _ _ i _ _ hget (by simp [ThreadState.work])⟩

theorem work_after_lock_call {F P : Nat} (t : Tree) (op : TreeOp) (held : List LockEvent)
    (e : LockEvent) (waits : Bool)
    (hpre : held ++ [e] <+: plan_locks t (op_plan F P op)) :
    (after_lock_call op held e waits).work F P < (ThreadState.running op held none).work F P ∧
    (after_lock_call op held e false).work F P
      < (ThreadState.running op held (some e)).work F P := by
  have h1 := hpre.length_le
  have h2 := plan_locks_length_le t (op_plan F P op)
  simp only [List.length_append, List.length_singleton] at h1
  cases waits <;>
    simp only [after_lock_call, ThreadState.work, Option.toList, List.length_nil,
      List.length_cons, List.length_append, List.length_singleton, Bool.false_eq_true,
      if_false, if_true] <;>
    omega

theorem lock_call_is_some (ls : Locks) (e : LockEvent) (waited : Bool)
    (he : e.is_lock = true) : ∃ ls' waits, lock_call ls e waited = some (ls', waits) := by
  cases e with
  | rdlock a => exact ⟨_, _, rfl⟩
  | wrlock a => exact ⟨_, _, rfl⟩
  | rdunlock a => simp [LockEvent.is_lock] at he
  | wrunlock a => simp [LockEvent.is_lock] at he

theorem step_running {F P : Nat} (ops : List TreeOp) (w : World) (i : Nat) (op : TreeOp)
    (held : List LockEvent) (hinv : world_inv F P ops w)
    (hget : w.threads[i]? = some (.running op held none))
    (hstart : (held.isEmpty && !may_start w i) = false) :
    ∃ pick w', sure_step F P w i pick = some w' ∧
      total (ThreadState.work F P) w'.threads < total (ThreadState.work F P) w.threads := by
  have hth := hinv.2.2.1 i _ hget
  simp only [thread_ok, Option.toList, List.append_nil] at hth
  have hev := events_split (P := P) w.tree op hinv.1
  have hB := plan_locks_length_le w.tree (op_plan F P op)
  have hU := plan_unlocks_length_le w.tree (op_plan F P op)
  have hsure : ∀ pick, sure_step F P w i pick = world_step F P w i pick :=
    fun pick => sure_step_not_waiting w i pick _ hget rfl
  rcases next_event_cases w.tree (op_plan F P op) held hth.1 with
    ⟨hD, h0, -⟩ | ⟨e, rest, hD, he, hpre⟩ | ⟨e, rest, hD, he, hheld, hun⟩
  · rw [← hev] at hD
    have hstep : world_step F P w i 0
        = some { w with threads := w.threads.set i (.releasing []) } := by
      simp only [world_step, hget, hstart, running_step, hD, Bool.false_eq_true, if_false]
    refine ⟨0, _, (hsure _).trans hstep, work_lt _ _ i _ _ hget ?_⟩
    simp only [ThreadState.work, h0, List.length_nil, Option.toList]
    omega
  · rw [← hev] at hD
    obtain ⟨ls, waits, hc⟩ := lock_call_is_some w.locks e false he
    have hstep : world_step F P w i 0 = some { w with
        locks := ls, threads := w.threads.set i (after_lock_call op held e waits)
        woken := awake w i } := by
      cases e with
      | rdlock a =>
        simp only [world_step, hget, hstart, running_step, hD, hc, Bool.false_eq_true, if_false]
      | wrlock a =>
        simp only [world_step, hget, hstart, running_step, hD, hc, Bool.false_eq_true, if_false]
      | rdunlock a => simp [LockEvent.is_lock] at he
      | wrunlock a => simp [LockEvent.is_lock] at he
    exact ⟨0, _, (hsure _).trans hstep,
      work_lt _ _ i _ _ hget (work_after_lock_call w.tree op held e waits hpre).1⟩
  · rw [← hev] at hD
    have hlt : (ThreadState.releasing rest).work F P
        < (ThreadState.running op held none).work F P := by
      have h1 := congrArg List.length hun
      have h2 := congrArg List.length hheld
      simp only [List.length_cons] at h1
      simp only [ThreadState.work, Option.toList, List.length_nil]
      omega
    cases e with
    | rdlock a => simp [LockEvent.is_lock] at he
    | wrlock a => simp [LockEvent.is_lock] at he
    | rdunlock a =>
      obtain ⟨pick, wk, hwk⟩ := rdunlock_wakeups_total w a
      have hstep : world_step F P w i pick = some { w with
          locks := set_lock w.locks a (rwlock_rdunlock (w.locks a))
          threads := w.threads.set i (.releasing rest)
          woken := wk } := by
        simp only [world_step, hget, hstart, running_step, hD, hwk, Bool.false_eq_true, if_false]
      exact ⟨pick, _, (hsure _).trans hstep, work_lt _ _ i _ _ hget hlt⟩
    | wrunlock a =>
      obtain ⟨pick, wk, hwk⟩ := wrunlock_wakeups_total w a
      have hstep : world_step F P w i pick = some { w with
          tree := op_commit F P w.tree op
          locks := set_lock w.locks a (rwlock_wrunlock (w.locks a))
          threads := w.threads.set i (.releasing rest)
          woken := wk } := by
        simp only [world_step, hget, hstart, running_step, hD, hwk, Bool.false_eq_true, if_false]
      exact ⟨pick, _, (hsure _).trans hstep, work_lt _ _ i _ _ hget hlt⟩

theorem step_wake {F P : Nat} (ops : List TreeOp) (w : World) (i : Nat) (op : TreeOp)
    (held : List LockEvent) (e : LockEvent) (ls : Locks) (hinv : world_inv F P ops w)
    (hget : w.threads[i]? = some (.running op held (some e))) (hwoken : w.woken i = true)
    (hc : lock_call w.locks e true = some (ls, false)) :
    ∃ pick w', sure_step F P w i pick = some w' ∧
      total (ThreadState.work F P) w'.threads < total (ThreadState.work F P) w.threads := by
  have hth := hinv.2.2.1 i _ hget
  simp only [thread_ok, Option.toList] at hth
  have hstep : world_step F P w i 0 = some { w with
      locks := ls, threads := w.threads.set i (after_lock_call op held e false)
      woken := awake w i } := by
    simp only [world_step, hget, hc]
  exact ⟨0, _, (sure_step_woken w i 0 hwoken).trans hstep,
    work_lt _ _ i _ _ hget (work_after_lock_call w.tree op held e false hth.1).2⟩

theorem set_same (threads : List ThreadState) (i : Nat) (th : ThreadState)
    (h : threads[i]? = some th) : threads.set i th = threads := by
  apply List.ext_getElem?
  intro j
  rw [List.getElem?_set]
  split
  · rename_i hij
    subst hij
    split
    · exact h.symm
    · rw [List.getElem?_eq_none (by omega)]
  · rfl

theorem countP_lt (p q : Nat → Bool) (l : List Nat) (hpq : ∀ x ∈ l, q x = true → p x = true)
    (i : Nat) (hi : i ∈ l) (hp : p i = true) (hq : q i = false) :
    l.countP q < l.countP p := by
  induction l with
  | nil => simp at hi
  | cons x xs ih =>
    have hle : xs.countP q ≤ xs.countP p :=
      List.countP_mono_left (fun y hy h => hpq y (List.mem_cons_of_mem _ hy) h)
    rcases List.mem_cons.mp hi with rfl | hmem
    · simp only [List.countP_cons, hp, hq, if_true, Bool.false_eq_true, if_false]
      omega
    · have := ih (fun y hy h => hpq y (List.mem_cons_of_mem _ hy) h) hmem
      have hx : (if q x = true then 1 else 0) ≤ (if p x = true then 1 else 0) := by
        by_cases hqx : q x = true
        · simp [hqx, hpq x (List.mem_cons_self _ _) hqx]
        · simp only [hqx, if_false, Bool.false_eq_true]
          exact Nat.zero_le _
      simp only [List.countP_cons]
      omega

theorem woken_count_le (w : World) : woken_count w ≤ w.threads.length := by
  have := List.countP_le_length w.woken (l := List.range w.threads.length)
  simpa [woken_count] using this

theorem bound_of_work_lt {F P : Nat} (w w' : World)
    (hlen : w'.threads.length = w.threads.length)
    (h : total (ThreadState.work F P) w'.threads < total (ThreadState.work F P) w.threads) :
    world_bound F P w' < world_bound F P w := by
  have h1 := woken_count_le w'
  simp only [world_bound, hlen] at h1 ⊢
  have h2 : (total (ThreadState.work F P) w'.threads + 1) * (w.threads.length + 1)
      ≤ total (ThreadState.work F P) w.threads * (w.threads.length + 1) :=
    Nat.mul_le_mul_right _ h
  rw [Nat.add_mul] at h2
  omega

theorem sure_step_decreases {F P : Nat} (ops : List TreeOp) (w w' : World) (i pick : Nat)
    (hinv : world_inv F P ops w) (h : sure_step F P w i pick = some w') :
    world_bound F P w' < world_bound F P w := by
  have hstep := sure_step_is_step w w' i pick h
  rcases world_step_cases w w' i pick hstep with
    ⟨a, rest, wk, hg, -, rfl⟩ | ⟨op, held, e, ls, waits, hg, hc, rfl⟩ | ⟨op, held, hg, hD, rfl⟩ |
    ⟨op, held, a, rest, wk, hg, hD, -, rfl⟩ | ⟨op, held, a, rest, wk, hg, hD, -, rfl⟩ |
    ⟨op, held, e, rest, ls, waits, hg, hD, hc, rfl⟩
  · exact bound_of_work_lt w _ (by simp)
      (work_lt _ _ i _ _ hg (by simp [ThreadState.work]))
  · have hth := hinv.2.2.1 i _ hg
    simp only [thread_ok, Option.toList] at hth
    cases waits with
    | false =>
      exact bound_of_work_lt w _ (by simp)
        (work_lt _ _ i _ _ hg (work_after_lock_call w.tree op held e false hth.1).2)
    | true =>
      have hwoken : w.woken i = true := by
        simp only [sure_step, waiting_call_get w.threads i _ hg, ThreadState.waits_in,
          Option.isSome_some, Bool.true_and, Bool.not_eq_true'] at h
        split at h
        · simp at h
        · rename_i hw
          simpa using hw
      have hi : i < w.threads.length := (List.getElem?_eq_some_iff.mp hg).1
      have hsame : w.threads.set i (after_lock_call op held e true) = w.threads := by
        simp only [after_lock_call, if_true]
        exact set_same w.threads i _ hg
      simp only [world_bound, woken_count, hsame]
      have := countP_lt w.woken (awake w i) (List.range w.threads.length)
        (fun x _ hx => by simp only [awake, Bool.and_eq_true] at hx; exact hx.2) i
        (List.mem_range.mpr hi) hwoken (by simp [awake])
      omega
  · have hth := hinv.2.2.1 i _ hg
    simp only [thread_ok, Option.toList, List.append_nil] at hth
    refine bound_of_work_lt w _ (by simp) (work_lt _ _ i _ _ hg ?_)
    have hB := plan_locks_length_le w.tree (op_plan F P op)
    have := hth.1.length_le
    simp only [ThreadState.work, Option.toList, List.length_nil]
    omega
  · have hth := hinv.2.2.1 i _ hg
    simp only [thread_ok, Option.toList, List.append_nil] at hth
    refine bound_of_work_lt w _ (by simp) (work_lt _ _ i _ _ hg ?_)
    have hB := plan_locks_length_le w.tree (op_plan F P op)
    have hU := plan_unlocks_length_le w.tree (op_plan F P op)
    have h1 := hth.1.length_le
    have h2 := congrArg List.length hD
    rw [events_split w.tree op hinv.1] at h2
    simp only [List.length_drop, List.length_append, List.length_cons] at h2
    simp only [ThreadState.work, Option.toList, List.length_nil]
    omega
  · have hth := hinv.2.2.1 i _ hg
    simp only [thread_ok, Option.toList, List.append_nil] at hth
    refine bound_of_work_lt w _ (by simp) (work_lt _ _ i _ _ hg ?_)
    have hB := plan_locks_length_le w.tree (op_plan F P op)
    have hU := plan_unlocks_length_le w.tree (op_plan F P op)
    have h1 := hth.1.length_le
    have h2 := congrArg List.length hD
    rw [events_split w.tree op hinv.1] at h2
    simp only [List.length_drop, List.length_append, List.length_cons] at h2
    simp only [ThreadState.work, Option.toList, List.length_nil]
    omega
  · have hth := hinv.2.2.1 i _ hg
    simp only [thread_ok, Option.toList, List.append_nil] at hth
    rw [events_split w.tree op hinv.1] at hD
    have hpre : held ++ [e] <+: plan_locks w.tree (op_plan F P op) := by
      rcases next_event_cases w.tree (op_plan F P op) held hth.1 with
        ⟨h1, -, -⟩ | ⟨e', rest', h1, -, h2⟩ | ⟨e', rest', h1, he, -, -⟩
      · rw [hD] at h1; simp at h1
      · rw [hD] at h1
        simp only [List.cons.injEq] at h1
        rw [h1.1]; exact h2
      · rw [hD] at h1
        simp only [List.cons.injEq] at h1
        rw [← h1.1] at he
        cases e <;> simp [LockEvent.is_lock, lock_call] at he hc
    exact bound_of_work_lt w _ (by simp)
      (work_lt _ _ i _ _ hg (work_after_lock_call w.tree op held e waits hpre).1)

theorem sure_run_bounded {F P : Nat} (ops : List TreeOp) (hN : (new_addrs ops).Nodup)
    (sched : List (Nat × Nat)) (w w' : World) (hinv : world_inv F P ops w)
    (h : sure_run F P w sched = some w') :
    sched.length + world_bound F P w' ≤ world_bound F P w := by
  induction sched generalizing w with
  | nil =>
    simp only [sure_run, Option.some.injEq] at h
    rw [← h]; simp
  | cons s rest ih =>
    simp only [sure_run] at h
    cases hs : sure_step F P w s.1 s.2 with
    | none => simp [hs] at h
    | some w1 =>
      simp only [hs] at h
      have h1 := sure_step_decreases ops w w1 s.1 s.2 hinv hs
      have h2 := ih w1 (world_inv_step ops hN w w1 s.1 s.2 hinv
        (sure_step_is_step w w1 s.1 s.2 hs)) h
      simp only [List.length_cons]
      omega

theorem rdlock_wake_admitted (l : rwlock_t) (h : l.wcount = 0) :
    (rwlock_rdlock_wake l).2 = false := by
  simp [rwlock_rdlock_wake, h]

theorem wrlock_wake_admitted (l : rwlock_t) (h1 : l.rcount = 0) (h2 : l.wcount = 0)
    (h3 : l.change = 0) : (rwlock_wrlock_wake l).2 = false := by
  simp [rwlock_wrlock_wake, h1, h2, h3]

theorem not_held_of_deepest {F P : Nat} (ops : List TreeOp) (w : World) (op : TreeOp)
    (held : List LockEvent) (y : Nat) (hinv : world_inv F P ops w)
    (hmax : ∀ (j : Nat) (opj : TreeOp) (heldj : List LockEvent) (wj : Option LockEvent),
      w.threads[j]? = some (.running opj heldj wj) → heldj.length ≤ held.length)
    (hy : addr_at w.tree ((op_plan F P op).1.take held.length) = some y)
    (hk : held.length ≤ (op_plan F P op).1.length)
    (j : Nat) (opj : TreeOp) (heldj : List LockEvent) (wj : Option LockEvent)
    (hj : w.threads[j]? = some (.running opj heldj wj)) (e' : LockEvent)
    (he' : e' = .rdlock y ∨ e' = .wrlock y) : e' ∉ heldj := by
  intro hmem
  obtain ⟨n, hn, hne⟩ := List.getElem_of_mem hmem
  have hthj := hinv.2.2.1 j _ hj
  simp only [thread_ok] at hthj
  have hget' : (heldj ++ wj.toList)[n]? = some e' := by
    rw [List.getElem?_append_left hn, List.getElem?_eq_getElem hn, hne]
  obtain ⟨hnl, y', hy', hey'⟩ := held_position w.tree _ _ hthj.1 n e' hget'
  have hyy : y' = y := by
    rcases he' with rfl | rfl <;> rcases hey' with h | h <;> simp at h <;> exact h.symm
  rw [hyy] at hy'
  have hpaths := hinv.2.1 _ _ y hy' hy
  have hlen := congrArg List.length hpaths
  rw [List.length_take, List.length_take, Nat.min_eq_left hnl, Nat.min_eq_left hk] at hlen
  have hd := hmax j opj heldj wj hj
  omega

theorem exists_least (Q : Nat → Prop) (h : ∃ i, Q i) :
    ∃ i, Q i ∧ ∀ j, j < i → ¬ Q j := by
  classical
  exact ⟨Nat.find h, Nat.find_spec h, fun j hj => Nat.find_min h hj⟩

theorem counted_waiting_writer (threads : List ThreadState) (a : Nat)
    (h : 1 ≤ total (ThreadState.wwaits a) threads) :
    ∃ j, waiting_call threads j = some (.wrlock a) := by
  obtain ⟨j, th, hj, hpos⟩ := total_pos_exists _ _ h
  refine ⟨j, ?_⟩
  rw [waiting_call_get threads j th hj]
  cases th with
  | releasing pending => simp [ThreadState.wwaits] at hpos
  | running op held waiting =>
    cases waiting with
    | none => simp [ThreadState.wwaits] at hpos
    | some e =>
      simp only [ThreadState.wwaits] at hpos
      split at hpos
      · rename_i he
        simp [ThreadState.waits_in, he]
      · omega

theorem progress {F P : Nat} (ops : List TreeOp) (w : World) (hinv : world_inv F P ops w)
    (hwake : wake_inv w) (hnot : ¬ all_returned w) :
    ∃ i pick w', sure_step F P w i pick = some w' ∧
      total (ThreadState.work F P) w'.threads < total (ThreadState.work F P) w.threads := by
  by_cases hA : ∃ (i : Nat) (e : LockEvent) (rest : List LockEvent),
      w.threads[i]? = some (.releasing (e :: rest))
  · obtain ⟨i, e, rest, hget⟩ := hA
    exact ⟨i, step_release ops w i e rest hinv hget⟩
  by_cases hB : ∃ (i : Nat) (op : TreeOp) (held : List LockEvent),
      w.threads[i]? = some (.running op held none) ∧
        (held.isEmpty && !may_start w i) = false
  · obtain ⟨i, op, held, hget, hstart⟩ := hB
    exact ⟨i, step_running ops w i op held hinv hget hstart⟩
  have hrel : ∀ (j : Nat) (pending : List LockEvent),
      w.threads[j]? = some (.releasing pending) → pending = [] := by
    intro j pending hj
    cases pending with
    | nil => rfl
    | cons e rest => exact absurd ⟨j, e, rest, hj⟩ hA
  have hidle : ∀ (j : Nat) (opj : TreeOp) (heldj : List LockEvent),
      w.threads[j]? = some (.running opj heldj none) → heldj = [] ∧ may_start w j = false := by
    intro j opj heldj hj
    have : (heldj.isEmpty && !may_start w j) = true := by
      cases hb : (heldj.isEmpty && !may_start w j) with
      | true => rfl
      | false => exact absurd ⟨j, opj, heldj, hj, hb⟩ hB
    simp only [Bool.and_eq_true, List.isEmpty_iff, Bool.not_eq_true'] at this
    exact this
  have hexw : ∃ (i1 : Nat) (op1 : TreeOp) (held1 : List LockEvent) (e1 : LockEvent),
      w.threads[i1]? = some (.running op1 held1 (some e1)) := by
    simp only [all_returned, not_forall] at hnot
    obtain ⟨th0, hmem0, hne0⟩ := hnot
    obtain ⟨i0, hi0⟩ := List.getElem?_of_mem hmem0
    obtain ⟨i1, ⟨th1, hi1, hne1⟩, hmin⟩ := exists_least
      (fun i => ∃ th, w.threads[i]? = some th ∧ th ≠ ThreadState.releasing [])
      ⟨i0, th0, hi0, hne0⟩
    cases th1 with
    | releasing pending => exact absurd (by rw [hrel i1 pending hi1]) hne1
    | running op1 held1 w1 =>
      cases w1 with
      | some e1 => exact ⟨i1, op1, held1, e1, hi1⟩
      | none =>
        obtain ⟨-, hms⟩ := hidle i1 op1 held1 hi1
        cases i1 with
        | zero => simp [may_start] at hms
        | succ j =>
          simp only [may_start, Bool.or_eq_false_iff] at hms
          cases hj : w.threads[j]? with
          | none => simp [hj] at hms
          | some thj =>
            simp only [hj] at hms
            refine absurd ⟨thj, hj, fun e => ?_⟩ (hmin j (Nat.lt_succ_self j))
            rw [e] at hms
            simp [ThreadState.returned] at hms
  obtain ⟨i1, op1, held1, e1, hi1⟩ := hexw
  have hne : w.threads ≠ [] := by
    intro e
    rw [e] at hi1
    simp at hi1
  obtain ⟨i, th, hget, hmax0⟩ := exists_max ThreadState.depth w.threads hne
  have hd := hmax0 i1 _ hi1
  cases th with
  | releasing pending =>
    simp only [ThreadState.depth] at hd
    omega
  | running op held waiting =>
    cases waiting with
    | none =>
      simp only [ThreadState.depth] at hd
      omega
    | some e =>
      have hmax : ∀ (j : Nat) (opj : TreeOp) (heldj : List LockEvent) (wj : Option LockEvent),
          w.threads[j]? = some (.running opj heldj wj) → heldj.length ≤ held.length := by
        intro j opj heldj wj hj
        cases wj with
        | none =>
          rw [(hidle j opj heldj hj).1]
          exact Nat.zero_le _
        | some ej =>
          have := hmax0 j _ hj
          simp only [ThreadState.depth] at this
          omega
      have hth := hinv.2.2.1 i _ hget
      simp only [thread_ok, Option.toList] at hth
      obtain ⟨hk, y, hy, hey⟩ := held_position w.tree _ _ hth.1 held.length e (by simp)
      have hnone : ∀ (j : Nat) (thj : ThreadState), w.threads[j]? = some thj →
          thj.reads y = 0 ∧ thj.writes y = 0 := by
        intro j thj hj
        cases thj with
        | releasing pending =>
          rw [hrel j pending hj]
          simp [ThreadState.reads, ThreadState.writes]
        | running opj heldj wj =>
          simp only [ThreadState.reads, ThreadState.writes, List.count_eq_zero]
          exact ⟨not_held_of_deepest ops w op held y hinv hmax hy hk j opj heldj wj hj
              _ (Or.inl rfl),
            not_held_of_deepest ops w op held y hinv hmax hy hk j opj heldj wj hj
              _ (Or.inr rfl)⟩
      have hR : total (ThreadState.reads y) w.threads = 0 := by
        apply total_eq_zero
        intro thj hthj
        obtain ⟨j, hj⟩ := List.getElem?_of_mem hthj
        exact (hnone j thj hj).1
      have hW : total (ThreadState.writes y) w.threads = 0 := by
        apply total_eq_zero
        intro thj hthj
        obtain ⟨j, hj⟩ := List.getElem?_of_mem hthj
        exact (hnone j thj hj).2
      obtain ⟨l1, l2, -, l4, l5, -, -, -, l9⟩ := hinv.2.2.2 y
      rw [hR] at l1
      rw [hW] at l2
      simp only [Nat.cast_zero] at l1 l2
      obtain ⟨k1, k2, k3⟩ := hwake y
      have hrd : ∀ j, waiting_call w.threads j = some (.rdlock y) → w.woken j = true →
          ∃ pick w', sure_step F P w j pick = some w' ∧
            total (ThreadState.work F P) w'.threads
              < total (ThreadState.work F P) w.threads := by
        intro j hj hwoken
        obtain ⟨opj, heldj, hthj⟩ := waiting_call_some w.threads j _ hj
        refine step_wake ops w j opj heldj (.rdlock y)
          (set_lock w.locks y (rwlock_rdlock_wake (w.locks y)).1) hinv hthj hwoken ?_
        simp only [lock_call, if_true, rdlock_wake_admitted (w.locks y) l2]
      have hwr : ∀ j, waiting_call w.threads j = some (.wrlock y) → w.woken j = true →
          (w.locks y).change = 0 →
          ∃ pick w', sure_step F P w j pick = some w' ∧
            total (ThreadState.work F P) w'.threads
              < total (ThreadState.work F P) w.threads := by
        intro j hj hwoken hch
        obtain ⟨opj, heldj, hthj⟩ := waiting_call_some w.threads j _ hj
        refine step_wake ops w j opj heldj (.wrlock y)
          (set_lock w.locks y (rwlock_wrlock_wake (w.locks y)).1) hinv hthj hwoken ?_
        simp only [lock_call, if_true, wrlock_wake_admitted (w.locks y) l1 l2 hch]
      have hcalli : waiting_call w.threads i = some e := waiting_call_get w.threads i _ hget
      rcases l5 with hch | hch
      · by_cases hWW : ∃ j, waiting_call w.threads j = some (.wrlock y)
        · obtain ⟨j, hj⟩ := hWW
          obtain ⟨j', hj', hwk'⟩ := k2 l1 l2 hch j hj
          exact ⟨j', hwr j' hj' hwk' hch⟩
        · rcases hey with rfl | rfl
          swap
          · exact absurd ⟨i, hcalli⟩ hWW
          have hww : (w.locks y).wwait = 0 := by
            rw [l4]
            have : total (ThreadState.wwaits y) w.threads = 0 := by
              by_contra hpos
              exact hWW (counted_waiting_writer w.threads y (by omega))
            rw [this]; rfl
          have hwoken : w.woken i = true := by
            cases hw : w.woken i with
            | true => rfl
            | false =>
              rcases k3 i hcalli hw with h | h
              · omega
              · omega
          exact ⟨i, hrd i hcalli hwoken⟩
      · have hbr : 1 ≤ total (ThreadState.rwaits y) w.threads := by
          rcases l9 with h | h
          · rw [hch] at h; simp at h
          · exact h
        obtain ⟨j, hj⟩ := counted_waiting_reader w.threads y hbr
        exact ⟨j, hrd j hj (k1 hch j hj)⟩

theorem can_finish {F P : Nat} (ops : List TreeOp) (hN : (new_addrs ops).Nodup) (n : Nat) :
    ∀ w, world_inv F P ops w → wake_inv w → total (ThreadState.work F P) w.threads ≤ n →
      ∃ more w', sure_run F P w more = some w' ∧ all_returned w' := by
  induction n with
  | zero =>
    intro w hinv hwake hn
    by_cases hall : all_returned w
    · exact ⟨[], w, rfl, hall⟩
    · obtain ⟨i, pick, w1, -, hlt⟩ := progress ops w hinv hwake hall
      omega
  | succ n ih =>
    intro w hinv hwake hn
    by_cases hall : all_returned w
    · exact ⟨[], w, rfl, hall⟩
    · obtain ⟨i, pick, w1, hstep, hlt⟩ := progress ops w hinv hwake hall
      have hstep' := sure_step_is_step w w1 i pick hstep
      obtain ⟨more, w', hrun, hret⟩ :=
        ih w1 (world_inv_step ops hN w w1 i pick hinv hstep')
          (wake_inv_step ops w w1 i pick hinv hwake hstep') (by omega)
      exact ⟨(i, pick) :: more, w', by simp only [sure_run, hstep, hrun], hret⟩

theorem returned_quiet {F P : Nat} (ops : List TreeOp) (w : World) (hinv : world_inv F P ops w)
    (hall : all_returned w) (a : Nat) : w.locks a = rwlock_new := by
  have hz : ∀ f : ThreadState → Nat, f (.releasing []) = 0 → total f w.threads = 0 := by
    intro f hf
    apply total_eq_zero
    intro th hth
    rw [hall th hth]; exact hf
  obtain ⟨h1, h2, h3, h4, h5, -, -, -, h9⟩ := hinv.2.2.2 a
  rw [hz _ rfl] at h1 h2 h3 h4
  rw [hz _ rfl] at h9
  have h5' : (w.locks a).change = 0 := by
    rcases h9 with h | h
    · exact h
    · omega
  cases hl : w.locks a with
  | mk rc wc rw ww ch =>
    rw [hl] at h1 h2 h3 h4 h5'
    simp only [Nat.cast_zero] at h1 h2 h3 h4 h5'
    simp only [rwlock_new, rwlock_t.mk.injEq]
    exact ⟨h1, h2, h3, h4, h5'⟩

/-- C14. Threads that make calls of the four operations on one tree, each
thread one call after the other, never get stuck. Take any state they reach, in
any order of their steps and with any returns from `pthread_cond_wait` that
POSIX allows. First, there is a way on to the state in which every call has
returned and every lock is as `rwlock_new` left it, and on that way a thread
returns from a wait only after a signal or a broadcast has ended the wait.
Second, however the threads are scheduled from that state on, such steps come
to an end within `world_bound` steps, and as long as a call has not returned
one more such step can be made: no thread is left blocked. The tree is well
formed and no two of its folders have the same address, nor has a folder that
will be created. -/
theorem deadlock_free (F P : Nat) (t0 : Tree) (ops : List TreeOp) (chained : Nat → Bool)
    (hwf : t0.wf F = true) (hnd : (new_addrs ops ++ t0.addrs).Nodup)
    (sched : List (Nat × Nat)) (w : World)
    (hrun : world_run F P (world_init t0 ops chained) sched = some w) :
    (∃ more w', sure_run F P w more = some w' ∧ all_returned w' ∧
      ∀ a, w'.locks a = rwlock_new) ∧
    ∀ more w', sure_run F P w more = some w' →
      more.length ≤ world_bound F P w ∧
      (¬ all_returned w' → ∃ i pick w'', sure_step F P w' i pick = some w'') := by
  have hN : (new_addrs ops).Nodup := List.Nodup.of_append_left hnd
  have hinit := world_inv_init (P := P) t0 ops hwf chained hnd
  have hinv := world_inv_run ops hN sched _ w hinit hrun
  have hwake := wake_inv_run ops hN sched _ w hinit (wake_inv_init t0 ops chained) hrun
  refine ⟨?_, fun more w' hmore => ⟨?_, fun hnot => ?_⟩⟩
  · obtain ⟨more, w', hmore, hall⟩ := can_finish ops hN _ w hinv hwake (le_refl _)
    exact ⟨more, w', hmore, hall,
      returned_quiet ops w'
        (world_inv_run ops hN more w w' hinv (sure_run_is_run more w w' hmore)) hall⟩
  · have := sure_run_bounded ops hN more w w' hinv hmore
    omega
  · have hrun' := sure_run_is_run more w w' hmore
    obtain ⟨i, pick, w'', hstep, -⟩ := progress ops w'
      (world_inv_run ops hN more w w' hinv hrun')
      (wake_inv_run ops hN more w w' hinv hwake hrun') hnot
    exact ⟨i, pick, w'', hstep⟩

theorem sample_interleaving_runs :
    (world_run 255 4095 (world_init sample_tree sample_ops sample_chained)
      sample_interleaving).isSome = true := by decide

theorem deadlock_free_witness :
    sample_tree.wf 255 = true ∧ (new_addrs sample_ops ++ sample_tree.addrs).Nodup ∧
    ∃ w, world_run 255 4095 (world_init sample_tree sample_ops sample_chained)
        sample_interleaving = some w ∧
      w.threads.map ThreadState.waits_in = [none, some (.wrlock 0), some (.wrlock 1), none] ∧
      (∃ more w', sure_run 255 4095 w more = some w' ∧ all_returned w' ∧
        ∀ a, w'.locks a = rwlock_new) ∧
      ∀ more w', sure_run 255 4095 w more = some w' →
        more.length ≤ world_bound 255 4095 w ∧
        (¬ all_returned w' → ∃ i pick w'', sure_step 255 4095 w' i pick = some w'') :=
  ⟨by decide, by decide, _, (Option.some_get sample_interleaving_runs).symm, by decide,
    deadlock_free 255 4095 sample_tree sample_ops sample_chained (by decide) (by decide)
      sample_interleaving _ (Option.some_get sample_interleaving_runs).symm⟩

end CFS
